import Mathlib

/-!
# Open/R control-plane core: KvStoreClientInternal, DecisionRouteDb, Fib, Watchdog

Shallow embedding of `openr/kvstore/KvStoreClientInternal.cpp` and
`openr/watchdog/Watchdog.cpp`, with models of the route database of Decision
and of the route programming of Fib, whose bodies are not part of the sources
at hand (their definitions say so).

Conventions of the embedding

* `std::unordered_map` / `std::unordered_set` are association lists and lists;
  a lookup returns the first binding, an erase removes every binding of the
  key, an assignment replaces the binding in place or appends a new one.  The
  iteration order of a container is the order of its list.
* `m[area]` on a per-area container default-constructs an empty entry; the
  embedding reads with `getArea` (empty when absent) and writes back with
  `Map.assign`.
* Blocking calls into the store are answered by an environment `Env`; every
  interaction with the outside (store reads and writes, callbacks) is appended
  to the `trace` of the client, oldest first.
* A callback is an opaque handle; invoking it is recorded in the trace and does
  not re-enter the client.
* `CHECK` failures and `std::out_of_range` from `.at()` abort the process; the
  functions that can abort return `Option`, `none` being the abort.  The checks
  on the calling thread and the `DCHECK`s are left out.
* The counters of `thrift::Value` (`version`, `ttlVersion`) are thrift `i64`
  fields: integers, and every increment of the code goes through `wrapInt64`,
  which wraps at the top of the signed 64-bit range as the compiled code does.
  The `uint32_t` parameters of `buildThriftValue` and `scheduleTtlUpdates`
  narrow explicitly through `toUInt32`.
* The watchdog aborts the process on purpose; its functions return
  `Except WatchdogAbort`, the error naming the abort.  Its clock and memory
  readings come from a `WatchdogEnv`, and the comparison of the memory in use
  with the limit is exact.
-/

namespace openr

/-! ## Containers -/

/-- Association list standing for `std::unordered_map<κ, α>`. -/
abbrev KeyMap (κ α : Type) := List (κ × α)

namespace Map

variable {κ α : Type} [DecidableEq κ]

/-- The value bound to `k` (`find` followed by the test against `end()`). -/
def find : KeyMap κ α → κ → Option α
  | [], _ => none
  | (k', v) :: t, k => if k' = k then some v else find t k

/-- Assignment `m[k] = v`: replace the binding of `k`, or add one. -/
def assign : KeyMap κ α → κ → α → KeyMap κ α
  | [], k, v => [(k, v)]
  | (k', v') :: t, k, v => if k' = k then (k, v) :: t else (k', v') :: assign t k v

/-- Removal `m.erase(k)`. -/
def erase (m : KeyMap κ α) (k : κ) : KeyMap κ α :=
  m.filter (fun p => decide (p.1 ≠ k))

/-- Insertion `m.emplace(k, v)`: no effect when `k` is already bound. -/
def emplace (m : KeyMap κ α) (k : κ) (v : α) : KeyMap κ α :=
  match find m k with
  | some _ => m
  | none => m ++ [(k, v)]

end Map

namespace KeySet

/-- Insertion `s.insert(k)` into a `std::unordered_set<std::string>`. -/
def insert (s : List String) (k : String) : List String :=
  if k ∈ s then s else s ++ [k]

/-- Removal `s.erase(k)` from a `std::unordered_set<std::string>`. -/
def erase (s : List String) (k : String) : List String :=
  s.filter (fun x => decide (x ≠ k))

end KeySet

/-! ## Data model -/

abbrev AreaId := String

/-- Handle of a registered `KeyCallback` (the closure itself is opaque). -/
abbrev KeyCallback := Nat

/-- Modelled from the spec: the declaration of `thrift::Value` is not part of
the sources; the fields are those of the data model
`{ version, originator, payload?, ttl, ttl-version }`.  The two counters are
64-bit fields of a thrift structure, which are signed: a value received from the
store holds integers from `-2^63` to `2^63 - 1`. -/
structure Value where
  version : Int
  originatorId : String
  value : Option String
  ttl : Int
  ttlVersion : Int
  deriving DecidableEq, Repr

/-- The largest value of a 64-bit signed field, `INT64_MAX`. -/
def int64Max : Int := 2 ^ 63 - 1

/-- The smallest value of a 64-bit signed field, `INT64_MIN`. -/
def int64Min : Int := -(2 ^ 63)

/-- What a 64-bit signed field holds when the integer `n` is stored in it: `n`
itself within the range, and beyond it the value two's complement wraps to
(`INT64_MAX + 1` is stored as `INT64_MIN`). -/
def wrapInt64 (n : Int) : Int := (n + 2 ^ 63) % 2 ^ 64 - 2 ^ 63

/-- Modelled from the spec: `createThriftValue` (openr/common/Util) is not part
of the sources; it fills the fields of a `Value` from its arguments. -/
def createThriftValue (version : Int) (originatorId : String) (data : Option String)
    (ttl : Int) (ttlVersion : Int) : Value :=
  { version := version, originatorId := originatorId, value := data, ttl := ttl,
    ttlVersion := ttlVersion }

/-- Publication received from the store. -/
structure Publication where
  area : String
  keyVals : KeyMap String Value
  expiredKeys : List String
  deriving DecidableEq, Repr

/-- Modelled from the spec: `ExponentialBackoff` (openr/common) is not part of
the sources.  It remembers the time of the last error and the current backoff,
which starts at `initialBackoff` and doubles up to `maxBackoff`. -/
structure ExponentialBackoff where
  initialBackoff : Int
  maxBackoff : Int
  currentBackoff : Int
  lastErrorTime : Int
  deriving DecidableEq, Repr

namespace ExponentialBackoff

def mk2 (initialBackoff maxBackoff : Int) : ExponentialBackoff :=
  { initialBackoff := initialBackoff, maxBackoff := maxBackoff, currentBackoff := 0,
    lastErrorTime := 0 }

def getTimeRemainingUntilRetry (b : ExponentialBackoff) (now : Int) : Int :=
  max 0 (b.lastErrorTime + b.currentBackoff - now)

def canTryNow (b : ExponentialBackoff) (now : Int) : Bool :=
  decide (b.getTimeRemainingUntilRetry now = 0)

def reportSuccess (b : ExponentialBackoff) : ExponentialBackoff :=
  { b with currentBackoff := 0 }

def reportError (b : ExponentialBackoff) (now : Int) : ExponentialBackoff :=
  { b with
    lastErrorTime := now
    currentBackoff :=
      if b.currentBackoff = 0 then b.initialBackoff else min b.maxBackoff (2 * b.currentBackoff) }

end ExponentialBackoff

/-- Constants of `openr/common/Constants.h` used by the client; their values
are not part of the sources. -/
structure Constants where
  kMaxBackoff : Int
  kMaxTtlUpdateInterval : Int
  kTtlInfinity : Int

/-- What the outside answers during one call: the clock and the store. -/
structure Env where
  /-- Current time in milliseconds. -/
  now : Int
  /-- Answer of `semifuture_getKvStoreKeyVals(area, keys)`; `none` is an exception. -/
  getKvStoreKeyVals : AreaId → List String → Option (KeyMap String Value)
  /-- Whether `semifuture_setKvStoreKeyVals(area, keyVals)` succeeds. -/
  setKvStoreKeyVals : AreaId → KeyMap String Value → Bool

/-- Interaction of the client with the outside. -/
inductive Effect where
  | keyCallback (area : AreaId) (key : String) (cb : KeyCallback) (value : Option Value)
  | keyPrefixFilterCallback (cb : KeyCallback) (key : String) (value : Option Value)
  | getKvStoreKeyVals (area : AreaId) (keys : List String)
  | setKvStoreKeyVals (area : AreaId) (keyVals : KeyMap String Value)
  deriving DecidableEq, Repr

/-- State of a `KvStoreClientInternal`. -/
structure KvStoreClientInternal where
  nodeId_ : String
  persistedKeyVals_ : KeyMap AreaId (KeyMap String Value)
  backoffs_ : KeyMap AreaId (KeyMap String ExponentialBackoff)
  keyTtlBackoffs_ : KeyMap AreaId (KeyMap String (Value × ExponentialBackoff))
  keysToAdvertise_ : KeyMap AreaId (List String)
  keyCallbacks_ : KeyMap AreaId (KeyMap String KeyCallback)
  /-- The predicate `keyPrefixFilter_.keyMatch`. -/
  keyPrefixFilter_ : String → Value → Bool
  keyPrefixFilterCallback_ : Option KeyCallback
  /-- Timeout last scheduled on `advertiseKeyValsTimer_`. -/
  advertiseKeyValsTimer_ : Option Int
  /-- Timeout last scheduled on `ttlTimer_`. -/
  ttlTimer_ : Option Int
  /-- Whether a throttled call of `advertiseTtlUpdates` is outstanding. -/
  advertiseTtlUpdatesThrottled_ : Bool
  trace : List Effect

/-- Conversion of an integer to a `uint32_t` parameter. -/
def toUInt32 (n : Int) : Nat := (n % 2 ^ 32).toNat

/-- Read `m[area]`, empty when the area has no entry. -/
def getArea {α : Type} (m : KeyMap AreaId (List α)) (area : AreaId) : List α :=
  (Map.find m area).getD []

/-- The default construction done by `m[area]` when the area has no entry. -/
def touchArea {α : Type} (m : KeyMap AreaId (List α)) (area : AreaId) : KeyMap AreaId (List α) :=
  Map.assign m area (getArea m area)

/-! ## processPublication: the body of the loop over `keyVals` -/

/-- The references bound at the head of `processPublication`, and the trace. -/
structure PubRefs where
  persistedKeyVals : KeyMap String Value
  keyTtlBackoffs : KeyMap String (Value × ExponentialBackoff)
  keysToAdvertise : List String
  callbacks : KeyMap String KeyCallback
  trace : List Effect
  deriving DecidableEq, Repr

/-- Lines 390-418: "key set but not persisted". -/
def updateSetKey (st : PubRefs) (key : String) (rcvdValue : Value) :
    KeyMap String (Value × ExponentialBackoff) :=
  match Map.find st.keyTtlBackoffs key, Map.find st.persistedKeyVals key with
  | some (setValue, backoff), none =>
    if rcvdValue.version > setValue.version ∨
        (rcvdValue.version = setValue.version ∧
          rcvdValue.originatorId > setValue.originatorId) then
      -- key lost, cancel TTL update
      Map.erase st.keyTtlBackoffs key
    else if rcvdValue.version = setValue.version ∧
        rcvdValue.originatorId = setValue.originatorId ∧
        rcvdValue.ttlVersion > setValue.ttlVersion then
      if setValue.ttlVersion < rcvdValue.ttlVersion then
        Map.assign st.keyTtlBackoffs key
          ({ setValue with ttlVersion := wrapInt64 (rcvdValue.ttlVersion + 1) }, backoff)
      else st.keyTtlBackoffs
    else st.keyTtlBackoffs
  | _, _ => st.keyTtlBackoffs

/-- Lines 420-433: a key that is not persisted only alerts the callbacks. -/
def notifyUnpersisted (filterMatch : String → Value → Bool) (filterCb : Option KeyCallback)
    (area : AreaId) (st : PubRefs) (key : String) (rcvdValue : Value) : List Effect :=
  let t1 :=
    match Map.find st.callbacks key with
    | some cb => st.trace ++ [Effect.keyCallback area key cb (some rcvdValue)]
    | none => st.trace
  match filterCb with
  | some fcb =>
    if filterMatch key rcvdValue then
      t1 ++ [Effect.keyPrefixFilterCallback fcb key (some rcvdValue)]
    else t1
  | none => t1

/-- Lines 441-467: the three version bumps; returns the value and `valueChange`. -/
def bumpVersion (nodeId : String) (currentValue rcvdValue : Value) : Value × Bool :=
  -- Update if our version is old
  let s1 : Value × Bool :=
    if currentValue.version < rcvdValue.version then
      ({ currentValue with
          originatorId := nodeId, version := wrapInt64 (rcvdValue.version + 1),
          ttlVersion := 0 }, true)
    else (currentValue, false)
  -- version is same but originator id is different
  let s2 : Value × Bool :=
    if !s1.2 ∧ rcvdValue.originatorId ≠ nodeId then
      ({ s1.1 with
          originatorId := nodeId, version := wrapInt64 (s1.1.version + 1), ttlVersion := 0 }, true)
    else s1
  -- Need to re-advertise if value doesn't matches
  if !s2.2 ∧ s2.1.value ≠ rcvdValue.value then
    ({ s2.1 with
        originatorId := nodeId, version := wrapInt64 (s2.1.version + 1), ttlVersion := 0 }, true)
  else s2

/-- Lines 469-482: synchronise `ttlVersion` with the ttl backoff entry `sk` and
with the received value; returns the value and the new content of `sk`. -/
def syncTtlVersion (currentValue rcvdValue : Value) (sk : Option (Value × ExponentialBackoff)) :
    Value × Option (Value × ExponentialBackoff) :=
  -- copy ttlVersion from ttl backoff map
  let c1 : Value :=
    match sk with
    | some (setValue, _) => { currentValue with ttlVersion := setValue.ttlVersion }
    | none => currentValue
  -- update local ttlVersion if received higher ttlVersion
  if c1.ttlVersion < rcvdValue.ttlVersion then
    ({ c1 with ttlVersion := rcvdValue.ttlVersion },
      sk.map (fun p => ({ p.1 with ttlVersion := rcvdValue.ttlVersion }, p.2)))
  else (c1, sk)

/-- Lines 435-490: a key that is persisted. -/
def mergePersisted (nodeId : String) (area : AreaId) (st : PubRefs) (key : String)
    (currentValue rcvdValue : Value) : PubRefs :=
  -- Ignore if received version is strictly old
  if currentValue.version > rcvdValue.version then st
  else
    let sk := Map.find st.keyTtlBackoffs key
    let b := bumpVersion nodeId currentValue rcvdValue
    let s := syncTtlVersion b.1 rcvdValue sk
    { persistedKeyVals := Map.assign st.persistedKeyVals key s.1
      keyTtlBackoffs :=
        match s.2 with
        | some e => Map.assign st.keyTtlBackoffs key e
        | none => st.keyTtlBackoffs
      keysToAdvertise := if b.2 then KeySet.insert st.keysToAdvertise key else st.keysToAdvertise
      callbacks := st.callbacks
      trace :=
        match b.2, Map.find st.callbacks key with
        | true, some cb => st.trace ++ [Effect.keyCallback area key cb (some s.1)]
        | _, _ => st.trace }

/-- One iteration of the loop of `processPublication` (lines 378-491). -/
def processKeyVal (nodeId : String) (filterMatch : String → Value → Bool)
    (filterCb : Option KeyCallback) (area : AreaId) (st : PubRefs) (kv : String × Value) :
    PubRefs :=
  let key := kv.1
  let rcvdValue := kv.2
  if rcvdValue.value.isNone then
    -- ignore TTL update
    st
  else
    match Map.find st.persistedKeyVals key with
    | none =>
      { st with
        keyTtlBackoffs := updateSetKey st key rcvdValue
        trace := notifyUnpersisted filterMatch filterCb area st key rcvdValue }
    | some currentValue => mergePersisted nodeId area st key currentValue rcvdValue

/-! ## Store access -/

/-- The method `setKeysHelper` (lines 621-650); `true` is `folly::Unit()`, `false` is
`std::nullopt`. -/
def setKeysHelper (env : Env) (c : KvStoreClientInternal) (area : AreaId)
    (keyVals : KeyMap String Value) : Bool × KvStoreClientInternal :=
  -- Return if nothing to advertise.
  if keyVals.isEmpty then (true, c)
  else
    (env.setKvStoreKeyVals area keyVals,
      { c with trace := c.trace ++ [Effect.setKvStoreKeyVals area keyVals] })

/-- The method `getKey` (lines 256-280). -/
def getKey (env : Env) (c : KvStoreClientInternal) (area : AreaId) (key : String) :
    Option Value × KvStoreClientInternal :=
  let c1 := { c with trace := c.trace ++ [Effect.getKvStoreKeyVals area [key]] }
  match env.getKvStoreKeyVals area [key] with
  | none => (none, c1)
  | some keyVals => (Map.find keyVals key, c1)

/-! ## Advertising pending keys -/

/-- Locals of the loop over the pending keys of one area. -/
structure AdvLoop where
  keyVals : KeyMap String Value
  keysToClear : List String
  backoffs : KeyMap String ExponentialBackoff
  timeout : Int
  deriving DecidableEq, Repr

/-- One iteration of the loop over the pending keys of an area (lines 524-550);
`none` when one of the two `.at(key)` throws. -/
def advertiseKey (env : Env) (persistedKeyVals : KeyMap String Value) (st : AdvLoop)
    (key : String) : Option AdvLoop :=
  match Map.find persistedKeyVals key with
  | none => none
  | some thriftValue =>
    match Map.find st.backoffs key with
    | none => none
    | some backoff =>
      -- Proceed only if backoff is active
      if !backoff.canTryNow env.now then
        some { st with timeout := min st.timeout (backoff.getTimeRemainingUntilRetry env.now) }
      else
        -- Apply backoff
        let backoff1 := backoff.reportError env.now
        some
          { keyVals := Map.emplace st.keyVals key thriftValue
            keysToClear := st.keysToClear ++ [key]
            backoffs := Map.assign st.backoffs key backoff1
            timeout := min st.timeout (backoff1.getTimeRemainingUntilRetry env.now) }

/-- The loop of `advertisePendingKeys` over the areas (lines 513-559).  Returns
the client, the timeout and the entries of the iterated container as the loop
leaves them. -/
def advertiseAreas (env : Env) :
    KvStoreClientInternal → Int → KeyMap AreaId (List String) →
      Option (KvStoreClientInternal × Int × KeyMap AreaId (List String))
  | c, timeout, [] => some (c, timeout, [])
  | c, timeout, (area, keysToAdvertise) :: rest =>
    if keysToAdvertise.isEmpty then
      (advertiseAreas env c timeout rest).map
        (fun r => (r.1, r.2.1, (area, keysToAdvertise) :: r.2.2))
    else
      let persistedKeyVals := getArea c.persistedKeyVals_ area
      let c1 :=
        { c with
          persistedKeyVals_ := touchArea c.persistedKeyVals_ area
          backoffs_ := touchArea c.backoffs_ area }
      match keysToAdvertise.foldlM (advertiseKey env persistedKeyVals)
          { keyVals := [], keysToClear := [], backoffs := getArea c1.backoffs_ area,
            timeout := timeout } with
      | none => none
      | some loop =>
        let c2 := { c1 with backoffs_ := Map.assign c1.backoffs_ area loop.backoffs }
        -- Advertise to KvStore
        let r := setKeysHelper env c2 area loop.keyVals
        let keysToAdvertise1 :=
          if r.1 then loop.keysToClear.foldl KeySet.erase keysToAdvertise else keysToAdvertise
        (advertiseAreas env r.2 loop.timeout rest).map
          (fun q => (q.1, q.2.1, (area, keysToAdvertise1) :: q.2.2))

/-- The method `advertisePendingKeys` (lines 500-564).  With an argument the
loop runs over that copy, otherwise over `keysToAdvertise_` itself. -/
def advertisePendingKeys (K : Constants) (env : Env) (c : KvStoreClientInternal)
    (pendingKeysToAdvertise : Option (KeyMap AreaId (List String))) :
    Option KvStoreClientInternal :=
  match pendingKeysToAdvertise with
  | some pending =>
    (advertiseAreas env c K.kMaxBackoff pending).map
      (fun r => { r.1 with advertiseKeyValsTimer_ := some r.2.1 })
  | none =>
    (advertiseAreas env c K.kMaxBackoff c.keysToAdvertise_).map
      (fun r => { r.1 with keysToAdvertise_ := r.2.2, advertiseKeyValsTimer_ := some r.2.1 })

/-! ## Advertising ttl updates -/

/-- Locals of the loop over the ttl backoffs of one area; `entries` are the
entries already visited, as the loop leaves them. -/
structure TtlLoop where
  keyVals : KeyMap String Value
  entries : KeyMap String (Value × ExponentialBackoff)
  timeout : Int
  deriving DecidableEq, Repr

/-- One iteration of the loop over the ttl backoffs of an area (lines 576-608). -/
def advertiseTtlKey (env : Env) (persistedKeyVals : KeyMap String Value) (st : TtlLoop)
    (e : String × (Value × ExponentialBackoff)) : TtlLoop :=
  let key := e.1
  let thriftValue := e.2.1
  let backoff := e.2.2
  if !backoff.canTryNow env.now then
    { st with
      entries := st.entries ++ [e]
      timeout := min st.timeout (backoff.getTimeRemainingUntilRetry env.now) }
  else
    -- Apply backoff
    let backoff1 := backoff.reportError env.now
    let v1 : Value :=
      match Map.find persistedKeyVals key with
      | some p =>
        -- we may have got a newer vesion for persisted key
        if thriftValue.version < p.version then
          { thriftValue with version := p.version, ttlVersion := p.ttlVersion }
        else thriftValue
      | none => thriftValue
    -- bump ttl version
    let v2 : Value := { v1 with ttlVersion := wrapInt64 (v1.ttlVersion + 1) }
    { keyVals := Map.emplace st.keyVals key v2
      entries := st.entries ++ [(key, (v2, backoff1))]
      timeout := min st.timeout (backoff1.getTimeRemainingUntilRetry env.now) }

/-- The loop of `advertiseTtlUpdates` over the areas (lines 572-614). -/
def advertiseTtlAreas (env : Env) :
    KvStoreClientInternal → Int → KeyMap AreaId (KeyMap String (Value × ExponentialBackoff)) →
      KvStoreClientInternal × Int × KeyMap AreaId (KeyMap String (Value × ExponentialBackoff))
  | c, timeout, [] => (c, timeout, [])
  | c, timeout, (area, keyTtlBackoffs) :: rest =>
    let persistedKeyVals := getArea c.persistedKeyVals_ area
    let c1 := { c with persistedKeyVals_ := touchArea c.persistedKeyVals_ area }
    let loop := keyTtlBackoffs.foldl (advertiseTtlKey env persistedKeyVals)
      { keyVals := [], entries := [], timeout := timeout }
    -- Advertise to KvStore
    let c2 := if loop.keyVals.isEmpty then c1 else (setKeysHelper env c1 area loop.keyVals).2
    let q := advertiseTtlAreas env c2 loop.timeout rest
    (q.1, q.2.1, (area, loop.entries) :: q.2.2)

/-- The method `advertiseTtlUpdates` (lines 566-619). -/
def advertiseTtlUpdates (K : Constants) (env : Env) (c : KvStoreClientInternal) :
    KvStoreClientInternal :=
  let r := advertiseTtlAreas env c K.kMaxTtlUpdateInterval c.keyTtlBackoffs_
  { r.1 with keyTtlBackoffs_ := r.2.2, ttlTimer_ := some r.2.1 }

/-! ## Setting and unsetting keys -/

/-- The method `scheduleTtlUpdates` (lines 200-241); `version` and `ttlVersion` are
`uint32_t`. -/
def scheduleTtlUpdates (K : Constants) (env : Env) (c : KvStoreClientInternal) (area : AreaId)
    (key : String) (version ttlVersion : Nat) (ttl : Int) (advertiseImmediately : Bool) :
    KvStoreClientInternal :=
  let keyTtlBackoffs := getArea c.keyTtlBackoffs_ area
  -- infinite TTL does not need update
  if ttl = K.kTtlInfinity then
    -- in case ttl is finite before
    { c with keyTtlBackoffs_ := Map.assign c.keyTtlBackoffs_ area (Map.erase keyTtlBackoffs key) }
  else
    -- do not send value to reduce update overhead
    let ttlThriftValue := createThriftValue version c.nodeId_ none ttl ttlVersion
    let backoff := ExponentialBackoff.mk2 (Int.tdiv ttl 4) (Int.tdiv ttl 4 + 1)
    -- Delay first ttl advertisement by (ttl / 4)
    let backoff1 := if !advertiseImmediately then backoff.reportError env.now else backoff
    { c with
      keyTtlBackoffs_ :=
        Map.assign c.keyTtlBackoffs_ area (Map.assign keyTtlBackoffs key (ttlThriftValue, backoff1))
      advertiseTtlUpdatesThrottled_ := true }

/-- The method `buildThriftValue` (lines 140-162); `version` is a `uint32_t`. -/
def buildThriftValue (env : Env) (c : KvStoreClientInternal) (area : AreaId) (key : String)
    (value : String) (version : Nat) (ttl : Int) : Value × KvStoreClientInternal :=
  let version := toUInt32 version
  let thriftValue := createThriftValue version c.nodeId_ (some value) ttl 0
  -- Use one version number higher than currently in KvStore if not specified
  if version = 0 then
    let r := getKey env c area key
    match r.1 with
    | some maybeValue =>
      ({ thriftValue with version := wrapInt64 (maybeValue.version + 1) }, r.2)
    | none => ({ thriftValue with version := 1 }, r.2)
  else (thriftValue, c)

/-- The overload `setKey(area, key, thriftValue)` (lines 174-198); `none` when the
`CHECK` of the payload fails. -/
def setKeyValue (K : Constants) (env : Env) (c : KvStoreClientInternal) (area : AreaId)
    (key : String) (thriftValue : Value) : Option (Bool × KvStoreClientInternal) :=
  if thriftValue.value.isNone then none
  else
    let r := setKeysHelper env c area [(key, thriftValue)]
    let c2 := scheduleTtlUpdates K env r.2 area key (toUInt32 thriftValue.version)
      (toUInt32 thriftValue.ttlVersion) thriftValue.ttl false
    some (r.1, c2)

/-- The overload `setKey(area, key, value, version, ttl)` (lines 164-172). -/
def setKey (K : Constants) (env : Env) (c : KvStoreClientInternal) (area : AreaId)
    (key : String) (value : String) (version : Nat) (ttl : Int) :
    Option (Bool × KvStoreClientInternal) :=
  let b := buildThriftValue env c area key value version ttl
  setKeyValue K env b.2 area key b.1

/-- The method `unsetKey` (lines 243-254). -/
def unsetKey (c : KvStoreClientInternal) (area : AreaId) (key : String) : KvStoreClientInternal :=
  { c with
    persistedKeyVals_ :=
      Map.assign c.persistedKeyVals_ area (Map.erase (getArea c.persistedKeyVals_ area) key)
    backoffs_ := Map.assign c.backoffs_ area (Map.erase (getArea c.backoffs_ area) key)
    keyTtlBackoffs_ :=
      Map.assign c.keyTtlBackoffs_ area (Map.erase (getArea c.keyTtlBackoffs_ area) key)
    keysToAdvertise_ :=
      Map.assign c.keysToAdvertise_ area (KeySet.erase (getArea c.keysToAdvertise_ area) key) }

/-! ## Subscriptions -/

/-- The method `subscribeKey` (lines 304-317). -/
def subscribeKey (env : Env) (c : KvStoreClientInternal) (area : AreaId) (key : String)
    (callback : KeyCallback) (fetchKeyValue : Bool) : Option Value × KvStoreClientInternal :=
  let c1 :=
    { c with
      keyCallbacks_ :=
        Map.assign c.keyCallbacks_ area (Map.assign (getArea c.keyCallbacks_ area) key callback) }
  if fetchKeyValue then getKey env c1 area key else (none, c1)

/-- The method `unsubscribeKey` (lines 338-348). -/
def unsubscribeKey (c : KvStoreClientInternal) (area : AreaId) (key : String) :
    KvStoreClientInternal :=
  { c with
    keyCallbacks_ :=
      Map.assign c.keyCallbacks_ area (Map.erase (getArea c.keyCallbacks_ area) key) }

/-! ## processPublication -/

/-- The method `processExpiredKeys` (lines 350-364). -/
def processExpiredKeys (c : KvStoreClientInternal) (publication : Publication) :
    KvStoreClientInternal :=
  let area := publication.area
  let callbacks := getArea c.keyCallbacks_ area
  { c with
    keyCallbacks_ := touchArea c.keyCallbacks_ area
    trace :=
      publication.expiredKeys.foldl
        (fun t key =>
          match Map.find callbacks key with
          | some cb => t ++ [Effect.keyCallback area key cb none]
          | none => t)
        c.trace }

/-- The references bound at the head of `processPublication` (lines 371-376). -/
def headRefs (c : KvStoreClientInternal) (area : AreaId) : PubRefs :=
  { persistedKeyVals := getArea c.persistedKeyVals_ area
    keyTtlBackoffs := getArea c.keyTtlBackoffs_ area
    keysToAdvertise := getArea c.keysToAdvertise_ area
    callbacks := getArea c.keyCallbacks_ area
    trace := c.trace }

/-- The loop of `processPublication` over `keyVals`, from the references bound
at its head. -/
def processKeyVals (c : KvStoreClientInternal) (publication : Publication) : PubRefs :=
  publication.keyVals.foldl
    (processKeyVal c.nodeId_ c.keyPrefixFilter_ c.keyPrefixFilterCallback_ publication.area)
    (headRefs c publication.area)

/-- The client once the loop of `processPublication` over `keyVals` is done. -/
def afterKeyVals (c : KvStoreClientInternal) (publication : Publication) :
    KvStoreClientInternal :=
  let st := processKeyVals c publication
  { c with
    persistedKeyVals_ := Map.assign c.persistedKeyVals_ publication.area st.persistedKeyVals
    keyTtlBackoffs_ := Map.assign c.keyTtlBackoffs_ publication.area st.keyTtlBackoffs
    keysToAdvertise_ := Map.assign c.keysToAdvertise_ publication.area st.keysToAdvertise
    keyCallbacks_ := Map.assign c.keyCallbacks_ publication.area st.callbacks
    trace := st.trace }

/-- The method `processPublication` (lines 366-498); `none` when the `CHECK` on the
area fails or `advertisePendingKeys` throws. -/
def processPublication (K : Constants) (env : Env) (c : KvStoreClientInternal)
    (publication : Publication) : Option KvStoreClientInternal :=
  if publication.area.isEmpty then none
  else
    match advertisePendingKeys K env (afterKeyVals c publication) none with
    | none => none
    | some c2 =>
      if publication.expiredKeys.length ≠ 0 then some (processExpiredKeys c2 publication)
      else some c2

/-! ## Observations on a state -/

/-- The ordering rule on `(version, originator, ttl-version)`: lexicographic. -/
def Value.lexLE (v w : Value) : Prop :=
  v.version < w.version ∨
    (v.version = w.version ∧
      (v.originatorId < w.originatorId ∨
        (v.originatorId = w.originatorId ∧ v.ttlVersion ≤ w.ttlVersion)))

instance (v w : Value) : Decidable (Value.lexLE v w) := by
  unfold Value.lexLE; infer_instance

/-- The invocations of a per-key callback for `key` of `area`, oldest first: the
callback invoked and the value it is handed. -/
def delivered (area : AreaId) (key : String) (trace : List Effect) :
    List (KeyCallback × Option Value) :=
  trace.filterMap fun e =>
    match e with
    | Effect.keyCallback a k cb v => if a = area ∧ k = key then some (cb, v) else none
    | _ => none

/-- The invocations of the prefix-filter callback for `key`, oldest first. -/
def filterDelivered (key : String) (trace : List Effect) :
    List (KeyCallback × Option Value) :=
  trace.filterMap fun e =>
    match e with
    | Effect.keyPrefixFilterCallback cb k v => if k = key then some (cb, v) else none
    | _ => none

/-- The write requests sent to the store, oldest first. -/
def storeWrites (trace : List Effect) : List (AreaId × KeyMap String Value) :=
  trace.filterMap fun e =>
    match e with
    | Effect.setKvStoreKeyVals a kvs => some (a, kvs)
    | _ => none

/-- What a state holds about one key of one area. -/
structure KeyView where
  persisted : Option Value
  ttlBackoff : Option (Value × ExponentialBackoff)
  pending : Bool
  callback : Option KeyCallback
  delivered : List (KeyCallback × Option Value)
  filterDelivered : List (KeyCallback × Option Value)
  deriving DecidableEq, Repr

/-- The view of `key` in the references of `processPublication`. -/
def PubRefs.view (st : PubRefs) (area : AreaId) (key : String) : KeyView :=
  { persisted := Map.find st.persistedKeyVals key
    ttlBackoff := Map.find st.keyTtlBackoffs key
    pending := decide (key ∈ st.keysToAdvertise)
    callback := Map.find st.callbacks key
    delivered := delivered area key st.trace
    filterDelivered := filterDelivered key st.trace }

/-- The view of `key` of `area` in a client. -/
def KvStoreClientInternal.view (c : KvStoreClientInternal) (area : AreaId) (key : String) :
    KeyView :=
  { persisted := Map.find (getArea c.persistedKeyVals_ area) key
    ttlBackoff := Map.find (getArea c.keyTtlBackoffs_ area) key
    pending := decide (key ∈ getArea c.keysToAdvertise_ area)
    callback := Map.find (getArea c.keyCallbacks_ area) key
    delivered := delivered area key c.trace
    filterDelivered := filterDelivered key c.trace }

/-- The values handed to the callback registered for `key` in `area`, oldest
first (the notifications of expiry left out). -/
def deliveredValues (area : AreaId) (key : String) (trace : List Effect) : List Value :=
  (delivered area key trace).filterMap (fun p => p.2)

/-- Invocations with "none" of the callback `cb` of `key` by `processExpiredKeys`. -/
def expiryCalls (cb : Option KeyCallback) (key : String) (expiredKeys : List String) :
    List (KeyCallback × Option Value) :=
  match cb with
  | none => []
  | some f => (expiredKeys.filter (fun x => decide (x = key))).map (fun _ => (f, none))

/-- A run of `processPublication` over a sequence of publications, each with
the answers of the outside during its handling. -/
def processPublications (K : Constants) (c : KvStoreClientInternal) :
    List (Env × Publication) → Option KvStoreClientInternal
  | [] => some c
  | (env, publication) :: rest =>
    match processPublication K env c publication with
    | none => none
    | some c1 => processPublications K c1 rest

/-- The value with a payload that a publication carries for `key` of `area`, if
it carries one. -/
def Publication.received (publication : Publication) (area : AreaId) (key : String) :
    Option Value :=
  if publication.area = area then
    (Map.find publication.keyVals key).filter (fun v => v.value.isSome)
  else none

/-- The values with a payload that the publications of a run carry for `key` of
`area`, oldest first. -/
def receivedValues (area : AreaId) (key : String) (runs : List (Env × Publication)) :
    List Value :=
  runs.filterMap (fun r => r.2.received area key)

/-- The versions that a publication carries with a payload for `key` of `area` are
below the largest value of the 64-bit field: their increment does not wrap. -/
def Publication.VersionsBelowTop (publication : Publication) (area : AreaId) (key : String) :
    Prop :=
  publication.area = area → ∀ kv ∈ publication.keyVals, kv.1 = key → kv.2.value.isSome = true →
    int64Min ≤ kv.2.version ∧ kv.2.version < int64Max

instance (publication : Publication) (area : AreaId) (key : String) :
    Decidable (publication.VersionsBelowTop area key) := by
  unfold Publication.VersionsBelowTop; infer_instance

/-- The ttl-versions that a publication carries with a payload for `key` of `area`
are below the largest value of the 64-bit field: their increment does not
wrap. -/
def Publication.TtlVersionsBelowTop (publication : Publication) (area : AreaId)
    (key : String) : Prop :=
  publication.area = area → ∀ kv ∈ publication.keyVals, kv.1 = key → kv.2.value.isSome = true →
    int64Min ≤ kv.2.ttlVersion ∧ kv.2.ttlVersion < int64Max

instance (publication : Publication) (area : AreaId) (key : String) :
    Decidable (publication.TtlVersionsBelowTop area key) := by
  unfold Publication.TtlVersionsBelowTop; infer_instance

/-- The ttl backoff entry of a key that is not persisted, after lines 390-418. -/
def setKeyEntry (sk : Option (Value × ExponentialBackoff)) (rcvdValue : Value) :
    Option (Value × ExponentialBackoff) :=
  match sk with
  | none => none
  | some (setValue, backoff) =>
    if rcvdValue.version > setValue.version ∨
        (rcvdValue.version = setValue.version ∧
          rcvdValue.originatorId > setValue.originatorId) then none
    else if rcvdValue.version = setValue.version ∧
        rcvdValue.originatorId = setValue.originatorId ∧
        rcvdValue.ttlVersion > setValue.ttlVersion then
      some ({ setValue with ttlVersion := wrapInt64 (rcvdValue.ttlVersion + 1) }, backoff)
    else some (setValue, backoff)

/-- What `advertisePendingKeys` may change between `c` and `c'` besides the
pending keys: the advertise backoffs, the timer, default-constructed areas, and
write requests added to the trace. -/
structure AdvertiseFrame (c c' : KvStoreClientInternal) : Prop where
  persisted : ∀ a, getArea c'.persistedKeyVals_ a = getArea c.persistedKeyVals_ a
  ttl : c'.keyTtlBackoffs_ = c.keyTtlBackoffs_
  callbacks : c'.keyCallbacks_ = c.keyCallbacks_
  nodeId : c'.nodeId_ = c.nodeId_
  keyFilter : c'.keyPrefixFilter_ = c.keyPrefixFilter_
  filterCallback : c'.keyPrefixFilterCallback_ = c.keyPrefixFilterCallback_
  trace : ∃ d, c'.trace = c.trace ++ d ∧ ∀ e ∈ d, ∃ a kvs, e = Effect.setKvStoreKeyVals a kvs

/-! ## DecisionRouteDb (openr/decision/SpfSolver.h) -/

/-- An IP address (`folly::IPAddress`): its family and its bits as a number, 32
bits for IPv4 and 128 for IPv6. -/
structure IPAddress where
  isV6 : Bool
  bits : Nat
  deriving DecidableEq, Repr

/-- A network (`folly::CIDRNetwork`): address and mask length. -/
abbrev CIDRNetwork := IPAddress × Nat

/-- Modelled from the spec: the declaration of `NextHop` is not part of the
sources; `{ address, interface, weight, metric }` of the data model, the MPLS
action left out. -/
structure NextHop where
  address : String
  ifName : String
  weight : Nat
  metric : Nat
  deriving DecidableEq, Repr

/-- Modelled from the spec: `RibUnicastEntry` (openr/decision/RibEntry.h) is not
part of the sources; `{ prefix, set<NextHop>, best-node-area, do-not-install }`
of the data model, the best prefix entry left out.  The field `prefix` of the
source is `prefix_` here. -/
structure RibUnicastEntry where
  prefix_ : CIDRNetwork
  nexthops : List NextHop
  bestNodeArea : String × String
  doNotInstall : Bool
  deriving DecidableEq, Repr

/-- Modelled from the spec: `RibMplsEntry` (openr/decision/RibEntry.h) is not part
of the sources; `{ label, set<NextHop> }` of the data model. -/
structure RibMplsEntry where
  label : Int
  nexthops : List NextHop
  deriving DecidableEq, Repr

/-- The class `DecisionRouteDb` (lines 62-103). -/
structure DecisionRouteDb where
  unicastRoutes : KeyMap CIDRNetwork RibUnicastEntry
  mplsRoutes : KeyMap Int RibMplsEntry
  deriving DecidableEq, Repr

namespace DecisionRouteDb

/-- The database a default-constructed `DecisionRouteDb` holds. -/
def empty : DecisionRouteDb := { unicastRoutes := [], mplsRoutes := [] }

/-- The method `addUnicastRoute` (lines 90-95); `none` when the `CHECK` fails, that
is when `emplace` did not insert. -/
def addUnicastRoute (db : DecisionRouteDb) (entry : RibUnicastEntry) : Option DecisionRouteDb :=
  let key := entry.prefix_
  if (Map.find db.unicastRoutes key).isSome then none
  else some { db with unicastRoutes := Map.emplace db.unicastRoutes key entry }

/-- The method `addMplsRoute` (lines 97-102); `none` when the `CHECK` fails. -/
def addMplsRoute (db : DecisionRouteDb) (entry : RibMplsEntry) : Option DecisionRouteDb :=
  let key := entry.label
  if (Map.find db.mplsRoutes key).isSome then none
  else some { db with mplsRoutes := Map.emplace db.mplsRoutes key entry }

end DecisionRouteDb

/-- A call of one of the two methods that add a route. -/
inductive AddRoute where
  | unicast (entry : RibUnicastEntry)
  | mpls (entry : RibMplsEntry)
  deriving DecidableEq, Repr

/-- One call on a database; `none` when its assertion fails. -/
def AddRoute.run (db : DecisionRouteDb) : AddRoute → Option DecisionRouteDb
  | AddRoute.unicast entry => db.addUnicastRoute entry
  | AddRoute.mpls entry => db.addMplsRoute entry

/-- A sequence of calls, none of which may fail. -/
def AddRoute.runAll : List AddRoute → DecisionRouteDb → Option DecisionRouteDb
  | [], db => some db
  | op :: rest, db =>
    match op.run db with
    | none => none
    | some db1 => AddRoute.runAll rest db1

/-- The number of `addUnicastRoute` calls of a sequence. -/
def AddRoute.unicastCalls (ops : List AddRoute) : Nat :=
  (ops.filter (fun op => match op with
    | AddRoute.unicast _ => true
    | AddRoute.mpls _ => false)).length

/-- The number of `addMplsRoute` calls of a sequence. -/
def AddRoute.mplsCalls (ops : List AddRoute) : Nat :=
  (ops.filter (fun op => match op with
    | AddRoute.unicast _ => false
    | AddRoute.mpls _ => true)).length

/-- Modelled from the spec: `DecisionRouteUpdate` (openr/decision/RouteUpdate.h) is
not part of the sources; the route update
`{ unicast_upserts, unicast_deletions, mpls_upserts, mpls_deletions }` of the
external interfaces, the perf trace left out. -/
structure DecisionRouteUpdate where
  unicastRoutesToUpdate : KeyMap CIDRNetwork RibUnicastEntry
  unicastRoutesToDelete : List CIDRNetwork
  mplsRoutesToUpdate : KeyMap Int RibMplsEntry
  mplsRoutesToDelete : List Int
  deriving DecidableEq, Repr

namespace Delta

variable {κ α : Type} [DecidableEq κ] [DecidableEq α]

/-- The bindings of `newMap` that `oldMap` lacks or binds to another entry. -/
def upserts (oldMap newMap : KeyMap κ α) : KeyMap κ α :=
  newMap.filter (fun p => decide (Map.find oldMap p.1 ≠ some p.2))

/-- The keys of `oldMap` that `newMap` does not bind. -/
def deletions (oldMap newMap : KeyMap κ α) : List κ :=
  (oldMap.map Prod.fst).filter (fun k => (Map.find newMap k).isNone)

/-- Remove the deleted keys, then bind the upserts. -/
def applyTo (m : KeyMap κ α) (toUpdate : KeyMap κ α) (toDelete : List κ) : KeyMap κ α :=
  toUpdate.foldl (fun acc p => Map.assign acc p.1 p.2) (toDelete.foldl Map.erase m)

end Delta

namespace DecisionRouteDb

/-- Modelled from the spec: the body of `calculateUpdate` (declared at line 71) is
not part of the sources.  "Calculate the delta between this and newDb": the
upserts are the routes of `newDb` that this database lacks or holds with another
entry, the deletions the keys of this database that `newDb` lacks. -/
def calculateUpdate (db newDb : DecisionRouteDb) : DecisionRouteUpdate :=
  { unicastRoutesToUpdate := Delta.upserts db.unicastRoutes newDb.unicastRoutes
    unicastRoutesToDelete := Delta.deletions db.unicastRoutes newDb.unicastRoutes
    mplsRoutesToUpdate := Delta.upserts db.mplsRoutes newDb.mplsRoutes
    mplsRoutesToDelete := Delta.deletions db.mplsRoutes newDb.mplsRoutes }

/-- Modelled from the spec: the body of `update` (declared at line 74) is not part
of the sources.  "Update the state of this with the DecisionRouteUpdate
passed": the deletions are removed and the upserts stored under their keys. -/
def update (db : DecisionRouteDb) (u : DecisionRouteUpdate) : DecisionRouteDb :=
  { unicastRoutes := Delta.applyTo db.unicastRoutes u.unicastRoutesToUpdate u.unicastRoutesToDelete
    mplsRoutes := Delta.applyTo db.mplsRoutes u.mplsRoutesToUpdate u.mplsRoutesToDelete }

end DecisionRouteDb

/-! ## Fib: reads of the unicast mirror (openr/fib/Fib.h) -/

namespace IPAddress

/-- The number of bits of an address of this family. -/
def bitCount (a : IPAddress) : Nat := if a.isV6 then 128 else 32

/-- The address with all but its first `numBits` bits cleared (`mask(numBits)`). -/
def mask (a : IPAddress) (numBits : Nat) : IPAddress :=
  { a with bits := a.bits / 2 ^ (a.bitCount - numBits) * 2 ^ (a.bitCount - numBits) }

end IPAddress

/-- The network `entry` covers the query network: its mask is not longer than
the query's and it contains the query's address. -/
def covers (entry query : CIDRNetwork) : Prop :=
  entry.2 ≤ query.2 ∧ query.1.mask entry.2 = entry.1

instance (entry query : CIDRNetwork) : Decidable (covers entry query) := by
  unfold covers; infer_instance

/-- Whether a mask length beats the match kept so far (`maxMask < dbMask`, with no
match kept at the start). -/
def lpmBetter (matchedPrefix : Option CIDRNetwork) (dbMask : Nat) : Bool :=
  match matchedPrefix with
  | none => true
  | some best => decide (best.2 < dbMask)

/-- One route of the pass of `longestPrefixMatch`: the route's prefix replaces the
match kept so far when its mask is longer and it covers the input. -/
def lpmStep {α : Type} (inputPrefix : CIDRNetwork) (matchedPrefix : Option CIDRNetwork)
    (route : CIDRNetwork × α) : Option CIDRNetwork :=
  let dbIP := route.1.1
  let dbMask := route.1.2
  if lpmBetter matchedPrefix dbMask = true ∧ inputPrefix.2 ≥ dbMask ∧
      inputPrefix.1.mask dbMask = dbIP then
    some route.1
  else matchedPrefix

/-- Modelled from the spec: the body of `Fib::longestPrefixMatch` (declared in
Fib.h, lines 74-84) is not part of the sources.  "Returns the most-specific
covering prefix, or none; matching is by CIDR containment then by descending
mask length": one pass over the routes that keeps the covering prefix with the
longest mask seen so far. -/
def longestPrefixMatch {α : Type} (inputPrefix : CIDRNetwork)
    (unicastRoutes : KeyMap CIDRNetwork α) : Option CIDRNetwork :=
  unicastRoutes.foldl (lpmStep inputPrefix) none

/-- The set of matched prefixes that `getUnicastRoutesFiltered` builds: the
longest prefix match of each filter entry, each prefix once. -/
def matchPrefixSet {α : Type} (unicastRoutes : KeyMap CIDRNetwork α)
    (prefixes : List CIDRNetwork) : List CIDRNetwork :=
  prefixes.foldl
    (fun s inputPrefix =>
      match longestPrefixMatch inputPrefix unicastRoutes with
      | some matched => if matched ∈ s then s else s ++ [matched]
      | none => s)
    []

/-- Modelled from the spec: the body of `Fib::getUnicastRoutesFiltered` (declared
in Fib.h, lines 140-144) is not part of the sources.  It returns all routes for
an empty filter; for the others it follows the test
`getUnicastRoutesFilteredTest` of the sources: each filter entry selects the
route that is its longest prefix match, and a route selected several times is
returned once.  The filter entries are the parsed networks, a plain address
being the network of full mask length. -/
def getUnicastRoutesFiltered {α : Type} (unicastRoutes : KeyMap CIDRNetwork α)
    (prefixes : List CIDRNetwork) : List (CIDRNetwork × α) :=
  if prefixes.isEmpty then unicastRoutes
  else
    (matchPrefixSet unicastRoutes prefixes).filterMap
      (fun p => (Map.find unicastRoutes p).map (fun e => (p, e)))

/-- The method `getUnicastRoutes` (Fib.h, lines 106-111): the filtered read of the
mirror. -/
def getUnicastRoutes {α : Type} (unicastRoutes : KeyMap CIDRNetwork α)
    (prefixes : List CIDRNetwork) : List (CIDRNetwork × α) :=
  getUnicastRoutesFiltered unicastRoutes prefixes

/-- The filtered read in the words of the spec: "the subset of routes whose
prefix is covered by any of the supplied query prefixes (or all if the filter is
empty)". -/
def coveredRoutes {α : Type} (unicastRoutes : KeyMap CIDRNetwork α)
    (prefixes : List CIDRNetwork) : List (CIDRNetwork × α) :=
  if prefixes.isEmpty then unicastRoutes
  else unicastRoutes.filter (fun route => prefixes.any (fun q => decide (covers q route.1)))

/-! ## Closed forms of the two advertise cycles -/

/-- The value `advertiseTtlUpdates` advertises for an entry of the ttl backoffs
holding `thriftValue` (lines 589-598). -/
def ttlRefreshValue (persistedKeyVals : KeyMap String Value) (key : String)
    (thriftValue : Value) : Value :=
  let v1 : Value :=
    match Map.find persistedKeyVals key with
    | some p =>
      if thriftValue.version < p.version then
        { thriftValue with version := p.version, ttlVersion := p.ttlVersion }
      else thriftValue
    | none => thriftValue
  { v1 with ttlVersion := wrapInt64 (v1.ttlVersion + 1) }

/-- An entry of the ttl backoffs after the cycle. -/
def ttlRefreshEntry (env : Env) (persistedKeyVals : KeyMap String Value)
    (e : String × (Value × ExponentialBackoff)) : String × (Value × ExponentialBackoff) :=
  if e.2.2.canTryNow env.now then
    (e.1, (ttlRefreshValue persistedKeyVals e.1 e.2.1, e.2.2.reportError env.now))
  else e

/-- The key-values `advertiseTtlUpdates` collects for an area. -/
def ttlEmitted (env : Env) (persistedKeyVals : KeyMap String Value)
    (m : KeyMap String (Value × ExponentialBackoff)) : KeyMap String Value :=
  (m.filter (fun e => e.2.2.canTryNow env.now)).map
    (fun e => (e.1, ttlRefreshValue persistedKeyVals e.1 e.2.1))

/-- The writes `advertiseTtlUpdates` sends to the store, area by area. -/
def ttlWrites (env : Env) (persistedKeyVals_ : KeyMap AreaId (KeyMap String Value))
    (l : KeyMap AreaId (KeyMap String (Value × ExponentialBackoff))) :
    List (AreaId × KeyMap String Value) :=
  l.filterMap (fun p =>
    if (ttlEmitted env (getArea persistedKeyVals_ p.1) p.2).isEmpty then none
    else some (p.1, ttlEmitted env (getArea persistedKeyVals_ p.1) p.2))

/-- Whether the advertise backoff of a pending key permits a try now. -/
def advPermitted (env : Env) (backoffs : KeyMap String ExponentialBackoff) (key : String) :
    Bool :=
  match Map.find backoffs key with
  | some b => b.canTryNow env.now
  | none => false

/-- The key-values `advertisePendingKeys` collects for an area: the persisted
values of the pending keys whose backoff permits. -/
def advKeyVals (env : Env) (persistedKeyVals : KeyMap String Value)
    (backoffs : KeyMap String ExponentialBackoff) (keys : List String) : KeyMap String Value :=
  (keys.filter (advPermitted env backoffs)).filterMap
    (fun k => (Map.find persistedKeyVals k).map (fun v => (k, v)))

/-- The pending keys of an area after `advertisePendingKeys`. -/
def advPending (env : Env) (area : AreaId) (persistedKeyVals : KeyMap String Value)
    (backoffs : KeyMap String ExponentialBackoff) (keys : List String) : List String :=
  if (if (advKeyVals env persistedKeyVals backoffs keys).isEmpty then true
      else env.setKvStoreKeyVals area (advKeyVals env persistedKeyVals backoffs keys)) = true then
    keys.filter (fun k => !advPermitted env backoffs k)
  else keys

/-- The writes `advertisePendingKeys` sends to the store, area by area. -/
def advWrites (env : Env) (persistedKeyVals_ : KeyMap AreaId (KeyMap String Value))
    (backoffs_ : KeyMap AreaId (KeyMap String ExponentialBackoff))
    (l : KeyMap AreaId (List String)) : List (AreaId × KeyMap String Value) :=
  l.filterMap (fun p =>
    if (advKeyVals env (getArea persistedKeyVals_ p.1) (getArea backoffs_ p.1) p.2).isEmpty then
      none
    else some (p.1, advKeyVals env (getArea persistedKeyVals_ p.1) (getArea backoffs_ p.1) p.2))

/-! ## The ttl backoffs carry no payload -/

/-- Every entry of the ttl backoffs holds a value without payload: the values are
built by `scheduleTtlUpdates` with `std::nullopt` (line 220), and
`advertiseTtlUpdates` checks it when it sends them (line 600). -/
def TtlPayloadFree (c : KvStoreClientInternal) : Prop :=
  ∀ p ∈ c.keyTtlBackoffs_, ∀ e ∈ p.2, e.2.1.value = none

/-! ## Watchdog (openr/watchdog/Watchdog.cpp) -/

/-- The part of the configuration that the constructor of `Watchdog` reads. -/
structure WatchdogConfig where
  nodeName : String
  /-- Field `interval_s` of the watchdog configuration, in seconds. -/
  interval_s : Int
  /-- Field `thread_timeout_s` of the watchdog configuration, in seconds. -/
  thread_timeout_s : Int
  /-- Field `max_memory_mb` of the watchdog configuration. -/
  max_memory_mb : Int
  deriving DecidableEq, Repr

/-- State of a `Watchdog`.  Time points of `std::chrono::steady_clock` are
counted in nanoseconds. -/
structure Watchdog where
  myNodeName_ : String
  /-- Seconds. -/
  interval_ : Int
  /-- Seconds. -/
  threadTimeout_ : Int
  /-- A `uint32_t`. -/
  maxMemoryMB_ : Nat
  previousStatus_ : Bool
  /-- The monitored event bases (their addresses) and their names. -/
  monitorEvbs_ : KeyMap Nat String
  memExceedTime_ : Option Int
  /-- Timeout last scheduled on `watchdogTimer_`, in seconds. -/
  watchdogTimer_ : Option Int
  deriving DecidableEq, Repr

/-- How a call on the watchdog ends the process. -/
inductive WatchdogAbort where
  /-- A `CHECK` fails. -/
  | check
  /-- The method `fireCrash` called by `updateCounters`, with the stuck threads. -/
  | deadThread (stuckThreads : List String)
  /-- The method `fireCrash` called by `monitorMemory`, with the memory in use. -/
  | memoryLimit (memInUse : Nat)
  deriving DecidableEq, Repr

/-- What the outside answers during one run of the watchdog timer. -/
structure WatchdogEnv where
  /-- The clock as `updateCounters` reads it, in nanoseconds. -/
  now : Int
  /-- Answer of `getTimestamp()` of the event base at an address, in nanoseconds. -/
  getTimestamp : Nat → Int
  /-- The clock as `monitorMemory` reads it, in nanoseconds. -/
  memNow : Int
  /-- Answer of `systemMetrics_.getRSSMemBytes()`. -/
  getRSSMemBytes : Option Nat

namespace Watchdog

/-- The constructor (lines 15-29). -/
def init (config : WatchdogConfig) : Watchdog :=
  { myNodeName_ := config.nodeName
    interval_ := config.interval_s
    threadTimeout_ := config.thread_timeout_s
    maxMemoryMB_ := (config.max_memory_mb % 2 ^ 32).toNat
    previousStatus_ := true
    monitorEvbs_ := []
    memExceedTime_ := none
    watchdogTimer_ := some config.interval_s }

/-- The method `addEvb` (lines 31-38); address 0 is the null pointer. -/
def addEvb (w : Watchdog) (evb : Nat) (name : String) : Except WatchdogAbort Watchdog :=
  if evb = 0 then Except.error WatchdogAbort.check
  else if (Map.find w.monitorEvbs_ evb).isSome then Except.error WatchdogAbort.check
  else Except.ok { w with monitorEvbs_ := Map.emplace w.monitorEvbs_ evb name }

/-- The method `memoryLimitExceeded` (lines 40-46). -/
def memoryLimitExceeded (w : Watchdog) : Bool :=
  w.memExceedTime_.isSome

/-- The test `memInUse / 1e6 > maxMemoryMB_` of `monitorMemory` (line 54), as a
comparison of exact quotients.  The source divides doubles; for a 64-bit reading
and a 32-bit limit the rounding of the quotient does not change the outcome. -/
def memoryCritical (memInUse maxMemoryMB : Nat) : Bool :=
  decide ((memInUse : ℚ) / 1000000 > (maxMemoryMB : ℚ))

/-- The method `monitorMemory` (lines 48-77); `kMemoryThresholdTime`, a constant of
`openr/common/Constants.h` that is not part of the sources, is a parameter, in
nanoseconds. -/
def monitorMemory (kMemoryThresholdTime : Int) (w : Watchdog) (env : WatchdogEnv) :
    Except WatchdogAbort Watchdog :=
  match env.getRSSMemBytes with
  | none => Except.ok w
  | some memInUse =>
    if memoryCritical memInUse w.maxMemoryMB_ then
      match w.memExceedTime_ with
      | none => Except.ok { w with memExceedTime_ := some env.memNow }
      | some start =>
        -- check for sustained critical memory usage
        if env.memNow - start > kMemoryThresholdTime then
          Except.error (WatchdogAbort.memoryLimit memInUse)
        else Except.ok w
    else if w.memExceedTime_.isSome then Except.ok { w with memExceedTime_ := none }
    else Except.ok w

/-- Whole seconds since the last activity of an event base
(`duration_cast<seconds>(now - lastTs)`, which truncates). -/
def timeDiff (env : WatchdogEnv) (evb : Nat) : Int :=
  Int.tdiv (env.now - env.getTimestamp evb) 1000000000

/-- The names collected in `stuckThreads` by the loop of `updateCounters`
(lines 85-98). -/
def stuckThreads (w : Watchdog) (env : WatchdogEnv) : List String :=
  w.monitorEvbs_.filterMap
    (fun kv => if timeDiff env kv.1 > w.threadTimeout_ then some kv.2 else none)

/-- The method `updateCounters` (lines 79-119). -/
def updateCounters (w : Watchdog) (env : WatchdogEnv) : Except WatchdogAbort Watchdog :=
  let stuck := stuckThreads w env
  if stuck.length ≠ 0 ∧ !w.previousStatus_ then
    Except.error (WatchdogAbort.deadThread stuck)
  else Except.ok { w with previousStatus_ := decide (stuck.length = 0) }

/-- The callback of `watchdogTimer_` (lines 22-27): one periodic check. -/
def timerCallback (kMemoryThresholdTime : Int) (w : Watchdog) (env : WatchdogEnv) :
    Except WatchdogAbort Watchdog :=
  match updateCounters w env with
  | Except.error a => Except.error a
  | Except.ok w1 =>
    match monitorMemory kMemoryThresholdTime w1 env with
    | Except.error a => Except.error a
    | Except.ok w2 =>
      -- Schedule next timer
      Except.ok { w2 with watchdogTimer_ := some w2.interval_ }

end Watchdog

/-- What happens to a watchdog: an event base is added, or the timer fires. -/
inductive WatchdogEvent where
  | addEvb (evb : Nat) (name : String)
  | timer (env : WatchdogEnv)

/-- One event on the watchdog. -/
def Watchdog.step (kMemoryThresholdTime : Int) (w : Watchdog) :
    WatchdogEvent → Except WatchdogAbort Watchdog
  | WatchdogEvent.addEvb evb name => w.addEvb evb name
  | WatchdogEvent.timer env => Watchdog.timerCallback kMemoryThresholdTime w env

/-- A sequence of events on the watchdog; it ends with the first abort. -/
def Watchdog.run (kMemoryThresholdTime : Int) :
    Watchdog → List WatchdogEvent → Except WatchdogAbort Watchdog
  | w, [] => Except.ok w
  | w, e :: rest =>
    match Watchdog.step kMemoryThresholdTime w e with
    | Except.error a => Except.error a
    | Except.ok w1 => Watchdog.run kMemoryThresholdTime w1 rest

/-! ## Pending keys can be advertised -/

/-- The pending keys as a container: each area is bound once and the set of an
area holds each key once. -/
def PendingWellFormed (c : KvStoreClientInternal) : Prop :=
  (c.keysToAdvertise_.map Prod.fst).Nodup ∧ ∀ p ∈ c.keysToAdvertise_, p.2.Nodup

/-- In every area, every pending key is persisted and every persisted key has
an advertise backoff. -/
def PendingAdvertisable (c : KvStoreClientInternal) : Prop :=
  ∀ (area : AreaId) (k : String),
    (k ∈ getArea c.keysToAdvertise_ area →
      (Map.find (getArea c.persistedKeyVals_ area) k).isSome = true) ∧
    ((Map.find (getArea c.persistedKeyVals_ area) k).isSome = true →
      (Map.find (getArea c.backoffs_ area) k).isSome = true)

/-! ## The order of ttl backoff entries -/

/-- The pair `(version, ttl-version)` of `v` is at most that of `w`,
lexicographically. -/
def ttlPairLE (v w : Value) : Prop :=
  v.version < w.version ∨ (v.version = w.version ∧ v.ttlVersion ≤ w.ttlVersion)

instance (v w : Value) : Decidable (ttlPairLE v w) := by
  unfold ttlPairLE; infer_instance

/-- The pair `(version, ttl-version)` of `v` is below that of `w`,
lexicographically. -/
def ttlPairLT (v w : Value) : Prop :=
  v.version < w.version ∨ (v.version = w.version ∧ v.ttlVersion < w.ttlVersion)

instance (v w : Value) : Decidable (ttlPairLT v w) := by
  unfold ttlPairLT; infer_instance

/-! ## Fib: programming the agent (openr/fib/Fib.h)

The bodies of `processRouteUpdates`, `updateRoutes` and `syncRouteDb` are declared
in `Fib.h` and are not part of the sources; they are modelled from section 4.2 of
the spec and from the tests `doNotInstall` and `fibStreamingSingleSubscriber`. -/

/-- Modelled from the spec: the table the forwarding agent holds for this
client; `add_unicast_routes` stores routes under their prefix,
`del_unicast_routes` removes prefixes and `sync_fib` "replaces the entire table
for this client's id". -/
structure FibAgent where
  unicastRoutes : KeyMap CIDRNetwork RibUnicastEntry
  mplsRoutes : KeyMap Int RibMplsEntry
  deriving DecidableEq, Repr

/-- State of a `Fib`: the fields of `RouteState` (Fib.h, lines 191-206) and
`hasSyncedFib_`, with the agent's tables, whether a full sync is scheduled, and
what was pushed to `fibUpdatesQueue_`. -/
structure Fib where
  unicastRoutes : KeyMap CIDRNetwork RibUnicastEntry
  mplsRoutes : KeyMap Int RibMplsEntry
  hasRoutesFromDecision : Bool
  dirtyRouteDb : Bool
  hasSyncedFib_ : Bool
  /-- Whether `syncRouteDbDebounced` has scheduled a full sync. -/
  syncScheduled : Bool
  agent : FibAgent
  fibUpdatesQueue_ : List DecisionRouteUpdate
  deriving DecidableEq, Repr

/-- The routes of a map that do not carry `doNotInstall`. -/
def installableRoutes (m : KeyMap CIDRNetwork RibUnicastEntry) :
    KeyMap CIDRNetwork RibUnicastEntry :=
  m.filter (fun r => !r.2.doNotInstall)

namespace DecisionRouteUpdate

/-- Modelled from the spec: "the delta (filtered of do-not-install)". -/
def installable (u : DecisionRouteUpdate) : DecisionRouteUpdate :=
  { u with unicastRoutesToUpdate := installableRoutes u.unicastRoutesToUpdate }

/-- The prefixes an update upserts with a route that carries do-not-install. -/
def notInstalled (u : DecisionRouteUpdate) : List CIDRNetwork :=
  (u.unicastRoutesToUpdate.filter (fun r => r.2.doNotInstall)).map Prod.fst

/-- Whether an update carries nothing. -/
def isEmpty (u : DecisionRouteUpdate) : Bool :=
  u.unicastRoutesToUpdate.isEmpty && u.unicastRoutesToDelete.isEmpty &&
    u.mplsRoutesToUpdate.isEmpty && u.mplsRoutesToDelete.isEmpty

end DecisionRouteUpdate

namespace Fib

/-- A `Fib` that has received nothing and programmed nothing, the agent's tables
being empty. -/
def init : Fib :=
  { unicastRoutes := [], mplsRoutes := [], hasRoutesFromDecision := false,
    dirtyRouteDb := false, hasSyncedFib_ := false, syncScheduled := false,
    agent := { unicastRoutes := [], mplsRoutes := [] }, fibUpdatesQueue_ := [] }

/-- Modelled from the spec: the body of `updateRoutes` (declared in Fib.h, line
161) is not part of the sources.  "Incremental programming" with
`add_routes`/`del_routes`: the upserts that do not carry do-not-install are added
to the agent's table; the deletions are removed from it, and so are the
prefixes upserted with do-not-install, the programmer having to "keep the
remote forwarding agent's table equal to the computed RouteDb modulo
do-not-install" (a route of the table that is upserted with the flag is no
longer to be there).  "On success, emit the delta (filtered of do-not-install)
to downstream subscribers", a delta that is left with nothing not being emitted
(the test `fibStreamingSingleSubscriber` expects no update for it); "on RPC
failure, set dirty, schedule debounced resync".  `rpcOk` is whether the calls to
the agent succeed. -/
def updateRoutes (rpcOk : Bool) (s : Fib) (routeUpdate : DecisionRouteUpdate) : Fib :=
  let delta := routeUpdate.installable
  if rpcOk then
    { s with
      agent :=
        { unicastRoutes :=
            Delta.applyTo s.agent.unicastRoutes delta.unicastRoutesToUpdate
              (routeUpdate.unicastRoutesToDelete ++ routeUpdate.notInstalled)
          mplsRoutes :=
            Delta.applyTo s.agent.mplsRoutes delta.mplsRoutesToUpdate delta.mplsRoutesToDelete }
      fibUpdatesQueue_ :=
        if delta.isEmpty then s.fibUpdatesQueue_ else s.fibUpdatesQueue_ ++ [delta] }
  else { s with dirtyRouteDb := true, syncScheduled := true }

/-- Modelled from the spec: the body of `processRouteUpdates` (declared in Fib.h,
line 154) is not part of the sources.  "Apply delta: merge into the local
mirror; if has-synced is false or the previous programming left the mirror
dirty, schedule a full sync; otherwise attempt incremental add_routes/del_routes
RPCs to the agent." -/
def processRouteUpdates (rpcOk : Bool) (s : Fib) (routeUpdate : DecisionRouteUpdate) : Fib :=
  let s1 : Fib :=
    { s with
      hasRoutesFromDecision := true
      unicastRoutes :=
        Delta.applyTo s.unicastRoutes routeUpdate.unicastRoutesToUpdate
          routeUpdate.unicastRoutesToDelete
      mplsRoutes :=
        Delta.applyTo s.mplsRoutes routeUpdate.mplsRoutesToUpdate routeUpdate.mplsRoutesToDelete }
  if !s1.hasSyncedFib_ || s1.dirtyRouteDb then { s1 with syncScheduled := true }
  else updateRoutes rpcOk s1 routeUpdate

/-- Modelled from the spec: the body of `syncRouteDb` (declared in Fib.h, line
168) is not part of the sources.  "Full sync: push the entire mirror as
sync_fib/sync_mpls_fib", the routes that carry do-not-install left out (the
agent's table is the route database "modulo do-not-install"); "on success, clear
dirty and set has-synced"; on failure the sync stays scheduled. -/
def syncRouteDb (rpcOk : Bool) (s : Fib) : Fib :=
  if rpcOk then
    { s with
      agent := { unicastRoutes := installableRoutes s.unicastRoutes, mplsRoutes := s.mplsRoutes }
      dirtyRouteDb := false
      hasSyncedFib_ := true
      syncScheduled := false }
  else { s with dirtyRouteDb := true, syncScheduled := true }

/-- The agent's unicast table holds the routes of the mirror that do not carry
do-not-install: the same entry for every prefix. -/
def AgentInSync (s : Fib) : Prop :=
  ∀ p, Map.find s.agent.unicastRoutes p
    = (Map.find s.unicastRoutes p).filter (fun e => !e.doNotInstall)

end Fib

/-- What happens to a `Fib`: a route update arrives from Decision, or the
scheduled full sync runs; each with whether the calls to the agent succeed. -/
inductive FibEvent where
  | routeUpdate (rpcOk : Bool) (u : DecisionRouteUpdate)
  | sync (rpcOk : Bool)
  deriving DecidableEq, Repr

/-- A route update binds each prefix once (its upserts are a map). -/
def FibEvent.WellFormed : FibEvent → Prop
  | FibEvent.routeUpdate _ u => (u.unicastRoutesToUpdate.map Prod.fst).Nodup
  | FibEvent.sync _ => True

instance (e : FibEvent) : Decidable e.WellFormed := by
  cases e <;> unfold FibEvent.WellFormed <;> infer_instance

namespace Fib

def step (s : Fib) : FibEvent → Fib
  | FibEvent.routeUpdate rpcOk u => processRouteUpdates rpcOk s u
  | FibEvent.sync rpcOk => syncRouteDb rpcOk s

/-- The `Fib` after a sequence of events, oldest first. -/
def run (s : Fib) (events : List FibEvent) : Fib :=
  events.foldl step s

end Fib

/-! ## Sample states -/

namespace Sample

def constants : Constants :=
  { kMaxBackoff := 8000, kMaxTtlUpdateInterval := 7200000, kTtlInfinity := -2147483648 }

/-- A store that holds nothing and accepts every write, at time 1000. -/
def env : Env :=
  { now := 1000, getKvStoreKeyVals := fun _ _ => some [], setKvStoreKeyVals := fun _ _ => true }

/-- The local value `(k, v1, ver=3, originator=self)` of the version-conflict scenario. -/
def localValue : Value :=
  { version := 3, originatorId := "self", value := some "v1", ttl := -2147483648,
    ttlVersion := 0 }

/-- The received value `(k, v1', ver=5, originator=peer)` of the scenario. -/
def peerValue : Value :=
  { version := 5, originatorId := "peer", value := some "v1x", ttl := -2147483648,
    ttlVersion := 0 }

/-- Node `self` persisting `k` in area `a`, with a callback registered for `k`. -/
def client : KvStoreClientInternal :=
  { nodeId_ := "self"
    persistedKeyVals_ := [("a", [("k", localValue)])]
    backoffs_ := [("a", [("k", ExponentialBackoff.mk2 100 8000)])]
    keyTtlBackoffs_ := []
    keysToAdvertise_ := []
    keyCallbacks_ := [("a", [("k", 7)])]
    keyPrefixFilter_ := fun _ _ => false
    keyPrefixFilterCallback_ := none
    advertiseKeyValsTimer_ := none
    ttlTimer_ := none
    advertiseTtlUpdatesThrottled_ := false
    trace := [] }

/-- The publication of the scenario. -/
def conflictPub : Publication :=
  { area := "a", keyVals := [("k", peerValue)], expiredKeys := [] }

def afterConflict : KvStoreClientInternal :=
  (processPublication constants env client conflictPub).getD client

/-- The publication of the scenario, the peer's value carrying ttl-version 7. -/
def conflictPubTtl : Publication :=
  { area := "a", keyVals := [("k", { peerValue with ttlVersion := 7 })], expiredKeys := [] }

def afterConflictTtl : KvStoreClientInternal :=
  (processPublication constants env client conflictPubTtl).getD client

/-- A publication reflecting the key back with the same version, another payload. -/
def reflectedPub : Publication :=
  { area := "a", keyVals := [("k", { localValue with value := some "v0" })], expiredKeys := [] }

def afterReflected : KvStoreClientInternal :=
  (processPublication constants env client reflectedPub).getD client

/-- Node `self` with a callback for `j` and a prefix-filter callback that matches
every key; `j` is not persisted. -/
def subscriber : KvStoreClientInternal :=
  { client with
    keyCallbacks_ := [("a", [("j", 8)])]
    keyPrefixFilter_ := fun _ _ => true
    keyPrefixFilterCallback_ := some 9 }

/-- A publication carrying the key `j`. -/
def foreignPub : Publication :=
  { area := "a", keyVals := [("j", peerValue)], expiredKeys := [] }

def afterForeign : KvStoreClientInternal :=
  (processPublication constants env subscriber foreignPub).getD subscriber

/-- Two publications of the key `j`, the second with a lower version. -/
def decreasingRun : List (Env × Publication) :=
  [(env, { area := "a", keyVals := [("j", peerValue)], expiredKeys := [] }),
   (env, { area := "a", keyVals := [("j", { peerValue with version := 3 })],
           expiredKeys := [] })]

/-- Two publications of the persisted key `k`, with versions 5 and 8. -/
def conflictRun : List (Env × Publication) :=
  [(env, conflictPub),
   (env, { area := "a", keyVals := [("k", { peerValue with version := 8 })],
           expiredKeys := [] })]

def afterConflictRun : KvStoreClientInternal :=
  (processPublications constants client conflictRun).getD client

/-- Two publications of the key `j` with versions 5 and 8. -/
def increasingRun : List (Env × Publication) :=
  [(env, { area := "a", keyVals := [("j", peerValue)], expiredKeys := [] }),
   (env, { area := "a", keyVals := [("j", { peerValue with version := 8 })],
           expiredKeys := [] })]

def afterIncreasingRun : KvStoreClientInternal :=
  (processPublications constants subscriber increasingRun).getD subscriber

def afterUnset : KvStoreClientInternal :=
  (processPublication constants env (unsetKey client "a" "k") conflictPub).getD client

/-- A publication carrying an older version of the key. -/
def stalePub : Publication :=
  { area := "a", keyVals := [("k", { peerValue with version := 2 })], expiredKeys := [] }

def afterStale : KvStoreClientInternal :=
  (processPublication constants env client stalePub).getD client

/-- Node `self` after `setKey(a, z, pay, 0, 3000)`: `z` is set with a finite ttl and
not persisted. -/
def setter : KvStoreClientInternal :=
  ((setKey constants env client "a" "z" "pay" 0 3000).map (fun r => r.2)).getD client

/-- The value of the ttl backoff entry that `setter` holds for `z`. -/
def setValue : Value :=
  { version := 1, originatorId := "self", value := none, ttl := 3000, ttlVersion := 0 }

/-- The backoff of the ttl backoff entry that `setter` holds for `z`. -/
def setBackoff : ExponentialBackoff :=
  { initialBackoff := 750, maxBackoff := 751, currentBackoff := 750, lastErrorTime := 1000 }

/-- A publication reflecting `z` with the ttl-version 4. -/
def ttlBumpPub : Publication :=
  { area := "a"
    keyVals := [("z", { version := 1, originatorId := "self", value := some "pay", ttl := 3000,
                        ttlVersion := 4 })]
    expiredKeys := [] }

def afterTtlBump : KvStoreClientInternal :=
  (processPublication constants env setter ttlBumpPub).getD setter

/-- A publication reflecting `z` with the largest ttl-version a 64-bit signed
field holds. -/
def ttlTopPub : Publication :=
  { area := "a"
    keyVals := [("z", { version := 1, originatorId := "self", value := some "pay", ttl := 3000,
                        ttlVersion := 9223372036854775807 })]
    expiredKeys := [] }

def afterTtlTop : KvStoreClientInternal :=
  (processPublication constants env setter ttlTopPub).getD setter

/-- A ttl backoff entry with the largest ttl-version a 64-bit signed field holds,
set at time 1000 with ttl 3000. -/
def ttlTopEntry : Value × ExponentialBackoff :=
  ({ version := 1, originatorId := "self", value := none, ttl := 3000,
     ttlVersion := 9223372036854775807 },
    { initialBackoff := 750, maxBackoff := 751, currentBackoff := 750, lastErrorTime := 1000 })

/-- Node `self` holding the ttl backoff entry `ttlTopEntry` for the key `z`, which
is not persisted. -/
def ttlTopClient : KvStoreClientInternal :=
  { client with keyTtlBackoffs_ := [("a", [("z", ttlTopEntry)])] }

/-- The publication of the scenario, with two expired keys. -/
def expiryPub : Publication :=
  { area := "a", keyVals := [("k", peerValue)], expiredKeys := ["k", "q"] }

def afterExpiry : KvStoreClientInternal :=
  (processPublication constants env client expiryPub).getD client

/-- The value of the peer with the largest version a 64-bit signed field holds,
`INT64_MAX`. -/
def topValue : Value := { peerValue with version := 9223372036854775807 }

/-- A publication carrying `topValue` for the key `k`. -/
def topPub : Publication :=
  { area := "a", keyVals := [("k", topValue)], expiredKeys := [] }

/-- Two publications of the persisted key `k`: version 5, then the largest
version. -/
def topRun : List (Env × Publication) := [(env, conflictPub), (env, topPub)]

/-- Node `self` persisting `k` with the largest version. -/
def topClient : KvStoreClientInternal :=
  { client with
    persistedKeyVals_ := [("a", [("k", { localValue with version := 9223372036854775807 })])] }

/-- The address `a.b.c.d`. -/
def v4 (a b c d : Nat) : IPAddress :=
  { isV6 := false, bits := ((a * 256 + b) * 256 + c) * 256 + d }

/-- The IPv6 address of eight 16-bit groups, first group first. -/
def v6 (groups : List Nat) : IPAddress :=
  { isV6 := true, bits := groups.foldl (fun acc g => acc * 65536 + g) 0 }

/-- A unicast route for a prefix, without next hops. -/
def route (p : CIDRNetwork) : RibUnicastEntry :=
  { prefix_ := p, nexthops := [], bestNodeArea := ("", ""), doNotInstall := false }

/-- Two unicast routes and one MPLS route added to the empty database. -/
def addCalls : List AddRoute :=
  [AddRoute.unicast (route (v4 10 1 1 1, 32)), AddRoute.mpls { label := 1, nexthops := [] },
   AddRoute.unicast (route (v4 10 3 3 3, 32))]

def afterAddCalls : DecisionRouteDb :=
  (AddRoute.runAll addCalls DecisionRouteDb.empty).getD DecisionRouteDb.empty

/-- A database with two unicast routes and one MPLS route. -/
def dbA : DecisionRouteDb :=
  { unicastRoutes := [((v4 10 1 1 1, 32), route (v4 10 1 1 1, 32)),
                      ((v4 10 3 3 3, 32), route (v4 10 3 3 3, 32))]
    mplsRoutes := [(1, { label := 1, nexthops := [] })] }

/-- A database that keeps one unicast route of `dbA` with another entry, lacks
the other, has a new one, and has another MPLS route. -/
def dbB : DecisionRouteDb :=
  { unicastRoutes := [((v4 10 1 1 1, 32), { route (v4 10 1 1 1, 32) with doNotInstall := true }),
                      ((v4 10 2 2 2, 32), route (v4 10 2 2 2, 32))]
    mplsRoutes := [(2, { label := 2, nexthops := [] })] }

/-- The route table of `longestPrefixMatchTest`:
`::/0, 192.168.0.0/16, 192.168.0.0/20, 192.168.0.0/24, 192.168.20.16/28`. -/
def lpmTable : KeyMap CIDRNetwork RibUnicastEntry :=
  [((v6 [0, 0, 0, 0, 0, 0, 0, 0], 0), route (v6 [0, 0, 0, 0, 0, 0, 0, 0], 0)),
   ((v4 192 168 0 0, 16), route (v4 192 168 0 0, 16)),
   ((v4 192 168 0 0, 20), route (v4 192 168 0 0, 20)),
   ((v4 192 168 0 0, 24), route (v4 192 168 0 0, 24)),
   ((v4 192 168 20 16, 28), route (v4 192 168 20 16, 28))]

/-- The address `fd00::48:2:0`. -/
def fd00 : IPAddress := v6 [64768, 0, 0, 0, 0, 72, 2, 0]

/-- The mirror of `getUnicastRoutesFilteredTest`:
`192.168.20.16/28, 192.168.0.0/16, fd00::48:2:0/128, fd00::48:2:0/126`. -/
def mirror : KeyMap CIDRNetwork RibUnicastEntry :=
  [((v4 192 168 20 16, 28), route (v4 192 168 20 16, 28)),
   ((v4 192 168 0 0, 16), route (v4 192 168 0 0, 16)),
   ((fd00, 128), route (fd00, 128)),
   ((fd00, 126), route (fd00, 126))]

/-- The filter of `getUnicastRoutesFilteredTest`: `192.168.20.16/28,
192.168.20.19, 192.168.0.0, 192.168.0.0/18, 10.46.8.0, fd00::48:2:0/127,
fd00::48:2:0/125`. -/
def mirrorFilter : List CIDRNetwork :=
  [(v4 192 168 20 16, 28), (v4 192 168 20 19, 32), (v4 192 168 0 0, 32), (v4 192 168 0 0, 18),
   (v4 10 46 8 0, 32), (fd00, 127), (fd00, 125)]

/-- The store of `env`, at time 2000. -/
def envLater : Env := { env with now := 2000 }

/-- The client of the scenario after the loop of `processPublication`: `k` is
pending with version 6. -/
def pendingClient : KvStoreClientInternal := afterKeyVals client conflictPub

/-- A store that refuses every write, at time 1000. -/
def envFailing : Env := { env with setKvStoreKeyVals := fun _ _ => false }

/-- Watchdog configuration: checks every 20 s, threads time out after 300 s,
memory limit 800 MB. -/
def wdConfig : WatchdogConfig :=
  { nodeName := "node-1", interval_s := 20, thread_timeout_s := 300, max_memory_mb := 800 }

/-- Answers of the outside at `nowSec` seconds, every event base having been
active last at `lastSec` seconds. -/
def wdEnv (nowSec lastSec : Int) (mem : Option Nat) : WatchdogEnv :=
  { now := nowSec * 1000000000
    getTimestamp := fun _ => lastSec * 1000000000
    memNow := nowSec * 1000000000
    getRSSMemBytes := mem }

/-- One event base is monitored and the first check, at 400 s, finds it stuck. -/
def wdEvents : List WatchdogEvent :=
  [WatchdogEvent.addEvb 1 "decision", WatchdogEvent.timer (wdEnv 400 0 none)]

/-- The watchdog after `wdEvents`. -/
def wdAfter : Watchdog :=
  { myNodeName_ := "node-1", interval_ := 20, threadTimeout_ := 300, maxMemoryMB_ := 800,
    previousStatus_ := false, monitorEvbs_ := [(1, "decision")], memExceedTime_ := none,
    watchdogTimer_ := some 20 }

/-- A ttl backoff entry for the key `k`, with ttl-version 2. -/
def ownerEntry : Value × ExponentialBackoff :=
  ({ version := 3, originatorId := "self", value := none, ttl := 3000, ttlVersion := 2 },
    ExponentialBackoff.mk2 750 751)

/-- Node `self` persisting `k` and holding the ttl backoff entry `ownerEntry` for
it. -/
def owner : KvStoreClientInternal :=
  { client with keyTtlBackoffs_ := [("a", [("k", ownerEntry)])] }

def ownerAfterConflictTtl : KvStoreClientInternal :=
  (processPublication constants env owner conflictPubTtl).getD owner

/-- The store reflects to the client the value it holds for `k` after the
version-conflict scenario. -/
def ownAdvertisement : Publication :=
  { area := "a"
    keyVals := [("k", { version := 6, originatorId := "self", value := some "v1",
                        ttl := -2147483648, ttlVersion := 0 })]
    expiredKeys := [] }

def afterOwnAdvertisement : KvStoreClientInternal :=
  (processPublication constants env afterConflict ownAdvertisement).getD afterConflict

/-- The first update of the test `doNotInstall`: `192.168.20.16/28` with
do-not-install and `192.168.0.0/16` without. -/
def installUpdate1 : DecisionRouteUpdate :=
  { unicastRoutesToUpdate :=
      [((v4 192 168 20 16, 28), { route (v4 192 168 20 16, 28) with doNotInstall := true }),
       ((v4 192 168 0 0, 16), route (v4 192 168 0 0, 16))]
    unicastRoutesToDelete := [], mplsRoutesToUpdate := [], mplsRoutesToDelete := [] }

/-- The second update of the test: `fd00::48:2:0/128` with do-not-install and
`fd00::48:2:0/126` without. -/
def installUpdate2 : DecisionRouteUpdate :=
  { unicastRoutesToUpdate :=
      [((fd00, 128), { route (fd00, 128) with doNotInstall := true }),
       ((fd00, 126), route (fd00, 126))]
    unicastRoutesToDelete := [], mplsRoutesToUpdate := [], mplsRoutesToDelete := [] }

/-- The events of the test up to the first full sync: the first update, and the
full sync it causes. -/
def fibEvents : List FibEvent :=
  [FibEvent.routeUpdate true installUpdate1, FibEvent.sync true]

/-- The `Fib` of the test after the first update and the full sync it causes. -/
def fibSynced : Fib :=
  Fib.syncRouteDb true (Fib.processRouteUpdates true Fib.init installUpdate1)

/-- An update that upserts `192.168.0.0/16`, which the agent holds, with
do-not-install. -/
def hideInstalled : DecisionRouteUpdate :=
  { unicastRoutesToUpdate :=
      [((v4 192 168 0 0, 16), { route (v4 192 168 0 0, 16) with doNotInstall := true })]
    unicastRoutesToDelete := [], mplsRoutesToUpdate := [], mplsRoutesToDelete := [] }

/-- An update whose only content is a route with do-not-install. -/
def hiddenUpdate : DecisionRouteUpdate :=
  { unicastRoutesToUpdate :=
      [((v4 10 2 2 2, 32), { route (v4 10 2 2 2, 32) with doNotInstall := true })]
    unicastRoutesToDelete := [], mplsRoutesToUpdate := [], mplsRoutesToDelete := [] }

end Sample

/-! ## Lemmas on the 64-bit counters -/

theorem wrapInt64_of_range (n : Int) (hlo : int64Min ≤ n) (hhi : n ≤ int64Max) :
    wrapInt64 n = n := by
  unfold int64Min int64Max at *
  unfold wrapInt64
  omega

theorem wrapInt64_succ (n : Int) (hlo : int64Min ≤ n) (hhi : n < int64Max) :
    wrapInt64 (n + 1) = n + 1 := by
  unfold int64Min int64Max at *
  unfold wrapInt64
  omega

theorem wrapInt64_range (n : Int) : int64Min ≤ wrapInt64 n ∧ wrapInt64 n ≤ int64Max := by
  unfold int64Min int64Max wrapInt64
  omega

/-- At the top of the range the increment gives the lowest value. -/
theorem wrapInt64_top : wrapInt64 (int64Max + 1) = int64Min := by
  decide

/-! ## Lemmas on the containers -/

namespace Map

variable {κ α : Type} [DecidableEq κ]

theorem find_assign_self (m : KeyMap κ α) (k : κ) (v : α) : find (assign m k v) k = some v := by
  induction m with
  | nil => simp [assign, find]
  | cons p t ih =>
    obtain ⟨k', v'⟩ := p
    by_cases h : k' = k
    · simp [assign, find, h]
    · simp [assign, find, h, ih]

theorem find_assign_ne (m : KeyMap κ α) {k k' : κ} (v : α) (h : k ≠ k') :
    find (assign m k v) k' = find m k' := by
  induction m with
  | nil => simp [assign, find, h]
  | cons p t ih =>
    obtain ⟨k0, v0⟩ := p
    by_cases h0 : k0 = k
    · subst h0; simp [assign, find, h]
    · by_cases h1 : k0 = k'
      · subst h1; simp [assign, find, h0]
      · simp [assign, find, h0, h1, ih]

theorem find_erase_self (m : KeyMap κ α) (k : κ) : find (erase m k) k = none := by
  induction m with
  | nil => simp [erase, find]
  | cons p t ih =>
    obtain ⟨k', v'⟩ := p
    by_cases h : k' = k
    · simpa [erase, List.filter_cons, h] using ih
    · simpa [erase, List.filter_cons, h, find] using ih

theorem find_erase_ne (m : KeyMap κ α) {k k' : κ} (h : k ≠ k') :
    find (erase m k) k' = find m k' := by
  induction m with
  | nil => simp [erase, find]
  | cons p t ih =>
    obtain ⟨k0, v0⟩ := p
    by_cases h0 : k0 = k
    · subst h0
      simpa [erase, List.filter_cons, find, h] using ih
    · by_cases h1 : k0 = k'
      · subst h1; simp [erase, List.filter_cons, find, h0]
      · simpa [erase, List.filter_cons, find, h0, h1] using ih

end Map

namespace KeySet

theorem mem_insert_iff (s : List String) (k x : String) :
    x ∈ insert s k ↔ x ∈ s ∨ x = k := by
  unfold insert
  by_cases h : k ∈ s
  · simp only [h, if_true]
    constructor
    · intro hx; exact Or.inl hx
    · rintro (hx | rfl)
      · exact hx
      · exact h
  · simp [h]

theorem mem_erase_iff (s : List String) (k x : String) :
    x ∈ erase s k ↔ x ∈ s ∧ x ≠ k := by
  simp [erase, List.mem_filter]

end KeySet

theorem getArea_assign_self {α : Type} (m : KeyMap AreaId (List α)) (area : AreaId)
    (v : List α) : getArea (Map.assign m area v) area = v := by
  simp [getArea, Map.find_assign_self]

theorem getArea_assign_ne {α : Type} (m : KeyMap AreaId (List α)) {area area' : AreaId}
    (v : List α) (h : area ≠ area') : getArea (Map.assign m area v) area' = getArea m area' := by
  simp [getArea, Map.find_assign_ne _ _ h]

theorem getArea_touchArea {α : Type} (m : KeyMap AreaId (List α)) (area area' : AreaId) :
    getArea (touchArea m area) area' = getArea m area' := by
  unfold touchArea
  by_cases h : area = area'
  · subst h; rw [getArea_assign_self]
  · rw [getArea_assign_ne _ _ h]

/-! ## Lemmas on the observations -/

theorem delivered_append (area : AreaId) (key : String) (t u : List Effect) :
    delivered area key (t ++ u) = delivered area key t ++ delivered area key u := by
  simp [delivered, List.filterMap_append]

theorem filterDelivered_append (key : String) (t u : List Effect) :
    filterDelivered key (t ++ u) = filterDelivered key t ++ filterDelivered key u := by
  simp [filterDelivered, List.filterMap_append]

theorem storeWrites_append (t u : List Effect) :
    storeWrites (t ++ u) = storeWrites t ++ storeWrites u := by
  simp [storeWrites, List.filterMap_append]

/-! ## One iteration of the loop: other keys are left alone -/

theorem updateSetKey_find_ne (st : PubRefs) {key k : String} (rcvdValue : Value)
    (h : key ≠ k) : Map.find (updateSetKey st key rcvdValue) k = Map.find st.keyTtlBackoffs k := by
  unfold updateSetKey
  split
  · split
    · exact Map.find_erase_ne _ h
    · split
      · split
        · exact Map.find_assign_ne _ _ h
        · rfl
      · rfl
  · rfl

theorem notifyUnpersisted_delivered_ne (fm : String → Value → Bool) (fcb : Option KeyCallback)
    (area a : AreaId) (st : PubRefs) {key k : String} (rcvdValue : Value) (h : key ≠ k) :
    delivered a k (notifyUnpersisted fm fcb area st key rcvdValue) = delivered a k st.trace ∧
      filterDelivered k (notifyUnpersisted fm fcb area st key rcvdValue)
        = filterDelivered k st.trace := by
  unfold notifyUnpersisted
  cases hcb : Map.find st.callbacks key <;> cases fcb <;>
    by_cases hm : fm key rcvdValue = true <;>
    simp [hm, delivered_append, filterDelivered_append, delivered, filterDelivered, h]

theorem mergePersisted_view_ne (nodeId : String) (area a : AreaId) (st : PubRefs)
    {key k : String} (currentValue rcvdValue : Value) (h : key ≠ k) :
    (mergePersisted nodeId area st key currentValue rcvdValue).view a k = st.view a k := by
  unfold mergePersisted
  split
  · rfl
  · have hk : k ≠ key := fun e => h e.symm
    simp only [PubRefs.view, Map.find_assign_ne _ _ h, KeyView.mk.injEq, true_and]
    refine ⟨?_, ?_, ?_, ?_⟩
    · split
      · exact Map.find_assign_ne _ _ h
      · rfl
    · split
      · simp only [KeySet.mem_insert_iff, hk, or_false]
      · rfl
    · split <;> simp [delivered_append, delivered, h]
    · split <;> simp [filterDelivered_append, filterDelivered]

theorem processKeyVal_view_ne (nodeId : String) (fm : String → Value → Bool)
    (fcb : Option KeyCallback) (area a : AreaId) (st : PubRefs) (kv : String × Value)
    {k : String} (h : kv.1 ≠ k) :
    (processKeyVal nodeId fm fcb area st kv).view a k = st.view a k := by
  unfold processKeyVal
  simp only
  split
  · rfl
  · split
    · have h2 := notifyUnpersisted_delivered_ne fm fcb area a st kv.2 h
      simp only [PubRefs.view, updateSetKey_find_ne st kv.2 h, h2.1, h2.2]
    · exact mergePersisted_view_ne nodeId area a st _ _ h

theorem processKeyVal_callbacks (nodeId : String) (fm : String → Value → Bool)
    (fcb : Option KeyCallback) (area : AreaId) (st : PubRefs) (kv : String × Value) :
    (processKeyVal nodeId fm fcb area st kv).callbacks = st.callbacks := by
  unfold processKeyVal
  simp only
  split
  · rfl
  · split
    · rfl
    · unfold mergePersisted
      split <;> rfl

/-! ## One iteration of the loop: its own key -/

theorem updateSetKey_find_self (st : PubRefs) (key : String) (rcvdValue : Value)
    (h : Map.find st.persistedKeyVals key = none) :
    Map.find (updateSetKey st key rcvdValue) key
      = setKeyEntry (Map.find st.keyTtlBackoffs key) rcvdValue := by
  unfold updateSetKey setKeyEntry
  rw [h]
  cases hsk : Map.find st.keyTtlBackoffs key with
  | none => simp [hsk]
  | some e =>
    obtain ⟨setValue, backoff⟩ := e
    simp only
    split
    · exact Map.find_erase_self _ _
    · split
      · rename_i h2
        have h3 : setValue.ttlVersion < rcvdValue.ttlVersion := h2.2.2
        simp only [h3, if_true]
        exact Map.find_assign_self _ _ _
      · exact hsk

theorem processKeyVal_view_congr (nodeId : String) (fm : String → Value → Bool)
    (fcb : Option KeyCallback) (area a : AreaId) (st st' : PubRefs) (k : String) (v : Value)
    (h : st.view a k = st'.view a k) :
    (processKeyVal nodeId fm fcb area st (k, v)).view a k
      = (processKeyVal nodeId fm fcb area st' (k, v)).view a k := by
  simp only [PubRefs.view, KeyView.mk.injEq] at h
  obtain ⟨h1, h2, h3, h4, h5, h6⟩ := h
  unfold processKeyVal
  simp only
  split
  · simp only [PubRefs.view, h1, h2, h3, h4, h5, h6]
  · rw [h1]
    cases hp : Map.find st'.persistedKeyVals k with
    | none =>
      have hp0 : Map.find st.persistedKeyVals k = none := h1.trans hp
      simp only [PubRefs.view, updateSetKey_find_self _ _ _ hp, updateSetKey_find_self _ _ _ hp0,
        h1, h2, h3, h4, KeyView.mk.injEq, true_and]
      unfold notifyUnpersisted
      rw [h4]
      cases Map.find st'.callbacks k <;> cases fcb <;>
        by_cases hm : fm k v = true <;>
        simp [hm, delivered_append, filterDelivered_append, h5, h6]
    | some cur =>
      simp only
      unfold mergePersisted
      split
      · simp only [PubRefs.view, h1, h2, h3, h4, h5, h6]
      · rw [h2, h4]
        simp only [PubRefs.view, Map.find_assign_self, KeyView.mk.injEq, true_and, h4]
        refine ⟨?_, ?_, ?_, ?_⟩
        · cases (syncTtlVersion (bumpVersion nodeId cur v).1 v (Map.find st'.keyTtlBackoffs k)).2
          · exact h2
          · simp only [Map.find_assign_self]
        · by_cases hb : (bumpVersion nodeId cur v).2 = true
          · simp [hb, KeySet.mem_insert_iff]
          · simpa [hb] using h3
        · by_cases hb : (bumpVersion nodeId cur v).2 = true <;>
            cases Map.find st'.callbacks k <;> simp [hb, delivered_append, h5]
        · by_cases hb : (bumpVersion nodeId cur v).2 = true <;>
            cases Map.find st'.callbacks k <;> simp [hb, filterDelivered_append, h6]

/-- Within a publication with distinct keys, what the loop does to a key is what
its own iteration does to it. -/
theorem foldl_processKeyVal_view (nodeId : String) (fm : String → Value → Bool)
    (fcb : Option KeyCallback) (area a : AreaId) (k : String) (v : Value) :
    ∀ (l : KeyMap String Value) (st : PubRefs), (l.map Prod.fst).Nodup → (k, v) ∈ l →
      (l.foldl (processKeyVal nodeId fm fcb area) st).view a k
        = (processKeyVal nodeId fm fcb area st (k, v)).view a k := by
  have frame : ∀ (l : KeyMap String Value) (st : PubRefs), k ∉ l.map Prod.fst →
      (l.foldl (processKeyVal nodeId fm fcb area) st).view a k = st.view a k := by
    intro l
    induction l with
    | nil => intro st _; rfl
    | cons kv t ih =>
      intro st hk
      simp only [List.map_cons, List.mem_cons, not_or] at hk
      rw [List.foldl_cons, ih _ hk.2]
      exact processKeyVal_view_ne nodeId fm fcb area a st kv (fun e => hk.1 e.symm)
  intro l
  induction l with
  | nil => intro st _ hm; simp at hm
  | cons kv t ih =>
    intro st hnd hm
    simp only [List.map_cons, List.nodup_cons] at hnd
    rw [List.foldl_cons]
    rcases List.mem_cons.mp hm with hm | hm
    · subst hm
      exact frame t _ hnd.1
    · have hne : kv.1 ≠ k := by
        intro e
        apply hnd.1
        rw [e]
        exact List.mem_map_of_mem Prod.fst hm
      rw [ih _ hnd.2 hm]
      exact processKeyVal_view_congr nodeId fm fcb area a _ _ k v
        (processKeyVal_view_ne nodeId fm fcb area a st kv hne)

theorem foldl_processKeyVal_view_absent (nodeId : String) (fm : String → Value → Bool)
    (fcb : Option KeyCallback) (area a : AreaId) (k : String) :
    ∀ (l : KeyMap String Value) (st : PubRefs), k ∉ l.map Prod.fst →
      (l.foldl (processKeyVal nodeId fm fcb area) st).view a k = st.view a k := by
  intro l
  induction l with
  | nil => intro st _; rfl
  | cons kv t ih =>
    intro st hk
    simp only [List.map_cons, List.mem_cons, not_or] at hk
    rw [List.foldl_cons, ih _ hk.2]
    exact processKeyVal_view_ne nodeId fm fcb area a st kv (fun e => hk.1 e.symm)

/-! ## advertisePendingKeys leaves the rest of the client alone -/

theorem AdvertiseFrame.rfl_of (c : KvStoreClientInternal) : AdvertiseFrame c c :=
  ⟨fun _ => rfl, rfl, rfl, rfl, rfl, rfl, [], by simp, by simp⟩

theorem AdvertiseFrame.trans_of {c1 c2 c3 : KvStoreClientInternal} (h : AdvertiseFrame c1 c2)
    (g : AdvertiseFrame c2 c3) : AdvertiseFrame c1 c3 := by
  obtain ⟨d1, e1, w1⟩ := h.trace
  obtain ⟨d2, e2, w2⟩ := g.trace
  refine ⟨fun a => (g.persisted a).trans (h.persisted a), g.ttl.trans h.ttl,
    g.callbacks.trans h.callbacks, g.nodeId.trans h.nodeId, g.keyFilter.trans h.keyFilter,
    g.filterCallback.trans h.filterCallback, d1 ++ d2, ?_, ?_⟩
  · rw [e2, e1, List.append_assoc]
  · intro e he
    rcases List.mem_append.mp he with he | he
    · exact w1 e he
    · exact w2 e he

theorem delivered_of_writes (area : AreaId) (key : String) (d : List Effect)
    (h : ∀ e ∈ d, ∃ a kvs, e = Effect.setKvStoreKeyVals a kvs) :
    delivered area key d = [] ∧ filterDelivered key d = [] := by
  induction d with
  | nil => exact ⟨rfl, rfl⟩
  | cons e t ih =>
    obtain ⟨a, kvs, rfl⟩ := h e (List.mem_cons_self _ _)
    have ih2 := ih (fun e he => h e (List.mem_cons_of_mem _ he))
    constructor
    · simpa [delivered] using ih2.1
    · simpa [filterDelivered] using ih2.2

theorem AdvertiseFrame.delivered_eq {c c' : KvStoreClientInternal} (h : AdvertiseFrame c c')
    (area : AreaId) (key : String) :
    delivered area key c'.trace = delivered area key c.trace ∧
      filterDelivered key c'.trace = filterDelivered key c.trace := by
  obtain ⟨d, e, w⟩ := h.trace
  have hw := delivered_of_writes area key d w
  rw [e, delivered_append, filterDelivered_append, hw.1, hw.2]
  simp

theorem setKeysHelper_frame (env : Env) (c : KvStoreClientInternal) (area : AreaId)
    (keyVals : KeyMap String Value) :
    AdvertiseFrame c (setKeysHelper env c area keyVals).2 ∧
      (setKeysHelper env c area keyVals).2.keysToAdvertise_ = c.keysToAdvertise_ := by
  unfold setKeysHelper
  split
  · exact ⟨AdvertiseFrame.rfl_of c, rfl⟩
  · exact ⟨⟨fun _ => rfl, rfl, rfl, rfl, rfl, rfl, [Effect.setKvStoreKeyVals area keyVals], rfl,
      by simp⟩, rfl⟩

theorem foldl_erase_subset (ks : List String) :
    ∀ (s : List String) (x : String), x ∈ ks.foldl KeySet.erase s → x ∈ s := by
  induction ks with
  | nil => intro s x h; exact h
  | cons k t ih =>
    intro s x h
    rw [List.foldl_cons] at h
    exact ((KeySet.mem_erase_iff s k x).mp (ih _ x h)).1

theorem advertiseAreas_frame (env : Env) :
    ∀ (l : KeyMap AreaId (List String)) (c : KvStoreClientInternal) (t : Int)
      (r : KvStoreClientInternal × Int × KeyMap AreaId (List String)),
      advertiseAreas env c t l = some r →
        AdvertiseFrame c r.1 ∧ r.1.keysToAdvertise_ = c.keysToAdvertise_ ∧
          ∀ a k, k ∈ getArea r.2.2 a → k ∈ getArea l a := by
  intro l
  induction l with
  | nil =>
    intro c t r h
    simp only [advertiseAreas, Option.some.injEq] at h
    subst h
    exact ⟨AdvertiseFrame.rfl_of c, rfl, fun _ _ hk => hk⟩
  | cons p rest ih =>
    obtain ⟨area, keys⟩ := p
    intro c t r h
    unfold advertiseAreas at h
    split at h
    · obtain ⟨r0, h0, rfl⟩ := Option.map_eq_some'.mp h
      obtain ⟨f, g, m⟩ := ih c t r0 h0
      refine ⟨f, g, ?_⟩
      intro a k hk
      by_cases ha : area = a
      · simpa [getArea, Map.find, ha] using hk
      · simp only [getArea, Map.find, ha, if_false] at hk ⊢
        exact m a k hk
    · simp only at h
      split at h
      · simp at h
      · rename_i loop hloop
        obtain ⟨r0, h0, rfl⟩ := Option.map_eq_some'.mp h
        obtain ⟨f, g, m⟩ := ih _ _ r0 h0
        have hs := setKeysHelper_frame env
          { c with
            persistedKeyVals_ := touchArea c.persistedKeyVals_ area
            backoffs_ := Map.assign (touchArea c.backoffs_ area) area loop.backoffs }
          area loop.keyVals
        have hc : AdvertiseFrame c
            { c with
              persistedKeyVals_ := touchArea c.persistedKeyVals_ area
              backoffs_ := Map.assign (touchArea c.backoffs_ area) area loop.backoffs } :=
          ⟨fun a => getArea_touchArea _ _ _, rfl, rfl, rfl, rfl, rfl, [], by simp, by simp⟩
        refine ⟨(hc.trans_of hs.1).trans_of f, g.trans hs.2, ?_⟩
        intro a k hk
        by_cases ha : area = a
        · simp only [getArea, Map.find, ha, if_true, Option.getD_some] at hk ⊢
          split at hk
          · exact foldl_erase_subset _ _ _ hk
          · exact hk
        · simp only [getArea, Map.find, ha, if_false] at hk ⊢
          exact m a k hk

theorem advertisePendingKeys_frame (K : Constants) (env : Env) (c c' : KvStoreClientInternal)
    (h : advertisePendingKeys K env c none = some c') :
    AdvertiseFrame c c' ∧
      ∀ a k, k ∈ getArea c'.keysToAdvertise_ a → k ∈ getArea c.keysToAdvertise_ a := by
  unfold advertisePendingKeys at h
  simp only at h
  obtain ⟨r, hr, rfl⟩ := Option.map_eq_some'.mp h
  obtain ⟨f, _, m⟩ := advertiseAreas_frame env _ c _ r hr
  exact ⟨⟨f.persisted, f.ttl, f.callbacks, f.nodeId, f.keyFilter, f.filterCallback, f.trace⟩, m⟩

/-! ## processPublication seen from one key -/

theorem headRefs_view (c : KvStoreClientInternal) (area : AreaId) (k : String) :
    (headRefs c area).view area k = c.view area k := rfl

theorem afterKeyVals_view (c : KvStoreClientInternal) (publication : Publication) (k : String) :
    (afterKeyVals c publication).view publication.area k
      = (processKeyVals c publication).view publication.area k := by
  simp [afterKeyVals, KvStoreClientInternal.view, PubRefs.view, getArea_assign_self]

theorem processKeyVals_callbacks (c : KvStoreClientInternal) (publication : Publication) :
    (processKeyVals c publication).callbacks = getArea c.keyCallbacks_ publication.area := by
  have key : ∀ (l : KeyMap String Value) (st : PubRefs),
      (l.foldl (processKeyVal c.nodeId_ c.keyPrefixFilter_ c.keyPrefixFilterCallback_
        publication.area) st).callbacks = st.callbacks := by
    intro l
    induction l with
    | nil => intro st; rfl
    | cons kv t ih =>
      intro st
      rw [List.foldl_cons, ih, processKeyVal_callbacks]
  unfold processKeyVals
  rw [key]
  rfl

theorem processExpiredKeys_delivered (c : KvStoreClientInternal) (publication : Publication)
    (k : String) :
    delivered publication.area k (processExpiredKeys c publication).trace
      = delivered publication.area k c.trace
        ++ expiryCalls (Map.find (getArea c.keyCallbacks_ publication.area) k) k
            publication.expiredKeys ∧
    filterDelivered k (processExpiredKeys c publication).trace = filterDelivered k c.trace := by
  unfold processExpiredKeys
  simp only
  generalize c.trace = t
  generalize getArea c.keyCallbacks_ publication.area = cbs
  induction publication.expiredKeys generalizing t with
  | nil => cases Map.find cbs k <;> simp [expiryCalls]
  | cons x xs ih =>
    rw [List.foldl_cons]
    obtain ⟨ih1, ih2⟩ := ih
      (match Map.find cbs x with
        | some cb => t ++ [Effect.keyCallback publication.area x cb none]
        | none => t)
    rw [ih1, ih2]
    by_cases hx : x = k
    · subst hx
      cases hcb : Map.find cbs x <;>
        simp [expiryCalls, delivered_append, filterDelivered_append, delivered, filterDelivered]
    · cases hcb : Map.find cbs x <;> cases hk : Map.find cbs k <;>
        simp [expiryCalls, delivered_append, filterDelivered_append, delivered, filterDelivered,
          hx]

/-- The state of a key of the publication's area after `processPublication`, from
its state after the loop over `keyVals`. -/
theorem processPublication_view_of_loop (K : Constants) (env : Env)
    (c c' : KvStoreClientInternal) (publication : Publication) (k : String)
    (h : processPublication K env c publication = some c') :
    (c'.view publication.area k).persisted
        = ((processKeyVals c publication).view publication.area k).persisted ∧
      (c'.view publication.area k).ttlBackoff
        = ((processKeyVals c publication).view publication.area k).ttlBackoff ∧
      (c'.view publication.area k).callback = (c.view publication.area k).callback ∧
      ((c'.view publication.area k).pending = true →
        ((processKeyVals c publication).view publication.area k).pending = true) ∧
      (c'.view publication.area k).delivered
        = ((processKeyVals c publication).view publication.area k).delivered
          ++ expiryCalls (c.view publication.area k).callback k publication.expiredKeys ∧
      (c'.view publication.area k).filterDelivered
        = ((processKeyVals c publication).view publication.area k).filterDelivered := by
  unfold processPublication at h
  split at h
  · simp at h
  · split at h
    · simp at h
    · rename_i c2 hadv
      obtain ⟨f, m⟩ := advertisePendingKeys_frame K env _ c2 hadv
      have hw := afterKeyVals_view c publication k
      have v1 := congrArg KeyView.persisted hw
      have v2 := congrArg KeyView.ttlBackoff hw
      have v3 := congrArg KeyView.pending hw
      have v4 := congrArg KeyView.callback hw
      have v5 := congrArg KeyView.delivered hw
      have v6 := congrArg KeyView.filterDelivered hw
      simp only [KvStoreClientInternal.view] at v1 v2 v3 v4 v5 v6
      have hd := f.delivered_eq publication.area k
      have hcb : Map.find (getArea c2.keyCallbacks_ publication.area) k
          = Map.find (getArea c.keyCallbacks_ publication.area) k := by
        rw [f.callbacks, v4]
        simp only [PubRefs.view, processKeyVals_callbacks]
      have hpend : decide (k ∈ getArea c2.keysToAdvertise_ publication.area) = true →
          ((processKeyVals c publication).view publication.area k).pending = true := by
        intro hk
        rw [← v3]
        simpa using m _ _ (by simpa using hk)
      split at h
      · simp only [Option.some.injEq] at h
        subst h
        obtain ⟨e1, e2⟩ := processExpiredKeys_delivered c2 publication k
        simp only [KvStoreClientInternal.view]
        refine ⟨?_, ?_, ?_, ?_, ?_, ?_⟩
        · simp only [processExpiredKeys, f.persisted]; exact v1
        · simp only [processExpiredKeys, f.ttl]; exact v2
        · simp only [processExpiredKeys, getArea_touchArea]; exact hcb
        · simpa only [processExpiredKeys] using hpend
        · rw [e1, hcb, hd.1, v5]
        · rw [e2, hd.2, v6]
      · rename_i hlen
        simp only [Option.some.injEq] at h
        subst h
        have hnil : publication.expiredKeys = [] := by
          cases hq : publication.expiredKeys with
          | nil => rfl
          | cons x xs => simp [hq] at hlen
        simp only [KvStoreClientInternal.view]
        refine ⟨?_, ?_, ?_, ?_, ?_, ?_⟩
        · rw [f.persisted]; exact v1
        · rw [f.ttl]; exact v2
        · exact hcb
        · exact hpend
        · rw [hd.1, v5, hnil]
          cases Map.find (getArea c.keyCallbacks_ publication.area) k <;> simp [expiryCalls]
        · rw [hd.2, v6]

/-- The state of a key carried by the publication after `processPublication`,
from the iteration of the loop that handles the key. -/
theorem processPublication_view_at (K : Constants) (env : Env)
    (c c' : KvStoreClientInternal) (publication : Publication) (k : String) (v : Value)
    (hnd : (publication.keyVals.map Prod.fst).Nodup) (hm : (k, v) ∈ publication.keyVals)
    (h : processPublication K env c publication = some c') :
    ∃ w : KeyView,
      w = (processKeyVal c.nodeId_ c.keyPrefixFilter_ c.keyPrefixFilterCallback_
            publication.area (headRefs c publication.area) (k, v)).view publication.area k ∧
      (c'.view publication.area k).persisted = w.persisted ∧
      (c'.view publication.area k).ttlBackoff = w.ttlBackoff ∧
      (c'.view publication.area k).callback = (c.view publication.area k).callback ∧
      ((c'.view publication.area k).pending = true → w.pending = true) ∧
      (c'.view publication.area k).delivered
        = w.delivered ++ expiryCalls (c.view publication.area k).callback k
            publication.expiredKeys ∧
      (c'.view publication.area k).filterDelivered = w.filterDelivered := by
  refine ⟨_, rfl, ?_⟩
  have hl := processPublication_view_of_loop K env c c' publication k h
  have hv : (processKeyVals c publication).view publication.area k
      = (processKeyVal c.nodeId_ c.keyPrefixFilter_ c.keyPrefixFilterCallback_
          publication.area (headRefs c publication.area) (k, v)).view publication.area k :=
    foldl_processKeyVal_view _ _ _ _ _ k v _ _ hnd hm
  rw [hv] at hl
  exact hl

/-! ## The version bumps -/

theorem syncTtlVersion_fields (currentValue rcvdValue : Value)
    (sk : Option (Value × ExponentialBackoff)) :
    (syncTtlVersion currentValue rcvdValue sk).1.version = currentValue.version ∧
      (syncTtlVersion currentValue rcvdValue sk).1.originatorId = currentValue.originatorId ∧
      (syncTtlVersion currentValue rcvdValue sk).1.value = currentValue.value ∧
      (syncTtlVersion currentValue rcvdValue sk).1.ttl = currentValue.ttl := by
  unfold syncTtlVersion
  cases sk with
  | none => simp only; split <;> simp
  | some e => obtain ⟨sv, b⟩ := e; simp only; split <;> simp

theorem syncTtlVersion_ttlVersion (currentValue rcvdValue : Value)
    (sk : Option (Value × ExponentialBackoff)) :
    (syncTtlVersion currentValue rcvdValue sk).1.ttlVersion
      = max (match sk with
              | some e => e.1.ttlVersion
              | none => currentValue.ttlVersion) rcvdValue.ttlVersion := by
  unfold syncTtlVersion
  cases sk with
  | none =>
    simp only
    split
    · rename_i h; simp only [max_def]; split <;> omega
    · rename_i h; simp only [max_def]; split <;> omega
  | some e =>
    obtain ⟨sv, b⟩ := e
    simp only
    split
    · rename_i h; simp only [max_def]; split <;> omega
    · rename_i h; simp only [max_def]; split <;> omega

theorem bumpVersion_higher (nodeId : String) (currentValue rcvdValue : Value)
    (h : currentValue.version < rcvdValue.version) :
    bumpVersion nodeId currentValue rcvdValue
      = ({ currentValue with
            originatorId := nodeId, version := wrapInt64 (rcvdValue.version + 1),
            ttlVersion := 0 }, true) := by
  simp [bumpVersion, h]

theorem bumpVersion_equal_changed (nodeId : String) (currentValue rcvdValue : Value)
    (hv : rcvdValue.version = currentValue.version)
    (h : rcvdValue.originatorId ≠ nodeId ∨ rcvdValue.value ≠ currentValue.value) :
    bumpVersion nodeId currentValue rcvdValue
      = ({ currentValue with
            originatorId := nodeId, version := wrapInt64 (currentValue.version + 1),
            ttlVersion := 0 },
          true) := by
  have hlt : ¬ currentValue.version < rcvdValue.version := by omega
  by_cases ho : rcvdValue.originatorId = nodeId
  · have hval : currentValue.value ≠ rcvdValue.value := by
      rcases h with h | h
      · exact absurd ho h
      · exact fun e => h e.symm
    simp [bumpVersion, hlt, ho, hval]
  · simp [bumpVersion, hlt, ho]

theorem bumpVersion_reflected (nodeId : String) (currentValue rcvdValue : Value)
    (hv : rcvdValue.version = currentValue.version) (ho : rcvdValue.originatorId = nodeId)
    (hval : rcvdValue.value = currentValue.value) :
    bumpVersion nodeId currentValue rcvdValue = (currentValue, false) := by
  have hlt : ¬ currentValue.version < rcvdValue.version := by omega
  simp [bumpVersion, hlt, ho, hval]

/-- The persisted entry of a persisted key after its iteration of the loop. -/
theorem processKeyVal_persisted (nodeId : String) (fm : String → Value → Bool)
    (fcb : Option KeyCallback) (area : AreaId) (st : PubRefs) (k : String)
    (cur rcvd : Value) (hcur : Map.find st.persistedKeyVals k = some cur)
    (hpay : rcvd.value.isSome = true) :
    Map.find (processKeyVal nodeId fm fcb area st (k, rcvd)).persistedKeyVals k
      = if cur.version > rcvd.version then some cur
        else some (syncTtlVersion (bumpVersion nodeId cur rcvd).1 rcvd
          (Map.find st.keyTtlBackoffs k)).1 := by
  have hn : ¬ rcvd.value.isNone = true := by
    cases hv : rcvd.value <;> simp [hv] at hpay ⊢
  unfold processKeyVal
  simp only [hn, hcur, if_false]
  unfold mergePersisted
  by_cases hgt : cur.version > rcvd.version
  · simp only [hgt, if_true]
    exact hcur
  · simp only [hgt, if_false]
    exact Map.find_assign_self _ _ _

/-- A received value with a lower version changes nothing. -/
theorem processKeyVal_ignored (nodeId : String) (fm : String → Value → Bool)
    (fcb : Option KeyCallback) (area : AreaId) (st : PubRefs) (k : String)
    (cur rcvd : Value) (hcur : Map.find st.persistedKeyVals k = some cur)
    (hlt : rcvd.version < cur.version) :
    processKeyVal nodeId fm fcb area st (k, rcvd) = st := by
  unfold processKeyVal
  simp only [hcur]
  split
  · rfl
  · unfold mergePersisted
    simp [hlt]

/-! ## Claims on processPublication for a persisted key -/

/-- C1, as amended: when a publication carries, for a persisted key, a value with
a payload whose version is higher than the persisted one and below the largest
value of the 64-bit field, then after `processPublication` the persisted entry
has this node's id as originator and version `received.version + 1`, and it
still holds the locally persisted payload.  Whatever the received version, the
new version is what the 64-bit field holds after the increment. -/
theorem processPublication_takes_ownership_back (K : Constants) (env : Env)
    (c c' : KvStoreClientInternal) (publication : Publication) (k : String) (rcvd cur : Value)
    (hnd : (publication.keyVals.map Prod.fst).Nodup) (hm : (k, rcvd) ∈ publication.keyVals)
    (hpay : rcvd.value.isSome = true)
    (hcur : (c.view publication.area k).persisted = some cur)
    (hgt : rcvd.version > cur.version)
    (hrun : processPublication K env c publication = some c') :
    ∃ new, (c'.view publication.area k).persisted = some new ∧
      new.originatorId = c.nodeId_ ∧ new.version = wrapInt64 (rcvd.version + 1) ∧
      (int64Min ≤ rcvd.version → rcvd.version < int64Max → new.version = rcvd.version + 1) ∧
      new.value = cur.value := by
  obtain ⟨w, hw, hp, -⟩ := processPublication_view_at K env c c' publication k rcvd hnd hm hrun
  have hstep := processKeyVal_persisted c.nodeId_ c.keyPrefixFilter_ c.keyPrefixFilterCallback_
    publication.area (headRefs c publication.area) k cur rcvd hcur hpay
  have hng : ¬ cur.version > rcvd.version := by omega
  rw [if_neg hng] at hstep
  have hnew : (c'.view publication.area k).persisted
      = some (syncTtlVersion (bumpVersion c.nodeId_ cur rcvd).1 rcvd
          (Map.find (headRefs c publication.area).keyTtlBackoffs k)).1 := by
    rw [hp, hw]
    exact hstep
  have hf := syncTtlVersion_fields (bumpVersion c.nodeId_ cur rcvd).1 rcvd
    (Map.find (headRefs c publication.area).keyTtlBackoffs k)
  refine ⟨_, hnew, ?_⟩
  rw [hf.2.1, hf.1, hf.2.2.1, bumpVersion_higher c.nodeId_ cur rcvd hgt]
  exact ⟨rfl, rfl, fun hlo hhi => wrapInt64_succ _ hlo hhi, rfl⟩

/-- Witness of C1 as amended: local `(k, ver=3, originator=self)` receiving
`(k, ver=5, originator=peer)` ends with `ver=6, originator=self` and the local
payload. -/
theorem processPublication_takes_ownership_back_witness :
    ∃ new, (Sample.afterConflict.view "a" "k").persisted = some new ∧
      new.originatorId = "self" ∧ new.version = 6 ∧ new.value = some "v1" := by
  obtain ⟨new, h1, h2, -, h4, h5⟩ := processPublication_takes_ownership_back Sample.constants
    Sample.env Sample.client Sample.afterConflict Sample.conflictPub "k" Sample.peerValue
    Sample.localValue (by decide) (by decide) (by decide) (by decide) (by decide) rfl
  exact ⟨new, h1, h2, h4 (by decide) (by decide), h5⟩

/-- Counterexample to C1 as stated: local `ver=3` receiving from a peer the
largest version of the 64-bit field, `2^63 - 1`; ownership is taken back with
the version `-2^63` the increment wraps to, which is not the received version
+ 1 and is below both versions. -/
theorem processPublication_takes_ownership_back_counterexample :
    Sample.topValue.version > Sample.localValue.version ∧
      (processPublication Sample.constants Sample.env Sample.client Sample.topPub).map
          (fun c' => (c'.view "a" "k").persisted)
        = some (some { version := -9223372036854775808, originatorId := "self",
                       value := some "v1", ttl := -2147483648, ttlVersion := 0 }) ∧
      (-9223372036854775808 : Int) ≠ Sample.topValue.version + 1 := by
  decide

/-- C2, as amended: when `processPublication` takes ownership of a persisted key
back because the received version is higher, the ttl-version is reset to 0 and
then synchronised, so that it ends as the greater of the received ttl-version
and the ttl-version of the key's ttl backoff entry (0 without one). -/
theorem processPublication_ownership_ttlVersion (K : Constants) (env : Env)
    (c c' : KvStoreClientInternal) (publication : Publication) (k : String) (rcvd cur : Value)
    (hnd : (publication.keyVals.map Prod.fst).Nodup) (hm : (k, rcvd) ∈ publication.keyVals)
    (hpay : rcvd.value.isSome = true)
    (hcur : (c.view publication.area k).persisted = some cur)
    (hgt : rcvd.version > cur.version)
    (hrun : processPublication K env c publication = some c') :
    ∃ new, (c'.view publication.area k).persisted = some new ∧
      new.ttlVersion
        = max (match (c.view publication.area k).ttlBackoff with
                | some e => e.1.ttlVersion
                | none => 0) rcvd.ttlVersion := by
  obtain ⟨w, hw, hp, -⟩ := processPublication_view_at K env c c' publication k rcvd hnd hm hrun
  have hstep := processKeyVal_persisted c.nodeId_ c.keyPrefixFilter_ c.keyPrefixFilterCallback_
    publication.area (headRefs c publication.area) k cur rcvd hcur hpay
  have hng : ¬ cur.version > rcvd.version := by omega
  rw [if_neg hng] at hstep
  have hnew : (c'.view publication.area k).persisted
      = some (syncTtlVersion (bumpVersion c.nodeId_ cur rcvd).1 rcvd
          (Map.find (headRefs c publication.area).keyTtlBackoffs k)).1 := by
    rw [hp, hw]
    exact hstep
  refine ⟨_, hnew, ?_⟩
  rw [syncTtlVersion_ttlVersion, bumpVersion_higher c.nodeId_ cur rcvd hgt]
  rfl

/-- Witness of C2 as amended, on the version-conflict scenario with a received
ttl-version of 7 and no ttl backoff entry. -/
theorem processPublication_ownership_ttlVersion_witness :
    ∃ new, (Sample.afterConflictTtl.view "a" "k").persisted = some new ∧
      new.ttlVersion = 7 :=
  processPublication_ownership_ttlVersion Sample.constants Sample.env Sample.client
    Sample.afterConflictTtl Sample.conflictPubTtl "k" { Sample.peerValue with ttlVersion := 7 }
    Sample.localValue (by decide) (by decide) (by decide) (by decide) (by decide) rfl

/-- Counterexample to C2 as stated: local `ver=3`, received `ver=5` from a peer
with ttl-version 7; ownership is taken back (`ver=6`, originator `self`) and the
persisted ttl-version is 7, not 0. -/
theorem processPublication_ownership_ttlVersion_counterexample :
    (processPublication Sample.constants Sample.env Sample.client
        { area := "a"
          keyVals :=
            [("k", { version := 5, originatorId := "peer", value := some "v1x",
                     ttl := -2147483648, ttlVersion := 7 })]
          expiredKeys := [] }).map (fun c' => (c'.view "a" "k").persisted)
      = some (some { version := 6, originatorId := "self", value := some "v1",
                     ttl := -2147483648, ttlVersion := 7 }) := by
  decide

/-- C3, as amended: when a publication carries, for a persisted key, a value with
a payload whose version equals the persisted one, and the received originator is
not this node, or it is this node and the received payload differs from the
persisted one, then afterwards, the version being below the largest value of
the 64-bit field, the persisted version is the old version + 1; the originator
is this node's id and the persisted payload is unchanged.  Whatever the version,
the new version is what the 64-bit field holds after the increment. -/
theorem processPublication_equal_version_bump (K : Constants) (env : Env)
    (c c' : KvStoreClientInternal) (publication : Publication) (k : String) (rcvd cur : Value)
    (hnd : (publication.keyVals.map Prod.fst).Nodup) (hm : (k, rcvd) ∈ publication.keyVals)
    (hpay : rcvd.value.isSome = true)
    (hcur : (c.view publication.area k).persisted = some cur)
    (heq : rcvd.version = cur.version)
    (hdiff : rcvd.originatorId ≠ c.nodeId_ ∨
      (rcvd.originatorId = c.nodeId_ ∧ rcvd.value ≠ cur.value))
    (hrun : processPublication K env c publication = some c') :
    ∃ new, (c'.view publication.area k).persisted = some new ∧
      new.version = wrapInt64 (cur.version + 1) ∧
      (int64Min ≤ cur.version → cur.version < int64Max → new.version = cur.version + 1) ∧
      new.originatorId = c.nodeId_ ∧ new.value = cur.value := by
  obtain ⟨w, hw, hp, -⟩ := processPublication_view_at K env c c' publication k rcvd hnd hm hrun
  have hstep := processKeyVal_persisted c.nodeId_ c.keyPrefixFilter_ c.keyPrefixFilterCallback_
    publication.area (headRefs c publication.area) k cur rcvd hcur hpay
  have hng : ¬ cur.version > rcvd.version := by omega
  rw [if_neg hng] at hstep
  have hnew : (c'.view publication.area k).persisted
      = some (syncTtlVersion (bumpVersion c.nodeId_ cur rcvd).1 rcvd
          (Map.find (headRefs c publication.area).keyTtlBackoffs k)).1 := by
    rw [hp, hw]
    exact hstep
  have hf := syncTtlVersion_fields (bumpVersion c.nodeId_ cur rcvd).1 rcvd
    (Map.find (headRefs c publication.area).keyTtlBackoffs k)
  have hd : rcvd.originatorId ≠ c.nodeId_ ∨ rcvd.value ≠ cur.value := by
    rcases hdiff with h | h
    · exact Or.inl h
    · exact Or.inr h.2
  refine ⟨_, hnew, ?_⟩
  rw [hf.2.1, hf.1, hf.2.2.1, bumpVersion_equal_changed c.nodeId_ cur rcvd heq hd]
  exact ⟨rfl, fun hlo hhi => wrapInt64_succ _ hlo hhi, rfl, rfl⟩

/-- Witness of C3 as amended: the key reflected back with version 3, originator
`self` and another payload ends with version 4, originator `self` and the local
payload. -/
theorem processPublication_equal_version_bump_witness :
    ∃ new, (Sample.afterReflected.view "a" "k").persisted = some new ∧
      new.version = 4 ∧ new.originatorId = "self" ∧ new.value = some "v1" := by
  obtain ⟨new, h1, -, h3, h4, h5⟩ := processPublication_equal_version_bump Sample.constants
    Sample.env Sample.client Sample.afterReflected Sample.reflectedPub "k"
    { Sample.localValue with value := some "v0" } Sample.localValue (by decide) (by decide)
    (by decide) (by decide) (by decide) (by decide) rfl
  exact ⟨new, h1, h3 (by decide) (by decide), h4, h5⟩

/-- Counterexample to C3 as stated: the key persisted with the largest version of
the 64-bit field, `2^63 - 1`, receiving that version from a peer; the persisted
version becomes `-2^63`, not the old version + 1. -/
theorem processPublication_equal_version_bump_counterexample :
    (Sample.topClient.view "a" "k").persisted.map (fun cur => cur.version)
        = some Sample.topValue.version ∧
      Sample.topValue.originatorId ≠ Sample.topClient.nodeId_ ∧
      (processPublication Sample.constants Sample.env Sample.topClient Sample.topPub).map
          (fun c' => (c'.view "a" "k").persisted)
        = some (some { version := -9223372036854775808, originatorId := "self",
                       value := some "v1", ttl := -2147483648, ttlVersion := 0 }) ∧
      (-9223372036854775808 : Int) ≠ Sample.topValue.version + 1 := by
  decide

theorem expiryCalls_absent (cb : Option KeyCallback) (k : String) (expiredKeys : List String)
    (h : k ∉ expiredKeys) : expiryCalls cb k expiredKeys = [] := by
  unfold expiryCalls
  cases cb with
  | none => rfl
  | some _ =>
    simp only [List.map_eq_nil_iff, List.filter_eq_nil_iff, decide_eq_true_eq]
    intro x hx e
    exact h (e ▸ hx)

/-- C4: when a publication carries, for a persisted key, a value whose version is
strictly lower than the persisted one, the received value is ignored: after
`processPublication` the persisted entry and the key's ttl backoff entry are
unchanged, the key's callback has been invoked for nothing but the expired keys
of the publication (not at all when the key is not among them), and the key is
not added to the pending keys. -/
theorem processPublication_ignores_lower_version (K : Constants) (env : Env)
    (c c' : KvStoreClientInternal) (publication : Publication) (k : String) (rcvd cur : Value)
    (hnd : (publication.keyVals.map Prod.fst).Nodup) (hm : (k, rcvd) ∈ publication.keyVals)
    (hcur : (c.view publication.area k).persisted = some cur)
    (hlt : rcvd.version < cur.version)
    (hrun : processPublication K env c publication = some c') :
    (c'.view publication.area k).persisted = some cur ∧
      (c'.view publication.area k).ttlBackoff = (c.view publication.area k).ttlBackoff ∧
      (c'.view publication.area k).delivered
        = (c.view publication.area k).delivered
          ++ expiryCalls (c.view publication.area k).callback k publication.expiredKeys ∧
      (k ∉ publication.expiredKeys →
        (c'.view publication.area k).delivered = (c.view publication.area k).delivered) ∧
      ((c.view publication.area k).pending = false →
        (c'.view publication.area k).pending = false) := by
  obtain ⟨w, hw, hp, ht, -, hpend, hdel, -⟩ :=
    processPublication_view_at K env c c' publication k rcvd hnd hm hrun
  rw [processKeyVal_ignored c.nodeId_ c.keyPrefixFilter_ c.keyPrefixFilterCallback_
    publication.area (headRefs c publication.area) k cur rcvd hcur hlt, headRefs_view] at hw
  subst hw
  refine ⟨hp.trans hcur, ht, hdel, ?_, ?_⟩
  · intro hk
    rw [hdel, expiryCalls_absent _ _ _ hk, List.append_nil]
  · intro hf
    cases hq : (c'.view publication.area k).pending with
    | false => rfl
    | true => rw [hpend hq] at hf; exact absurd hf (by decide)

/-- Witness of C4: the key persisted with version 3 receiving version 2. -/
theorem processPublication_ignores_lower_version_witness :
    (Sample.afterStale.view "a" "k").persisted = some Sample.localValue ∧
      (Sample.afterStale.view "a" "k").ttlBackoff = (Sample.client.view "a" "k").ttlBackoff ∧
      (Sample.afterStale.view "a" "k").delivered
        = (Sample.client.view "a" "k").delivered
          ++ expiryCalls (Sample.client.view "a" "k").callback "k" [] ∧
      ("k" ∉ ([] : List String) →
        (Sample.afterStale.view "a" "k").delivered = (Sample.client.view "a" "k").delivered) ∧
      ((Sample.client.view "a" "k").pending = false →
        (Sample.afterStale.view "a" "k").pending = false) :=
  processPublication_ignores_lower_version Sample.constants Sample.env Sample.client
    Sample.afterStale Sample.stalePub "k" { Sample.peerValue with version := 2 }
    Sample.localValue (by decide) (by decide) (by decide) (by decide) rfl

/-! ## Claims on processPublication for a key that is not persisted -/

theorem processKeyVal_unpersisted (nodeId : String) (fm : String → Value → Bool)
    (fcb : Option KeyCallback) (area : AreaId) (st : PubRefs) (k : String) (rcvd : Value)
    (hnone : Map.find st.persistedKeyVals k = none) (hpay : rcvd.value.isSome = true) :
    processKeyVal nodeId fm fcb area st (k, rcvd)
      = { st with
          keyTtlBackoffs := updateSetKey st k rcvd
          trace := notifyUnpersisted fm fcb area st k rcvd } := by
  have hn : ¬ rcvd.value.isNone = true := by
    cases hv : rcvd.value <;> simp [hv] at hpay ⊢
  unfold processKeyVal
  simp [hn, hnone]

theorem notifyUnpersisted_delivered (fm : String → Value → Bool) (fcb : Option KeyCallback)
    (area : AreaId) (st : PubRefs) (k : String) (rcvd : Value) :
    delivered area k (notifyUnpersisted fm fcb area st k rcvd)
        = delivered area k st.trace
          ++ (match Map.find st.callbacks k with
              | some cb => [(cb, some rcvd)]
              | none => []) ∧
      filterDelivered k (notifyUnpersisted fm fcb area st k rcvd)
        = filterDelivered k st.trace
          ++ (match fcb with
              | some f => if fm k rcvd = true then [(f, some rcvd)] else []
              | none => []) := by
  unfold notifyUnpersisted
  cases hcb : Map.find st.callbacks k <;> cases fcb <;>
    by_cases hm : fm k rcvd = true <;>
    simp [hm, delivered_append, filterDelivered_append, delivered, filterDelivered]

/-- What `processPublication` does for a key it carries with a payload and that is
not persisted. -/
theorem processPublication_unpersisted_view (K : Constants) (env : Env)
    (c c' : KvStoreClientInternal) (publication : Publication) (k : String) (rcvd : Value)
    (hnd : (publication.keyVals.map Prod.fst).Nodup) (hm : (k, rcvd) ∈ publication.keyVals)
    (hpay : rcvd.value.isSome = true)
    (hnone : (c.view publication.area k).persisted = none)
    (hrun : processPublication K env c publication = some c') :
    (c'.view publication.area k).delivered
        = (c.view publication.area k).delivered
          ++ (match (c.view publication.area k).callback with
              | some cb => [(cb, some rcvd)]
              | none => [])
          ++ expiryCalls (c.view publication.area k).callback k publication.expiredKeys ∧
      (c'.view publication.area k).filterDelivered
        = (c.view publication.area k).filterDelivered
          ++ (match c.keyPrefixFilterCallback_ with
              | some f => if c.keyPrefixFilter_ k rcvd = true then [(f, some rcvd)] else []
              | none => []) ∧
      (c'.view publication.area k).persisted = none ∧
      ((c.view publication.area k).pending = false →
        (c'.view publication.area k).pending = false) ∧
      (∀ st : PubRefs, Map.find st.persistedKeyVals k = none →
        (processKeyVal c.nodeId_ c.keyPrefixFilter_ c.keyPrefixFilterCallback_
            publication.area st (k, rcvd)).persistedKeyVals = st.persistedKeyVals ∧
        (processKeyVal c.nodeId_ c.keyPrefixFilter_ c.keyPrefixFilterCallback_
            publication.area st (k, rcvd)).keysToAdvertise = st.keysToAdvertise) := by
  obtain ⟨w, hw, hp, -, -, hpend, hdel, hfil⟩ :=
    processPublication_view_at K env c c' publication k rcvd hnd hm hrun
  rw [processKeyVal_unpersisted c.nodeId_ c.keyPrefixFilter_ c.keyPrefixFilterCallback_
    publication.area (headRefs c publication.area) k rcvd hnone hpay] at hw
  obtain ⟨n1, n2⟩ := notifyUnpersisted_delivered c.keyPrefixFilter_ c.keyPrefixFilterCallback_
    publication.area (headRefs c publication.area) k rcvd
  subst hw
  refine ⟨?_, ?_, ?_, ?_, ?_⟩
  · rw [hdel]
    simp only [PubRefs.view, n1]
    rfl
  · rw [hfil]
    simp only [PubRefs.view, n2]
    rfl
  · rw [hp]
    exact hnone
  · intro hf
    cases hq : (c'.view publication.area k).pending with
    | false => rfl
    | true =>
      have h2 := hpend hq
      simp only [PubRefs.view] at h2
      exact absurd (hf.symm.trans h2) (by decide)
  · intro st hst
    rw [processKeyVal_unpersisted _ _ _ _ st k rcvd hst hpay]
    exact ⟨rfl, rfl⟩

/-- C10: when a publication carries a value with a payload for a key that is not
persisted, the per-key callback registered for the key in the area, if any, is
invoked exactly once with the received value (besides the invocations with
"none" for the expired keys of the publication); the prefix-filter callback is
invoked exactly once with the received value if a filter callback is registered
and the filter matches, and not at all otherwise; the iteration leaves the
persisted map and the pending keys as they are, so that the key is still not
persisted afterwards and has not been added to the pending keys. -/
theorem processPublication_unpersisted_key (K : Constants) (env : Env)
    (c c' : KvStoreClientInternal) (publication : Publication) (k : String) (rcvd : Value)
    (hnd : (publication.keyVals.map Prod.fst).Nodup) (hm : (k, rcvd) ∈ publication.keyVals)
    (hpay : rcvd.value.isSome = true)
    (hnone : (c.view publication.area k).persisted = none)
    (hrun : processPublication K env c publication = some c') :
    (c'.view publication.area k).delivered
        = (c.view publication.area k).delivered
          ++ (match (c.view publication.area k).callback with
              | some cb => [(cb, some rcvd)]
              | none => [])
          ++ expiryCalls (c.view publication.area k).callback k publication.expiredKeys ∧
      (c'.view publication.area k).filterDelivered
        = (c.view publication.area k).filterDelivered
          ++ (match c.keyPrefixFilterCallback_ with
              | some f => if c.keyPrefixFilter_ k rcvd = true then [(f, some rcvd)] else []
              | none => []) ∧
      (c'.view publication.area k).persisted = none ∧
      ((c.view publication.area k).pending = false →
        (c'.view publication.area k).pending = false) ∧
      (∀ st : PubRefs, Map.find st.persistedKeyVals k = none →
        (processKeyVal c.nodeId_ c.keyPrefixFilter_ c.keyPrefixFilterCallback_
            publication.area st (k, rcvd)).persistedKeyVals = st.persistedKeyVals ∧
        (processKeyVal c.nodeId_ c.keyPrefixFilter_ c.keyPrefixFilterCallback_
            publication.area st (k, rcvd)).keysToAdvertise = st.keysToAdvertise) :=
  processPublication_unpersisted_view K env c c' publication k rcvd hnd hm hpay hnone hrun

/-- Witness of C10: a subscriber of the key `j`, with a prefix filter matching
every key, receives `j` from a peer: each callback is invoked once. -/
theorem processPublication_unpersisted_key_witness :
    (Sample.afterForeign.view "a" "j").delivered = [(8, some Sample.peerValue)] ∧
      (Sample.afterForeign.view "a" "j").filterDelivered = [(9, some Sample.peerValue)] ∧
      (Sample.afterForeign.view "a" "j").persisted = none ∧
      (Sample.afterForeign.view "a" "j").pending = false := by
  have h := processPublication_unpersisted_key Sample.constants Sample.env Sample.subscriber
    Sample.afterForeign Sample.foreignPub "j" Sample.peerValue (by decide) (by decide)
    (by decide) (by decide) rfl
  exact ⟨h.1.trans (by decide), h.2.1.trans (by decide), h.2.2.1, h.2.2.2.1 (by decide)⟩

/-! ## Claims on setKey and unsetKey -/

/-- What the store lookup of `getKey` returns: nothing when the call fails or
the answer does not hold the key. -/
theorem getKey_result (env : Env) (c : KvStoreClientInternal) (area : AreaId) (key : String) :
    (getKey env c area key).1
        = (env.getKvStoreKeyVals area [key]).bind (fun kvs => Map.find kvs key) ∧
      (getKey env c area key).2
        = { c with trace := c.trace ++ [Effect.getKvStoreKeyVals area [key]] } := by
  unfold getKey
  cases env.getKvStoreKeyVals area [key] <;> exact ⟨rfl, rfl⟩

theorem buildThriftValue_frame (env : Env) (c : KvStoreClientInternal) (area : AreaId)
    (key value : String) (version : Nat) (ttl : Int) :
    (buildThriftValue env c area key value version ttl).2.persistedKeyVals_
        = c.persistedKeyVals_ ∧
      storeWrites (buildThriftValue env c area key value version ttl).2.trace
        = storeWrites c.trace ∧
      (buildThriftValue env c area key value version ttl).1.value = some value := by
  unfold buildThriftValue
  simp only
  split
  · have h := (getKey_result env c area key).2
    split <;> simp [h, storeWrites_append, storeWrites, createThriftValue]
  · exact ⟨rfl, rfl, rfl⟩

theorem scheduleTtlUpdates_frame (K : Constants) (env : Env) (c : KvStoreClientInternal)
    (area : AreaId) (key : String) (version ttlVersion : Nat) (ttl : Int) (now : Bool) :
    (scheduleTtlUpdates K env c area key version ttlVersion ttl now).persistedKeyVals_
        = c.persistedKeyVals_ ∧
      (scheduleTtlUpdates K env c area key version ttlVersion ttl now).trace = c.trace := by
  unfold scheduleTtlUpdates
  simp only
  split <;> exact ⟨rfl, rfl⟩

/-- What `setKey` sends and what it leaves alone. -/
theorem setKey_result (K : Constants) (env : Env) (c : KvStoreClientInternal) (area : AreaId)
    (key value : String) (version : Nat) (ttl : Int) :
    ∃ r, setKey K env c area key value version ttl = some r ∧
      r.2.persistedKeyVals_ = c.persistedKeyVals_ ∧
      storeWrites r.2.trace
        = storeWrites c.trace
          ++ [(area, [(key, (buildThriftValue env c area key value version ttl).1)])] := by
  obtain ⟨b1, b2, b3⟩ := buildThriftValue_frame env c area key value version ttl
  unfold setKey
  simp only
  unfold setKeyValue
  simp only [b3, Option.isNone_some, Bool.false_eq_true, if_false]
  refine ⟨_, rfl, ?_, ?_⟩
  · rw [(scheduleTtlUpdates_frame _ _ _ _ _ _ _ _ _).1]
    simp only [setKeysHelper, List.isEmpty_cons, Bool.false_eq_true, if_false]
    exact b1
  · rw [(scheduleTtlUpdates_frame _ _ _ _ _ _ _ _ _).2]
    simp only [setKeysHelper, List.isEmpty_cons, Bool.false_eq_true, if_false,
      storeWrites_append, b2]
    rfl

/-- C6, as amended: with a version argument of 0 the value built by
`buildThriftValue` has version `v + 1` when the store lookup returns the key with
a version `v` below the largest value of the 64-bit field (whatever `v`, the
version is what the field holds after the increment), and version 1 when the
lookup returns nothing (key absent or lookup failed); with a non-zero argument
its version is the argument.  In every case its originator is this node's id,
its payload the given payload, its ttl the given ttl and its ttl-version 0; and
this value is the one `setKey` writes to the store. -/
theorem buildThriftValue_version (K : Constants) (env : Env) (c : KvStoreClientInternal)
    (area : AreaId) (key value : String) (version : Nat) (ttl : Int)
    (hver : version < 2 ^ 32) :
    (version = 0 →
        (∀ v, (env.getKvStoreKeyVals area [key]).bind (fun kvs => Map.find kvs key) = some v →
          (buildThriftValue env c area key value version ttl).1.version
              = wrapInt64 (v.version + 1) ∧
            (int64Min ≤ v.version → v.version < int64Max →
              (buildThriftValue env c area key value version ttl).1.version = v.version + 1)) ∧
        ((env.getKvStoreKeyVals area [key]).bind (fun kvs => Map.find kvs key) = none →
          (buildThriftValue env c area key value version ttl).1.version = 1)) ∧
      (version ≠ 0 → (buildThriftValue env c area key value version ttl).1.version = version) ∧
      (buildThriftValue env c area key value version ttl).1.originatorId = c.nodeId_ ∧
      (buildThriftValue env c area key value version ttl).1.value = some value ∧
      (buildThriftValue env c area key value version ttl).1.ttl = ttl ∧
      (buildThriftValue env c area key value version ttl).1.ttlVersion = 0 ∧
      ∃ r, setKey K env c area key value version ttl = some r ∧
        storeWrites r.2.trace
          = storeWrites c.trace
            ++ [(area, [(key, (buildThriftValue env c area key value version ttl).1)])] := by
  have hmod : toUInt32 version = version := Nat.mod_eq_of_lt hver
  have hg := (getKey_result env c area key).1
  obtain ⟨r, hr, -, hw⟩ := setKey_result K env c area key value version ttl
  refine ⟨?_, ?_, ?_, ?_, ?_, ?_, r, hr, hw⟩
  · intro h0
    subst h0
    constructor
    · intro v hv
      rw [← hg] at hv
      have hb : (buildThriftValue env c area key value 0 ttl).1.version
          = wrapInt64 (v.version + 1) := by
        simp [buildThriftValue, toUInt32, hv]
      exact ⟨hb, fun hlo hhi => hb.trans (wrapInt64_succ _ hlo hhi)⟩
    · intro hv
      rw [← hg] at hv
      simp [buildThriftValue, toUInt32, hv]
  · intro h0
    simp [buildThriftValue, hmod, h0, createThriftValue]
  all_goals
    unfold buildThriftValue
    simp only [hmod]
    split
    · split <;> rfl
    · rfl

/-- Witness of C6 as amended: an unspecified version for a key the store holds
with version 5 is advertised with version 6. -/
theorem buildThriftValue_version_witness :
    (0 : Nat) < 2 ^ 32 ∧
      (buildThriftValue
          { Sample.env with getKvStoreKeyVals := fun _ _ => some [("k", Sample.peerValue)] }
          Sample.client "a" "k" "pay" 0 3000).1.version = 6 :=
  ⟨by decide,
    ((((buildThriftValue_version Sample.constants
        { Sample.env with getKvStoreKeyVals := fun _ _ => some [("k", Sample.peerValue)] }
        Sample.client "a" "k" "pay" 0 3000 (by decide)).1 rfl).1 Sample.peerValue rfl).2
      (by decide) (by decide))⟩

/-- Counterexample to C6 as stated: the store holds the key with the largest
version of the 64-bit field, `v = 2^63 - 1`; with a version argument of 0 the
value built, and written to the store by `setKey`, has version `-2^63`, not
`v + 1`. -/
theorem buildThriftValue_version_counterexample :
    (buildThriftValue
          { Sample.env with getKvStoreKeyVals := fun _ _ => some [("k", Sample.topValue)] }
          Sample.client "a" "k" "pay" 0 3000).1
        = { version := -9223372036854775808, originatorId := "self", value := some "pay",
            ttl := 3000, ttlVersion := 0 } ∧
      (setKey Sample.constants
          { Sample.env with getKvStoreKeyVals := fun _ _ => some [("k", Sample.topValue)] }
          Sample.client "a" "k" "pay" 0 3000).map (fun r => storeWrites r.2.trace)
        = some [("a", [("k", { version := -9223372036854775808, originatorId := "self",
                               value := some "pay", ttl := 3000, ttlVersion := 0 })])] ∧
      (-9223372036854775808 : Int) ≠ Sample.topValue.version + 1 := by
  decide

/-- C7, as amended: `setKey` always returns; it leaves the persisted map as it
is (a key that is set is not persisted) and sends the full value built by
`buildThriftValue` to the store in one write for that key. -/
theorem setKey_does_not_persist (K : Constants) (env : Env) (c : KvStoreClientInternal)
    (area : AreaId) (key value : String) (version : Nat) (ttl : Int) :
    ∃ r, setKey K env c area key value version ttl = some r ∧
      r.2.persistedKeyVals_ = c.persistedKeyVals_ ∧
      storeWrites r.2.trace
        = storeWrites c.trace
          ++ [(area, [(key, (buildThriftValue env c area key value version ttl).1)])] :=
  setKey_result K env c area key value version ttl

/-- Counterexample to C7 as stated: after `setKey(a, z, pay, 0, 3000)` on a client
that does not persist `z`, the value with version 1 has been written to the
store and the persisted map of `a` still has no entry for `z`. -/
theorem setKey_does_not_persist_counterexample :
    (setKey Sample.constants Sample.env Sample.client "a" "z" "pay" 0 3000).map
        (fun r => ((r.2.view "a" "z").persisted, storeWrites r.2.trace))
      = some (none,
          [("a", [("z", { version := 1, originatorId := "self", value := some "pay",
                          ttl := 3000, ttlVersion := 0 })])]) := by
  decide

/-- C8: after `unsetKey(area, key)` the key is absent from the area's persisted
map, ttl backoffs, pending keys and advertise backoffs; every other key of the
area and every key of every other area is bound as before in these four
structures; and the trace is unchanged, so nothing is sent to the store. -/
theorem unsetKey_frame (c : KvStoreClientInternal) (area : AreaId) (key : String) :
    ((unsetKey c area key).view area key).persisted = none ∧
      ((unsetKey c area key).view area key).ttlBackoff = none ∧
      ((unsetKey c area key).view area key).pending = false ∧
      Map.find (getArea (unsetKey c area key).backoffs_ area) key = none ∧
      (∀ (a : AreaId) (k : String), ¬ (a = area ∧ k = key) →
        ((unsetKey c area key).view a k).persisted = (c.view a k).persisted ∧
        ((unsetKey c area key).view a k).ttlBackoff = (c.view a k).ttlBackoff ∧
        ((unsetKey c area key).view a k).pending = (c.view a k).pending ∧
        Map.find (getArea (unsetKey c area key).backoffs_ a) k
          = Map.find (getArea c.backoffs_ a) k) ∧
      (unsetKey c area key).trace = c.trace ∧
      storeWrites (unsetKey c area key).trace = storeWrites c.trace := by
  refine ⟨?_, ?_, ?_, ?_, ?_, rfl, rfl⟩
  · simp [unsetKey, KvStoreClientInternal.view, getArea_assign_self, Map.find_erase_self]
  · simp [unsetKey, KvStoreClientInternal.view, getArea_assign_self, Map.find_erase_self]
  · simp [unsetKey, KvStoreClientInternal.view, getArea_assign_self, KeySet.mem_erase_iff]
  · simp [unsetKey, getArea_assign_self, Map.find_erase_self]
  · intro a k hne
    by_cases ha : area = a
    · subst ha
      have hk : key ≠ k := fun e => hne ⟨rfl, e.symm⟩
      have hk2 : k ≠ key := fun e => hk e.symm
      simp [unsetKey, KvStoreClientInternal.view, getArea_assign_self,
        Map.find_erase_ne _ hk, KeySet.mem_erase_iff, hk2]
    · simp [unsetKey, KvStoreClientInternal.view, getArea_assign_ne _ _ ha]

theorem unsetKey_view (c : KvStoreClientInternal) (area : AreaId) (key : String) :
    ((unsetKey c area key).view area key).persisted = none ∧
      ((unsetKey c area key).view area key).callback = (c.view area key).callback ∧
      ((unsetKey c area key).view area key).delivered = (c.view area key).delivered := by
  refine ⟨?_, rfl, rfl⟩
  simp [unsetKey, KvStoreClientInternal.view, getArea_assign_self, Map.find_erase_self]

/-- C9, as amended: `unsetKey` leaves the callbacks map as it is; a callback
registered for the key stays registered (`unsubscribeKey` is what removes it),
and a later publication carrying the key with a payload invokes it with the
received value. -/
theorem unsetKey_keeps_callback (K : Constants) (env : Env) (c c' : KvStoreClientInternal)
    (publication : Publication) (key : String) (rcvd : Value)
    (hnd : (publication.keyVals.map Prod.fst).Nodup) (hm : (key, rcvd) ∈ publication.keyVals)
    (hpay : rcvd.value.isSome = true)
    (hrun : processPublication K env (unsetKey c publication.area key) publication = some c') :
    (unsetKey c publication.area key).keyCallbacks_ = c.keyCallbacks_ ∧
      ((unsubscribeKey c publication.area key).view publication.area key).callback = none ∧
      (c'.view publication.area key).delivered
        = (c.view publication.area key).delivered
          ++ (match (c.view publication.area key).callback with
              | some cb => [(cb, some rcvd)]
              | none => [])
          ++ expiryCalls (c.view publication.area key).callback key
              publication.expiredKeys := by
  obtain ⟨u1, u2, u3⟩ := unsetKey_view c publication.area key
  have h := (processPublication_unpersisted_view K env (unsetKey c publication.area key) c'
    publication key rcvd hnd hm hpay u1 hrun).1
  rw [u2, u3] at h
  refine ⟨rfl, ?_, h⟩
  simp [unsubscribeKey, KvStoreClientInternal.view, getArea_assign_self, Map.find_erase_self]

/-- Witness of C9 as amended: the client unsets `k` and then receives `k` from a
peer; the callback registered for `k` is invoked with the peer's value. -/
theorem unsetKey_keeps_callback_witness :
    (unsetKey Sample.client "a" "k").keyCallbacks_ = Sample.client.keyCallbacks_ ∧
      (Sample.afterUnset.view "a" "k").delivered = [(7, some Sample.peerValue)] := by
  have h := unsetKey_keeps_callback Sample.constants Sample.env Sample.client
    Sample.afterUnset Sample.conflictPub "k" Sample.peerValue (by decide) (by decide)
    (by decide) rfl
  exact ⟨h.1, h.2.2.trans (by decide)⟩

/-- Counterexample to C9 as stated: after `unsetKey(a, k)` the callback 7 is still
registered for `k` in `a`, and the publication of the peer's value for `k` that
follows invokes it. -/
theorem unsetKey_keeps_callback_counterexample :
    ((unsetKey Sample.client "a" "k").view "a" "k").callback = some 7 ∧
      (processPublication Sample.constants Sample.env (unsetKey Sample.client "a" "k")
          Sample.conflictPub).map (fun c' => c'.trace)
        = some [Effect.keyCallback "a" "k" 7 (some Sample.peerValue)] := by
  decide

/-! ## Lookups in a map with distinct keys -/

namespace Map

variable {κ α : Type} [DecidableEq κ]

theorem find_eq_none_iff (m : KeyMap κ α) (k : κ) : find m k = none ↔ k ∉ m.map Prod.fst := by
  induction m with
  | nil => simp [find]
  | cons p t ih =>
    obtain ⟨k', v'⟩ := p
    by_cases h : k' = k
    · simp [find, h]
    · have h2 : ¬ k = k' := fun e => h e.symm
      simp [find, h, h2, ih]

theorem find_append (m n : KeyMap κ α) (k : κ) :
    find (m ++ n) k = (find m k).orElse (fun _ => find n k) := by
  induction m with
  | nil => simp [find]
  | cons p t ih =>
    obtain ⟨k', v'⟩ := p
    by_cases h : k' = k
    · simp [find, h]
    · simp [find, h, ih]

theorem find_emplace_self (m : KeyMap κ α) (k : κ) (v : α) (h : find m k = none) :
    find (emplace m k v) k = some v := by
  simp [emplace, h, find_append, find]

theorem find_emplace_ne (m : KeyMap κ α) {k k' : κ} (v : α) (h : k ≠ k') :
    find (emplace m k v) k' = find m k' := by
  unfold emplace
  cases find m k with
  | some _ => rfl
  | none =>
    simp only [find_append, find, h, if_false]
    cases find m k' <;> rfl

theorem find_of_mem_nodup (m : KeyMap κ α) (hnd : (m.map Prod.fst).Nodup) (k : κ) (v : α)
    (h : (k, v) ∈ m) : find m k = some v := by
  induction m with
  | nil => simp at h
  | cons p t ih =>
    obtain ⟨k', v'⟩ := p
    simp only [List.map_cons, List.nodup_cons] at hnd
    rcases List.mem_cons.mp h with h | h
    · have h1 := (Prod.mk.inj h).1
      have h2 := (Prod.mk.inj h).2
      subst h1; subst h2
      simp [find]
    · have hne : k' ≠ k := by
        intro e
        apply hnd.1
        rw [e]
        exact List.mem_map_of_mem Prod.fst h
      simp only [find, hne, if_false]
      exact ih hnd.2 h

theorem mem_of_find (m : KeyMap κ α) (k : κ) (v : α) (h : find m k = some v) : (k, v) ∈ m := by
  induction m with
  | nil => simp [find] at h
  | cons p t ih =>
    obtain ⟨k', v'⟩ := p
    by_cases hk : k' = k
    · simp only [find, hk, if_true, Option.some.injEq] at h
      subst hk; subst h
      exact List.mem_cons_self _ _
    · simp only [find, hk, if_false] at h
      exact List.mem_cons_of_mem _ (ih h)

end Map

/-! ## Sequences of publications -/

/-- The bump of a version that is not above the received one, the received one
being below the top of the range: either the value is changed, to a higher
version originated by this node, or it is left as it is. -/
theorem bumpVersion_cases (nodeId : String) (cur rcvd : Value)
    (hle : cur.version ≤ rcvd.version)
    (hlo : int64Min ≤ rcvd.version) (hhi : rcvd.version < int64Max) :
    ((bumpVersion nodeId cur rcvd).2 = true ∧
        cur.version < (bumpVersion nodeId cur rcvd).1.version ∧
        (bumpVersion nodeId cur rcvd).1.originatorId = nodeId) ∨
      ((bumpVersion nodeId cur rcvd).2 = false ∧ (bumpVersion nodeId cur rcvd).1 = cur) := by
  by_cases h1 : cur.version < rcvd.version
  · left
    rw [bumpVersion_higher nodeId cur rcvd h1]
    refine ⟨rfl, ?_, rfl⟩
    show cur.version < wrapInt64 (rcvd.version + 1)
    rw [wrapInt64_succ _ hlo hhi]
    omega
  · have hv : rcvd.version = cur.version := by omega
    by_cases h2 : rcvd.originatorId ≠ nodeId ∨ rcvd.value ≠ cur.value
    · left
      rw [bumpVersion_equal_changed nodeId cur rcvd hv h2]
      refine ⟨rfl, ?_, rfl⟩
      show cur.version < wrapInt64 (cur.version + 1)
      rw [wrapInt64_succ _ (hv ▸ hlo) (hv ▸ hhi)]
      omega
    · right
      have h3 : rcvd.originatorId = nodeId := by
        by_contra h
        exact h2 (Or.inl h)
      have h4 : rcvd.value = cur.value := by
        by_contra h
        exact h2 (Or.inr h)
      rw [bumpVersion_reflected nodeId cur rcvd hv h3 h4]
      exact ⟨rfl, rfl⟩

theorem processKeyVal_no_payload (nodeId : String) (fm : String → Value → Bool)
    (fcb : Option KeyCallback) (area : AreaId) (st : PubRefs) (k : String) (rcvd : Value)
    (h : rcvd.value.isSome = false) : processKeyVal nodeId fm fcb area st (k, rcvd) = st := by
  have hn : rcvd.value.isNone = true := by
    cases hv : rcvd.value <;> simp [hv] at h ⊢
  unfold processKeyVal
  simp [hn]

/-- The deliveries of a persisted key in its iteration of the loop. -/
theorem processKeyVal_persisted_delivered (nodeId : String) (fm : String → Value → Bool)
    (fcb : Option KeyCallback) (area : AreaId) (st : PubRefs) (k : String)
    (cur rcvd : Value) (hcur : Map.find st.persistedKeyVals k = some cur)
    (hpay : rcvd.value.isSome = true) (hge : ¬ cur.version > rcvd.version) :
    delivered area k (processKeyVal nodeId fm fcb area st (k, rcvd)).trace
      = delivered area k st.trace
        ++ (if (bumpVersion nodeId cur rcvd).2 = true then
              match Map.find st.callbacks k with
              | some cb =>
                [(cb, some (syncTtlVersion (bumpVersion nodeId cur rcvd).1 rcvd
                  (Map.find st.keyTtlBackoffs k)).1)]
              | none => []
            else []) := by
  have hn : ¬ rcvd.value.isNone = true := by
    cases hv : rcvd.value <;> simp [hv] at hpay ⊢
  unfold processKeyVal
  simp only [hn, hcur, if_false]
  unfold mergePersisted
  simp only [hge, if_false]
  by_cases hb : (bumpVersion nodeId cur rcvd).2 = true <;>
    cases hcb : Map.find st.callbacks k <;>
    simp [hb, delivered_append, delivered]

theorem processKeyVal_delivered_other_area (nodeId : String) (fm : String → Value → Bool)
    (fcb : Option KeyCallback) (area a : AreaId) (st : PubRefs) (kv : String × Value)
    (k : String) (ha : area ≠ a) :
    delivered a k (processKeyVal nodeId fm fcb area st kv).trace = delivered a k st.trace := by
  unfold processKeyVal
  simp only
  split
  · rfl
  · split
    · simp only [notifyUnpersisted]
      cases Map.find st.callbacks kv.1 <;> cases fcb <;>
        by_cases hm : fm kv.1 kv.2 = true <;>
        simp [hm, delivered_append, delivered, ha]
    · unfold mergePersisted
      split
      · rfl
      · simp only
        split <;> simp [delivered_append, delivered, ha]

theorem processKeyVals_delivered_other_area (c : KvStoreClientInternal)
    (publication : Publication) (a : AreaId) (k : String) (ha : publication.area ≠ a) :
    delivered a k (processKeyVals c publication).trace = delivered a k c.trace := by
  have key : ∀ (l : KeyMap String Value) (st : PubRefs),
      delivered a k (l.foldl (processKeyVal c.nodeId_ c.keyPrefixFilter_
        c.keyPrefixFilterCallback_ publication.area) st).trace = delivered a k st.trace := by
    intro l
    induction l with
    | nil => intro st; rfl
    | cons kv t ih =>
      intro st
      rw [List.foldl_cons, ih, processKeyVal_delivered_other_area _ _ _ _ _ _ _ _ ha]
  unfold processKeyVals
  rw [key]
  rfl

theorem processExpiredKeys_delivered_other_area (c : KvStoreClientInternal)
    (publication : Publication) (a : AreaId) (k : String) (ha : publication.area ≠ a) :
    delivered a k (processExpiredKeys c publication).trace = delivered a k c.trace := by
  unfold processExpiredKeys
  simp only
  generalize c.trace = t
  generalize getArea c.keyCallbacks_ publication.area = cbs
  induction publication.expiredKeys generalizing t with
  | nil => rfl
  | cons x xs ih =>
    rw [List.foldl_cons, ih]
    cases Map.find cbs x <;> simp [delivered_append, delivered, ha]

/-- The method `processPublication` leaves the persisted keys of the other areas
and the deliveries to their callbacks alone, and keeps the node id. -/
theorem processPublication_other_area (K : Constants) (env : Env)
    (c c' : KvStoreClientInternal) (publication : Publication) (a : AreaId) (k : String)
    (h : processPublication K env c publication = some c') :
    c'.nodeId_ = c.nodeId_ ∧
      (publication.area ≠ a →
        (c'.view a k).persisted = (c.view a k).persisted ∧
        delivered a k c'.trace = delivered a k c.trace) := by
  unfold processPublication at h
  split at h
  · simp at h
  · split at h
    · simp at h
    · rename_i c2 hadv
      obtain ⟨f, -⟩ := advertisePendingKeys_frame K env _ c2 hadv
      have hc2 : ∀ ha : publication.area ≠ a,
          Map.find (getArea c2.persistedKeyVals_ a) k
              = Map.find (getArea c.persistedKeyVals_ a) k ∧
            delivered a k c2.trace = delivered a k c.trace := by
        intro ha
        constructor
        · rw [f.persisted]
          simp only [afterKeyVals, getArea_assign_ne _ _ ha]
        · rw [(f.delivered_eq a k).1]
          exact processKeyVals_delivered_other_area c publication a k ha
      have hid : c2.nodeId_ = c.nodeId_ := f.nodeId
      split at h
      · simp only [Option.some.injEq] at h
        subst h
        refine ⟨hid, fun ha => ⟨(hc2 ha).1, ?_⟩⟩
        rw [processExpiredKeys_delivered_other_area c2 publication a k ha]
        exact (hc2 ha).2
      · simp only [Option.some.injEq] at h
        subst h
        exact ⟨hid, hc2⟩

theorem expiryCalls_values (cb : Option KeyCallback) (k : String)
    (expiredKeys : List String) :
    (expiryCalls cb k expiredKeys).filterMap (fun p => p.2) = [] := by
  unfold expiryCalls
  cases cb with
  | none => rfl
  | some f =>
    simp only
    induction expiredKeys.filter (fun x => decide (x = k)) with
    | nil => rfl
    | cons x xs _ => simp

/-- One publication, seen from a persisted key: the key stays persisted, its
version does not decrease, and its callback is handed at most one value, which
is then the new persisted value, of a higher version and originated by this
node. -/
theorem processPublication_persisted_step (K : Constants) (env : Env)
    (c c' : KvStoreClientInternal) (publication : Publication) (a : AreaId) (k : String)
    (cur : Value) (hnd : (publication.keyVals.map Prod.fst).Nodup)
    (hcur : (c.view a k).persisted = some cur)
    (hbelow : publication.VersionsBelowTop a k)
    (hrun : processPublication K env c publication = some c') :
    c'.nodeId_ = c.nodeId_ ∧
      ∃ cur', (c'.view a k).persisted = some cur' ∧ cur.version ≤ cur'.version ∧
        (deliveredValues a k c'.trace = deliveredValues a k c.trace ∨
          (deliveredValues a k c'.trace = deliveredValues a k c.trace ++ [cur'] ∧
            cur.version < cur'.version ∧ cur'.originatorId = c.nodeId_)) := by
  obtain ⟨hid, hother⟩ := processPublication_other_area K env c c' publication a k hrun
  refine ⟨hid, ?_⟩
  by_cases ha : publication.area = a
  · subst ha
    have same : ∀ w : KeyView, w = c.view publication.area k →
        (c'.view publication.area k).persisted = w.persisted →
        (c'.view publication.area k).delivered
          = w.delivered ++ expiryCalls (c.view publication.area k).callback k
              publication.expiredKeys →
        ∃ cur', (c'.view publication.area k).persisted = some cur' ∧
          cur.version ≤ cur'.version ∧
          (deliveredValues publication.area k c'.trace
              = deliveredValues publication.area k c.trace ∨
            (deliveredValues publication.area k c'.trace
                = deliveredValues publication.area k c.trace ++ [cur'] ∧
              cur.version < cur'.version ∧ cur'.originatorId = c.nodeId_)) := by
      intro w hw hp hdel
      subst hw
      refine ⟨cur, hp.trans hcur, le_refl _, Or.inl ?_⟩
      have hd : delivered publication.area k c'.trace
          = delivered publication.area k c.trace
            ++ expiryCalls (c.view publication.area k).callback k publication.expiredKeys :=
        hdel
      simp only [deliveredValues, hd, List.filterMap_append, expiryCalls_values,
        List.append_nil]
    by_cases hk : k ∈ publication.keyVals.map Prod.fst
    · obtain ⟨kv, hkv, hkeq⟩ := List.mem_map.mp hk
      obtain ⟨k0, rcvd⟩ := kv
      simp only at hkeq
      subst hkeq
      obtain ⟨w, hw, hp, -, -, -, hdel, -⟩ :=
        processPublication_view_at K env c c' publication k0 rcvd hnd hkv hrun
      cases hpay : rcvd.value.isSome with
      | false =>
        rw [processKeyVal_no_payload _ _ _ _ _ _ _ hpay, headRefs_view] at hw
        exact same w hw hp hdel
      | true =>
        by_cases hgt : cur.version > rcvd.version
        · rw [processKeyVal_ignored c.nodeId_ c.keyPrefixFilter_ c.keyPrefixFilterCallback_
            publication.area (headRefs c publication.area) k0 cur rcvd hcur hgt,
            headRefs_view] at hw
          exact same w hw hp hdel
        · have hstep := processKeyVal_persisted c.nodeId_ c.keyPrefixFilter_
            c.keyPrefixFilterCallback_ publication.area (headRefs c publication.area) k0 cur
            rcvd hcur hpay
          rw [if_neg hgt] at hstep
          have hdl := processKeyVal_persisted_delivered c.nodeId_ c.keyPrefixFilter_
            c.keyPrefixFilterCallback_ publication.area (headRefs c publication.area) k0 cur
            rcvd hcur hpay hgt
          have hf := syncTtlVersion_fields (bumpVersion c.nodeId_ cur rcvd).1 rcvd
            (Map.find (headRefs c publication.area).keyTtlBackoffs k0)
          have hnew : (c'.view publication.area k0).persisted
              = some (syncTtlVersion (bumpVersion c.nodeId_ cur rcvd).1 rcvd
                  (Map.find (headRefs c publication.area).keyTtlBackoffs k0)).1 := by
            rw [hp, hw]
            exact hstep
          have hd : delivered publication.area k0 c'.trace
              = delivered publication.area k0
                  (processKeyVal c.nodeId_ c.keyPrefixFilter_ c.keyPrefixFilterCallback_
                    publication.area (headRefs c publication.area) (k0, rcvd)).trace
                ++ expiryCalls (c.view publication.area k0).callback k0
                    publication.expiredKeys := by
            rw [hw] at hdel
            exact hdel
          rw [hdl] at hd
          have hbd := hbelow rfl (k0, rcvd) hkv rfl hpay
          have hcases := bumpVersion_cases c.nodeId_ cur rcvd (by omega) hbd.1 hbd.2
          refine ⟨_, hnew, ?_, ?_⟩
          · rw [hf.1]
            rcases hcases with hb | hb
            · exact le_of_lt hb.2.1
            · rw [hb.2]
          · rcases hcases with hb | hb
            · cases hcb : Map.find (headRefs c publication.area).callbacks k0 with
              | none =>
                left
                simp only [hb.1, if_true, hcb, List.append_nil] at hd
                simp only [deliveredValues, hd, List.filterMap_append,
                  expiryCalls_values, List.append_nil]
                rfl
              | some cb =>
                right
                simp only [hb.1, if_true, hcb] at hd
                refine ⟨?_, ?_, ?_⟩
                · simp only [deliveredValues, hd, List.filterMap_append,
                    expiryCalls_values, List.append_nil]
                  rfl
                · rw [hf.1]; exact hb.2.1
                · rw [hf.2.1]; exact hb.2.2
            · left
              simp only [hb.1, Bool.false_eq_true, if_false, List.append_nil] at hd
              simp only [deliveredValues, hd, List.filterMap_append,
                expiryCalls_values, List.append_nil]
              rfl
    · obtain ⟨hp, -, -, -, hdel, -⟩ :=
        processPublication_view_of_loop K env c c' publication k hrun
      have hv : (processKeyVals c publication).view publication.area k
          = c.view publication.area k :=
        foldl_processKeyVal_view_absent _ _ _ _ _ k _ _ hk
      rw [hv] at hp hdel
      exact same _ rfl hp hdel
  · obtain ⟨hp, hd⟩ := hother ha
    exact ⟨cur, hp.trans hcur, le_refl _, Or.inl (by simp only [deliveredValues, hd])⟩

/-- Along a run of publications the values handed to the callback of a key that
is persisted at the start have strictly increasing versions, above the version
persisted at the start, and are originated by this node. -/
theorem processPublications_delivered (K : Constants) (a : AreaId) (k : String) :
    ∀ (runs : List (Env × Publication)) (c c' : KvStoreClientInternal) (cur : Value),
      (∀ r ∈ runs, (r.2.keyVals.map Prod.fst).Nodup) →
      (∀ r ∈ runs, r.2.VersionsBelowTop a k) →
      (c.view a k).persisted = some cur →
      processPublications K c runs = some c' →
      ∃ d, deliveredValues a k c'.trace = deliveredValues a k c.trace ++ d ∧
        d.Pairwise (fun v w => v.version < w.version) ∧
        ∀ v ∈ d, cur.version < v.version ∧ v.originatorId = c.nodeId_ := by
  intro runs
  induction runs with
  | nil =>
    intro c c' cur _ _ _ hrun
    simp only [processPublications, Option.some.injEq] at hrun
    subst hrun
    exact ⟨[], by simp, List.Pairwise.nil, by simp⟩
  | cons r rest ih =>
    intro c c' cur hnd hbelow hcur hrun
    obtain ⟨env, publication⟩ := r
    unfold processPublications at hrun
    split at hrun
    · simp at hrun
    · rename_i c1 h1
      obtain ⟨hid, cur1, hp1, hle, hdv⟩ := processPublication_persisted_step K env c c1
        publication a k cur (hnd _ (List.mem_cons_self _ _)) hcur
        (hbelow _ (List.mem_cons_self _ _)) h1
      obtain ⟨d, hd, hpw, hall⟩ := ih c1 c' cur1
        (fun r hr => hnd r (List.mem_cons_of_mem _ hr))
        (fun r hr => hbelow r (List.mem_cons_of_mem _ hr)) hp1 hrun
      rcases hdv with hdv | ⟨hdv, hlt, horig⟩
      · refine ⟨d, by rw [hd, hdv], hpw, ?_⟩
        intro v hv
        obtain ⟨h1, h2⟩ := hall v hv
        exact ⟨by omega, h2.trans hid⟩
      · refine ⟨cur1 :: d, by rw [hd, hdv]; simp, ?_, ?_⟩
        · exact List.Pairwise.cons (fun v hv => (hall v hv).1) hpw
        · intro v hv
          rcases List.mem_cons.mp hv with hv | hv
          · subst hv
            exact ⟨hlt, horig⟩
          · obtain ⟨h1, h2⟩ := hall v hv
            exact ⟨by omega, h2.trans hid⟩

/-- The method `processPublication` leaves the callback registered for a key as it
is. -/
theorem processPublication_callback (K : Constants) (env : Env)
    (c c' : KvStoreClientInternal) (publication : Publication) (a : AreaId) (k : String)
    (h : processPublication K env c publication = some c') :
    (c'.view a k).callback = (c.view a k).callback := by
  by_cases ha : publication.area = a
  · subst ha
    exact (processPublication_view_of_loop K env c c' publication k h).2.2.1
  · unfold processPublication at h
    split at h
    · simp at h
    · split at h
      · simp at h
      · rename_i c2 hadv
        obtain ⟨f, -⟩ := advertisePendingKeys_frame K env _ c2 hadv
        have hc2 : getArea c2.keyCallbacks_ a = getArea c.keyCallbacks_ a := by
          rw [f.callbacks]
          simp only [afterKeyVals, getArea_assign_ne _ _ ha]
        split at h
        · simp only [Option.some.injEq] at h
          subst h
          simp only [KvStoreClientInternal.view, processExpiredKeys, touchArea,
            getArea_assign_ne _ _ ha, hc2]
        · simp only [Option.some.injEq] at h
          subst h
          simp only [KvStoreClientInternal.view, hc2]

/-- One publication, seen from a key that is not persisted: the key stays
unpersisted and its callback, when one is registered, is handed the value with a
payload that the publication carries for the key, as it is. -/
theorem processPublication_unpersisted_step (K : Constants) (env : Env)
    (c c' : KvStoreClientInternal) (publication : Publication) (a : AreaId) (k : String)
    (hnd : (publication.keyVals.map Prod.fst).Nodup)
    (hnone : (c.view a k).persisted = none)
    (hrun : processPublication K env c publication = some c') :
    (c'.view a k).persisted = none ∧
      (c'.view a k).callback = (c.view a k).callback ∧
      deliveredValues a k c'.trace
        = deliveredValues a k c.trace
          ++ (if (c.view a k).callback.isSome = true then (publication.received a k).toList
              else []) := by
  have hcb := processPublication_callback K env c c' publication a k hrun
  by_cases ha : publication.area = a
  · subst ha
    by_cases hk : k ∈ publication.keyVals.map Prod.fst
    · obtain ⟨kv, hkv, hkeq⟩ := List.mem_map.mp hk
      obtain ⟨k0, rcvd⟩ := kv
      simp only at hkeq
      subst hkeq
      have hfind := Map.find_of_mem_nodup publication.keyVals hnd k0 rcvd hkv
      cases hpay : rcvd.value.isSome with
      | true =>
        obtain ⟨hd, -, hp, -⟩ := processPublication_unpersisted_view K env c c' publication k0
          rcvd hnd hkv hpay hnone hrun
        have hrec : publication.received publication.area k0 = some rcvd := by
          simp [Publication.received, hfind, Option.filter, hpay]
        refine ⟨hp, hcb, ?_⟩
        have hd' : delivered publication.area k0 c'.trace
            = delivered publication.area k0 c.trace
              ++ (match (c.view publication.area k0).callback with
                  | some cb => [(cb, some rcvd)]
                  | none => [])
              ++ expiryCalls (c.view publication.area k0).callback k0
                  publication.expiredKeys := hd
        simp only [deliveredValues, hd', List.filterMap_append, expiryCalls_values,
          List.append_nil, hrec]
        cases hc : (c.view publication.area k0).callback <;> simp
      | false =>
        obtain ⟨w, hw, hp, -, -, -, hdel, -⟩ :=
          processPublication_view_at K env c c' publication k0 rcvd hnd hkv hrun
        rw [processKeyVal_no_payload _ _ _ _ _ _ _ hpay, headRefs_view] at hw
        subst hw
        have hrec : publication.received publication.area k0 = none := by
          simp [Publication.received, hfind, Option.filter, hpay]
        refine ⟨hp.trans hnone, hcb, ?_⟩
        have hd' : delivered publication.area k0 c'.trace
            = delivered publication.area k0 c.trace
              ++ expiryCalls (c.view publication.area k0).callback k0
                  publication.expiredKeys := hdel
        simp only [deliveredValues, hd', List.filterMap_append, expiryCalls_values,
          List.append_nil, hrec]
        simp
    · obtain ⟨hp, -, -, -, hdel, -⟩ :=
        processPublication_view_of_loop K env c c' publication k hrun
      have hv : (processKeyVals c publication).view publication.area k
          = c.view publication.area k :=
        foldl_processKeyVal_view_absent _ _ _ _ _ k _ _ hk
      rw [hv] at hp hdel
      have hrec : publication.received publication.area k = none := by
        simp [Publication.received, (Map.find_eq_none_iff _ _).mpr hk, Option.filter]
      refine ⟨hp.trans hnone, hcb, ?_⟩
      have hd' : delivered publication.area k c'.trace
          = delivered publication.area k c.trace
            ++ expiryCalls (c.view publication.area k).callback k
                publication.expiredKeys := hdel
      simp only [deliveredValues, hd', List.filterMap_append, expiryCalls_values,
        List.append_nil, hrec]
      simp
  · obtain ⟨hp, hd⟩ := (processPublication_other_area K env c c' publication a k hrun).2 ha
    have hrec : publication.received a k = none := by
      simp [Publication.received, ha]
    refine ⟨hp.trans hnone, hcb, ?_⟩
    simp only [deliveredValues, hd, hrec]
    simp

/-- Along a run of publications the callback of a key that is not persisted at
the start is handed the values with a payload that the publications carry for
the key, each as it comes. -/
theorem processPublications_unpersisted (K : Constants) (a : AreaId) (k : String) :
    ∀ (runs : List (Env × Publication)) (c c' : KvStoreClientInternal),
      (∀ r ∈ runs, (r.2.keyVals.map Prod.fst).Nodup) →
      (c.view a k).persisted = none →
      processPublications K c runs = some c' →
      deliveredValues a k c'.trace
        = deliveredValues a k c.trace
          ++ (if (c.view a k).callback.isSome = true then receivedValues a k runs else []) := by
  intro runs
  induction runs with
  | nil =>
    intro c c' _ _ hrun
    simp only [processPublications, Option.some.injEq] at hrun
    subst hrun
    simp [receivedValues]
  | cons r rest ih =>
    intro c c' hnd hnone hrun
    obtain ⟨env, publication⟩ := r
    unfold processPublications at hrun
    split at hrun
    · simp at hrun
    · rename_i c1 h1
      obtain ⟨hp, hcb, hd⟩ := processPublication_unpersisted_step K env c c1 publication a k
        (hnd _ (List.mem_cons_self _ _)) hnone h1
      have h2 := ih c1 c' (fun r hr => hnd r (List.mem_cons_of_mem _ hr)) hp hrun
      rw [h2, hd, hcb]
      cases hc : (c.view a k).callback with
      | none => simp
      | some cb =>
        cases hr : publication.received a k <;> simp [receivedValues, hr]

/-- C5, as amended: along any sequence of publications handled by
`processPublication`, the values handed to the callback of a key are in
non-decreasing order under the lexicographic ordering rule in these two cases.
For a key that is persisted, when the versions the publications carry for it are
below the largest value of the 64-bit field: the values handed over have
strictly increasing versions, all above the version persisted at the start, and
this node as originator.  For a key that is not persisted, when the values the
publications carry for it are themselves in non-decreasing order: the callback is
handed exactly these values, each as it comes. -/
theorem processPublications_monotone (K : Constants) (a : AreaId) (k : String)
    (runs : List (Env × Publication)) (c c' : KvStoreClientInternal)
    (hnd : ∀ r ∈ runs, (r.2.keyVals.map Prod.fst).Nodup)
    (hrun : processPublications K c runs = some c') :
    (∀ cur, (c.view a k).persisted = some cur →
      (∀ r ∈ runs, r.2.VersionsBelowTop a k) →
      ∃ d, deliveredValues a k c'.trace = deliveredValues a k c.trace ++ d ∧
        d.Pairwise Value.lexLE ∧
        d.Pairwise (fun v w => v.version < w.version) ∧
        ∀ v ∈ d, cur.version < v.version ∧ v.originatorId = c.nodeId_) ∧
    ((c.view a k).persisted = none →
      ∃ d, deliveredValues a k c'.trace = deliveredValues a k c.trace ++ d ∧
        d = (if (c.view a k).callback.isSome = true then receivedValues a k runs else []) ∧
        ((receivedValues a k runs).Pairwise Value.lexLE → d.Pairwise Value.lexLE)) := by
  constructor
  · intro cur hcur hbelow
    obtain ⟨d, hd, hpw, hall⟩ :=
      processPublications_delivered K a k runs c c' cur hnd hbelow hcur hrun
    exact ⟨d, hd, hpw.imp (fun h => Or.inl h), hpw, hall⟩
  · intro hnone
    refine ⟨_, processPublications_unpersisted K a k runs c c' hnd hnone hrun, rfl, ?_⟩
    intro hsorted
    split
    · exact hsorted
    · exact List.Pairwise.nil

/-- Witness of C5 as amended: the persisted key `k` (version 3) receives versions
5 and 8 from a peer, and its callback is handed versions 6 and 9; the key `j`,
not persisted, receives versions 5 and 8, and its callback is handed the two
received values. -/
theorem processPublications_monotone_witness :
    (deliveredValues "a" "k" Sample.afterConflictRun.trace).map Value.version = [6, 9] ∧
      (∃ d, deliveredValues "a" "k" Sample.afterConflictRun.trace
          = deliveredValues "a" "k" Sample.client.trace ++ d ∧
        d.Pairwise Value.lexLE) ∧
      (∃ d, deliveredValues "a" "j" Sample.afterIncreasingRun.trace
          = deliveredValues "a" "j" Sample.subscriber.trace ++ d ∧
        d = [Sample.peerValue, { Sample.peerValue with version := 8 }] ∧
        d.Pairwise Value.lexLE) := by
  obtain ⟨d, h1, h2, -⟩ := (processPublications_monotone Sample.constants "a" "k"
    Sample.conflictRun Sample.client Sample.afterConflictRun (by decide) rfl).1
    Sample.localValue (by decide) (by decide)
  obtain ⟨e, h3, h4, h5⟩ := (processPublications_monotone Sample.constants "a" "j"
    Sample.increasingRun Sample.subscriber Sample.afterIncreasingRun (by decide) rfl).2
    (by decide)
  exact ⟨by decide, ⟨d, h1, h2⟩, ⟨e, h3, h4.trans (by decide), h5 (by decide)⟩⟩

/-- Counterexample to C5 as stated.  The key `j` is not persisted and has a
callback; two publications carry it with versions 5 and then 3; the callback is
handed both values in that order, and the first is not below the second in the
ordering rule.  The key `k` is persisted with version 3 and has a callback; two
publications carry it with version 5 and then with the largest version of the
64-bit field; the callback is handed version 6 and then version `-2^63`, which
the increment wraps to. -/
theorem processPublications_monotone_counterexample :
    (processPublications Sample.constants Sample.subscriber Sample.decreasingRun).map
        (fun c' => deliveredValues "a" "j" c'.trace)
      = some [Sample.peerValue, { Sample.peerValue with version := 3 }] ∧
      ¬ Value.lexLE Sample.peerValue { Sample.peerValue with version := 3 } ∧
      (processPublications Sample.constants Sample.client Sample.topRun).map
        (fun c' => deliveredValues "a" "k" c'.trace)
      = some [{ version := 6, originatorId := "self", value := some "v1",
                ttl := -2147483648, ttlVersion := 0 },
              { version := -9223372036854775808, originatorId := "self", value := some "v1",
                ttl := -2147483648, ttlVersion := 0 }] ∧
      ¬ Value.lexLE
          { version := 6, originatorId := "self", value := some "v1", ttl := -2147483648,
            ttlVersion := 0 }
          { version := -9223372036854775808, originatorId := "self", value := some "v1",
            ttl := -2147483648, ttlVersion := 0 } := by
  decide

/-! ## Claims on keys that are set but not persisted, and on expired keys -/

/-- The ttl backoff entry of a key carried with a payload by the publication, not
persisted and with a ttl backoff entry: what lines 390-418 make of it. -/
theorem processPublication_setKeyEntry (K : Constants) (env : Env)
    (c c' : KvStoreClientInternal) (publication : Publication) (k : String)
    (rcvd setValue : Value) (backoff : ExponentialBackoff)
    (hnd : (publication.keyVals.map Prod.fst).Nodup) (hm : (k, rcvd) ∈ publication.keyVals)
    (hpay : rcvd.value.isSome = true)
    (hnone : (c.view publication.area k).persisted = none)
    (hsk : (c.view publication.area k).ttlBackoff = some (setValue, backoff))
    (hrun : processPublication K env c publication = some c') :
    (c'.view publication.area k).ttlBackoff = setKeyEntry (some (setValue, backoff)) rcvd := by
  obtain ⟨w, hw, -, ht, -⟩ := processPublication_view_at K env c c' publication k rcvd hnd hm hrun
  rw [processKeyVal_unpersisted c.nodeId_ c.keyPrefixFilter_ c.keyPrefixFilterCallback_
    publication.area (headRefs c publication.area) k rcvd hnone hpay] at hw
  have hn0 : Map.find (headRefs c publication.area).persistedKeyVals k = none := hnone
  rw [ht, hw]
  simp only [PubRefs.view]
  rw [updateSetKey_find_self _ _ _ hn0]
  exact congrArg (fun x => setKeyEntry x rcvd) hsk

/-- The entry after a received value with the same version and originator and a
higher ttl-version. -/
theorem setKeyEntry_bump (rcvd setValue : Value) (backoff : ExponentialBackoff)
    (hb : rcvd.version = setValue.version ∧ rcvd.originatorId = setValue.originatorId ∧
      rcvd.ttlVersion > setValue.ttlVersion) :
    setKeyEntry (some (setValue, backoff)) rcvd
      = some ({ setValue with ttlVersion := wrapInt64 (rcvd.ttlVersion + 1) }, backoff) := by
  have hna : ¬ (rcvd.version > setValue.version ∨
      (rcvd.version = setValue.version ∧ rcvd.originatorId > setValue.originatorId)) := by
    rintro (h | h)
    · omega
    · rw [hb.2.1] at h
      exact absurd h.2 (lt_irrefl _)
  unfold setKeyEntry
  exact (if_neg hna).trans (if_pos hb)

/-- C11, as amended: for a key carried with a payload by the publication, not
persisted and with a ttl backoff entry holding `setValue`: (a) when the received
version is higher, or equal with a higher originator, the entry is removed;
(b) when version and originator are equal and the received ttl-version is
higher, the ttl-version of the entry becomes what the 64-bit field holds after
the increment of the received one, which is the received one + 1 when that one
is below the largest value of the field, and the rest of the entry (the other
fields of the value, the backoff) is unchanged; (c) in every other case the
entry is unchanged. -/
theorem processPublication_set_key_ttl_backoff (K : Constants) (env : Env)
    (c c' : KvStoreClientInternal) (publication : Publication) (k : String)
    (rcvd setValue : Value) (backoff : ExponentialBackoff)
    (hnd : (publication.keyVals.map Prod.fst).Nodup) (hm : (k, rcvd) ∈ publication.keyVals)
    (hpay : rcvd.value.isSome = true)
    (hnone : (c.view publication.area k).persisted = none)
    (hsk : (c.view publication.area k).ttlBackoff = some (setValue, backoff))
    (hrun : processPublication K env c publication = some c') :
    ((rcvd.version > setValue.version ∨
        (rcvd.version = setValue.version ∧ rcvd.originatorId > setValue.originatorId)) →
      (c'.view publication.area k).ttlBackoff = none) ∧
    ((rcvd.version = setValue.version ∧ rcvd.originatorId = setValue.originatorId ∧
        rcvd.ttlVersion > setValue.ttlVersion) →
      (c'.view publication.area k).ttlBackoff
          = some ({ setValue with ttlVersion := wrapInt64 (rcvd.ttlVersion + 1) }, backoff) ∧
        (int64Min ≤ rcvd.ttlVersion → rcvd.ttlVersion < int64Max →
          (c'.view publication.area k).ttlBackoff
            = some ({ setValue with ttlVersion := rcvd.ttlVersion + 1 }, backoff))) ∧
    (¬ (rcvd.version > setValue.version ∨
        (rcvd.version = setValue.version ∧ rcvd.originatorId > setValue.originatorId)) →
      ¬ (rcvd.version = setValue.version ∧ rcvd.originatorId = setValue.originatorId ∧
        rcvd.ttlVersion > setValue.ttlVersion) →
      (c'.view publication.area k).ttlBackoff = some (setValue, backoff)) := by
  rw [processPublication_setKeyEntry K env c c' publication k rcvd setValue backoff hnd hm hpay
    hnone hsk hrun]
  refine ⟨?_, ?_, ?_⟩
  · intro ha
    unfold setKeyEntry
    exact if_pos ha
  · intro hb
    have hent := setKeyEntry_bump rcvd setValue backoff hb
    refine ⟨hent, fun hlo hhi => ?_⟩
    rw [hent, wrapInt64_succ _ hlo hhi]
  · intro hna hnb
    unfold setKeyEntry
    exact (if_neg hna).trans (if_neg hnb)

/-- Witness of C11 as amended: the key `z`, set with version 1 and ttl-version 0,
is reflected with ttl-version 4; the ttl backoff entry moves to ttl-version 5. -/
theorem processPublication_set_key_ttl_backoff_witness :
    ((Sample.afterTtlBump.view "a" "z").ttlBackoff).map (fun e => e.1)
      = some { version := 1, originatorId := "self", value := none, ttl := 3000,
               ttlVersion := 5 } := by
  have h := (processPublication_set_key_ttl_backoff Sample.constants Sample.env Sample.setter
    Sample.afterTtlBump Sample.ttlBumpPub "z"
    { version := 1, originatorId := "self", value := some "pay", ttl := 3000, ttlVersion := 4 }
    { version := 1, originatorId := "self", value := none, ttl := 3000, ttlVersion := 0 }
    { initialBackoff := 750, maxBackoff := 751, currentBackoff := 750, lastErrorTime := 1000 }
    (by decide) (by decide) (by decide) (by decide) (by decide) rfl).2.1 (by decide)
  exact (congrArg (Option.map (fun e => e.1)) (h.2 (by decide) (by decide))).trans rfl

/-- Counterexample to C11 as stated: the key `z`, set with version 1 and
ttl-version 0 and not persisted, is reflected with the same version and
originator and the largest ttl-version of the 64-bit field, `2^63 - 1`; the
ttl-version of the ttl backoff entry becomes `-2^63`, not the received one
+ 1. -/
theorem processPublication_set_key_ttl_backoff_counterexample :
    (Sample.setter.view "a" "z").persisted = none ∧
      ((Sample.setter.view "a" "z").ttlBackoff).map (fun e => e.1)
        = some { version := 1, originatorId := "self", value := none, ttl := 3000,
                 ttlVersion := 0 } ∧
      processPublication Sample.constants Sample.env Sample.setter Sample.ttlTopPub
        = some Sample.afterTtlTop ∧
      ((Sample.afterTtlTop.view "a" "z").ttlBackoff).map (fun e => e.1)
        = some { version := 1, originatorId := "self", value := none, ttl := 3000,
                 ttlVersion := -9223372036854775808 } ∧
      (-9223372036854775808 : Int) ≠ 9223372036854775807 + 1 := by
  have h := processPublication_setKeyEntry Sample.constants Sample.env Sample.setter
    Sample.afterTtlTop Sample.ttlTopPub "z"
    { version := 1, originatorId := "self", value := some "pay", ttl := 3000,
      ttlVersion := 9223372036854775807 }
    { version := 1, originatorId := "self", value := none, ttl := 3000, ttlVersion := 0 }
    { initialBackoff := 750, maxBackoff := 751, currentBackoff := 750, lastErrorTime := 1000 }
    (by decide) (by decide) (by decide) (by decide) (by decide) rfl
  rw [setKeyEntry_bump _ _ _ (by decide)] at h
  exact ⟨by decide, by decide, rfl, (congrArg (Option.map (fun e => e.1)) h).trans rfl,
    by decide⟩

theorem processExpiredKeys_trace (c : KvStoreClientInternal) (publication : Publication) :
    (processExpiredKeys c publication).trace
      = c.trace ++ publication.expiredKeys.filterMap (fun key =>
          (Map.find (getArea c.keyCallbacks_ publication.area) key).map
            (fun cb => Effect.keyCallback publication.area key cb none)) := by
  unfold processExpiredKeys
  simp only
  generalize c.trace = t
  generalize getArea c.keyCallbacks_ publication.area = cbs
  induction publication.expiredKeys generalizing t with
  | nil => simp
  | cons x xs ih =>
    rw [List.foldl_cons, ih]
    cases hx : Map.find cbs x <;> simp [List.filterMap_cons, hx]

/-- C12: `processPublication` handles the expired keys last: its trace is the trace
left by the loop over the key-values and by `advertisePendingKeys`, followed, for
the expired keys in list order, by one invocation with "none" of the callback
registered for the key in the publication's area; an expired key without a
callback adds nothing; and the handling of the expired keys leaves the persisted
map, the ttl backoffs, the pending keys and the advertise backoffs as they
are. -/
theorem processPublication_expired_keys (K : Constants) (env : Env)
    (c c' : KvStoreClientInternal) (publication : Publication)
    (hrun : processPublication K env c publication = some c') :
    ∃ c2, advertisePendingKeys K env (afterKeyVals c publication) none = some c2 ∧
      c'.trace = c2.trace ++ publication.expiredKeys.filterMap (fun key =>
          (Map.find (getArea c.keyCallbacks_ publication.area) key).map
            (fun cb => Effect.keyCallback publication.area key cb none)) ∧
      c'.persistedKeyVals_ = c2.persistedKeyVals_ ∧
      c'.keyTtlBackoffs_ = c2.keyTtlBackoffs_ ∧
      c'.keysToAdvertise_ = c2.keysToAdvertise_ ∧
      c'.backoffs_ = c2.backoffs_ := by
  unfold processPublication at hrun
  split at hrun
  · simp at hrun
  · split at hrun
    · simp at hrun
    · rename_i c2 hadv
      obtain ⟨f, -⟩ := advertisePendingKeys_frame K env _ c2 hadv
      have hcb : getArea c2.keyCallbacks_ publication.area
          = getArea c.keyCallbacks_ publication.area := by
        rw [f.callbacks]
        simp only [afterKeyVals, getArea_assign_self, processKeyVals_callbacks]
      refine ⟨c2, hadv, ?_⟩
      split at hrun
      · simp only [Option.some.injEq] at hrun
        subst hrun
        refine ⟨?_, rfl, rfl, rfl, rfl⟩
        rw [processExpiredKeys_trace, hcb]
      · rename_i hlen
        simp only [Option.some.injEq] at hrun
        subst hrun
        have hnil : publication.expiredKeys = [] := by
          cases hq : publication.expiredKeys with
          | nil => rfl
          | cons x xs => simp [hq] at hlen
        refine ⟨?_, rfl, rfl, rfl, rfl⟩
        rw [hnil]
        simp

/-- Witness of C12: the version-conflict publication with the expired keys `k`
(callback 7) and `q` (no callback): the callback of `k` is told of the new value,
the value is written to the store, and then the callback is told of the expiry. -/
theorem processPublication_expired_keys_witness :
    Sample.afterExpiry.trace
      = [Effect.keyCallback "a" "k" 7
            (some { version := 6, originatorId := "self", value := some "v1",
                    ttl := -2147483648, ttlVersion := 0 }),
          Effect.setKvStoreKeyVals "a"
            [("k", { version := 6, originatorId := "self", value := some "v1",
                     ttl := -2147483648, ttlVersion := 0 })],
          Effect.keyCallback "a" "k" 7 none] := by
  obtain ⟨c2, h2, ht, -⟩ := processPublication_expired_keys Sample.constants Sample.env
    Sample.client Sample.afterExpiry Sample.expiryPub rfl
  have hc2 : some c2.trace
      = (advertisePendingKeys Sample.constants Sample.env
          (afterKeyVals Sample.client Sample.expiryPub) none).map (fun x => x.trace) := by
    rw [h2]; rfl
  have hc3 : c2.trace
      = [Effect.keyCallback "a" "k" 7
            (some { version := 6, originatorId := "self", value := some "v1",
                    ttl := -2147483648, ttlVersion := 0 }),
          Effect.setKvStoreKeyVals "a"
            [("k", { version := 6, originatorId := "self", value := some "v1",
                     ttl := -2147483648, ttlVersion := 0 })]] :=
    Option.some.inj (hc2.trans (by decide))
  rw [ht, hc3]
  decide

/-! ## DecisionRouteDb: adding routes -/

theorem addUnicastRoute_spec (db : DecisionRouteDb) (entry : RibUnicastEntry) :
    (db.addUnicastRoute entry = none ↔ (Map.find db.unicastRoutes entry.prefix_).isSome = true) ∧
      ∀ db', db.addUnicastRoute entry = some db' →
        Map.find db'.unicastRoutes entry.prefix_ = some entry ∧
        (∀ p, p ≠ entry.prefix_ → Map.find db'.unicastRoutes p = Map.find db.unicastRoutes p) ∧
        db'.mplsRoutes = db.mplsRoutes ∧
        db'.unicastRoutes = db.unicastRoutes ++ [(entry.prefix_, entry)] := by
  cases h : Map.find db.unicastRoutes entry.prefix_ with
  | some e =>
    have hf : db.addUnicastRoute entry = none := by
      simp [DecisionRouteDb.addUnicastRoute, h]
    simp [hf]
  | none =>
    have hf : db.addUnicastRoute entry
        = some { db with unicastRoutes := db.unicastRoutes ++ [(entry.prefix_, entry)] } := by
      simp [DecisionRouteDb.addUnicastRoute, h, Map.emplace]
    rw [hf]
    refine ⟨by simp, ?_⟩
    intro db' hdb
    simp only [Option.some.injEq] at hdb
    subst hdb
    refine ⟨?_, ?_, rfl, rfl⟩
    · simp [Map.find_append, h, Map.find]
    · intro p hp
      have hp2 : ¬ entry.prefix_ = p := fun e => hp e.symm
      simp only [Map.find_append, Map.find, hp2, if_false]
      cases Map.find db.unicastRoutes p <;> rfl

theorem addMplsRoute_spec (db : DecisionRouteDb) (entry : RibMplsEntry) :
    (db.addMplsRoute entry = none ↔ (Map.find db.mplsRoutes entry.label).isSome = true) ∧
      ∀ db', db.addMplsRoute entry = some db' →
        Map.find db'.mplsRoutes entry.label = some entry ∧
        (∀ l, l ≠ entry.label → Map.find db'.mplsRoutes l = Map.find db.mplsRoutes l) ∧
        db'.unicastRoutes = db.unicastRoutes ∧
        db'.mplsRoutes = db.mplsRoutes ++ [(entry.label, entry)] := by
  cases h : Map.find db.mplsRoutes entry.label with
  | some e =>
    have hf : db.addMplsRoute entry = none := by
      simp [DecisionRouteDb.addMplsRoute, h]
    simp [hf]
  | none =>
    have hf : db.addMplsRoute entry
        = some { db with mplsRoutes := db.mplsRoutes ++ [(entry.label, entry)] } := by
      simp [DecisionRouteDb.addMplsRoute, h, Map.emplace]
    rw [hf]
    refine ⟨by simp, ?_⟩
    intro db' hdb
    simp only [Option.some.injEq] at hdb
    subst hdb
    refine ⟨?_, ?_, rfl, rfl⟩
    · simp [Map.find_append, h, Map.find]
    · intro l hl
      have hl2 : ¬ entry.label = l := fun e => hl e.symm
      simp only [Map.find_append, Map.find, hl2, if_false]
      cases Map.find db.mplsRoutes l <;> rfl

/-- C15: `addUnicastRoute(entry)` fails its assertion if and only if `unicastRoutes`
already holds a route for `entry.prefix`, and `addMplsRoute(entry)` if and only
if `mplsRoutes` already holds a route for `entry.label`; without a failure the
entry is stored under its own prefix (label), every other key of that map is
bound as before and the other map is unchanged. -/
theorem addRoute_fault_iff_present (db : DecisionRouteDb) (u : RibUnicastEntry)
    (m : RibMplsEntry) :
    (db.addUnicastRoute u = none ↔ (Map.find db.unicastRoutes u.prefix_).isSome = true) ∧
      (∀ db', db.addUnicastRoute u = some db' →
        Map.find db'.unicastRoutes u.prefix_ = some u ∧
        (∀ p, p ≠ u.prefix_ → Map.find db'.unicastRoutes p = Map.find db.unicastRoutes p) ∧
        db'.mplsRoutes = db.mplsRoutes) ∧
      (db.addMplsRoute m = none ↔ (Map.find db.mplsRoutes m.label).isSome = true) ∧
      (∀ db', db.addMplsRoute m = some db' →
        Map.find db'.mplsRoutes m.label = some m ∧
        (∀ l, l ≠ m.label → Map.find db'.mplsRoutes l = Map.find db.mplsRoutes l) ∧
        db'.unicastRoutes = db.unicastRoutes) := by
  obtain ⟨u1, u2⟩ := addUnicastRoute_spec db u
  obtain ⟨m1, m2⟩ := addMplsRoute_spec db m
  refine ⟨u1, ?_, m1, ?_⟩
  · intro db' h
    obtain ⟨a, b, c, -⟩ := u2 db' h
    exact ⟨a, b, c⟩
  · intro db' h
    obtain ⟨a, b, c, -⟩ := m2 db' h
    exact ⟨a, b, c⟩

theorem runAll_invariant :
    ∀ (ops : List AddRoute) (db db' : DecisionRouteDb),
      (∀ p e, (p, e) ∈ db.unicastRoutes → e.prefix_ = p) →
      (∀ l e, (l, e) ∈ db.mplsRoutes → e.label = l) →
      (db.unicastRoutes.map Prod.fst).Nodup → (db.mplsRoutes.map Prod.fst).Nodup →
      AddRoute.runAll ops db = some db' →
      (∀ p e, (p, e) ∈ db'.unicastRoutes → e.prefix_ = p) ∧
        (∀ l e, (l, e) ∈ db'.mplsRoutes → e.label = l) ∧
        (db'.unicastRoutes.map Prod.fst).Nodup ∧ (db'.mplsRoutes.map Prod.fst).Nodup ∧
        db'.unicastRoutes.length = db.unicastRoutes.length + AddRoute.unicastCalls ops ∧
        db'.mplsRoutes.length = db.mplsRoutes.length + AddRoute.mplsCalls ops := by
  intro ops
  induction ops with
  | nil =>
    intro db db' hu hm nu nm h
    simp only [AddRoute.runAll, Option.some.injEq] at h
    subst h
    exact ⟨hu, hm, nu, nm, by simp [AddRoute.unicastCalls], by simp [AddRoute.mplsCalls]⟩
  | cons op rest ih =>
    intro db db' hu hm nu nm h
    unfold AddRoute.runAll at h
    split at h
    · simp at h
    · rename_i db1 h1
      cases op with
      | unicast entry =>
        simp only [AddRoute.run] at h1
        obtain ⟨s1, s2⟩ := addUnicastRoute_spec db entry
        obtain ⟨-, -, e3, e4⟩ := s2 db1 h1
        have hfree : Map.find db.unicastRoutes entry.prefix_ = none := by
          cases hq : Map.find db.unicastRoutes entry.prefix_ with
          | none => rfl
          | some x =>
            have := s1.mpr (by simp [hq])
            rw [this] at h1
            simp at h1
        have hnot := (Map.find_eq_none_iff _ _).mp hfree
        obtain ⟨a, b, c, d, e, f⟩ := ih db1 db'
          (by
            intro p e hp
            rw [e4] at hp
            rcases List.mem_append.mp hp with hp | hp
            · exact hu p e hp
            · simp only [List.mem_singleton, Prod.mk.injEq] at hp
              rw [hp.1, hp.2])
          (by rw [e3]; exact hm)
          (by
            rw [e4, List.map_append]
            exact List.Nodup.append nu (by simp) (by
              intro x hx hx2
              simp only [List.map_cons, List.map_nil, List.mem_singleton] at hx2
              exact hnot (hx2 ▸ hx)))
          (by rw [e3]; exact nm) h
        refine ⟨a, b, c, d, ?_, ?_⟩
        · rw [e, e4]
          simp [AddRoute.unicastCalls]
          omega
        · rw [f, e3]
          simp [AddRoute.mplsCalls]
      | mpls entry =>
        simp only [AddRoute.run] at h1
        obtain ⟨s1, s2⟩ := addMplsRoute_spec db entry
        obtain ⟨-, -, e3, e4⟩ := s2 db1 h1
        have hfree : Map.find db.mplsRoutes entry.label = none := by
          cases hq : Map.find db.mplsRoutes entry.label with
          | none => rfl
          | some x =>
            have := s1.mpr (by simp [hq])
            rw [this] at h1
            simp at h1
        have hnot := (Map.find_eq_none_iff _ _).mp hfree
        obtain ⟨a, b, c, d, e, f⟩ := ih db1 db'
          (by rw [e3]; exact hu)
          (by
            intro l e hl
            rw [e4] at hl
            rcases List.mem_append.mp hl with hl | hl
            · exact hm l e hl
            · simp only [List.mem_singleton, Prod.mk.injEq] at hl
              rw [hl.1, hl.2])
          (by rw [e3]; exact nu)
          (by
            rw [e4, List.map_append]
            exact List.Nodup.append nm (by simp) (by
              intro x hx hx2
              simp only [List.map_cons, List.map_nil, List.mem_singleton] at hx2
              exact hnot (hx2 ▸ hx))) h
        refine ⟨a, b, c, d, ?_, ?_⟩
        · rw [e, e3]
          simp [AddRoute.unicastCalls]
        · rw [f, e4]
          simp [AddRoute.mplsCalls]
          omega

/-- C16: in every route database built from the empty one by a sequence of
`addUnicastRoute` and `addMplsRoute` calls none of which fails, each prefix
present in `unicastRoutes` is bound to an entry with that prefix, each label
present in `mplsRoutes` to an entry with that label, no key is bound twice, and
the number of unicast (MPLS) routes is the number of `addUnicastRoute`
(`addMplsRoute`) calls. -/
theorem addRoute_unique_keying (ops : List AddRoute) (db : DecisionRouteDb)
    (h : AddRoute.runAll ops DecisionRouteDb.empty = some db) :
    (∀ p e, Map.find db.unicastRoutes p = some e → e.prefix_ = p) ∧
      (∀ l e, Map.find db.mplsRoutes l = some e → e.label = l) ∧
      (db.unicastRoutes.map Prod.fst).Nodup ∧ (db.mplsRoutes.map Prod.fst).Nodup ∧
      db.unicastRoutes.length = AddRoute.unicastCalls ops ∧
      db.mplsRoutes.length = AddRoute.mplsCalls ops := by
  obtain ⟨a, b, c, d, e, f⟩ := runAll_invariant ops DecisionRouteDb.empty db
    (by simp [DecisionRouteDb.empty]) (by simp [DecisionRouteDb.empty])
    (by simp [DecisionRouteDb.empty]) (by simp [DecisionRouteDb.empty]) h
  refine ⟨fun p x hx => a p x (Map.mem_of_find _ _ _ hx),
    fun l x hx => b l x (Map.mem_of_find _ _ _ hx), c, d, ?_, ?_⟩
  · simpa [DecisionRouteDb.empty] using e
  · simpa [DecisionRouteDb.empty] using f

/-- Witness of C16: two unicast routes and one MPLS route added to the empty
database. -/
theorem addRoute_unique_keying_witness :
    Sample.afterAddCalls.unicastRoutes.length = 2 ∧ Sample.afterAddCalls.mplsRoutes.length = 1 ∧
      (∀ p e, Map.find Sample.afterAddCalls.unicastRoutes p = some e → e.prefix_ = p) := by
  have h := addRoute_unique_keying Sample.addCalls Sample.afterAddCalls (by decide)
  exact ⟨h.2.2.2.2.1.trans (by decide), h.2.2.2.2.2.trans (by decide), h.1⟩

/-! ## DecisionRouteDb: deltas -/

namespace Delta

variable {κ α : Type} [DecidableEq κ]

theorem find_foldl_erase (dels : List κ) :
    ∀ (m : KeyMap κ α) (k : κ),
      Map.find (dels.foldl Map.erase m) k = if k ∈ dels then none else Map.find m k := by
  induction dels with
  | nil => intro m k; simp
  | cons d t ih =>
    intro m k
    rw [List.foldl_cons, ih]
    by_cases hk : k ∈ t
    · simp [hk]
    · by_cases hd : d = k
      · subst hd
        simp [hk, Map.find_erase_self]
      · have hd2 : ¬ k = d := fun e => hd e.symm
        simp [hk, hd2, Map.find_erase_ne _ hd]

theorem find_foldl_assign (ups : KeyMap κ α) :
    (ups.map Prod.fst).Nodup → ∀ (m : KeyMap κ α) (k : κ),
      Map.find (ups.foldl (fun acc p => Map.assign acc p.1 p.2) m) k
        = (Map.find ups k).orElse (fun _ => Map.find m k) := by
  induction ups with
  | nil => intro _ m k; simp [Map.find]
  | cons p t ih =>
    obtain ⟨k0, v0⟩ := p
    intro hnd m k
    simp only [List.map_cons, List.nodup_cons] at hnd
    rw [List.foldl_cons, ih hnd.2]
    by_cases hk : k0 = k
    · subst hk
      have hnone : Map.find t k0 = none := (Map.find_eq_none_iff _ _).mpr hnd.1
      simp [hnone, Map.find, Map.find_assign_self]
    · simp only [Map.find, hk, if_false, Map.find_assign_ne _ _ hk]

theorem find_filter_nodup (p : κ × α → Bool) (m : KeyMap κ α) :
    (m.map Prod.fst).Nodup → ∀ k : κ,
      Map.find (m.filter p) k = (Map.find m k).filter (fun v => p (k, v)) := by
  induction m with
  | nil => intro _ k; simp [Map.find]
  | cons q t ih =>
    obtain ⟨k0, v0⟩ := q
    intro hnd k
    simp only [List.map_cons, List.nodup_cons] at hnd
    by_cases hk : k0 = k
    · subst hk
      have hnone : Map.find t k0 = none := (Map.find_eq_none_iff _ _).mpr hnd.1
      have ht := ih hnd.2 k0
      rw [hnone] at ht
      by_cases hp : p (k0, v0) = true
      · simp [List.filter_cons, hp, Map.find, Option.filter]
      · simp only [List.filter_cons, hp, Bool.false_eq_true, if_false, ht]
        simp [Map.find, Option.filter, hp]
    · by_cases hp : p (k0, v0) = true
      · simp only [List.filter_cons, hp, if_true, Map.find, hk, if_false]
        exact ih hnd.2 k
      · simp only [List.filter_cons, hp, Bool.false_eq_true, if_false, Map.find, hk]
        exact ih hnd.2 k

variable [DecidableEq α]

/-- Applying to a map the delta computed against a map with distinct keys gives
the bindings of that map. -/
theorem find_applyTo_diff (oldMap newMap : KeyMap κ α) (hnd : (newMap.map Prod.fst).Nodup)
    (k : κ) :
    Map.find (applyTo oldMap (upserts oldMap newMap) (deletions oldMap newMap)) k
      = Map.find newMap k := by
  have hsub : ((upserts oldMap newMap).map Prod.fst).Nodup := by
    unfold upserts
    exact List.Nodup.sublist (List.Sublist.map _ (List.filter_sublist _)) hnd
  unfold applyTo
  rw [find_foldl_assign _ hsub, find_foldl_erase]
  unfold upserts
  rw [find_filter_nodup _ _ hnd]
  cases hB : Map.find newMap k with
  | some v =>
    have hdel : k ∉ deletions oldMap newMap := by
      unfold deletions
      simp [List.mem_filter, hB]
    by_cases hA : Map.find oldMap k = some v
    · simp [Option.filter, hA, hdel]
    · simp [Option.filter, hA]
  | none =>
    simp only [Option.filter, Option.orElse]
    by_cases hk : k ∈ oldMap.map Prod.fst
    · have hdel : k ∈ deletions oldMap newMap := by
        unfold deletions
        simp only [List.mem_filter, hB, Option.isNone_none, and_true]
        exact hk
      simp [hdel]
    · have hdel : k ∉ deletions oldMap newMap := by
        unfold deletions
        intro hmem
        exact hk (List.mem_filter.mp hmem).1
      simp only [hdel, if_false]
      exact (Map.find_eq_none_iff _ _).mpr hk

end Delta

/-- C17: for all route databases A and B (the maps of B binding each key once),
applying to A the delta computed by `A.calculateUpdate(B)` gives a database with
the bindings of B: the same entry for every unicast prefix and the same entry
for every MPLS label. -/
theorem calculateUpdate_round_trip (A B : DecisionRouteDb)
    (hu : (B.unicastRoutes.map Prod.fst).Nodup) (hm : (B.mplsRoutes.map Prod.fst).Nodup) :
    (∀ p, Map.find (A.update (A.calculateUpdate B)).unicastRoutes p = Map.find B.unicastRoutes p) ∧
      (∀ l, Map.find (A.update (A.calculateUpdate B)).mplsRoutes l = Map.find B.mplsRoutes l) :=
  ⟨fun p => Delta.find_applyTo_diff A.unicastRoutes B.unicastRoutes hu p,
    fun l => Delta.find_applyTo_diff A.mplsRoutes B.mplsRoutes hm l⟩

/-- Witness of C17: the delta from `dbA` to `dbB` deletes `10.3.3.3/32` and label
1 and upserts `10.1.1.1/32`, `10.2.2.2/32` and label 2. -/
theorem calculateUpdate_round_trip_witness :
    (Sample.dbA.calculateUpdate Sample.dbB).unicastRoutesToDelete = [(Sample.v4 10 3 3 3, 32)] ∧
      (∀ p, Map.find (Sample.dbA.update (Sample.dbA.calculateUpdate Sample.dbB)).unicastRoutes p
        = Map.find Sample.dbB.unicastRoutes p) ∧
      (∀ l, Map.find (Sample.dbA.update (Sample.dbA.calculateUpdate Sample.dbB)).mplsRoutes l
        = Map.find Sample.dbB.mplsRoutes l) :=
  ⟨by decide, calculateUpdate_round_trip Sample.dbA Sample.dbB (by decide) (by decide)⟩

/-! ## Fib: longest prefix match and filtered reads -/

theorem covers_family (r q : CIDRNetwork) (h : covers r q) : r.1.isV6 = q.1.isV6 := by
  have h2 := congrArg IPAddress.isV6 h.2
  exact h2.symm

theorem covers_unique (r r' q : CIDRNetwork) (h : covers r q) (h' : covers r' q)
    (hm : r.2 = r'.2) : r = r' := by
  have h1 : r.1 = r'.1 := by
    rw [← h.2, ← h'.2, hm]
  exact Prod.ext h1 hm

/-- One route of the pass keeps the invariant: the prefix kept is a covering key
with the longest mask among the routes seen. -/
theorem lpmStep_invariant {α : Type} (q : CIDRNetwork) (seen : KeyMap CIDRNetwork α)
    (acc : Option CIDRNetwork) (route : CIDRNetwork × α)
    (hnone : acc = none → ∀ r ∈ seen.map Prod.fst, ¬ covers r q)
    (hsome : ∀ b, acc = some b → b ∈ seen.map Prod.fst ∧ covers b q ∧
      ∀ r ∈ seen.map Prod.fst, covers r q → r.2 ≤ b.2) :
    (lpmStep q acc route = none → ∀ r ∈ (seen ++ [route]).map Prod.fst, ¬ covers r q) ∧
      (∀ b, lpmStep q acc route = some b → b ∈ (seen ++ [route]).map Prod.fst ∧ covers b q ∧
        ∀ r ∈ (seen ++ [route]).map Prod.fst, covers r q → r.2 ≤ b.2) := by
  have hmem : ∀ r, r ∈ (seen ++ [route]).map Prod.fst ↔ (r ∈ seen.map Prod.fst ∨ r = route.1) := by
    intro r
    simp only [List.map_append, List.map_cons, List.map_nil, List.mem_append,
      List.mem_singleton]
  by_cases hc : covers route.1 q
  · cases acc with
    | none =>
      have hstep : lpmStep q none route = some route.1 := by
        unfold lpmStep
        exact if_pos ⟨rfl, hc.1, hc.2⟩
      rw [hstep]
      refine ⟨by simp, ?_⟩
      intro b hb
      simp only [Option.some.injEq] at hb
      subst hb
      refine ⟨(hmem _).mpr (Or.inr rfl), hc, ?_⟩
      intro r hr hrc
      rcases (hmem r).mp hr with hr | hr
      · exact absurd hrc (hnone rfl r hr)
      · rw [hr]
    | some b0 =>
      obtain ⟨hb1, hb2, hb3⟩ := hsome b0 rfl
      by_cases hlt : b0.2 < route.1.2
      · have hstep : lpmStep q (some b0) route = some route.1 := by
          unfold lpmStep
          exact if_pos ⟨by simpa [lpmBetter] using hlt, hc.1, hc.2⟩
        rw [hstep]
        refine ⟨by simp, ?_⟩
        intro b hb
        simp only [Option.some.injEq] at hb
        subst hb
        refine ⟨(hmem _).mpr (Or.inr rfl), hc, ?_⟩
        intro r hr hrc
        rcases (hmem r).mp hr with hr | hr
        · exact le_of_lt (lt_of_le_of_lt (hb3 r hr hrc) hlt)
        · rw [hr]
      · have hstep : lpmStep q (some b0) route = some b0 := by
          unfold lpmStep
          exact if_neg (fun h => hlt (by simpa [lpmBetter] using h.1))
        rw [hstep]
        refine ⟨by simp, ?_⟩
        intro b hb
        simp only [Option.some.injEq] at hb
        subst hb
        refine ⟨(hmem _).mpr (Or.inl hb1), hb2, ?_⟩
        intro r hr hrc
        rcases (hmem r).mp hr with hr | hr
        · exact hb3 r hr hrc
        · rw [hr]; omega
  · have hstep : lpmStep q acc route = acc := by
      unfold lpmStep
      exact if_neg (fun h => hc ⟨h.2.1, h.2.2⟩)
    rw [hstep]
    constructor
    · intro hacc r hr
      rcases (hmem r).mp hr with hr | hr
      · exact hnone hacc r hr
      · rw [hr]; exact hc
    · intro b hb
      obtain ⟨hb1, hb2, hb3⟩ := hsome b hb
      refine ⟨(hmem _).mpr (Or.inl hb1), hb2, ?_⟩
      intro r hr hrc
      rcases (hmem r).mp hr with hr | hr
      · exact hb3 r hr hrc
      · rw [hr] at hrc; exact absurd hrc hc

/-- The pass of `longestPrefixMatch`: the prefix kept is a covering key with the
longest mask among the routes seen. -/
theorem longestPrefixMatch_fold {α : Type} (q : CIDRNetwork) :
    ∀ (l seen : KeyMap CIDRNetwork α) (acc : Option CIDRNetwork),
      (acc = none → ∀ r ∈ seen.map Prod.fst, ¬ covers r q) →
      (∀ b, acc = some b → b ∈ seen.map Prod.fst ∧ covers b q ∧
        ∀ r ∈ seen.map Prod.fst, covers r q → r.2 ≤ b.2) →
      ((l.foldl (lpmStep q) acc = none → ∀ r ∈ (seen ++ l).map Prod.fst, ¬ covers r q) ∧
        (∀ b, l.foldl (lpmStep q) acc = some b → b ∈ (seen ++ l).map Prod.fst ∧ covers b q ∧
          ∀ r ∈ (seen ++ l).map Prod.fst, covers r q → r.2 ≤ b.2)) := by
  intro l
  induction l with
  | nil =>
    intro seen acc hnone hsome
    simpa using And.intro hnone hsome
  | cons route t ih =>
    intro seen acc hnone hsome
    obtain ⟨s1, s2⟩ := lpmStep_invariant q seen acc route hnone hsome
    have h := ih (seen ++ [route]) (lpmStep q acc route) s1 s2
    simpa [List.append_assoc] using h

/-- What `longestPrefixMatch` returns, in terms of the covering keys. -/
theorem longestPrefixMatch_result {α : Type} (q : CIDRNetwork) (M : KeyMap CIDRNetwork α) :
    (longestPrefixMatch q M = none ↔ ∀ r ∈ M.map Prod.fst, ¬ covers r q) ∧
      (∀ b, longestPrefixMatch q M = some b ↔
        (b ∈ M.map Prod.fst ∧ covers b q ∧ ∀ r ∈ M.map Prod.fst, covers r q → r.2 ≤ b.2)) := by
  have h := longestPrefixMatch_fold q M ([] : KeyMap CIDRNetwork α) none
    (by simp) (by simp)
  simp only [List.nil_append] at h
  obtain ⟨h1, h2⟩ := h
  change (longestPrefixMatch q M = none → _) at h1
  change (∀ b, longestPrefixMatch q M = some b → _) at h2
  have hsome : ∀ b, (b ∈ M.map Prod.fst ∧ covers b q ∧
      ∀ r ∈ M.map Prod.fst, covers r q → r.2 ≤ b.2) → longestPrefixMatch q M = some b := by
    intro b hb
    cases hres : longestPrefixMatch q M with
    | none => exact absurd hb.2.1 (h1 hres b hb.1)
    | some b0 =>
      obtain ⟨m0, c0, x0⟩ := h2 b0 hres
      have hle1 := x0 b hb.1 hb.2.1
      have hle2 := hb.2.2 b0 m0 c0
      rw [covers_unique b0 b q c0 hb.2.1 (by omega)]
  refine ⟨⟨h1, ?_⟩, fun b => ⟨h2 b, hsome b⟩⟩
  intro hno
  cases hres : longestPrefixMatch q M with
  | none => rfl
  | some b0 =>
    obtain ⟨m0, c0, -⟩ := h2 b0 hres
    exact absurd c0 (hno b0 m0)

/-- C18: for every query network `(a, m)` and every route table, what
`longestPrefixMatch` returns is a key `(n, l)` of the table, of the family of
`a`, with `l ≤ m` and `n/l` containing `a`, and no such key has a longer mask;
every key with these properties and the longest mask is the one returned (two
such keys of equal mask are equal); and it returns none exactly when no key
covers the query. -/
theorem longestPrefixMatch_correct {α : Type} (q : CIDRNetwork) (M : KeyMap CIDRNetwork α) :
    (∀ b, longestPrefixMatch q M = some b →
        b ∈ M.map Prod.fst ∧ b.1.isV6 = q.1.isV6 ∧ b.2 ≤ q.2 ∧ q.1.mask b.2 = b.1 ∧
        ∀ r ∈ M.map Prod.fst, covers r q → r.2 ≤ b.2) ∧
      (∀ b, b ∈ M.map Prod.fst → covers b q →
        (∀ r ∈ M.map Prod.fst, covers r q → r.2 ≤ b.2) → longestPrefixMatch q M = some b) ∧
      (longestPrefixMatch q M = none ↔ ∀ r ∈ M.map Prod.fst, ¬ covers r q) := by
  obtain ⟨h1, h2⟩ := longestPrefixMatch_result q M
  refine ⟨?_, ?_, h1⟩
  · intro b hb
    obtain ⟨m, c, x⟩ := (h2 b).mp hb
    exact ⟨m, covers_family b q c, c.1, c.2, x⟩
  · intro b hm hc hx
    exact (h2 b).mpr ⟨hm, hc, hx⟩

/-- The queries of `longestPrefixMatchTest` on its table:
`::/0 → ::/0`, `192.168.20.19 → 192.168.20.16/28`,
`192.168.20.16/28 → 192.168.20.16/28`, `192.168.0.0 → 192.168.0.0/24`,
`192.168.0.0/14 → none`, `192.168.0.0/18 → 192.168.0.0/16`,
`192.168.0.0/22 → 192.168.0.0/20`, `192.168.0.0/26 → 192.168.0.0/24`. -/
theorem longestPrefixMatch_test :
    longestPrefixMatch (Sample.v6 [0, 0, 0, 0, 0, 0, 0, 0], 0) Sample.lpmTable
        = some (Sample.v6 [0, 0, 0, 0, 0, 0, 0, 0], 0) ∧
      longestPrefixMatch (Sample.v4 192 168 20 19, 32) Sample.lpmTable
        = some (Sample.v4 192 168 20 16, 28) ∧
      longestPrefixMatch (Sample.v4 192 168 20 16, 28) Sample.lpmTable
        = some (Sample.v4 192 168 20 16, 28) ∧
      longestPrefixMatch (Sample.v4 192 168 0 0, 32) Sample.lpmTable
        = some (Sample.v4 192 168 0 0, 24) ∧
      longestPrefixMatch (Sample.v4 192 168 0 0, 14) Sample.lpmTable = none ∧
      longestPrefixMatch (Sample.v4 192 168 0 0, 18) Sample.lpmTable
        = some (Sample.v4 192 168 0 0, 16) ∧
      longestPrefixMatch (Sample.v4 192 168 0 0, 22) Sample.lpmTable
        = some (Sample.v4 192 168 0 0, 20) ∧
      longestPrefixMatch (Sample.v4 192 168 0 0, 26) Sample.lpmTable
        = some (Sample.v4 192 168 0 0, 24) := by
  decide

theorem matchPrefixSet_fold {α : Type} (M : KeyMap CIDRNetwork α) :
    ∀ (l : List CIDRNetwork) (s : List CIDRNetwork), s.Nodup →
      (l.foldl
          (fun s inputPrefix =>
            match longestPrefixMatch inputPrefix M with
            | some matched => if matched ∈ s then s else s ++ [matched]
            | none => s) s).Nodup ∧
        ∀ r, r ∈ l.foldl
            (fun s inputPrefix =>
              match longestPrefixMatch inputPrefix M with
              | some matched => if matched ∈ s then s else s ++ [matched]
              | none => s) s
          ↔ (r ∈ s ∨ ∃ q ∈ l, longestPrefixMatch q M = some r) := by
  intro l
  induction l with
  | nil => intro s hs; simp [hs]
  | cons q t ih =>
    intro s hs
    rw [List.foldl_cons]
    cases hq : longestPrefixMatch q M with
    | none =>
      obtain ⟨n, m⟩ := ih s hs
      refine ⟨n, fun r => ?_⟩
      rw [m r]
      simp [hq]
    | some b =>
      simp only
      by_cases hb : b ∈ s
      · simp only [hb, if_true]
        obtain ⟨n, m⟩ := ih s hs
        refine ⟨n, fun r => ?_⟩
        rw [m r]
        constructor
        · rintro (h | ⟨q', hq', hr⟩)
          · exact Or.inl h
          · exact Or.inr ⟨q', List.mem_cons_of_mem _ hq', hr⟩
        · rintro (h | ⟨q', hq', hr⟩)
          · exact Or.inl h
          · rcases List.mem_cons.mp hq' with e | e
            · subst e
              rw [hq] at hr
              simp only [Option.some.injEq] at hr
              subst hr
              exact Or.inl hb
            · exact Or.inr ⟨q', e, hr⟩
      · simp only [hb, if_false]
        have hs2 : (s ++ [b]).Nodup :=
          List.Nodup.append hs (by simp) (by
            intro x hx hx2
            simp only [List.mem_singleton] at hx2
            exact hb (hx2 ▸ hx))
        obtain ⟨n, m⟩ := ih (s ++ [b]) hs2
        refine ⟨n, fun r => ?_⟩
        rw [m r]
        constructor
        · rintro (h | ⟨q', hq', hr⟩)
          · rcases List.mem_append.mp h with h | h
            · exact Or.inl h
            · simp only [List.mem_singleton] at h
              subst h
              exact Or.inr ⟨q, List.mem_cons_self _ _, hq⟩
          · exact Or.inr ⟨q', List.mem_cons_of_mem _ hq', hr⟩
        · rintro (h | ⟨q', hq', hr⟩)
          · exact Or.inl (List.mem_append.mpr (Or.inl h))
          · rcases List.mem_cons.mp hq' with e | e
            · subst e
              rw [hq] at hr
              simp only [Option.some.injEq] at hr
              subst hr
              exact Or.inl (List.mem_append.mpr (Or.inr (List.mem_singleton.mpr rfl)))
            · exact Or.inr ⟨q', e, hr⟩

theorem matchPrefixSet_spec {α : Type} (M : KeyMap CIDRNetwork α) (prefixes : List CIDRNetwork) :
    (matchPrefixSet M prefixes).Nodup ∧
      ∀ r, r ∈ matchPrefixSet M prefixes ↔ ∃ q ∈ prefixes, longestPrefixMatch q M = some r := by
  obtain ⟨n, m⟩ := matchPrefixSet_fold M prefixes [] List.nodup_nil
  refine ⟨n, fun r => ?_⟩
  have := m r
  simp only [List.not_mem_nil, false_or] at this
  exact this

theorem selected_keys {α : Type} (M : KeyMap CIDRNetwork α) (s : List CIDRNetwork) :
    (s.filterMap (fun p => (Map.find M p).map (fun e => (p, e)))).map Prod.fst
      = s.filter (fun p => (Map.find M p).isSome) := by
  induction s with
  | nil => rfl
  | cons p t ih =>
    cases h : Map.find M p with
    | none => simp [List.filterMap_cons, List.filter_cons, h, ih]
    | some e => simp [List.filterMap_cons, List.filter_cons, h, ih]

/-- What the filtered read returns for a filter that is not empty. -/
theorem getUnicastRoutesFiltered_mem {α : Type} (M : KeyMap CIDRNetwork α)
    (prefixes : List CIDRNetwork) (hne : prefixes ≠ []) (r : CIDRNetwork) (e : α) :
    (r, e) ∈ getUnicastRoutesFiltered M prefixes
      ↔ (Map.find M r = some e ∧ ∃ q ∈ prefixes, longestPrefixMatch q M = some r) := by
  have hemp : prefixes.isEmpty = false := by
    cases prefixes with
    | nil => exact absurd rfl hne
    | cons _ _ => rfl
  unfold getUnicastRoutesFiltered
  simp only [hemp, Bool.false_eq_true, if_false, List.mem_filterMap, Option.map_eq_some',
    Prod.mk.injEq]
  rw [← (matchPrefixSet_spec M prefixes).2 r]
  constructor
  · rintro ⟨p, hp, x, hx, h1, h2⟩
    subst h1; subst h2
    exact ⟨hx, hp⟩
  · rintro ⟨hx, hp⟩
    exact ⟨r, hp, e, hx, rfl, rfl⟩

/-- C20: the filtered unicast read returns every route of the mirror for an empty
filter; for the others it returns no prefix twice, and a route is returned
exactly when it is the longest prefix match of at least one filter entry (so an
entry without a match adds nothing, and an entry that merely covers
more-specific routes does not select them). -/
theorem getUnicastRoutes_as_tested {α : Type} (M : KeyMap CIDRNetwork α)
    (prefixes : List CIDRNetwork) :
    (prefixes = [] → getUnicastRoutes M prefixes = M) ∧
      (prefixes ≠ [] → ((getUnicastRoutes M prefixes).map Prod.fst).Nodup) ∧
      (prefixes ≠ [] → ∀ r e, (r, e) ∈ getUnicastRoutes M prefixes
        ↔ (Map.find M r = some e ∧ ∃ q ∈ prefixes, longestPrefixMatch q M = some r)) := by
  refine ⟨?_, ?_, ?_⟩
  · intro h
    subst h
    rfl
  · intro hne
    have hemp : prefixes.isEmpty = false := by
      cases prefixes with
      | nil => exact absurd rfl hne
      | cons _ _ => rfl
    unfold getUnicastRoutes getUnicastRoutesFiltered
    simp only [hemp, Bool.false_eq_true, if_false]
    rw [selected_keys]
    exact List.Nodup.sublist (List.filter_sublist _) (matchPrefixSet_spec M prefixes).1
  · intro hne r e
    exact getUnicastRoutesFiltered_mem M prefixes hne r e

/-- Witness of C20, the reads of `getUnicastRoutesFilteredTest`: the filter of the
test yields `192.168.20.16/28`, `192.168.0.0/16` and `fd00::48:2:0/126`; the
filter `10.46.8.0, 10.46.8.0/24` yields nothing; the empty filter yields the
mirror. -/
theorem getUnicastRoutes_as_tested_witness :
    (getUnicastRoutes Sample.mirror Sample.mirrorFilter).map Prod.fst
        = [(Sample.v4 192 168 20 16, 28), (Sample.v4 192 168 0 0, 16), (Sample.fd00, 126)] ∧
      getUnicastRoutes Sample.mirror [(Sample.v4 10 46 8 0, 32), (Sample.v4 10 46 8 0, 24)] = [] ∧
      getUnicastRoutes Sample.mirror [] = Sample.mirror ∧
      ((getUnicastRoutes Sample.mirror Sample.mirrorFilter).map Prod.fst).Nodup :=
  ⟨by decide, by decide,
    (getUnicastRoutes_as_tested Sample.mirror []).1 rfl,
    (getUnicastRoutes_as_tested Sample.mirror Sample.mirrorFilter).2.1 (by decide)⟩

/-- C19, as amended: for every non-empty list of query prefixes `getUnicastRoutes`
returns exactly the routes of the mirror whose prefix covers at least one of the
query prefixes and has the longest mask among the mirror prefixes covering that
query. -/
theorem getUnicastRoutes_longest_covering {α : Type} (M : KeyMap CIDRNetwork α)
    (prefixes : List CIDRNetwork) (hne : prefixes ≠ []) (r : CIDRNetwork) (e : α) :
    (r, e) ∈ getUnicastRoutes M prefixes
      ↔ (Map.find M r = some e ∧ ∃ q ∈ prefixes, covers r q ∧
          ∀ r' ∈ M.map Prod.fst, covers r' q → r'.2 ≤ r.2) := by
  unfold getUnicastRoutes
  rw [getUnicastRoutesFiltered_mem M prefixes hne r e]
  constructor
  · rintro ⟨hf, q, hq, hl⟩
    obtain ⟨-, c, x⟩ := ((longestPrefixMatch_result q M).2 r).mp hl
    exact ⟨hf, q, hq, c, x⟩
  · rintro ⟨hf, q, hq, c, x⟩
    have hm : r ∈ M.map Prod.fst := List.mem_map_of_mem Prod.fst (Map.mem_of_find M r e hf)
    exact ⟨hf, q, hq, ((longestPrefixMatch_result q M).2 r).mpr ⟨hm, c, x⟩⟩

/-- Witness of C19 as amended: the query `192.168.0.0/18` selects the route of
`192.168.0.0/16`, the longest mirror prefix that covers it. -/
theorem getUnicastRoutes_longest_covering_witness :
    ((Sample.v4 192 168 0 0, 16), Sample.route (Sample.v4 192 168 0 0, 16))
      ∈ getUnicastRoutes Sample.mirror [(Sample.v4 192 168 0 0, 18)] :=
  (getUnicastRoutes_longest_covering Sample.mirror [(Sample.v4 192 168 0 0, 18)] (by decide)
    (Sample.v4 192 168 0 0, 16) (Sample.route (Sample.v4 192 168 0 0, 16))).mpr
    ⟨by decide, (Sample.v4 192 168 0 0, 18), by decide, by decide, by decide⟩

/-- Counterexample to C19 as stated, on the mirror and the filter of
`getUnicastRoutesFilteredTest`: the read returns the routes of `192.168.20.16/28`,
`192.168.0.0/16` and `fd00::48:2:0/126`, whereas the routes whose prefix is
covered by a query prefix are those of `192.168.20.16/28`, `fd00::48:2:0/128` and
`fd00::48:2:0/126`. -/
theorem getUnicastRoutes_covered_counterexample :
    (getUnicastRoutes Sample.mirror Sample.mirrorFilter).map Prod.fst
        = [(Sample.v4 192 168 20 16, 28), (Sample.v4 192 168 0 0, 16), (Sample.fd00, 126)] ∧
      (coveredRoutes Sample.mirror Sample.mirrorFilter).map Prod.fst
        = [(Sample.v4 192 168 20 16, 28), (Sample.fd00, 128), (Sample.fd00, 126)] := by
  decide

/-! ## The ttl backoffs carry no payload

The invariant `TtlPayloadFree` holds of a client without ttl backoffs and is kept
by every method of the client that is modelled. -/

namespace Map

variable {κ α : Type} [DecidableEq κ]

theorem mem_assign (m : KeyMap κ α) (k : κ) (v : α) (p : κ × α) (h : p ∈ assign m k v) :
    p = (k, v) ∨ p ∈ m := by
  induction m with
  | nil =>
    simp only [assign, List.mem_singleton] at h
    exact Or.inl h
  | cons q t ih =>
    obtain ⟨k1, v1⟩ := q
    by_cases hk : k1 = k
    · simp only [assign, hk, if_true, List.mem_cons] at h
      rcases h with h | h
      · exact Or.inl h
      · exact Or.inr (List.mem_cons_of_mem _ h)
    · simp only [assign, hk, if_false, List.mem_cons] at h
      rcases h with h | h
      · exact Or.inr (h ▸ List.mem_cons_self _ _)
      · rcases ih h with h1 | h1
        · exact Or.inl h1
        · exact Or.inr (List.mem_cons_of_mem _ h1)

theorem mem_erase (m : KeyMap κ α) (k : κ) (p : κ × α) (h : p ∈ erase m k) : p ∈ m := by
  unfold erase at h
  exact List.mem_of_mem_filter h

end Map

theorem mem_getArea {α : Type} (m : KeyMap AreaId (List α)) (area : AreaId) (e : α)
    (h : e ∈ getArea m area) : ∃ p ∈ m, e ∈ p.2 := by
  unfold getArea at h
  cases hf : Map.find m area with
  | none => simp [hf] at h
  | some l =>
    simp only [hf, Option.getD_some] at h
    exact ⟨(area, l), Map.mem_of_find m area l hf, h⟩

/-- Replacing the map of an area by one whose entries are payload-free keeps the
ttl backoffs payload-free. -/
theorem payloadFree_assign (m : KeyMap AreaId (KeyMap String (Value × ExponentialBackoff)))
    (area : AreaId) (l : KeyMap String (Value × ExponentialBackoff))
    (hm : ∀ p ∈ m, ∀ e ∈ p.2, e.2.1.value = none) (hl : ∀ e ∈ l, e.2.1.value = none) :
    ∀ p ∈ Map.assign m area l, ∀ e ∈ p.2, e.2.1.value = none := by
  intro p hp e he
  rcases Map.mem_assign m area l p hp with h | h
  · subst h
    exact hl e he
  · exact hm p h e he

theorem payloadFree_getArea (m : KeyMap AreaId (KeyMap String (Value × ExponentialBackoff)))
    (area : AreaId) (hm : ∀ p ∈ m, ∀ e ∈ p.2, e.2.1.value = none) :
    ∀ e ∈ getArea m area, e.2.1.value = none := by
  intro e he
  obtain ⟨p, hp, hep⟩ := mem_getArea m area e he
  exact hm p hp e hep

theorem scheduleTtlUpdates_payloadFree (K : Constants) (env : Env) (c : KvStoreClientInternal)
    (area : AreaId) (key : String) (version ttlVersion : Nat) (ttl : Int)
    (advertiseImmediately : Bool) (h : TtlPayloadFree c) :
    TtlPayloadFree
      (scheduleTtlUpdates K env c area key version ttlVersion ttl advertiseImmediately) := by
  have hg := payloadFree_getArea c.keyTtlBackoffs_ area h
  unfold scheduleTtlUpdates
  by_cases httl : ttl = K.kTtlInfinity
  · simp only [httl, if_true]
    exact payloadFree_assign _ _ _ h (fun e he => hg e (Map.mem_erase _ _ e he))
  · simp only [httl, if_false]
    refine payloadFree_assign _ _ _ h (fun e he => ?_)
    rcases Map.mem_assign _ _ _ e he with h1 | h1
    · subst h1
      rfl
    · exact hg e h1

theorem unsetKey_payloadFree (c : KvStoreClientInternal) (area : AreaId) (key : String)
    (h : TtlPayloadFree c) : TtlPayloadFree (unsetKey c area key) :=
  payloadFree_assign _ _ _ h
    (fun e he => payloadFree_getArea c.keyTtlBackoffs_ area h e (Map.mem_erase _ _ e he))

theorem setKeysHelper_ttl (env : Env) (c : KvStoreClientInternal) (area : AreaId)
    (keyVals : KeyMap String Value) :
    (setKeysHelper env c area keyVals).2.keyTtlBackoffs_ = c.keyTtlBackoffs_ := by
  unfold setKeysHelper
  split <;> rfl

theorem getKey_ttl (env : Env) (c : KvStoreClientInternal) (area : AreaId) (key : String) :
    (getKey env c area key).2.keyTtlBackoffs_ = c.keyTtlBackoffs_ := by
  unfold getKey
  simp only
  split <;> rfl

theorem setKeyValue_payloadFree (K : Constants) (env : Env) (c c' : KvStoreClientInternal)
    (area : AreaId) (key : String) (thriftValue : Value) (ok : Bool) (h : TtlPayloadFree c)
    (hset : setKeyValue K env c area key thriftValue = some (ok, c')) : TtlPayloadFree c' := by
  unfold setKeyValue at hset
  by_cases hv : thriftValue.value.isNone
  · simp [hv] at hset
  · rw [if_neg hv] at hset
    simp only [Option.some.injEq, Prod.mk.injEq] at hset
    rw [← hset.2]
    apply scheduleTtlUpdates_payloadFree
    unfold TtlPayloadFree
    rw [setKeysHelper_ttl]
    exact h

theorem setKey_payloadFree (K : Constants) (env : Env) (c c' : KvStoreClientInternal)
    (area : AreaId) (key : String) (value : String) (version : Nat) (ttl : Int) (ok : Bool)
    (h : TtlPayloadFree c)
    (hset : setKey K env c area key value version ttl = some (ok, c')) : TtlPayloadFree c' := by
  unfold setKey at hset
  refine setKeyValue_payloadFree K env _ c' area key _ ok ?_ hset
  unfold TtlPayloadFree buildThriftValue
  simp only
  split
  · split <;> (simp only [getKey_ttl]; exact h)
  · exact h

theorem processKeyVal_payloadFree (nodeId : String) (filterMatch : String → Value → Bool)
    (filterCb : Option KeyCallback) (area : AreaId) (st : PubRefs) (kv : String × Value)
    (h : ∀ e ∈ st.keyTtlBackoffs, e.2.1.value = none) :
    ∀ e ∈ (processKeyVal nodeId filterMatch filterCb area st kv).keyTtlBackoffs,
      e.2.1.value = none := by
  unfold processKeyVal
  simp only
  by_cases hv : kv.2.value.isNone
  · rw [if_pos hv]
    exact h
  rw [if_neg hv]
  cases hp : Map.find st.persistedKeyVals kv.1 with
  | some currentValue =>
    simp only
    unfold mergePersisted
    by_cases hold : currentValue.version > kv.2.version
    · rw [if_pos hold]
      exact h
    rw [if_neg hold]
    simp only
    cases hsk : Map.find st.keyTtlBackoffs kv.1 with
    | none =>
      have : (syncTtlVersion (bumpVersion nodeId currentValue kv.2).1 kv.2 none).2 = none := by
        unfold syncTtlVersion
        simp only
        split <;> rfl
      rw [this]
      exact h
    | some sk =>
      have hske : sk.1.value = none := h (kv.1, sk) (Map.mem_of_find _ _ _ hsk)
      have : ∃ e, (syncTtlVersion (bumpVersion nodeId currentValue kv.2).1 kv.2 (some sk)).2
          = some e ∧ e.1.value = none := by
        unfold syncTtlVersion
        simp only
        split
        · exact ⟨_, rfl, hske⟩
        · exact ⟨_, rfl, hske⟩
      obtain ⟨e, he, hev⟩ := this
      rw [he]
      simp only
      intro x hx
      rcases Map.mem_assign _ _ _ x hx with h1 | h1
      · subst h1
        exact hev
      · exact h x h1
  | none =>
    simp only
    unfold updateSetKey
    rw [hp]
    cases hsk : Map.find st.keyTtlBackoffs kv.1 with
    | none => exact h
    | some sk =>
      obtain ⟨setValue, backoff⟩ := sk
      have hske : setValue.value = none := h (kv.1, (setValue, backoff)) (Map.mem_of_find _ _ _ hsk)
      simp only
      split
      · intro x hx
        exact h x (Map.mem_erase _ _ x hx)
      · split
        · split
          · intro x hx
            rcases Map.mem_assign _ _ _ x hx with h1 | h1
            · subst h1
              exact hske
            · exact h x h1
          · exact h
        · exact h

theorem foldl_processKeyVal_payloadFree (nodeId : String) (filterMatch : String → Value → Bool)
    (filterCb : Option KeyCallback) (area : AreaId) (kvs : List (String × Value)) :
    ∀ st : PubRefs, (∀ e ∈ st.keyTtlBackoffs, e.2.1.value = none) →
      ∀ e ∈ (kvs.foldl (processKeyVal nodeId filterMatch filterCb area) st).keyTtlBackoffs,
        e.2.1.value = none := by
  induction kvs with
  | nil => intro st h; exact h
  | cons kv t ih =>
    intro st h
    exact ih _ (processKeyVal_payloadFree nodeId filterMatch filterCb area st kv h)

theorem processPublication_payloadFree (K : Constants) (env : Env)
    (c c' : KvStoreClientInternal) (publication : Publication) (h : TtlPayloadFree c)
    (hpub : processPublication K env c publication = some c') : TtlPayloadFree c' := by
  have hloop : TtlPayloadFree (afterKeyVals c publication) :=
    payloadFree_assign _ _ _ h
      (foldl_processKeyVal_payloadFree _ _ _ _ publication.keyVals _
        (payloadFree_getArea c.keyTtlBackoffs_ publication.area h))
  unfold processPublication at hpub
  by_cases ha : publication.area.isEmpty
  · simp [ha] at hpub
  rw [if_neg ha] at hpub
  cases hadv : advertisePendingKeys K env (afterKeyVals c publication) none with
  | none => simp [hadv] at hpub
  | some c2 =>
    have hc2 : TtlPayloadFree c2 := by
      unfold TtlPayloadFree
      rw [(advertisePendingKeys_frame K env _ c2 hadv).1.ttl]
      exact hloop
    simp only [hadv] at hpub
    split at hpub
    · cases hpub
      exact hc2
    · cases hpub
      exact hc2

theorem advertiseTtlKey_payloadFree (env : Env) (persisted : KeyMap String Value) :
    ∀ (m : KeyMap String (Value × ExponentialBackoff)) (st : TtlLoop),
      (∀ e ∈ m, e.2.1.value = none) → (∀ e ∈ st.entries, e.2.1.value = none) →
      ∀ e ∈ (m.foldl (advertiseTtlKey env persisted) st).entries, e.2.1.value = none := by
  intro m
  induction m with
  | nil => intro st _ h; exact h
  | cons x t ih =>
    intro st hm hst
    refine ih _ (fun e he => hm e (List.mem_cons_of_mem _ he)) ?_
    have hx : x.2.1.value = none := hm x (List.mem_cons_self _ _)
    unfold advertiseTtlKey
    simp only
    split
    · intro e he
      rcases List.mem_append.mp he with h1 | h1
      · exact hst e h1
      · rw [List.mem_singleton.mp h1]
        exact hx
    · intro e he
      rcases List.mem_append.mp he with h1 | h1
      · exact hst e h1
      · rw [List.mem_singleton.mp h1]
        simp only
        split
        · split <;> exact hx
        · exact hx

theorem advertiseTtlAreas_payloadFree (env : Env) :
    ∀ (l : KeyMap AreaId (KeyMap String (Value × ExponentialBackoff)))
      (c : KvStoreClientInternal) (t : Int),
      (∀ p ∈ l, ∀ e ∈ p.2, e.2.1.value = none) →
      ∀ p ∈ (advertiseTtlAreas env c t l).2.2, ∀ e ∈ p.2, e.2.1.value = none := by
  intro l
  induction l with
  | nil => intro c t _ p hp; simp [advertiseTtlAreas] at hp
  | cons x rest ih =>
    intro c t hl p hp
    obtain ⟨area, m⟩ := x
    simp only [advertiseTtlAreas, List.mem_cons] at hp
    rcases hp with h1 | h1
    · subst h1
      exact advertiseTtlKey_payloadFree env _ m _ (hl (area, m) (List.mem_cons_self _ _))
        (by intro e he; simp at he)
    · exact ih _ _ (fun q hq => hl q (List.mem_cons_of_mem _ hq)) p h1

theorem advertiseTtlUpdates_payloadFree (K : Constants) (env : Env) (c : KvStoreClientInternal)
    (h : TtlPayloadFree c) : TtlPayloadFree (advertiseTtlUpdates K env c) :=
  advertiseTtlAreas_payloadFree env c.keyTtlBackoffs_ c K.kMaxTtlUpdateInterval h

theorem advertisePendingKeys_payloadFree (K : Constants) (env : Env)
    (c c' : KvStoreClientInternal) (h : TtlPayloadFree c)
    (hadv : advertisePendingKeys K env c none = some c') : TtlPayloadFree c' := by
  unfold TtlPayloadFree
  rw [(advertisePendingKeys_frame K env c c' hadv).1.ttl]
  exact h

theorem subscribeKey_payloadFree (env : Env) (c : KvStoreClientInternal) (area : AreaId)
    (key : String) (callback : KeyCallback) (fetchKeyValue : Bool) (h : TtlPayloadFree c) :
    TtlPayloadFree (subscribeKey env c area key callback fetchKeyValue).2 := by
  unfold TtlPayloadFree subscribeKey
  simp only
  split
  · rw [getKey_ttl]
    exact h
  · exact h

theorem unsubscribeKey_payloadFree (c : KvStoreClientInternal) (area : AreaId) (key : String)
    (h : TtlPayloadFree c) : TtlPayloadFree (unsubscribeKey c area key) := h

/-- A client that has no ttl backoffs yet, as after construction. -/
theorem payloadFree_of_empty (c : KvStoreClientInternal) (h : c.keyTtlBackoffs_ = []) :
    TtlPayloadFree c := by
  intro p hp
  rw [h] at hp
  simp at hp

/-! ## The ttl refresh cycle -/

theorem advertiseTtlKey_step (env : Env) (persisted : KeyMap String Value) (st : TtlLoop)
    (e : String × (Value × ExponentialBackoff))
    (hfree : Map.find st.keyVals e.1 = none) :
    (advertiseTtlKey env persisted st e).entries = st.entries ++ [ttlRefreshEntry env persisted e] ∧
      (advertiseTtlKey env persisted st e).keyVals
        = st.keyVals ++ ttlEmitted env persisted [e] := by
  unfold advertiseTtlKey ttlRefreshEntry ttlEmitted
  by_cases hc : e.2.2.canTryNow env.now = true
  · simp only [hc, Bool.not_true, Bool.false_eq_true, if_false, if_true, List.filter_cons,
      List.filter_nil, List.map_cons, List.map_nil, Map.emplace, hfree]
    exact ⟨rfl, rfl⟩
  · simp only [hc, Bool.not_false, if_true, List.filter_cons, List.filter_nil, List.map_nil,
      List.append_nil, Bool.not_eq_true] at *
    simp [hc]

theorem ttlEmitted_keys (env : Env) (persisted : KeyMap String Value)
    (m : KeyMap String (Value × ExponentialBackoff)) (k : String)
    (h : k ∈ (ttlEmitted env persisted m).map Prod.fst) : k ∈ m.map Prod.fst := by
  unfold ttlEmitted at h
  simp only [List.map_map, List.mem_map, List.mem_filter, Function.comp] at h
  obtain ⟨e, ⟨he, -⟩, hk⟩ := h
  exact List.mem_map.mpr ⟨e, he, hk⟩

theorem ttlEmitted_append (env : Env) (persisted : KeyMap String Value)
    (m n : KeyMap String (Value × ExponentialBackoff)) :
    ttlEmitted env persisted (m ++ n) = ttlEmitted env persisted m ++ ttlEmitted env persisted n := by
  simp [ttlEmitted, List.filter_append]

/-- The loop of `advertiseTtlUpdates` over the ttl backoffs of one area, in closed
form. -/
theorem advertiseTtlKey_foldl (env : Env) (persisted : KeyMap String Value) :
    ∀ (m : KeyMap String (Value × ExponentialBackoff)) (st : TtlLoop),
      (m.map Prod.fst).Nodup →
      (∀ k ∈ st.keyVals.map Prod.fst, k ∉ m.map Prod.fst) →
      (m.foldl (advertiseTtlKey env persisted) st).entries
          = st.entries ++ m.map (ttlRefreshEntry env persisted) ∧
        (m.foldl (advertiseTtlKey env persisted) st).keyVals
          = st.keyVals ++ ttlEmitted env persisted m := by
  intro m
  induction m with
  | nil => intro st _ _; simp [ttlEmitted]
  | cons e t ih =>
    intro st hnd hdis
    simp only [List.map_cons, List.nodup_cons] at hnd
    have hfree : Map.find st.keyVals e.1 = none := by
      rw [Map.find_eq_none_iff]
      intro hk
      exact hdis e.1 hk (by simp)
    obtain ⟨s1, s2⟩ := advertiseTtlKey_step env persisted st e hfree
    rw [List.foldl_cons]
    obtain ⟨i1, i2⟩ := ih (advertiseTtlKey env persisted st e) hnd.2 (by
      intro k hk
      rw [s2, List.map_append, List.mem_append] at hk
      rcases hk with hk | hk
      · intro hk2
        exact hdis k hk (by simp [hk2])
      · have := ttlEmitted_keys env persisted [e] k hk
        simp only [List.map_cons, List.map_nil, List.mem_singleton] at this
        rw [this]
        exact hnd.1)
    constructor
    · rw [i1, s1]
      simp
    · rw [i2, s2, List.append_assoc, ← ttlEmitted_append]
      rfl

theorem ttlWrites_congr (env : Env) (p1 p2 : KeyMap AreaId (KeyMap String Value))
    (h : ∀ a, getArea p2 a = getArea p1 a)
    (l : KeyMap AreaId (KeyMap String (Value × ExponentialBackoff))) :
    ttlWrites env p2 l = ttlWrites env p1 l ∧
      l.map (fun p => (p.1, p.2.map (ttlRefreshEntry env (getArea p2 p.1))))
        = l.map (fun p => (p.1, p.2.map (ttlRefreshEntry env (getArea p1 p.1)))) := by
  constructor
  · unfold ttlWrites
    simp only [h]
  · simp only [h]

/-- One area of the loop of `advertiseTtlUpdates`. -/
theorem advertiseTtlAreas_cons (env : Env) (c : KvStoreClientInternal) (t : Int)
    (area : AreaId) (m : KeyMap String (Value × ExponentialBackoff))
    (rest : KeyMap AreaId (KeyMap String (Value × ExponentialBackoff)))
    (hm : (m.map Prod.fst).Nodup) :
    ∃ (c2 : KvStoreClientInternal) (t2 : Int),
      advertiseTtlAreas env c t ((area, m) :: rest)
        = ((advertiseTtlAreas env c2 t2 rest).1, (advertiseTtlAreas env c2 t2 rest).2.1,
            (area, m.map (ttlRefreshEntry env (getArea c.persistedKeyVals_ area)))
              :: (advertiseTtlAreas env c2 t2 rest).2.2) ∧
      c2.trace = c.trace ++ (ttlWrites env c.persistedKeyVals_ [(area, m)]).map
          (fun w => Effect.setKvStoreKeyVals w.1 w.2) ∧
      (∀ a, getArea c2.persistedKeyVals_ a = getArea c.persistedKeyVals_ a) ∧
      c2.backoffs_ = c.backoffs_ ∧ c2.keysToAdvertise_ = c.keysToAdvertise_ ∧
      c2.keyCallbacks_ = c.keyCallbacks_ ∧ c2.nodeId_ = c.nodeId_ := by
  obtain ⟨f1, f2⟩ := advertiseTtlKey_foldl env (getArea c.persistedKeyVals_ area) m
    { keyVals := [], entries := [], timeout := t } hm (by simp)
  simp only [List.nil_append] at f1 f2
  by_cases hemp : (ttlEmitted env (getArea c.persistedKeyVals_ area) m).isEmpty = true
  · refine ⟨{ c with persistedKeyVals_ := touchArea c.persistedKeyVals_ area },
      (m.foldl (advertiseTtlKey env (getArea c.persistedKeyVals_ area))
        { keyVals := [], entries := [], timeout := t }).timeout, ?_, ?_,
      fun a => getArea_touchArea _ _ _, rfl, rfl, rfl, rfl⟩
    · rw [advertiseTtlAreas]
      simp only [f1, f2, hemp, if_true]
    · have he : ttlEmitted env (getArea c.persistedKeyVals_ area) m = [] :=
        List.isEmpty_iff.mp hemp
      simp [ttlWrites, he]
  · have hne : (ttlEmitted env (getArea c.persistedKeyVals_ area) m).isEmpty = false := by
      simpa using hemp
    refine ⟨{ c with
        persistedKeyVals_ := touchArea c.persistedKeyVals_ area
        trace := c.trace ++ [Effect.setKvStoreKeyVals area
          (ttlEmitted env (getArea c.persistedKeyVals_ area) m)] },
      (m.foldl (advertiseTtlKey env (getArea c.persistedKeyVals_ area))
        { keyVals := [], entries := [], timeout := t }).timeout, ?_, ?_,
      fun a => getArea_touchArea _ _ _, rfl, rfl, rfl, rfl⟩
    · rw [advertiseTtlAreas]
      simp only [f1, f2, hne, Bool.false_eq_true, if_false, setKeysHelper]
    · have he : ¬ ttlEmitted env (getArea c.persistedKeyVals_ area) m = [] :=
        fun h => hemp (List.isEmpty_iff.mpr h)
      simp [ttlWrites, he]

/-- The loop of `advertiseTtlUpdates` over the areas, in closed form. -/
theorem advertiseTtlAreas_closed (env : Env) :
    ∀ (l : KeyMap AreaId (KeyMap String (Value × ExponentialBackoff)))
      (c : KvStoreClientInternal) (t : Int),
      (∀ p ∈ l, (p.2.map Prod.fst).Nodup) →
      (advertiseTtlAreas env c t l).2.2
          = l.map (fun p => (p.1, p.2.map (ttlRefreshEntry env (getArea c.persistedKeyVals_ p.1)))) ∧
        (advertiseTtlAreas env c t l).1.trace
          = c.trace ++ (ttlWrites env c.persistedKeyVals_ l).map
              (fun w => Effect.setKvStoreKeyVals w.1 w.2) ∧
        (∀ a, getArea (advertiseTtlAreas env c t l).1.persistedKeyVals_ a
          = getArea c.persistedKeyVals_ a) ∧
        (advertiseTtlAreas env c t l).1.backoffs_ = c.backoffs_ ∧
        (advertiseTtlAreas env c t l).1.keysToAdvertise_ = c.keysToAdvertise_ ∧
        (advertiseTtlAreas env c t l).1.keyCallbacks_ = c.keyCallbacks_ ∧
        (advertiseTtlAreas env c t l).1.nodeId_ = c.nodeId_ := by
  intro l
  induction l with
  | nil =>
    intro c t _
    simp [advertiseTtlAreas, ttlWrites]
  | cons p rest ih =>
    obtain ⟨area, m⟩ := p
    intro c t hnd
    obtain ⟨c2, t2, heq, h1, h2, h3, h4, h5, h6⟩ := advertiseTtlAreas_cons env c t area m rest
      (hnd (area, m) (List.mem_cons_self _ _))
    obtain ⟨i1, i2, i3, i4, i5, i6, i7⟩ := ih c2 t2 (fun p hp => hnd p (List.mem_cons_of_mem _ hp))
    obtain ⟨g1, g2⟩ := ttlWrites_congr env c.persistedKeyVals_ c2.persistedKeyVals_ h2 rest
    rw [heq]
    refine ⟨?_, ?_, ?_, i4.trans h3, i5.trans h4, i6.trans h5, i7.trans h6⟩
    · simp only [List.map_cons, i1, g2]
    · simp only [i2, h1, g1, List.append_assoc, ← List.map_append]
      congr 2
      simp [ttlWrites, List.filterMap_cons]
      split <;> simp
    · intro a
      rw [i3 a, h2 a]
theorem find_map_entries {κ α β : Type} [DecidableEq κ] (g : κ × α → κ × β)
    (hg : ∀ e, (g e).1 = e.1) (m : KeyMap κ α) (k : κ) :
    Map.find (m.map g) k = (Map.find m k).map (fun v => (g (k, v)).2) := by
  induction m with
  | nil => rfl
  | cons p t ih =>
    obtain ⟨k0, v0⟩ := p
    have h0 : g (k0, v0) = (k0, (g (k0, v0)).2) := Prod.ext (hg (k0, v0)) rfl
    rw [List.map_cons, h0]
    by_cases hk : k0 = k
    · subst hk
      simp [Map.find]
    · simp only [Map.find, hk, if_false]
      exact ih

theorem ttlRefreshEntry_key (env : Env) (persisted : KeyMap String Value)
    (e : String × (Value × ExponentialBackoff)) : (ttlRefreshEntry env persisted e).1 = e.1 := by
  unfold ttlRefreshEntry
  split <;> rfl

theorem find_ttlEmitted (env : Env) (persisted : KeyMap String Value)
    (m : KeyMap String (Value × ExponentialBackoff)) (hnd : (m.map Prod.fst).Nodup)
    (key : String) :
    Map.find (ttlEmitted env persisted m) key
      = (Map.find m key).bind (fun e =>
          if e.2.canTryNow env.now = true then some (ttlRefreshValue persisted key e.1)
          else none) := by
  unfold ttlEmitted
  rw [find_map_entries (fun e : String × (Value × ExponentialBackoff) =>
      (e.1, ttlRefreshValue persisted e.1 e.2.1)) (fun _ => rfl),
    Delta.find_filter_nodup _ _ hnd]
  cases Map.find m key with
  | none => rfl
  | some e =>
    by_cases hc : e.2.canTryNow env.now = true <;> simp [Option.filter, hc]

theorem mem_ttlWrites (env : Env) (P : KeyMap AreaId (KeyMap String Value))
    (l : KeyMap AreaId (KeyMap String (Value × ExponentialBackoff)))
    (hareas : (l.map Prod.fst).Nodup) (area : AreaId) (kvs : KeyMap String Value) :
    (area, kvs) ∈ ttlWrites env P l
      ↔ (area ∈ l.map Prod.fst ∧ kvs = ttlEmitted env (getArea P area) (getArea l area) ∧
          kvs ≠ []) := by
  unfold ttlWrites
  simp only [List.mem_filterMap]
  constructor
  · rintro ⟨p, hp, hw⟩
    obtain ⟨a, m⟩ := p
    have hfind : getArea l a = m := by
      simp [getArea, Map.find_of_mem_nodup l hareas a m hp]
    by_cases he : (ttlEmitted env (getArea P a) m).isEmpty = true
    · simp [he] at hw
    · simp only [he, Bool.false_eq_true, if_false, Option.some.injEq, Prod.mk.injEq] at hw
      obtain ⟨h1, h2⟩ := hw
      subst h1
      refine ⟨List.mem_map_of_mem Prod.fst hp, ?_, ?_⟩
      · rw [hfind, ← h2]
      · rw [← h2]
        intro hnil
        exact he (List.isEmpty_iff.mpr hnil)
  · rintro ⟨ha, hk, hne⟩
    obtain ⟨p, hp, hpa⟩ := List.mem_map.mp ha
    obtain ⟨a, m⟩ := p
    simp only at hpa
    subst hpa
    have hfind : getArea l a = m := by
      simp [getArea, Map.find_of_mem_nodup l hareas a m hp]
    refine ⟨(a, m), hp, ?_⟩
    rw [hfind] at hk
    have he : ¬ (ttlEmitted env (getArea P a) m).isEmpty = true := by
      intro h
      exact hne (hk.trans (List.isEmpty_iff.mp h))
    simp only [he, Bool.false_eq_true, if_false, hk]

theorem storeWrites_of_writes (w : List (AreaId × KeyMap String Value)) :
    storeWrites (w.map (fun x => Effect.setKvStoreKeyVals x.1 x.2)) = w := by
  induction w with
  | nil => rfl
  | cons x t ih =>
    simp only [List.map_cons, storeWrites, List.filterMap_cons]
    exact congrArg _ ih

theorem getArea_map_entries {α β : Type} (f : AreaId → List α → List β)
    (hf : ∀ a, f a [] = []) (l : KeyMap AreaId (List α)) (area : AreaId) :
    getArea (l.map (fun p => (p.1, f p.1 p.2))) area = f area (getArea l area) := by
  unfold getArea
  rw [find_map_entries (fun p : AreaId × List α => (p.1, f p.1 p.2)) (fun _ => rfl)]
  cases Map.find l area with
  | none => simp [hf]
  | some m => rfl

/-- The method `advertiseTtlUpdates` in closed form. -/
theorem advertiseTtlUpdates_closed (K : Constants) (env : Env) (c : KvStoreClientInternal)
    (hkeys : ∀ p ∈ c.keyTtlBackoffs_, (p.2.map Prod.fst).Nodup) :
    (∀ area, getArea (advertiseTtlUpdates K env c).keyTtlBackoffs_ area
        = (getArea c.keyTtlBackoffs_ area).map
            (ttlRefreshEntry env (getArea c.persistedKeyVals_ area))) ∧
      storeWrites (advertiseTtlUpdates K env c).trace
        = storeWrites c.trace ++ ttlWrites env c.persistedKeyVals_ c.keyTtlBackoffs_ ∧
      (∀ a, getArea (advertiseTtlUpdates K env c).persistedKeyVals_ a
        = getArea c.persistedKeyVals_ a) := by
  obtain ⟨h1, h2, h3, -⟩ := advertiseTtlAreas_closed env c.keyTtlBackoffs_ c
    K.kMaxTtlUpdateInterval hkeys
  unfold advertiseTtlUpdates
  simp only
  refine ⟨?_, ?_, h3⟩
  · intro area
    rw [h1]
    exact getArea_map_entries
      (fun a m => m.map (ttlRefreshEntry env (getArea c.persistedKeyVals_ a)))
      (fun _ => rfl) c.keyTtlBackoffs_ area
  · rw [h2, storeWrites_append, storeWrites_of_writes]

theorem ttlRefreshValue_fields (persisted : KeyMap String Value) (key : String) (v : Value) :
    (ttlRefreshValue persisted key v).value = v.value ∧
      (ttlRefreshValue persisted key v).originatorId = v.originatorId ∧
      (ttlRefreshValue persisted key v).ttl = v.ttl ∧
      (∀ p, Map.find persisted key = some p → v.version < p.version →
        (ttlRefreshValue persisted key v).version = p.version ∧
        (ttlRefreshValue persisted key v).ttlVersion = wrapInt64 (p.ttlVersion + 1)) ∧
      ((∀ p, Map.find persisted key = some p → ¬ v.version < p.version) →
        (ttlRefreshValue persisted key v).version = v.version ∧
        (ttlRefreshValue persisted key v).ttlVersion = wrapInt64 (v.ttlVersion + 1)) := by
  unfold ttlRefreshValue
  cases hp : Map.find persisted key with
  | none => simp
  | some p =>
    by_cases hlt : v.version < p.version
    · simp only [hlt, if_true, Option.some.injEq, forall_eq', true_and, not_true_eq_false,
        false_implies, and_true, imp_self]
    · simp only [hlt, if_false, Option.some.injEq, forall_eq', not_false_eq_true, true_implies,
        and_self, false_implies, true_and]

/-- C13, as amended: in the ttl refresh cycle, a key of the ttl backoffs whose
backoff permits a try is written to the store, in the single write of its area,
with the value the entry then holds: no payload (the ttl backoffs being
payload-free, as `scheduleTtlUpdates` builds them), the entry's originator and
ttl, and the entry's version with its ttl-version incremented, or, when the key
is persisted with a higher version, the persisted version with the persisted
ttl-version incremented.  The incremented ttl-version is what the 64-bit field
holds after the increment: it is exactly one greater when the ttl-version was
below the largest value of the field.  A key whose backoff does not permit keeps
its entry and is in no write, and an area none of whose keys is permitted gets
no write. -/
theorem advertiseTtlUpdates_refresh (K : Constants) (env : Env) (c : KvStoreClientInternal)
    (area : AreaId) (key : String) (v : Value) (b : ExponentialBackoff)
    (hareas : (c.keyTtlBackoffs_.map Prod.fst).Nodup)
    (hkeys : ∀ p ∈ c.keyTtlBackoffs_, (p.2.map Prod.fst).Nodup)
    (hfree : TtlPayloadFree c)
    (hsk : Map.find (getArea c.keyTtlBackoffs_ area) key = some (v, b)) :
    ∃ W, storeWrites (advertiseTtlUpdates K env c).trace = storeWrites c.trace ++ W ∧
      (W.map Prod.fst).Nodup ∧
      (b.canTryNow env.now = true →
        ∃ v', Map.find (getArea (advertiseTtlUpdates K env c).keyTtlBackoffs_ area) key
            = some (v', b.reportError env.now) ∧
          (∃ kvs, (area, kvs) ∈ W ∧ Map.find kvs key = some v') ∧
          v'.value = none ∧
          v'.originatorId = v.originatorId ∧ v'.ttl = v.ttl ∧
          (∀ p, Map.find (getArea c.persistedKeyVals_ area) key = some p →
            v.version < p.version →
            v'.version = p.version ∧ v'.ttlVersion = wrapInt64 (p.ttlVersion + 1) ∧
            (int64Min ≤ p.ttlVersion → p.ttlVersion < int64Max →
              v'.ttlVersion = p.ttlVersion + 1)) ∧
          ((∀ p, Map.find (getArea c.persistedKeyVals_ area) key = some p →
              ¬ v.version < p.version) →
            v'.version = v.version ∧ v'.ttlVersion = wrapInt64 (v.ttlVersion + 1) ∧
            (int64Min ≤ v.ttlVersion → v.ttlVersion < int64Max →
              v'.ttlVersion = v.ttlVersion + 1))) ∧
      (b.canTryNow env.now = false →
        Map.find (getArea (advertiseTtlUpdates K env c).keyTtlBackoffs_ area) key = some (v, b) ∧
        ∀ kvs, (area, kvs) ∈ W → Map.find kvs key = none) ∧
      ((∀ k e, Map.find (getArea c.keyTtlBackoffs_ area) k = some e →
          e.2.canTryNow env.now = false) →
        ∀ kvs, (area, kvs) ∉ W) := by
  obtain ⟨h1, h2, -⟩ := advertiseTtlUpdates_closed K env c hkeys
  have hmem : area ∈ c.keyTtlBackoffs_.map Prod.fst := by
    by_contra hno
    have : Map.find c.keyTtlBackoffs_ area = none := (Map.find_eq_none_iff _ _).mpr hno
    simp [getArea, this, Map.find] at hsk
  have hm : ((getArea c.keyTtlBackoffs_ area).map Prod.fst).Nodup := by
    obtain ⟨p, hp, hpa⟩ := List.mem_map.mp hmem
    obtain ⟨a, m⟩ := p
    simp only at hpa
    subst hpa
    have : getArea c.keyTtlBackoffs_ a = m := by
      simp [getArea, Map.find_of_mem_nodup _ hareas a m hp]
    rw [this]
    exact hkeys _ hp
  have hnew : Map.find (getArea (advertiseTtlUpdates K env c).keyTtlBackoffs_ area) key
      = some (ttlRefreshEntry env (getArea c.persistedKeyVals_ area) (key, (v, b))).2 := by
    rw [h1 area, find_map_entries _ (ttlRefreshEntry_key env _), hsk]
    rfl
  have hemit := find_ttlEmitted env (getArea c.persistedKeyVals_ area)
    (getArea c.keyTtlBackoffs_ area) hm
  have hwn : ((ttlWrites env c.persistedKeyVals_ c.keyTtlBackoffs_).map Prod.fst).Nodup := by
    have hsub : ((ttlWrites env c.persistedKeyVals_ c.keyTtlBackoffs_).map Prod.fst).Sublist
        (c.keyTtlBackoffs_.map Prod.fst) := by
      unfold ttlWrites
      generalize c.keyTtlBackoffs_ = l
      induction l with
      | nil => simp
      | cons p t ih =>
        simp only [List.filterMap_cons, List.map_cons]
        split
        · rename_i hq
          split at hq
          · exact List.Sublist.cons _ ih
          · simp at hq
        · rename_i w hq
          split at hq
          · simp at hq
          · simp only [Option.some.injEq] at hq
            subst hq
            exact List.Sublist.cons₂ _ ih
    exact List.Nodup.sublist hsub hareas
  refine ⟨ttlWrites env c.persistedKeyVals_ c.keyTtlBackoffs_, h2, hwn, ?_, ?_, ?_⟩
  · intro hc
    obtain ⟨f1, f2, f3, f4, f5⟩ :=
      ttlRefreshValue_fields (getArea c.persistedKeyVals_ area) key v
    have hfk : Map.find (ttlEmitted env (getArea c.persistedKeyVals_ area)
        (getArea c.keyTtlBackoffs_ area)) key
        = some (ttlRefreshValue (getArea c.persistedKeyVals_ area) key v) := by
      rw [hemit key, hsk]
      simp [hc]
    have hv : v.value = none :=
      payloadFree_getArea c.keyTtlBackoffs_ area hfree (key, (v, b)) (Map.mem_of_find _ _ _ hsk)
    refine ⟨ttlRefreshValue (getArea c.persistedKeyVals_ area) key v, ?_, ?_, f1.trans hv,
      f2, f3, ?_, ?_⟩
    rotate_left 2
    · intro p hp hlt
      obtain ⟨g1, g2⟩ := f4 p hp hlt
      exact ⟨g1, g2, fun hlo hhi => g2.trans (wrapInt64_succ _ hlo hhi)⟩
    · intro hall
      obtain ⟨g1, g2⟩ := f5 hall
      exact ⟨g1, g2, fun hlo hhi => g2.trans (wrapInt64_succ _ hlo hhi)⟩
    · rw [hnew]
      simp [ttlRefreshEntry, hc]
    · refine ⟨_, (mem_ttlWrites env _ _ hareas area _).mpr ⟨hmem, rfl, ?_⟩, hfk⟩
      intro hnil
      rw [hnil] at hfk
      simp [Map.find] at hfk
  · intro hc
    constructor
    · rw [hnew]
      simp [ttlRefreshEntry, hc]
    · intro kvs hk
      obtain ⟨-, hk2, -⟩ := (mem_ttlWrites env _ _ hareas area kvs).mp hk
      rw [hk2, hemit key, hsk]
      simp [hc]
  · intro hall kvs hk
    obtain ⟨-, hk2, hne⟩ := (mem_ttlWrites env _ _ hareas area kvs).mp hk
    apply hne
    rw [hk2]
    unfold ttlEmitted
    have : (getArea c.keyTtlBackoffs_ area).filter (fun e => e.2.2.canTryNow env.now) = [] := by
      rw [List.filter_eq_nil_iff]
      intro e he
      have hf := Map.find_of_mem_nodup _ hm e.1 e.2 he
      simp [hall e.1 e.2 hf]
    rw [this]
    rfl

/-- Witness of C13 as amended: the key `z`, set at time 1000 with ttl 3000 and
ttl-version 0, is refreshed at time 2000: ttl-version 1 is written to the store,
without payload, and kept in the entry. -/
theorem advertiseTtlUpdates_refresh_witness :
    storeWrites (advertiseTtlUpdates Sample.constants Sample.envLater Sample.setter).trace
        = storeWrites Sample.setter.trace
          ++ [("a", [("z", { version := 1, originatorId := "self", value := none, ttl := 3000,
                             ttlVersion := 1 })])] ∧
      ∃ v', Map.find (getArea
            (advertiseTtlUpdates Sample.constants Sample.envLater Sample.setter).keyTtlBackoffs_
            "a") "z"
          = some (v', ExponentialBackoff.reportError
              { initialBackoff := 750, maxBackoff := 751, currentBackoff := 750,
                lastErrorTime := 1000 } 2000) ∧
        v'.value = none ∧ v'.version = 1 ∧ v'.ttlVersion = 1 := by
  obtain ⟨W, -, -, h, -⟩ := advertiseTtlUpdates_refresh Sample.constants Sample.envLater
    Sample.setter "a" "z"
    { version := 1, originatorId := "self", value := none, ttl := 3000, ttlVersion := 0 }
    { initialBackoff := 750, maxBackoff := 751, currentBackoff := 750, lastErrorTime := 1000 }
    (by decide) (by decide) (by unfold TtlPayloadFree; decide) (by decide)
  obtain ⟨v', h1, -, h3, -, -, -, h6⟩ := h (by decide)
  obtain ⟨h7, -, h9⟩ := h6 (fun p hp => by
    have : Map.find (getArea Sample.setter.persistedKeyVals_ "a") "z" = none := by decide
    rw [this] at hp
    exact absurd hp (by simp))
  exact ⟨by decide, v', h1, h3, h7, h9 (by decide) (by decide)⟩

/-- Counterexample to C13 as stated: the ttl backoff entry of the key `z` holds
the largest ttl-version of the 64-bit field, `2^63 - 1` (an entry reaches it
when a ttl-version of `2^63 - 2` is received for the key, line 415); the cycle
at time 2000 writes the ttl-version `-2^63` to the store and keeps it in the
entry, which is not one greater. -/
theorem advertiseTtlUpdates_refresh_counterexample :
    Map.find (getArea Sample.ttlTopClient.keyTtlBackoffs_ "a") "z" = some Sample.ttlTopEntry ∧
      Sample.ttlTopEntry.2.canTryNow Sample.envLater.now = true ∧
      storeWrites (advertiseTtlUpdates Sample.constants Sample.envLater Sample.ttlTopClient).trace
        = [("a", [("z", { version := 1, originatorId := "self", value := none, ttl := 3000,
                          ttlVersion := -9223372036854775808 })])] ∧
      (Map.find (getArea
          (advertiseTtlUpdates Sample.constants Sample.envLater Sample.ttlTopClient).keyTtlBackoffs_
          "a") "z").map (fun e => e.1)
        = some { version := 1, originatorId := "self", value := none, ttl := 3000,
                 ttlVersion := -9223372036854775808 } ∧
      (-9223372036854775808 : Int) ≠ Sample.ttlTopEntry.1.ttlVersion + 1 := by
  decide

/-! ## The advertise cycle -/

theorem advKeyVals_keys (env : Env) (persisted : KeyMap String Value)
    (backoffs : KeyMap String ExponentialBackoff) (keys : List String) (k : String)
    (h : k ∈ (advKeyVals env persisted backoffs keys).map Prod.fst) : k ∈ keys := by
  unfold advKeyVals at h
  simp only [List.mem_map, List.mem_filterMap, List.mem_filter, Option.map_eq_some'] at h
  obtain ⟨p, ⟨k', ⟨hk', -⟩, v, -, hp⟩, hk⟩ := h
  subst hp
  simp only at hk
  subst hk
  exact hk'

theorem advertiseKey_step (env : Env) (persisted : KeyMap String Value)
    (backoffs0 : KeyMap String ExponentialBackoff) (st : AdvLoop) (key : String) (v : Value)
    (b : ExponentialBackoff) (hp : Map.find persisted key = some v)
    (hb0 : Map.find backoffs0 key = some b) (hb : Map.find st.backoffs key = some b)
    (hfree : Map.find st.keyVals key = none) :
    ∃ st', advertiseKey env persisted st key = some st' ∧
      st'.keyVals = st.keyVals ++ advKeyVals env persisted backoffs0 [key] ∧
      st'.keysToClear = st.keysToClear ++ [key].filter (advPermitted env backoffs0) ∧
      (∀ k, k ≠ key → Map.find st'.backoffs k = Map.find st.backoffs k) := by
  unfold advertiseKey
  simp only [hp, hb]
  by_cases hc : b.canTryNow env.now = true
  · simp only [hc, Bool.not_true, Bool.false_eq_true, if_false]
    refine ⟨_, rfl, ?_, ?_, ?_⟩
    · simp [advKeyVals, advPermitted, hb0, hc, hp, Map.emplace, hfree]
    · simp [advPermitted, hb0, hc]
    · intro k hk
      exact Map.find_assign_ne _ _ (fun e => hk e.symm)
  · simp only [hc, Bool.not_false, if_true]
    refine ⟨_, rfl, ?_, ?_, fun _ _ => rfl⟩
    · simp [advKeyVals, advPermitted, hb0, hc]
    · simp [advPermitted, hb0, hc]

theorem advKeyVals_cons (env : Env) (persisted : KeyMap String Value)
    (backoffs : KeyMap String ExponentialBackoff) (key : String) (keys : List String) :
    advKeyVals env persisted backoffs (key :: keys)
      = advKeyVals env persisted backoffs [key] ++ advKeyVals env persisted backoffs keys := by
  unfold advKeyVals
  rw [← List.filterMap_append, ← List.filter_append]
  rfl

/-- The loop of `advertisePendingKeys` over the pending keys of one area, in
closed form: it does not throw when every key is persisted and has a backoff. -/
theorem advertiseKey_foldlM (env : Env) (persisted : KeyMap String Value)
    (backoffs0 : KeyMap String ExponentialBackoff) :
    ∀ (keys : List String) (st : AdvLoop), keys.Nodup →
      (∀ k ∈ keys, (Map.find persisted k).isSome = true ∧
        (Map.find backoffs0 k).isSome = true) →
      (∀ k ∈ keys, Map.find st.backoffs k = Map.find backoffs0 k) →
      (∀ k ∈ st.keyVals.map Prod.fst, k ∉ keys) →
      ∃ st', keys.foldlM (advertiseKey env persisted) st = some st' ∧
        st'.keyVals = st.keyVals ++ advKeyVals env persisted backoffs0 keys ∧
        st'.keysToClear = st.keysToClear ++ keys.filter (advPermitted env backoffs0) := by
  intro keys
  induction keys with
  | nil =>
    intro st _ _ _ _
    exact ⟨st, rfl, by simp [advKeyVals], by simp⟩
  | cons key t ih =>
    intro st hnd hall hbk hdis
    simp only [List.nodup_cons] at hnd
    obtain ⟨hp, hb0⟩ := hall key (List.mem_cons_self _ _)
    obtain ⟨v, hv⟩ := Option.isSome_iff_exists.mp hp
    obtain ⟨b, hb⟩ := Option.isSome_iff_exists.mp hb0
    have hfree : Map.find st.keyVals key = none := by
      rw [Map.find_eq_none_iff]
      intro hk
      exact hdis key hk (List.mem_cons_self _ _)
    obtain ⟨st1, e1, k1, c1, b1⟩ := advertiseKey_step env persisted backoffs0 st key v b hv hb
      ((hbk key (List.mem_cons_self _ _)).trans hb) hfree
    obtain ⟨st', e2, k2, c2⟩ := ih st1 hnd.2
      (fun k hk => hall k (List.mem_cons_of_mem _ hk))
      (fun k hk => by
        have hne : k ≠ key := fun e => hnd.1 (e ▸ hk)
        rw [b1 k hne]
        exact hbk k (List.mem_cons_of_mem _ hk))
      (fun k hk => by
        rw [k1, List.map_append, List.mem_append] at hk
        rcases hk with hk | hk
        · intro hk2
          exact hdis k hk (List.mem_cons_of_mem _ hk2)
        · have := advKeyVals_keys env persisted backoffs0 [key] k hk
          simp only [List.mem_singleton] at this
          rw [this]
          exact hnd.1)
    refine ⟨st', ?_, ?_, ?_⟩
    · simp only [List.foldlM_cons, e1]
      exact e2
    · rw [k2, k1, List.append_assoc, ← advKeyVals_cons]
    · rw [c2, c1, List.append_assoc, ← List.filter_append]
      rfl
theorem foldl_erase_eq_filter (P : List String) :
    ∀ keys : List String, P.foldl KeySet.erase keys = keys.filter (fun k => decide (k ∉ P)) := by
  induction P with
  | nil => intro keys; simp
  | cons p t ih =>
    intro keys
    rw [List.foldl_cons, ih]
    simp only [KeySet.erase, List.filter_filter]
    apply List.filter_congr
    intro k _
    simp only [List.mem_cons, not_or, Bool.decide_and, ne_eq, decide_not]
    rw [Bool.and_comm]

theorem erase_permitted (env : Env) (backoffs : KeyMap String ExponentialBackoff)
    (keys : List String) :
    (keys.filter (advPermitted env backoffs)).foldl KeySet.erase keys
      = keys.filter (fun k => !advPermitted env backoffs k) := by
  rw [foldl_erase_eq_filter]
  apply List.filter_congr
  intro k hk
  simp only [List.mem_filter, hk, true_and, decide_not]
  cases advPermitted env backoffs k <;> simp

/-- One area of the loop of `advertisePendingKeys`. -/
theorem advertiseAreas_cons (env : Env) (c : KvStoreClientInternal) (t : Int)
    (area : AreaId) (keys : List String) (rest : KeyMap AreaId (List String))
    (hnd : keys.Nodup)
    (hall : ∀ k ∈ keys, (Map.find (getArea c.persistedKeyVals_ area) k).isSome = true ∧
      (Map.find (getArea c.backoffs_ area) k).isSome = true) :
    ∃ (c2 : KvStoreClientInternal) (t2 : Int),
      advertiseAreas env c t ((area, keys) :: rest)
        = (advertiseAreas env c2 t2 rest).map (fun q =>
            (q.1, q.2.1,
              (area, advPending env area (getArea c.persistedKeyVals_ area)
                (getArea c.backoffs_ area) keys) :: q.2.2)) ∧
      c2.trace = c.trace ++ (advWrites env c.persistedKeyVals_ c.backoffs_ [(area, keys)]).map
          (fun w => Effect.setKvStoreKeyVals w.1 w.2) ∧
      (∀ a, getArea c2.persistedKeyVals_ a = getArea c.persistedKeyVals_ a) ∧
      (∀ a, a ≠ area → getArea c2.backoffs_ a = getArea c.backoffs_ a) ∧
      c2.keysToAdvertise_ = c.keysToAdvertise_ ∧ c2.keyTtlBackoffs_ = c.keyTtlBackoffs_ ∧
      c2.keyCallbacks_ = c.keyCallbacks_ ∧ c2.nodeId_ = c.nodeId_ := by
  cases keys with
  | nil =>
    refine ⟨c, t, ?_, ?_, fun _ => rfl, fun _ _ => rfl, rfl, rfl, rfl, rfl⟩
    · rw [advertiseAreas]
      simp [advPending, advKeyVals]
    · simp [advWrites, advKeyVals]
  | cons k0 ks =>
    obtain ⟨st', e, kv, kc⟩ := advertiseKey_foldlM env (getArea c.persistedKeyVals_ area)
      (getArea c.backoffs_ area) (k0 :: ks)
      { keyVals := [], keysToClear := [], backoffs := getArea c.backoffs_ area, timeout := t }
      hnd hall (fun _ _ => rfl) (by simp)
    simp only [List.nil_append] at kv kc
    by_cases hemp : (advKeyVals env (getArea c.persistedKeyVals_ area)
        (getArea c.backoffs_ area) (k0 :: ks)).isEmpty = true
    · have he : advKeyVals env (getArea c.persistedKeyVals_ area)
          (getArea c.backoffs_ area) (k0 :: ks) = [] := List.isEmpty_iff.mp hemp
      refine ⟨{ c with
          persistedKeyVals_ := touchArea c.persistedKeyVals_ area
          backoffs_ := Map.assign (touchArea c.backoffs_ area) area st'.backoffs },
        st'.timeout, ?_, ?_, fun a => getArea_touchArea _ _ _, ?_, rfl, rfl, rfl, rfl⟩
      · rw [advertiseAreas]
        simp only [List.isEmpty_cons, Bool.false_eq_true, if_false, getArea_touchArea, e,
          setKeysHelper, kv, hemp, if_true, kc, advPending, erase_permitted]
      · simp [advWrites, he]
      · intro a ha
        rw [getArea_assign_ne _ _ (fun e => ha e.symm), getArea_touchArea]
    · have hne : (advKeyVals env (getArea c.persistedKeyVals_ area)
          (getArea c.backoffs_ area) (k0 :: ks)).isEmpty = false := by
        simpa using hemp
      have he : ¬ advKeyVals env (getArea c.persistedKeyVals_ area)
          (getArea c.backoffs_ area) (k0 :: ks) = [] :=
        fun h => hemp (List.isEmpty_iff.mpr h)
      refine ⟨{ c with
          persistedKeyVals_ := touchArea c.persistedKeyVals_ area
          backoffs_ := Map.assign (touchArea c.backoffs_ area) area st'.backoffs
          trace := c.trace ++ [Effect.setKvStoreKeyVals area
            (advKeyVals env (getArea c.persistedKeyVals_ area) (getArea c.backoffs_ area)
              (k0 :: ks))] },
        st'.timeout, ?_, ?_, fun a => getArea_touchArea _ _ _, ?_, rfl, rfl, rfl, rfl⟩
      · rw [advertiseAreas]
        simp only [List.isEmpty_cons, Bool.false_eq_true, if_false, getArea_touchArea, e,
          setKeysHelper, kv, hne, kc, advPending, erase_permitted]
      · simp [advWrites, he]
      · intro a ha
        rw [getArea_assign_ne _ _ (fun e => ha e.symm), getArea_touchArea]
/-- The loop of `advertisePendingKeys` over the areas, in closed form: it does not
throw when every pending key is persisted and has a backoff. -/
theorem advertiseAreas_closed (env : Env) :
    ∀ (l : KeyMap AreaId (List String)) (c : KvStoreClientInternal) (t : Int),
      (l.map Prod.fst).Nodup →
      (∀ p ∈ l, p.2.Nodup ∧
        ∀ k ∈ p.2, (Map.find (getArea c.persistedKeyVals_ p.1) k).isSome = true ∧
          (Map.find (getArea c.backoffs_ p.1) k).isSome = true) →
      ∃ r, advertiseAreas env c t l = some r ∧
        r.2.2 = l.map (fun p =>
          (p.1, advPending env p.1 (getArea c.persistedKeyVals_ p.1) (getArea c.backoffs_ p.1)
            p.2)) ∧
        r.1.trace = c.trace ++ (advWrites env c.persistedKeyVals_ c.backoffs_ l).map
          (fun w => Effect.setKvStoreKeyVals w.1 w.2) ∧
        (∀ a, getArea r.1.persistedKeyVals_ a = getArea c.persistedKeyVals_ a) ∧
        r.1.keyTtlBackoffs_ = c.keyTtlBackoffs_ ∧ r.1.keyCallbacks_ = c.keyCallbacks_ ∧
        r.1.nodeId_ = c.nodeId_ := by
  intro l
  induction l with
  | nil =>
    intro c t _ _
    exact ⟨(c, t, []), rfl, rfl, by simp [advWrites], fun _ => rfl, rfl, rfl, rfl⟩
  | cons p rest ih =>
    obtain ⟨area, keys⟩ := p
    intro c t hnd hall
    simp only [List.map_cons, List.nodup_cons] at hnd
    obtain ⟨hk, hpb⟩ := hall (area, keys) (List.mem_cons_self _ _)
    obtain ⟨c2, t2, heq, h1, h2, h3, -, h5, h6, h7⟩ :=
      advertiseAreas_cons env c t area keys rest hk hpb
    have hne : ∀ p ∈ rest, p.1 ≠ area := by
      intro p hp e
      exact hnd.1 (e ▸ List.mem_map_of_mem Prod.fst hp)
    obtain ⟨r, hr, r1, r2, r3, r4, r5, r6⟩ := ih c2 t2 hnd.2 (by
      intro p hp
      obtain ⟨a1, a2⟩ := hall p (List.mem_cons_of_mem _ hp)
      refine ⟨a1, fun k hk => ?_⟩
      rw [h2 p.1, h3 p.1 (hne p hp)]
      exact a2 k hk)
    have hmap : rest.map (fun p =>
          (p.1, advPending env p.1 (getArea c2.persistedKeyVals_ p.1)
            (getArea c2.backoffs_ p.1) p.2))
        = rest.map (fun p =>
          (p.1, advPending env p.1 (getArea c.persistedKeyVals_ p.1)
            (getArea c.backoffs_ p.1) p.2)) := by
      apply List.map_congr_left
      intro p hp
      rw [h2 p.1, h3 p.1 (hne p hp)]
    have hwr : advWrites env c2.persistedKeyVals_ c2.backoffs_ rest
        = advWrites env c.persistedKeyVals_ c.backoffs_ rest := by
      unfold advWrites
      apply List.filterMap_congr
      intro p hp
      rw [h2 p.1, h3 p.1 (hne p hp)]
    refine ⟨(r.1, r.2.1,
        (area, advPending env area (getArea c.persistedKeyVals_ area) (getArea c.backoffs_ area)
          keys) :: r.2.2), by rw [heq, hr]; rfl, ?_, ?_, ?_, r4.trans h5, r5.trans h6,
      r6.trans h7⟩
    · simp only [List.map_cons, r1, hmap]
    · simp only [r2, h1, hwr, List.append_assoc, ← List.map_append]
      congr 2
      simp only [advWrites, List.filterMap_cons, List.filterMap_nil]
      split <;> simp
    · intro a
      rw [r3 a, h2 a]

theorem mem_advWrites (env : Env) (P : KeyMap AreaId (KeyMap String Value))
    (B : KeyMap AreaId (KeyMap String ExponentialBackoff)) (l : KeyMap AreaId (List String))
    (hareas : (l.map Prod.fst).Nodup) (area : AreaId) (kvs : KeyMap String Value) :
    (area, kvs) ∈ advWrites env P B l
      ↔ (kvs = advKeyVals env (getArea P area) (getArea B area) (getArea l area) ∧ kvs ≠ []) := by
  unfold advWrites
  simp only [List.mem_filterMap]
  constructor
  · rintro ⟨p, hp, hw⟩
    obtain ⟨a, m⟩ := p
    have hfind : getArea l a = m := by
      simp [getArea, Map.find_of_mem_nodup l hareas a m hp]
    by_cases he : (advKeyVals env (getArea P a) (getArea B a) m).isEmpty = true
    · simp [he] at hw
    · simp only [he, Bool.false_eq_true, if_false, Option.some.injEq, Prod.mk.injEq] at hw
      obtain ⟨h1, h2⟩ := hw
      subst h1
      refine ⟨?_, ?_⟩
      · rw [hfind, ← h2]
      · rw [← h2]
        intro hnil
        exact he (List.isEmpty_iff.mpr hnil)
  · rintro ⟨hk, hne⟩
    have hmem : area ∈ l.map Prod.fst := by
      by_contra hno
      have : Map.find l area = none := (Map.find_eq_none_iff _ _).mpr hno
      apply hne
      rw [hk]
      simp [getArea, this, advKeyVals]
    obtain ⟨p, hp, hpa⟩ := List.mem_map.mp hmem
    obtain ⟨a, m⟩ := p
    simp only at hpa
    subst hpa
    have hfind : getArea l a = m := by
      simp [getArea, Map.find_of_mem_nodup l hareas a m hp]
    refine ⟨(a, m), hp, ?_⟩
    rw [hfind] at hk
    have he : ¬ (advKeyVals env (getArea P a) (getArea B a) m).isEmpty = true := by
      intro h
      exact hne (hk.trans (List.isEmpty_iff.mp h))
    simp only [he, Bool.false_eq_true, if_false, hk]

/-- The method `advertisePendingKeys` over the internal pending keys, in closed
form. -/
theorem advertisePendingKeys_closed (K : Constants) (env : Env) (c : KvStoreClientInternal)
    (hareas : (c.keysToAdvertise_.map Prod.fst).Nodup)
    (hall : ∀ p ∈ c.keysToAdvertise_, p.2.Nodup ∧
      ∀ k ∈ p.2, (Map.find (getArea c.persistedKeyVals_ p.1) k).isSome = true ∧
        (Map.find (getArea c.backoffs_ p.1) k).isSome = true) :
    ∃ c', advertisePendingKeys K env c none = some c' ∧
      (∀ area, getArea c'.keysToAdvertise_ area
        = advPending env area (getArea c.persistedKeyVals_ area) (getArea c.backoffs_ area)
            (getArea c.keysToAdvertise_ area)) ∧
      storeWrites c'.trace
        = storeWrites c.trace ++ advWrites env c.persistedKeyVals_ c.backoffs_ c.keysToAdvertise_ ∧
      (∀ a, getArea c'.persistedKeyVals_ a = getArea c.persistedKeyVals_ a) := by
  obtain ⟨r, hr, r1, r2, r3, -⟩ := advertiseAreas_closed env c.keysToAdvertise_ c K.kMaxBackoff
    hareas hall
  refine ⟨{ r.1 with keysToAdvertise_ := r.2.2, advertiseKeyValsTimer_ := some r.2.1 }, ?_, ?_,
    ?_, r3⟩
  · unfold advertisePendingKeys
    simp only [hr, Option.map_some']
  · intro area
    simp only [r1]
    rw [getArea_map_entries
      (fun a keys => advPending env a (getArea c.persistedKeyVals_ a) (getArea c.backoffs_ a) keys)
      (fun a => by simp [advPending, advKeyVals]) c.keysToAdvertise_ area]
  · simp only [r2, storeWrites_append, storeWrites_of_writes]
theorem filterMap_keys_sublist {κ α β : Type} (f : κ × α → Option (κ × β))
    (hf : ∀ p w, f p = some w → w.1 = p.1) (l : List (κ × α)) :
    ((l.filterMap f).map Prod.fst).Sublist (l.map Prod.fst) := by
  induction l with
  | nil => simp
  | cons p t ih =>
    cases hp : f p with
    | none =>
      simp only [List.filterMap_cons, hp, List.map_cons]
      exact List.Sublist.cons _ ih
    | some w =>
      simp only [List.filterMap_cons, hp, List.map_cons, hf p w hp]
      exact List.Sublist.cons₂ _ ih

theorem advKeyVals_spec (env : Env) (persisted : KeyMap String Value)
    (backoffs : KeyMap String ExponentialBackoff) (keys : List String) (hnd : keys.Nodup)
    (hall : ∀ k ∈ keys, (Map.find persisted k).isSome = true) :
    (advKeyVals env persisted backoffs keys).map Prod.fst
        = keys.filter (advPermitted env backoffs) ∧
      ∀ k ∈ keys.filter (advPermitted env backoffs),
        Map.find (advKeyVals env persisted backoffs keys) k = Map.find persisted k := by
  have hP : (keys.filter (advPermitted env backoffs)).Nodup := hnd.sublist (List.filter_sublist _)
  have hsome : ∀ k ∈ keys.filter (advPermitted env backoffs), (Map.find persisted k).isSome = true :=
    fun k hk => hall k (List.mem_filter.mp hk).1
  unfold advKeyVals
  generalize keys.filter (advPermitted env backoffs) = P at hP hsome
  have hkeys : (P.filterMap (fun k => (Map.find persisted k).map (fun v => (k, v)))).map Prod.fst
      = P := by
    clear hP
    induction P with
    | nil => rfl
    | cons k t ih =>
      obtain ⟨v, hv⟩ := Option.isSome_iff_exists.mp (hsome k (List.mem_cons_self _ _))
      simp only [List.filterMap_cons, hv, Option.map_some', List.map_cons]
      rw [ih (fun k' hk' => hsome k' (List.mem_cons_of_mem _ hk'))]
  refine ⟨hkeys, ?_⟩
  intro k hk
  obtain ⟨v, hv⟩ := Option.isSome_iff_exists.mp (hsome k hk)
  rw [hv]
  apply Map.find_of_mem_nodup
  · rw [hkeys]; exact hP
  · exact List.mem_filterMap.mpr ⟨k, hk, by simp [hv]⟩

/-- C14: `advertisePendingKeys` over the internal pending keys, every pending key
being persisted and having an advertise backoff, does not throw and sends at
most one write to the store per area.  For an area with pending keys `pending`,
of which `P` are those whose backoff permits a try now: when `P` is empty no
write is made for the area and its pending keys are unchanged; otherwise one
write carries the persisted values of exactly the keys of `P`, and the pending
keys become `pending` without `P` when the write succeeds and stay `pending`
when it fails.  A pending key whose backoff does not permit stays pending. -/
theorem advertisePendingKeys_cycle (K : Constants) (env : Env) (c : KvStoreClientInternal)
    (area : AreaId)
    (hareas : (c.keysToAdvertise_.map Prod.fst).Nodup)
    (hall : ∀ p ∈ c.keysToAdvertise_, p.2.Nodup ∧
      ∀ k ∈ p.2, (Map.find (getArea c.persistedKeyVals_ p.1) k).isSome = true ∧
        (Map.find (getArea c.backoffs_ p.1) k).isSome = true) :
    ∃ c' W, advertisePendingKeys K env c none = some c' ∧
      storeWrites c'.trace = storeWrites c.trace ++ W ∧ (W.map Prod.fst).Nodup ∧
      ((getArea c.keysToAdvertise_ area).filter (advPermitted env (getArea c.backoffs_ area)) = [] →
        getArea c'.keysToAdvertise_ area = getArea c.keysToAdvertise_ area ∧
        ∀ kvs, (area, kvs) ∉ W) ∧
      ((getArea c.keysToAdvertise_ area).filter (advPermitted env (getArea c.backoffs_ area)) ≠ [] →
        ∃ kvs, (area, kvs) ∈ W ∧
          kvs.map Prod.fst
            = (getArea c.keysToAdvertise_ area).filter
                (advPermitted env (getArea c.backoffs_ area)) ∧
          (∀ k ∈ (getArea c.keysToAdvertise_ area).filter
                (advPermitted env (getArea c.backoffs_ area)),
            Map.find kvs k = Map.find (getArea c.persistedKeyVals_ area) k) ∧
          (env.setKvStoreKeyVals area kvs = true →
            getArea c'.keysToAdvertise_ area
              = (getArea c.keysToAdvertise_ area).filter
                  (fun k => !advPermitted env (getArea c.backoffs_ area) k)) ∧
          (env.setKvStoreKeyVals area kvs = false →
            getArea c'.keysToAdvertise_ area = getArea c.keysToAdvertise_ area)) ∧
      (∀ k ∈ getArea c.keysToAdvertise_ area,
        advPermitted env (getArea c.backoffs_ area) k = false →
        k ∈ getArea c'.keysToAdvertise_ area) := by
  obtain ⟨c', hrun, hpend, hw, -⟩ := advertisePendingKeys_closed K env c hareas hall
  have hwn : ((advWrites env c.persistedKeyVals_ c.backoffs_ c.keysToAdvertise_).map
      Prod.fst).Nodup := by
    refine List.Nodup.sublist (filterMap_keys_sublist _ ?_ _) hareas
    intro p w hp
    split at hp
    · simp at hp
    · simp only [Option.some.injEq] at hp
      rw [← hp]
  -- the pending keys of the area are distinct, persisted and have a backoff
  have harea : (getArea c.keysToAdvertise_ area).Nodup ∧
      ∀ k ∈ getArea c.keysToAdvertise_ area,
        (Map.find (getArea c.persistedKeyVals_ area) k).isSome = true := by
    by_cases hmem : area ∈ c.keysToAdvertise_.map Prod.fst
    · obtain ⟨p, hp, hpa⟩ := List.mem_map.mp hmem
      obtain ⟨a, m⟩ := p
      simp only at hpa
      subst hpa
      have hfind : getArea c.keysToAdvertise_ a = m := by
        simp [getArea, Map.find_of_mem_nodup _ hareas a m hp]
      rw [hfind]
      exact ⟨(hall _ hp).1, fun k hk => ((hall _ hp).2 k hk).1⟩
    · have : Map.find c.keysToAdvertise_ area = none := (Map.find_eq_none_iff _ _).mpr hmem
      simp [getArea, this]
  obtain ⟨hk1, hk2⟩ := advKeyVals_spec env (getArea c.persistedKeyVals_ area)
    (getArea c.backoffs_ area) (getArea c.keysToAdvertise_ area) harea.1 harea.2
  refine ⟨c', _, hrun, hw, hwn, ?_, ?_, ?_⟩
  · intro hP
    have hkv : advKeyVals env (getArea c.persistedKeyVals_ area) (getArea c.backoffs_ area)
        (getArea c.keysToAdvertise_ area) = [] := by
      simp [advKeyVals, hP]
    constructor
    · rw [hpend area]
      simp only [advPending, hkv, List.isEmpty_nil, if_true]
      rw [List.filter_eq_self]
      intro k hk
      have : k ∉ (getArea c.keysToAdvertise_ area).filter
          (advPermitted env (getArea c.backoffs_ area)) := by rw [hP]; simp
      simp only [List.mem_filter, hk, true_and] at this
      simpa using this
    · intro kvs hk
      obtain ⟨h1, h2⟩ := (mem_advWrites env _ _ _ hareas area kvs).mp hk
      exact h2 (h1.trans hkv)
  · intro hP
    have hne : advKeyVals env (getArea c.persistedKeyVals_ area) (getArea c.backoffs_ area)
        (getArea c.keysToAdvertise_ area) ≠ [] := by
      intro h
      apply hP
      rw [← hk1, h]
      rfl
    have hemp : (advKeyVals env (getArea c.persistedKeyVals_ area) (getArea c.backoffs_ area)
        (getArea c.keysToAdvertise_ area)).isEmpty = false := by
      cases hq : advKeyVals env (getArea c.persistedKeyVals_ area) (getArea c.backoffs_ area)
          (getArea c.keysToAdvertise_ area) with
      | nil => exact absurd hq hne
      | cons _ _ => rfl
    refine ⟨_, (mem_advWrites env _ _ _ hareas area _).mpr ⟨rfl, hne⟩, hk1, hk2, ?_, ?_⟩
    · intro hok
      rw [hpend area]
      simp only [advPending, hemp, Bool.false_eq_true, if_false, hok, if_true]
    · intro hfail
      rw [hpend area]
      simp only [advPending, hemp, Bool.false_eq_true, if_false, hfail]
  · intro k hk hperm
    rw [hpend area]
    have hfil : k ∈ (getArea c.keysToAdvertise_ area).filter
        (fun k => !advPermitted env (getArea c.backoffs_ area) k) :=
      List.mem_filter.mpr ⟨hk, by simp [hperm]⟩
    unfold advPending
    by_cases hcond : (if (advKeyVals env (getArea c.persistedKeyVals_ area)
        (getArea c.backoffs_ area) (getArea c.keysToAdvertise_ area)).isEmpty = true then true
        else env.setKvStoreKeyVals area (advKeyVals env (getArea c.persistedKeyVals_ area)
          (getArea c.backoffs_ area) (getArea c.keysToAdvertise_ area))) = true
    · rw [if_pos hcond]
      exact hfil
    · rw [if_neg hcond]
      exact hk

/-- Witness of C14: the key `k` is pending with version 6 and its backoff permits;
with a store that accepts the write the key leaves the pending keys, with a
store that refuses it the key stays pending; in both cases one write carries
the persisted value. -/
theorem advertisePendingKeys_cycle_witness :
    (advertisePendingKeys Sample.constants Sample.env Sample.pendingClient none).map
        (fun c' => (getArea c'.keysToAdvertise_ "a", storeWrites c'.trace))
      = some ([], [("a", [("k", { version := 6, originatorId := "self", value := some "v1",
                                   ttl := -2147483648, ttlVersion := 0 })])]) ∧
    (advertisePendingKeys Sample.constants Sample.envFailing Sample.pendingClient none).map
        (fun c' => (getArea c'.keysToAdvertise_ "a", storeWrites c'.trace))
      = some (["k"], [("a", [("k", { version := 6, originatorId := "self", value := some "v1",
                                      ttl := -2147483648, ttlVersion := 0 })])]) ∧
    ∃ c' W, advertisePendingKeys Sample.constants Sample.env Sample.pendingClient none = some c' ∧
      storeWrites c'.trace = storeWrites Sample.pendingClient.trace ++ W ∧
      (W.map Prod.fst).Nodup := by
  obtain ⟨c', W, h1, h2, h3, -⟩ := advertisePendingKeys_cycle Sample.constants Sample.env
    Sample.pendingClient "a" (by decide) (by decide)
  exact ⟨by decide, by decide, c', W, h1, h2, h3⟩

/-! ## Watchdog: the memory check -/

theorem memoryCritical_iff (memInUse maxMemoryMB : Nat) :
    Watchdog.memoryCritical memInUse maxMemoryMB = true ↔ maxMemoryMB * 1000000 < memInUse := by
  unfold Watchdog.memoryCritical
  rw [decide_eq_true_eq, gt_iff_lt, lt_div_iff₀ (by norm_num : (0 : ℚ) < 1000000)]
  exact_mod_cast Iff.rfl

/-- C22: `monitorMemory` as a step over the recorded over-limit start time
`memExceedTime_`.  It crashes exactly when the reading is available, the usage
exceeds the limit (`bytes / 10^6 > max_memory_mb`), a start time is recorded and
`now - start > kMemoryThresholdTime`.  An over-limit reading without a recorded
start time records `now` and does not crash; an over-limit reading with a
recorded start time that does not crash leaves the state as it is; a reading
that is not over the limit clears the start time; an unavailable reading leaves
the state as it is; and `memoryLimitExceeded` holds exactly when a start time is
recorded. -/
theorem monitorMemory_step (kMemoryThresholdTime : Int) (w : Watchdog) (env : WatchdogEnv) :
    ((∃ a, w.monitorMemory kMemoryThresholdTime env = Except.error a) ↔
        ∃ memInUse start, env.getRSSMemBytes = some memInUse ∧
          (memInUse : ℚ) / 1000000 > (w.maxMemoryMB_ : ℚ) ∧
          w.memExceedTime_ = some start ∧ env.memNow - start > kMemoryThresholdTime) ∧
      (∀ a, w.monitorMemory kMemoryThresholdTime env = Except.error a →
        ∃ memInUse, env.getRSSMemBytes = some memInUse ∧
          a = WatchdogAbort.memoryLimit memInUse) ∧
      (∀ memInUse, env.getRSSMemBytes = some memInUse →
        (memInUse : ℚ) / 1000000 > (w.maxMemoryMB_ : ℚ) → w.memExceedTime_ = none →
        w.monitorMemory kMemoryThresholdTime env
          = Except.ok { w with memExceedTime_ := some env.memNow }) ∧
      (∀ memInUse start, env.getRSSMemBytes = some memInUse →
        (memInUse : ℚ) / 1000000 > (w.maxMemoryMB_ : ℚ) → w.memExceedTime_ = some start →
        ¬ env.memNow - start > kMemoryThresholdTime →
        w.monitorMemory kMemoryThresholdTime env = Except.ok w) ∧
      (∀ memInUse, env.getRSSMemBytes = some memInUse →
        ¬ (memInUse : ℚ) / 1000000 > (w.maxMemoryMB_ : ℚ) →
        w.monitorMemory kMemoryThresholdTime env = Except.ok { w with memExceedTime_ := none }) ∧
      (env.getRSSMemBytes = none → w.monitorMemory kMemoryThresholdTime env = Except.ok w) ∧
      (w.memoryLimitExceeded = true ↔ ∃ start, w.memExceedTime_ = some start) := by
  have hcrit : ∀ m : Nat, Watchdog.memoryCritical m w.maxMemoryMB_ = true
      ↔ (m : ℚ) / 1000000 > (w.maxMemoryMB_ : ℚ) := by
    intro m
    unfold Watchdog.memoryCritical
    rw [decide_eq_true_eq]
  refine ⟨?_, ?_, ?_, ?_, ?_, ?_, ?_⟩
  · unfold Watchdog.monitorMemory
    cases hr : env.getRSSMemBytes with
    | none => simp
    | some m =>
      by_cases hc : Watchdog.memoryCritical m w.maxMemoryMB_ = true
      · have hq := (hcrit m).mp hc
        cases hs : w.memExceedTime_ with
        | none => simp [hc]
        | some start =>
          by_cases ht : env.memNow - start > kMemoryThresholdTime
          · simp only [hc, if_true, ht]
            exact ⟨fun _ => ⟨m, start, rfl, hq, rfl, ht⟩, fun _ => ⟨_, rfl⟩⟩
          · simp only [hc, if_true, ht, if_false]
            constructor
            · rintro ⟨a, ha⟩
              cases ha
            · rintro ⟨m', s', hm', -, hs', ht'⟩
              cases hm'
              cases hs'
              exact absurd ht' ht
      · have hq : ¬ (m : ℚ) / 1000000 > (w.maxMemoryMB_ : ℚ) := fun h => hc ((hcrit m).mpr h)
        simp only [hc, Bool.false_eq_true, if_false]
        constructor
        · rintro ⟨a, ha⟩
          split at ha <;> cases ha
        · rintro ⟨m', s', hm', hq', -, -⟩
          cases hm'
          exact absurd hq' hq
  · intro a ha
    unfold Watchdog.monitorMemory at ha
    cases hr : env.getRSSMemBytes with
    | none => simp [hr] at ha
    | some m =>
      simp only [hr] at ha
      split at ha
      · split at ha
        · cases ha
        · split at ha
          · cases ha
            exact ⟨m, rfl, rfl⟩
          · cases ha
      · split at ha <;> cases ha
  · intro m hr hq hs
    unfold Watchdog.monitorMemory
    simp only [hr, (hcrit m).mpr hq, if_true, hs]
  · intro m start hr hq hs ht
    unfold Watchdog.monitorMemory
    simp only [hr, (hcrit m).mpr hq, if_true, hs, ht, if_false]
  · intro m hr hq
    have hc : ¬ Watchdog.memoryCritical m w.maxMemoryMB_ = true := fun h => hq ((hcrit m).mp h)
    unfold Watchdog.monitorMemory
    simp only [hr, hc, Bool.false_eq_true, if_false]
    cases hs : w.memExceedTime_ with
    | none =>
      simp only [Option.isSome_none, Bool.false_eq_true, if_false]
      congr 1
      cases w
      simp only at hs
      subst hs
      rfl
    | some start => simp
  · intro hr
    unfold Watchdog.monitorMemory
    simp only [hr]
  · unfold Watchdog.memoryLimitExceeded
    exact Option.isSome_iff_exists
/-! ## Watchdog: the thread check -/

theorem Watchdog.run_append (kMemoryThresholdTime : Int) (l1 l2 : List WatchdogEvent) :
    ∀ w : Watchdog,
      Watchdog.run kMemoryThresholdTime w (l1 ++ l2)
        = match Watchdog.run kMemoryThresholdTime w l1 with
          | Except.error a => Except.error a
          | Except.ok w1 => Watchdog.run kMemoryThresholdTime w1 l2 := by
  induction l1 with
  | nil => intro w; rfl
  | cons e t ih =>
    intro w
    simp only [List.cons_append, Watchdog.run]
    cases Watchdog.step kMemoryThresholdTime w e with
    | error a => rfl
    | ok w1 => exact ih w1

theorem Watchdog.run_concat (kMemoryThresholdTime : Int) (l : List WatchdogEvent)
    (e : WatchdogEvent) (w w' : Watchdog)
    (h : Watchdog.run kMemoryThresholdTime w (l ++ [e]) = Except.ok w') :
    ∃ w1, Watchdog.run kMemoryThresholdTime w l = Except.ok w1 ∧
      Watchdog.step kMemoryThresholdTime w1 e = Except.ok w' := by
  rw [Watchdog.run_append] at h
  cases h1 : Watchdog.run kMemoryThresholdTime w l with
  | error a => simp [h1] at h
  | ok w1 =>
    simp only [h1, Watchdog.run] at h
    refine ⟨w1, rfl, ?_⟩
    cases h2 : Watchdog.step kMemoryThresholdTime w1 e with
    | error a => simp [h2] at h
    | ok w2 =>
      simp only [h2] at h
      exact h

theorem Watchdog.addEvb_previousStatus (w w' : Watchdog) (evb : Nat) (name : String)
    (h : w.addEvb evb name = Except.ok w') : w'.previousStatus_ = w.previousStatus_ := by
  unfold Watchdog.addEvb at h
  split at h
  · cases h
  · split at h
    · cases h
    · cases h
      rfl

theorem Watchdog.monitorMemory_frame (kMemoryThresholdTime : Int) (w w' : Watchdog)
    (env : WatchdogEnv) (h : w.monitorMemory kMemoryThresholdTime env = Except.ok w') :
    w'.previousStatus_ = w.previousStatus_ ∧ w'.monitorEvbs_ = w.monitorEvbs_ ∧
      w'.threadTimeout_ = w.threadTimeout_ := by
  unfold Watchdog.monitorMemory at h
  split at h
  · cases h
    exact ⟨rfl, rfl, rfl⟩
  · split at h
    · split at h
      · cases h
        exact ⟨rfl, rfl, rfl⟩
      · split at h
        · cases h
        · cases h
          exact ⟨rfl, rfl, rfl⟩
    · split at h <;> (cases h; exact ⟨rfl, rfl, rfl⟩)

/-- What `updateCounters` does, from the stuck threads and `previousStatus_`. -/
theorem Watchdog.updateCounters_spec (w : Watchdog) (env : WatchdogEnv) :
    (w.stuckThreads env ≠ [] ∧ w.previousStatus_ = false →
        w.updateCounters env = Except.error (WatchdogAbort.deadThread (w.stuckThreads env))) ∧
      (¬ (w.stuckThreads env ≠ [] ∧ w.previousStatus_ = false) →
        w.updateCounters env
          = Except.ok { w with previousStatus_ := decide (w.stuckThreads env = []) }) := by
  unfold Watchdog.updateCounters
  simp only [ne_eq, List.length_eq_zero, Bool.not_eq_true', Bool.decide_eq_true]
  constructor
  · intro h
    rw [if_pos h]
  · intro h
    rw [if_neg h]

theorem Watchdog.timerCallback_previousStatus (kMemoryThresholdTime : Int) (w w' : Watchdog)
    (env : WatchdogEnv) (h : Watchdog.timerCallback kMemoryThresholdTime w env = Except.ok w') :
    w'.previousStatus_ = decide (w.stuckThreads env = []) := by
  unfold Watchdog.timerCallback at h
  by_cases hc : w.stuckThreads env ≠ [] ∧ w.previousStatus_ = false
  · rw [(Watchdog.updateCounters_spec w env).1 hc] at h
    cases h
  · rw [(Watchdog.updateCounters_spec w env).2 hc] at h
    simp only at h
    cases hm : Watchdog.monitorMemory kMemoryThresholdTime
        { w with previousStatus_ := decide (w.stuckThreads env = []) } env with
    | error a => simp [hm] at h
    | ok w2 =>
      simp only [hm] at h
      cases h
      exact (Watchdog.monitorMemory_frame kMemoryThresholdTime _ w2 env hm).1

/-- After a run from construction, `previousStatus_` is false exactly when the
last check of the run found a stuck thread. -/
theorem Watchdog.run_previousStatus (kMemoryThresholdTime : Int) (config : WatchdogConfig)
    (events : List WatchdogEvent) :
    ∀ w : Watchdog,
      Watchdog.run kMemoryThresholdTime (Watchdog.init config) events = Except.ok w →
      (w.previousStatus_ = false ↔
        ∃ (pre : List WatchdogEvent) (env0 : WatchdogEnv) (adds : List (Nat × String))
          (w0 : Watchdog),
          events = pre ++ WatchdogEvent.timer env0
              :: adds.map (fun p => WatchdogEvent.addEvb p.1 p.2) ∧
            Watchdog.run kMemoryThresholdTime (Watchdog.init config) pre = Except.ok w0 ∧
            w0.stuckThreads env0 ≠ []) := by
  induction events using List.reverseRecOn with
  | nil =>
    intro w h
    cases h
    constructor
    · intro hf
      cases hf
    · rintro ⟨pre, env0, adds, w0, he, -⟩
      exact absurd he (by simp)
  | append_singleton l e ih =>
    intro w h
    obtain ⟨w1, h1, h2⟩ := Watchdog.run_concat kMemoryThresholdTime l e _ w h
    cases e with
    | addEvb evb name =>
      have hp : w.previousStatus_ = w1.previousStatus_ :=
        Watchdog.addEvb_previousStatus w1 w evb name h2
      rw [hp, ih w1 h1]
      constructor
      · rintro ⟨pre, env0, adds, w0, he, hr, hs⟩
        refine ⟨pre, env0, adds ++ [(evb, name)], w0, ?_, hr, hs⟩
        rw [he]
        simp
      · rintro ⟨pre, env0, adds, w0, he, hr, hs⟩
        rcases List.eq_nil_or_concat adds with hnil | ⟨adds1, p, hcat⟩
        · subst hnil
          simp only [List.map_nil] at he
          have := congrArg List.getLast? he
          simp at this
        · subst hcat
          refine ⟨pre, env0, adds1, w0, ?_, hr, hs⟩
          simp only [List.concat_eq_append, List.map_append, List.map_cons, List.map_nil] at he
          rw [← List.cons_append, ← List.append_assoc] at he
          exact (List.append_inj' he rfl).1
    | timer env =>
      have hp : w.previousStatus_ = decide (w1.stuckThreads env = []) :=
        Watchdog.timerCallback_previousStatus kMemoryThresholdTime w1 w env h2
      rw [hp]
      constructor
      · intro hf
        refine ⟨l, env, [], w1, rfl, h1, ?_⟩
        simpa using hf
      · rintro ⟨pre, env0, adds, w0, he, hr, hs⟩
        rcases List.eq_nil_or_concat adds with hnil | ⟨adds1, p, hcat⟩
        · subst hnil
          simp only [List.map_nil] at he
          have hh := List.append_inj' he rfl
          obtain ⟨hl, he2⟩ := hh
          subst hl
          simp only [List.cons.injEq, WatchdogEvent.timer.injEq, and_true] at he2
          subst he2
          rw [h1] at hr
          cases hr
          simpa using hs
        · subst hcat
          simp only [List.concat_eq_append, List.map_append, List.map_cons, List.map_nil] at he
          rw [← List.cons_append, ← List.append_assoc] at he
          have := (List.append_inj' he rfl).2
          simp at this

/-- C23: a monitored thread is stuck at a check when the whole seconds since its
last activity exceed `thread_timeout`; after any sequence of events from
construction that did not abort, the thread check `updateCounters` crashes
exactly when a monitored thread is stuck at this check and a monitored thread
was stuck at the check before it (the last timer event of the sequence); the
crash names the stuck threads, and without a crash `previousStatus_` records
whether this check found no stuck thread. -/
theorem updateCounters_crash_iff (kMemoryThresholdTime : Int) (config : WatchdogConfig)
    (events : List WatchdogEvent) (w : Watchdog) (env : WatchdogEnv)
    (hrun : Watchdog.run kMemoryThresholdTime (Watchdog.init config) events = Except.ok w) :
    (∀ name, name ∈ w.stuckThreads env ↔
        ∃ evb, (evb, name) ∈ w.monitorEvbs_ ∧
          Int.tdiv (env.now - env.getTimestamp evb) 1000000000 > w.threadTimeout_) ∧
      ((∃ a, w.updateCounters env = Except.error a) ↔
        (w.stuckThreads env ≠ [] ∧
          ∃ (pre : List WatchdogEvent) (env0 : WatchdogEnv) (adds : List (Nat × String))
            (w0 : Watchdog),
            events = pre ++ WatchdogEvent.timer env0
                :: adds.map (fun p => WatchdogEvent.addEvb p.1 p.2) ∧
              Watchdog.run kMemoryThresholdTime (Watchdog.init config) pre = Except.ok w0 ∧
              w0.stuckThreads env0 ≠ [])) ∧
      (∀ a, w.updateCounters env = Except.error a →
        a = WatchdogAbort.deadThread (w.stuckThreads env)) ∧
      (∀ w', w.updateCounters env = Except.ok w' →
        w' = { w with previousStatus_ := decide (w.stuckThreads env = []) }) := by
  have hprev := Watchdog.run_previousStatus kMemoryThresholdTime config events w hrun
  obtain ⟨s1, s2⟩ := Watchdog.updateCounters_spec w env
  refine ⟨?_, ?_, ?_, ?_⟩
  · intro name
    unfold Watchdog.stuckThreads Watchdog.timeDiff
    simp only [List.mem_filterMap, Prod.exists]
    constructor
    · rintro ⟨evb, n, hmem, hif⟩
      split at hif
      · rename_i hgt
        cases hif
        exact ⟨evb, hmem, hgt⟩
      · cases hif
    · rintro ⟨evb, hmem, hgt⟩
      exact ⟨evb, name, hmem, by rw [if_pos hgt]⟩
  · rw [← hprev]
    constructor
    · rintro ⟨a, ha⟩
      by_contra hc
      rw [s2 hc] at ha
      cases ha
    · intro hc
      exact ⟨_, s1 hc⟩
  · intro a ha
    by_cases hc : w.stuckThreads env ≠ [] ∧ w.previousStatus_ = false
    · rw [s1 hc] at ha
      cases ha
      rfl
    · rw [s2 hc] at ha
      cases ha
  · intro w' hw
    by_cases hc : w.stuckThreads env ≠ [] ∧ w.previousStatus_ = false
    · rw [s1 hc] at hw
      cases hw
    · rw [s2 hc] at hw
      cases hw
      rfl
/-- Witness of C23: with one monitored thread silent since time 0 and a timeout
of 300 s, the check at 400 s finds it stuck and does not crash, and the check at
420 s crashes. -/
theorem updateCounters_crash_iff_witness :
    Watchdog.run 600000000000 (Watchdog.init Sample.wdConfig) Sample.wdEvents
        = Except.ok Sample.wdAfter ∧
      Sample.wdAfter.updateCounters (Sample.wdEnv 420 0 none)
        = Except.error (WatchdogAbort.deadThread ["decision"]) ∧
      ((∃ a, Sample.wdAfter.updateCounters (Sample.wdEnv 420 0 none) = Except.error a) ↔
        (Sample.wdAfter.stuckThreads (Sample.wdEnv 420 0 none) ≠ [] ∧
          ∃ (pre : List WatchdogEvent) (env0 : WatchdogEnv) (adds : List (Nat × String))
            (w0 : Watchdog),
            Sample.wdEvents = pre ++ WatchdogEvent.timer env0
                :: adds.map (fun p => WatchdogEvent.addEvb p.1 p.2) ∧
              Watchdog.run 600000000000 (Watchdog.init Sample.wdConfig) pre = Except.ok w0 ∧
              w0.stuckThreads env0 ≠ [])) :=
  ⟨rfl, rfl,
    (updateCounters_crash_iff 600000000000 Sample.wdConfig Sample.wdEvents Sample.wdAfter
      (Sample.wdEnv 420 0 none) rfl).2.1⟩

/-- The memory check on a run of readings against a limit of 800 MB and a
threshold of 600 s: 900 MB at 400 s records the start time, 900 MB at 420 s and at
1000 s changes nothing, 900 MB at 1001 s crashes, and 800 MB clears the start
time. -/
theorem monitorMemory_sample :
    Sample.wdAfter.monitorMemory 600000000000 (Sample.wdEnv 400 0 (some 900000000))
        = Except.ok { Sample.wdAfter with memExceedTime_ := some 400000000000 } ∧
      Watchdog.monitorMemory 600000000000
          { Sample.wdAfter with memExceedTime_ := some 400000000000 }
          (Sample.wdEnv 1000 0 (some 900000000))
        = Except.ok { Sample.wdAfter with memExceedTime_ := some 400000000000 } ∧
      Watchdog.monitorMemory 600000000000
          { Sample.wdAfter with memExceedTime_ := some 400000000000 }
          (Sample.wdEnv 1001 0 (some 900000000))
        = Except.error (WatchdogAbort.memoryLimit 900000000) ∧
      Watchdog.monitorMemory 600000000000
          { Sample.wdAfter with memExceedTime_ := some 400000000000 }
          (Sample.wdEnv 1001 0 (some 800000000))
        = Except.ok Sample.wdAfter := by
  refine ⟨?_, ?_, ?_, ?_⟩ <;>
    simp [Watchdog.monitorMemory, memoryCritical_iff, Sample.wdAfter, Sample.wdEnv]

/-! ## The persisted key after its iteration of the loop -/

theorem bumpVersion_changed_iff (nodeId : String) (cur rcvd : Value) :
    (bumpVersion nodeId cur rcvd).2 = true
      ↔ (cur.version < rcvd.version ∨ rcvd.originatorId ≠ nodeId ∨ rcvd.value ≠ cur.value) := by
  unfold bumpVersion
  by_cases h1 : cur.version < rcvd.version
  · simp [h1]
  · by_cases h2 : rcvd.originatorId = nodeId
    · by_cases h3 : cur.value = rcvd.value
      · simp [h1, h2, h3]
      · have h3' : ¬ rcvd.value = cur.value := fun e => h3 e.symm
        simp [h1, h2, h3, h3']
    · simp [h1, h2]

theorem bumpVersion_ttlVersion (nodeId : String) (cur rcvd : Value) :
    (bumpVersion nodeId cur rcvd).1.ttlVersion
      = if (bumpVersion nodeId cur rcvd).2 = true then 0 else cur.ttlVersion := by
  unfold bumpVersion
  by_cases h1 : cur.version < rcvd.version
  · simp [h1]
  · by_cases h2 : rcvd.originatorId = nodeId
    · by_cases h3 : cur.value = rcvd.value
      · simp [h1, h2, h3]
      · simp [h1, h2, h3]
    · simp [h1, h2]

/-- The ttl backoff entry, the pending keys and the deliveries of the prefix
filter for a persisted key after its iteration of the loop. -/
theorem processKeyVal_persisted_rest (nodeId : String) (fm : String → Value → Bool)
    (fcb : Option KeyCallback) (area : AreaId) (st : PubRefs) (k : String)
    (cur rcvd : Value) (hcur : Map.find st.persistedKeyVals k = some cur)
    (hpay : rcvd.value.isSome = true) (hge : ¬ cur.version > rcvd.version) :
    Map.find (processKeyVal nodeId fm fcb area st (k, rcvd)).keyTtlBackoffs k
        = (syncTtlVersion (bumpVersion nodeId cur rcvd).1 rcvd
            (Map.find st.keyTtlBackoffs k)).2 ∧
      (k ∈ (processKeyVal nodeId fm fcb area st (k, rcvd)).keysToAdvertise
        ↔ ((bumpVersion nodeId cur rcvd).2 = true ∨ k ∈ st.keysToAdvertise)) ∧
      filterDelivered k (processKeyVal nodeId fm fcb area st (k, rcvd)).trace
        = filterDelivered k st.trace ∧
      (processKeyVal nodeId fm fcb area st (k, rcvd)).callbacks = st.callbacks := by
  have hn : ¬ rcvd.value.isNone = true := by
    cases hv : rcvd.value <;> simp [hv] at hpay ⊢
  unfold processKeyVal
  simp only [hn, hcur, if_false]
  unfold mergePersisted
  simp only [hge, if_false]
  refine ⟨?_, ?_, ?_, rfl⟩
  · cases hsk : Map.find st.keyTtlBackoffs k with
    | none =>
      have : (syncTtlVersion (bumpVersion nodeId cur rcvd).1 rcvd none).2 = none := by
        unfold syncTtlVersion
        simp only
        split <;> rfl
      rw [this]
      exact hsk
    | some sk =>
      have : ∃ e, (syncTtlVersion (bumpVersion nodeId cur rcvd).1 rcvd (some sk)).2 = some e := by
        unfold syncTtlVersion
        simp only
        split
        · exact ⟨_, rfl⟩
        · exact ⟨_, rfl⟩
      obtain ⟨e, he⟩ := this
      rw [he]
      exact Map.find_assign_self _ _ _
  · by_cases hb : (bumpVersion nodeId cur rcvd).2 = true
    · simp only [hb, if_true, true_or, iff_true]
      exact (KeySet.mem_insert_iff _ _ _).mpr (Or.inr rfl)
    · simp only [hb, Bool.false_eq_true, if_false, false_or]
  · by_cases hb : (bumpVersion nodeId cur rcvd).2 = true <;>
      cases hcb : Map.find st.callbacks k <;>
      simp [hb, filterDelivered_append, filterDelivered]

/-- The second component of `syncTtlVersion`: the ttl backoff entry takes the
received ttl-version when that is higher than its own. -/
theorem syncTtlVersion_entry (currentValue rcvdValue : Value)
    (sk : Option (Value × ExponentialBackoff)) :
    (syncTtlVersion currentValue rcvdValue sk).2
      = sk.map (fun e =>
          if e.1.ttlVersion < rcvdValue.ttlVersion then
            ({ e.1 with ttlVersion := rcvdValue.ttlVersion }, e.2)
          else e) := by
  unfold syncTtlVersion
  cases sk with
  | none => simp only; split <;> rfl
  | some e =>
    obtain ⟨sv, b⟩ := e
    simp only [Option.map_some']
    split <;> rfl

/-- The state of a persisted key after `processPublication`, when the publication
carries for it a value with a payload whose version is not lower. -/
theorem processPublication_persisted_view (K : Constants) (env : Env)
    (c c' : KvStoreClientInternal) (publication : Publication) (k : String) (rcvd cur : Value)
    (hnd : (publication.keyVals.map Prod.fst).Nodup) (hm : (k, rcvd) ∈ publication.keyVals)
    (hpay : rcvd.value.isSome = true)
    (hcur : (c.view publication.area k).persisted = some cur)
    (hge : cur.version ≤ rcvd.version)
    (hrun : processPublication K env c publication = some c') :
    (c'.view publication.area k).persisted
        = some (syncTtlVersion (bumpVersion c.nodeId_ cur rcvd).1 rcvd
            (c.view publication.area k).ttlBackoff).1 ∧
      (c'.view publication.area k).ttlBackoff
        = (syncTtlVersion (bumpVersion c.nodeId_ cur rcvd).1 rcvd
            (c.view publication.area k).ttlBackoff).2 ∧
      ((c'.view publication.area k).pending = true →
        (bumpVersion c.nodeId_ cur rcvd).2 = true ∨ (c.view publication.area k).pending = true) ∧
      (c'.view publication.area k).delivered
        = (c.view publication.area k).delivered
          ++ (if (bumpVersion c.nodeId_ cur rcvd).2 = true then
                match (c.view publication.area k).callback with
                | some cb =>
                  [(cb, some (syncTtlVersion (bumpVersion c.nodeId_ cur rcvd).1 rcvd
                    (c.view publication.area k).ttlBackoff).1)]
                | none => []
              else [])
          ++ expiryCalls (c.view publication.area k).callback k publication.expiredKeys ∧
      (c'.view publication.area k).filterDelivered
        = (c.view publication.area k).filterDelivered := by
  obtain ⟨w, hw, hp, ht, -, hpend, hdel, hfd⟩ :=
    processPublication_view_at K env c c' publication k rcvd hnd hm hrun
  have hng : ¬ cur.version > rcvd.version := by omega
  have hstep := processKeyVal_persisted c.nodeId_ c.keyPrefixFilter_ c.keyPrefixFilterCallback_
    publication.area (headRefs c publication.area) k cur rcvd hcur hpay
  rw [if_neg hng] at hstep
  obtain ⟨r1, r2, r3, -⟩ := processKeyVal_persisted_rest c.nodeId_ c.keyPrefixFilter_
    c.keyPrefixFilterCallback_ publication.area (headRefs c publication.area) k cur rcvd hcur
    hpay hng
  have hdl := processKeyVal_persisted_delivered c.nodeId_ c.keyPrefixFilter_
    c.keyPrefixFilterCallback_ publication.area (headRefs c publication.area) k cur rcvd hcur
    hpay hng
  subst hw
  refine ⟨hp.trans hstep, ht.trans r1, ?_, ?_, hfd.trans r3⟩
  · intro hpd
    have := hpend hpd
    simp only [PubRefs.view, decide_eq_true_eq] at this
    rcases r2.mp this with h | h
    · exact Or.inl h
    · right
      simp only [KvStoreClientInternal.view, decide_eq_true_eq]
      exact h
  · rw [hdel]
    simp only [PubRefs.view]
    rw [hdl]
    rfl

/-! ## Claims on the synchronisation of the ttl-version and on reflected values -/

/-- C24: for a persisted key and a received value with a payload whose version is
not lower than the persisted one, the persisted ttl-version after
`processPublication` is `max(b, received.ttl-version)`, where `b` is the
ttl-version of the key's ttl backoff entry when there is one, and otherwise 0
when the value is changed by the publication (the received version is higher,
the received originator is foreign, or the payloads differ) and the persisted
ttl-version when it is not; the ttl backoff entry, when there is one, takes the
received ttl-version when that is higher than its own and is unchanged
otherwise. -/
theorem processPublication_ttlVersion_sync (K : Constants) (env : Env)
    (c c' : KvStoreClientInternal) (publication : Publication) (k : String) (rcvd cur : Value)
    (hnd : (publication.keyVals.map Prod.fst).Nodup) (hm : (k, rcvd) ∈ publication.keyVals)
    (hpay : rcvd.value.isSome = true)
    (hcur : (c.view publication.area k).persisted = some cur)
    (hge : cur.version ≤ rcvd.version)
    (hrun : processPublication K env c publication = some c') :
    (∃ new, (c'.view publication.area k).persisted = some new ∧
        new.ttlVersion
          = max (match (c.view publication.area k).ttlBackoff with
                  | some e => e.1.ttlVersion
                  | none =>
                    if cur.version < rcvd.version ∨ rcvd.originatorId ≠ c.nodeId_ ∨
                        rcvd.value ≠ cur.value then 0
                    else cur.ttlVersion) rcvd.ttlVersion) ∧
      (∀ e, (c.view publication.area k).ttlBackoff = some e →
        (e.1.ttlVersion < rcvd.ttlVersion →
          (c'.view publication.area k).ttlBackoff
            = some ({ e.1 with ttlVersion := rcvd.ttlVersion }, e.2)) ∧
        (¬ e.1.ttlVersion < rcvd.ttlVersion →
          (c'.view publication.area k).ttlBackoff = some e)) ∧
      ((c.view publication.area k).ttlBackoff = none →
        (c'.view publication.area k).ttlBackoff = none) := by
  obtain ⟨hp, ht, -⟩ :=
    processPublication_persisted_view K env c c' publication k rcvd cur hnd hm hpay hcur hge hrun
  rw [syncTtlVersion_entry] at ht
  refine ⟨⟨_, hp, ?_⟩, ?_, ?_⟩
  · rw [syncTtlVersion_ttlVersion]
    cases hsk : (c.view publication.area k).ttlBackoff with
    | some e => rfl
    | none =>
      simp only
      rw [bumpVersion_ttlVersion]
      by_cases hb : (bumpVersion c.nodeId_ cur rcvd).2 = true
      · rw [if_pos hb, if_pos ((bumpVersion_changed_iff _ _ _).mp hb)]
      · rw [if_neg hb, if_neg (fun h => hb ((bumpVersion_changed_iff _ _ _).mpr h))]
  · intro e he
    rw [he] at ht
    simp only [Option.map_some'] at ht
    constructor
    · intro hlt
      rw [ht, if_pos hlt]
    · intro hnl
      rw [ht, if_neg hnl]
  · intro hnone
    rw [hnone] at ht
    exact ht

/-- Witness of C24: the key is persisted with version 3 and has a ttl backoff
entry with ttl-version 2; a peer's version 5 with ttl-version 7 leaves the
persisted ttl-version and the entry's ttl-version at 7. -/
theorem processPublication_ttlVersion_sync_witness :
    (∃ new, (Sample.ownerAfterConflictTtl.view "a" "k").persisted = some new ∧
        new.ttlVersion = 7) ∧
      (Sample.ownerAfterConflictTtl.view "a" "k").ttlBackoff
        = some ({ version := 3, originatorId := "self", value := none, ttl := 3000,
                  ttlVersion := 7 }, ExponentialBackoff.mk2 750 751) := by
  obtain ⟨⟨new, h1, h2⟩, h3, -⟩ := processPublication_ttlVersion_sync Sample.constants Sample.env
    Sample.owner Sample.ownerAfterConflictTtl Sample.conflictPubTtl "k"
    { Sample.peerValue with ttlVersion := 7 } Sample.localValue
    (by decide) (by decide) (by decide) (by decide) (by decide) rfl
  refine ⟨⟨new, h1, h2.trans (by decide)⟩, ?_⟩
  exact (h3 Sample.ownerEntry (by decide)).1 (by decide)
/-- C27: when a publication carries, for a persisted key, a value with a payload
whose version equals the persisted version, whose originator is this node and
whose payload equals the persisted payload, `processPublication` leaves the
version, the originator, the payload and the ttl of the persisted entry
unchanged, hands no value to the key's callback (the callback is invoked for
nothing but the expired keys of the publication, not at all when the key is not
among them) and does not add the key to the pending keys.  This is the case of
the client's own advertisement of the value it holds. -/
theorem processPublication_reflection_fixed_point (K : Constants) (env : Env)
    (c c' : KvStoreClientInternal) (publication : Publication) (k : String) (rcvd cur : Value)
    (hnd : (publication.keyVals.map Prod.fst).Nodup) (hm : (k, rcvd) ∈ publication.keyVals)
    (hpay : rcvd.value.isSome = true)
    (hcur : (c.view publication.area k).persisted = some cur)
    (hv : rcvd.version = cur.version) (ho : rcvd.originatorId = c.nodeId_)
    (hval : rcvd.value = cur.value)
    (hrun : processPublication K env c publication = some c') :
    (∃ new, (c'.view publication.area k).persisted = some new ∧
        new.version = cur.version ∧ new.originatorId = cur.originatorId ∧
        new.value = cur.value ∧ new.ttl = cur.ttl) ∧
      (c'.view publication.area k).delivered
        = (c.view publication.area k).delivered
          ++ expiryCalls (c.view publication.area k).callback k publication.expiredKeys ∧
      (k ∉ publication.expiredKeys →
        (c'.view publication.area k).delivered = (c.view publication.area k).delivered) ∧
      ((c.view publication.area k).pending = false →
        (c'.view publication.area k).pending = false) := by
  obtain ⟨hp, -, hpend, hdel, -⟩ := processPublication_persisted_view K env c c' publication k
    rcvd cur hnd hm hpay hcur (le_of_eq hv.symm) hrun
  have hb := bumpVersion_reflected c.nodeId_ cur rcvd hv ho hval
  have hf := syncTtlVersion_fields (bumpVersion c.nodeId_ cur rcvd).1 rcvd
    (c.view publication.area k).ttlBackoff
  rw [hb] at hf hpend hdel hp
  simp only [Bool.false_eq_true, if_false, List.append_nil, false_or] at hpend hdel
  refine ⟨⟨_, hp, hf.1, hf.2.1, hf.2.2.1, hf.2.2.2⟩, hdel, ?_, ?_⟩
  · intro hk
    rw [hdel, expiryCalls_absent _ _ _ hk, List.append_nil]
  · intro hf0
    cases hq : (c'.view publication.area k).pending with
    | false => rfl
    | true => rw [hpend hq] at hf0; exact absurd hf0 (by decide)

/-- Witness of C27: after the version-conflict scenario the client holds
`(k, v1, ver=6, originator=self)`; its own advertisement of that value, reflected
by the store, leaves the entry as it is, is not handed to the callback and does
not make the key pending. -/
theorem processPublication_reflection_fixed_point_witness :
    (Sample.afterConflict.view "a" "k").persisted
        = some { version := 6, originatorId := "self", value := some "v1",
                 ttl := -2147483648, ttlVersion := 0 } ∧
      (Sample.afterOwnAdvertisement.view "a" "k").persisted
        = (Sample.afterConflict.view "a" "k").persisted ∧
      (Sample.afterOwnAdvertisement.view "a" "k").delivered
        = (Sample.afterConflict.view "a" "k").delivered ∧
      (Sample.afterOwnAdvertisement.view "a" "k").pending = false := by
  obtain ⟨-, -, h3, h4⟩ := processPublication_reflection_fixed_point Sample.constants
    Sample.env Sample.afterConflict Sample.afterOwnAdvertisement Sample.ownAdvertisement "k"
    { version := 6, originatorId := "self", value := some "v1", ttl := -2147483648,
      ttlVersion := 0 }
    { version := 6, originatorId := "self", value := some "v1", ttl := -2147483648,
      ttlVersion := 0 }
    (by decide) (by decide) (by decide) (by decide) (by decide) (by decide) (by decide) rfl
  exact ⟨by decide, by decide, h3 (by decide), h4 (by decide)⟩

/-! ## The local value dominates -/

theorem bumpVersion_dominates (nodeId : String) (cur rcvd : Value)
    (hge : cur.version ≤ rcvd.version)
    (hlo : int64Min ≤ rcvd.version) (hhi : rcvd.version < int64Max) :
    (bumpVersion nodeId cur rcvd).1.value = cur.value ∧
      rcvd.version ≤ (bumpVersion nodeId cur rcvd).1.version ∧
      (rcvd.version = (bumpVersion nodeId cur rcvd).1.version →
        rcvd.originatorId = nodeId ∧ rcvd.value = cur.value) ∧
      ((bumpVersion nodeId cur rcvd).1.version = cur.version →
        (bumpVersion nodeId cur rcvd).1.originatorId = cur.originatorId) ∧
      ((bumpVersion nodeId cur rcvd).1.version ≠ cur.version →
        (bumpVersion nodeId cur rcvd).1.originatorId = nodeId) := by
  by_cases h1 : cur.version < rcvd.version
  · have hw := wrapInt64_succ _ hlo hhi
    rw [bumpVersion_higher nodeId cur rcvd h1]
    refine ⟨rfl, ?_, ?_, ?_, fun _ => rfl⟩
    · show rcvd.version ≤ wrapInt64 (rcvd.version + 1)
      rw [hw]
      omega
    · intro h
      have h' : rcvd.version = wrapInt64 (rcvd.version + 1) := h
      rw [hw] at h'
      omega
    · intro h
      have h' : wrapInt64 (rcvd.version + 1) = cur.version := h
      rw [hw] at h'
      omega
  · have heq : rcvd.version = cur.version := by omega
    by_cases h2 : rcvd.originatorId ≠ nodeId ∨ rcvd.value ≠ cur.value
    · have hw := wrapInt64_succ cur.version (heq ▸ hlo) (heq ▸ hhi)
      rw [bumpVersion_equal_changed nodeId cur rcvd heq h2]
      refine ⟨rfl, ?_, ?_, ?_, fun _ => rfl⟩
      · show rcvd.version ≤ wrapInt64 (cur.version + 1)
        rw [hw]
        omega
      · intro h
        have h' : rcvd.version = wrapInt64 (cur.version + 1) := h
        rw [hw] at h'
        omega
      · intro h
        have h' : wrapInt64 (cur.version + 1) = cur.version := h
        rw [hw] at h'
        omega
    · have h3 : rcvd.originatorId = nodeId := by
        by_contra h
        exact h2 (Or.inl h)
      have h4 : rcvd.value = cur.value := by
        by_contra h
        exact h2 (Or.inr h)
      rw [bumpVersion_reflected nodeId cur rcvd heq h3 h4]
      exact ⟨rfl, le_of_eq heq, fun _ => ⟨h3, h4⟩, fun _ => rfl, fun h => absurd rfl h⟩

theorem Map.mem_unique {κ α : Type} [DecidableEq κ] (m : KeyMap κ α)
    (hnd : (m.map Prod.fst).Nodup) (k : κ) (v v' : α) (h : (k, v) ∈ m) (h' : (k, v') ∈ m) :
    v = v' := by
  have e1 := Map.find_of_mem_nodup m hnd k v h
  have e2 := Map.find_of_mem_nodup m hnd k v' h'
  rw [e1] at e2
  exact Option.some.inj e2

/-- One publication, seen from a persisted key, the version received for the key
being below the top of the range: the version does not decrease, the payload
stays, the originator stays with the version and is this node when the version
changes, and the version ends at least as high as that of a value received for
the key with a payload. -/
theorem processPublication_dominates_step (K : Constants) (env : Env)
    (c c' : KvStoreClientInternal) (publication : Publication) (a : AreaId) (k : String)
    (cur : Value) (hnd : (publication.keyVals.map Prod.fst).Nodup)
    (hcur : (c.view a k).persisted = some cur)
    (hbelow : publication.VersionsBelowTop a k)
    (hrun : processPublication K env c publication = some c') :
    ∃ new, (c'.view a k).persisted = some new ∧ cur.version ≤ new.version ∧
      new.value = cur.value ∧
      (new.version = cur.version → new.originatorId = cur.originatorId) ∧
      (new.version ≠ cur.version → new.originatorId = c.nodeId_) ∧
      (publication.area = a → ∀ r, (k, r) ∈ publication.keyVals → r.value.isSome = true →
        r.version ≤ new.version ∧
        (r.version = new.version → r.originatorId = c.nodeId_ ∧ r.value = new.value)) := by
  have same : (c'.view a k).persisted = some cur →
      (publication.area = a → ∀ r, (k, r) ∈ publication.keyVals → r.value.isSome = true →
        r.version < cur.version) →
      ∃ new, (c'.view a k).persisted = some new ∧ cur.version ≤ new.version ∧
        new.value = cur.value ∧
        (new.version = cur.version → new.originatorId = cur.originatorId) ∧
        (new.version ≠ cur.version → new.originatorId = c.nodeId_) ∧
        (publication.area = a → ∀ r, (k, r) ∈ publication.keyVals → r.value.isSome = true →
          r.version ≤ new.version ∧
          (r.version = new.version → r.originatorId = c.nodeId_ ∧ r.value = new.value)) := by
    intro hp hlow
    refine ⟨cur, hp, le_refl _, rfl, fun _ => rfl, fun h => absurd rfl h, ?_⟩
    intro ha r hr hpay
    have := hlow ha r hr hpay
    exact ⟨le_of_lt this, fun e => absurd e (ne_of_lt this)⟩
  by_cases ha : publication.area = a
  · subst ha
    by_cases hk : k ∈ publication.keyVals.map Prod.fst
    · obtain ⟨kv, hkv, hkeq⟩ := List.mem_map.mp hk
      obtain ⟨k0, rcvd⟩ := kv
      simp only at hkeq
      subst hkeq
      have huniq : ∀ r, (k0, r) ∈ publication.keyVals → r = rcvd :=
        fun r hr => Map.mem_unique _ hnd k0 r rcvd hr hkv
      cases hpay : rcvd.value.isSome with
      | false =>
        obtain ⟨w, hw, hp, -⟩ :=
          processPublication_view_at K env c c' publication k0 rcvd hnd hkv hrun
        rw [processKeyVal_no_payload _ _ _ _ _ _ _ hpay, headRefs_view] at hw
        subst hw
        refine same (hp.trans hcur) ?_
        intro _ r hr hrp
        rw [huniq r hr, hpay] at hrp
        exact absurd hrp (by decide)
      | true =>
        by_cases hgt : cur.version > rcvd.version
        · obtain ⟨w, hw, hp, -⟩ :=
            processPublication_view_at K env c c' publication k0 rcvd hnd hkv hrun
          rw [processKeyVal_ignored c.nodeId_ c.keyPrefixFilter_ c.keyPrefixFilterCallback_
            publication.area (headRefs c publication.area) k0 cur rcvd hcur hgt,
            headRefs_view] at hw
          subst hw
          refine same (hp.trans hcur) ?_
          intro _ r hr _
          rw [huniq r hr]
          exact hgt
        · have hge : cur.version ≤ rcvd.version := by omega
          obtain ⟨hp, -⟩ := processPublication_persisted_view K env c c' publication k0 rcvd
            cur hnd hkv hpay hcur hge hrun
          have hf := syncTtlVersion_fields (bumpVersion c.nodeId_ cur rcvd).1 rcvd
            (c.view publication.area k0).ttlBackoff
          have hbd := hbelow rfl (k0, rcvd) hkv rfl hpay
          obtain ⟨b1, b2, b3, b4, b5⟩ :=
            bumpVersion_dominates c.nodeId_ cur rcvd hge hbd.1 hbd.2
          refine ⟨_, hp, ?_, ?_, ?_, ?_, ?_⟩
          · rw [hf.1]; omega
          · rw [hf.2.2.1]; exact b1
          · rw [hf.1, hf.2.1]; exact b4
          · rw [hf.1, hf.2.1]; exact b5
          · intro _ r hr _
            rw [huniq r hr, hf.1, hf.2.2.1, b1]
            exact ⟨b2, b3⟩
    · obtain ⟨hp, -⟩ := processPublication_view_of_loop K env c c' publication k hrun
      have hv : (processKeyVals c publication).view publication.area k
          = c.view publication.area k :=
        foldl_processKeyVal_view_absent _ _ _ _ _ k _ _ hk
      rw [hv] at hp
      refine same (hp.trans hcur) ?_
      intro _ r hr _
      exact absurd (List.mem_map_of_mem Prod.fst hr) hk
  · obtain ⟨-, hother⟩ := processPublication_other_area K env c c' publication a k hrun
    exact same ((hother ha).1.trans hcur) (fun e => absurd e ha)

/-- C28, as amended: for a key that is persisted, along any sequence of
publications handled by `processPublication` that carry for the key, with a
payload, only versions below the largest value of the 64-bit field: the
persisted version never decreases and the payload stays; when the version has
changed the originator is this node; the version ends at least as high as that
of every value received for the key with a payload, with equality only when
that value is originated by this node and carries the persisted payload; and the
values handed to the key's callback have strictly increasing versions, above the
version persisted at the start. -/
theorem processPublications_local_dominates (K : Constants) (a : AreaId) (k : String)
    (runs : List (Env × Publication)) (c c' : KvStoreClientInternal) (cur : Value)
    (hnd : ∀ r ∈ runs, (r.2.keyVals.map Prod.fst).Nodup)
    (hbelow : ∀ r ∈ runs, r.2.VersionsBelowTop a k)
    (hcur : (c.view a k).persisted = some cur)
    (hrun : processPublications K c runs = some c') :
    (∃ new, (c'.view a k).persisted = some new ∧ cur.version ≤ new.version ∧
        new.value = cur.value ∧
        (new.version = cur.version → new.originatorId = cur.originatorId) ∧
        (new.version ≠ cur.version → new.originatorId = c.nodeId_) ∧
        (∀ p ∈ runs, p.2.area = a → ∀ r, (k, r) ∈ p.2.keyVals → r.value.isSome = true →
          r.version ≤ new.version ∧
          (r.version = new.version → r.originatorId = c.nodeId_ ∧ r.value = new.value))) ∧
      ∃ d, deliveredValues a k c'.trace = deliveredValues a k c.trace ++ d ∧
        d.Pairwise (fun v w => v.version < w.version) ∧
        ∀ v ∈ d, cur.version < v.version := by
  constructor
  · induction runs generalizing c c' cur with
    | nil =>
      simp only [processPublications, Option.some.injEq] at hrun
      subst hrun
      exact ⟨cur, hcur, le_refl _, rfl, fun _ => rfl, fun h => absurd rfl h, by simp⟩
    | cons p rest ih =>
      obtain ⟨env, publication⟩ := p
      unfold processPublications at hrun
      split at hrun
      · simp at hrun
      · rename_i c1 h1
        obtain ⟨cur1, hp1, hle1, hv1, ho1, hn1, hd1⟩ := processPublication_dominates_step K env
          c c1 publication a k cur (hnd _ (List.mem_cons_self _ _)) hcur
          (hbelow _ (List.mem_cons_self _ _)) h1
        have hid : c1.nodeId_ = c.nodeId_ :=
          (processPublication_other_area K env c c1 publication a k h1).1
        obtain ⟨new, hp, hle, hv, ho, hn, hd⟩ := ih c1 c' cur1
          (fun r hr => hnd r (List.mem_cons_of_mem _ hr))
          (fun r hr => hbelow r (List.mem_cons_of_mem _ hr)) hp1 hrun
        rw [hid] at hn hd
        refine ⟨new, hp, le_trans hle1 hle, hv.trans hv1, ?_, ?_, ?_⟩
        · intro he
          have e1 : cur1.version = cur.version := by omega
          have e2 : new.version = cur1.version := by omega
          exact (ho e2).trans (ho1 e1)
        · intro hne
          by_cases e2 : new.version = cur1.version
          · rw [ho e2]
            exact hn1 (fun e => hne (e2.trans e))
          · exact hn e2
        · intro q hq ha r hr hpay
          rcases List.mem_cons.mp hq with hq | hq
          · subst hq
            obtain ⟨d1, d2⟩ := hd1 ha r hr hpay
            refine ⟨le_trans d1 hle, fun e => ?_⟩
            have e1 : r.version = cur1.version := by omega
            obtain ⟨o1, o2⟩ := d2 e1
            exact ⟨o1, o2.trans hv.symm⟩
          · exact hd q hq ha r hr hpay
  · obtain ⟨d, hd, hpw, hall⟩ :=
      processPublications_delivered K a k runs c c' cur hnd hbelow hcur hrun
    exact ⟨d, hd, hpw, fun v hv => (hall v hv).1⟩

/-- Witness of C28 as amended: the persisted key `k` (version 3) receives versions
5 and 8 from a peer; it ends with version 9, above both, and its callback is
handed versions 6 and 9. -/
theorem processPublications_local_dominates_witness :
    (deliveredValues "a" "k" Sample.afterConflictRun.trace).map Value.version = [6, 9] ∧
      ∃ new, (Sample.afterConflictRun.view "a" "k").persisted = some new ∧
        Sample.localValue.version ≤ new.version ∧ new.version = 9 ∧
        (new.version ≠ Sample.localValue.version → new.originatorId = "self") := by
  obtain ⟨⟨new, h1, h2, -, -, h5, -⟩, -⟩ := processPublications_local_dominates Sample.constants
    "a" "k" Sample.conflictRun Sample.client Sample.afterConflictRun Sample.localValue
    (by decide) (by decide) (by decide) rfl
  have h9 : (Sample.afterConflictRun.view "a" "k").persisted
      = some { version := 9, originatorId := "self", value := some "v1", ttl := -2147483648,
               ttlVersion := 0 } := by decide
  rw [h9] at h1
  have hnew := Option.some.inj h1
  exact ⟨by decide, new, h9.trans h1, h2, by rw [← hnew], h5⟩

/-- Counterexample to C28 as stated: the key `k`, persisted with version 3,
receives from a peer the largest version of the 64-bit field, `2^63 - 1`; the
persisted version becomes `-2^63`, which is below the version it had and below
the received one. -/
theorem processPublications_local_dominates_counterexample :
    (Sample.client.view "a" "k").persisted = some Sample.localValue ∧
      (processPublication Sample.constants Sample.env Sample.client Sample.topPub).map
          (fun c' => ((c'.view "a" "k").persisted).map Value.version)
        = some (some (-9223372036854775808)) ∧
      ¬ (Sample.localValue.version ≤ -9223372036854775808) ∧
      ¬ (Sample.topValue.version ≤ -9223372036854775808) := by
  decide

/-! ## Pending keys can be advertised -/

theorem Map.keys_assign {κ α : Type} [DecidableEq κ] (m : KeyMap κ α) (k : κ) (v : α) :
    (Map.assign m k v).map Prod.fst
      = if k ∈ m.map Prod.fst then m.map Prod.fst else m.map Prod.fst ++ [k] := by
  induction m with
  | nil => simp [Map.assign]
  | cons q t ih =>
    obtain ⟨k1, v1⟩ := q
    by_cases hk : k1 = k
    · subst hk
      simp [Map.assign]
    · have hk2 : ¬ k = k1 := fun e => hk e.symm
      simp only [Map.assign, hk, if_false, List.map_cons, ih, List.mem_cons, hk2, false_or]
      split <;> simp

theorem Map.nodup_assign {κ α : Type} [DecidableEq κ] (m : KeyMap κ α) (k : κ) (v : α)
    (h : (m.map Prod.fst).Nodup) : ((Map.assign m k v).map Prod.fst).Nodup := by
  rw [Map.keys_assign]
  split
  · exact h
  · rename_i hk
    exact List.Nodup.append h (List.nodup_singleton k) (by simpa using hk)

theorem getArea_of_mem {α : Type} (m : KeyMap AreaId (List α))
    (hnd : (m.map Prod.fst).Nodup) (area : AreaId) (l : List α) (h : (area, l) ∈ m) :
    getArea m area = l := by
  simp [getArea, Map.find_of_mem_nodup m hnd area l h]

theorem getArea_nodup (m : KeyMap AreaId (List String)) (h : ∀ p ∈ m, p.2.Nodup)
    (area : AreaId) : (getArea m area).Nodup := by
  unfold getArea
  cases hf : Map.find m area with
  | none => simp
  | some l => exact h _ (Map.mem_of_find m area l hf)

/-- The hypotheses of the closed form of `advertisePendingKeys`. -/
theorem pending_entries (c : KvStoreClientInternal) (hwf : PendingWellFormed c)
    (hinv : PendingAdvertisable c) :
    ∀ p ∈ c.keysToAdvertise_, p.2.Nodup ∧
      ∀ k ∈ p.2, (Map.find (getArea c.persistedKeyVals_ p.1) k).isSome = true ∧
        (Map.find (getArea c.backoffs_ p.1) k).isSome = true := by
  intro p hp
  refine ⟨hwf.2 p hp, fun k hk => ?_⟩
  have hg : getArea c.keysToAdvertise_ p.1 = p.2 := getArea_of_mem _ hwf.1 p.1 p.2 hp
  have h1 := (hinv p.1 k).1 (by rw [hg]; exact hk)
  exact ⟨h1, (hinv p.1 k).2 h1⟩

/-- The two properties read three containers only. -/
theorem pending_congr (c c' : KvStoreClientInternal)
    (h1 : c'.keysToAdvertise_ = c.keysToAdvertise_)
    (h2 : c'.persistedKeyVals_ = c.persistedKeyVals_) (h3 : c'.backoffs_ = c.backoffs_)
    (hwf : PendingWellFormed c) (hinv : PendingAdvertisable c) :
    PendingWellFormed c' ∧ PendingAdvertisable c' := by
  unfold PendingWellFormed PendingAdvertisable
  rw [h1, h2, h3]
  exact ⟨hwf, hinv⟩

theorem advertiseKey_backoff_keys (env : Env) (persisted : KeyMap String Value)
    (st st' : AdvLoop) (key : String) (h : advertiseKey env persisted st key = some st')
    (k : String) :
    (Map.find st'.backoffs k).isSome = (Map.find st.backoffs k).isSome := by
  unfold advertiseKey at h
  split at h
  · cases h
  · split at h
    · cases h
    · rename_i backoff hb
      split at h
      · cases h
        rfl
      · cases h
        simp only
        by_cases hk : key = k
        · subst hk
          rw [Map.find_assign_self, hb]
          rfl
        · rw [Map.find_assign_ne _ _ hk]

theorem foldlM_advertiseKey_backoff_keys (env : Env) (persisted : KeyMap String Value) :
    ∀ (keys : List String) (st st' : AdvLoop),
      keys.foldlM (advertiseKey env persisted) st = some st' →
      ∀ k, (Map.find st'.backoffs k).isSome = (Map.find st.backoffs k).isSome := by
  intro keys
  induction keys with
  | nil =>
    intro st st' h k
    simp only [List.foldlM_nil] at h
    cases h
    rfl
  | cons key t ih =>
    intro st st' h k
    simp only [List.foldlM_cons] at h
    cases h1 : advertiseKey env persisted st key with
    | none => simp [h1] at h
    | some st1 =>
      simp only [h1] at h
      rw [ih st1 st' h k, advertiseKey_backoff_keys env persisted st st1 key h1 k]

theorem advertiseAreas_backoff_keys (env : Env) :
    ∀ (l : KeyMap AreaId (List String)) (c : KvStoreClientInternal) (t : Int)
      (r : KvStoreClientInternal × Int × KeyMap AreaId (List String)),
      advertiseAreas env c t l = some r →
      ∀ a k, (Map.find (getArea r.1.backoffs_ a) k).isSome
        = (Map.find (getArea c.backoffs_ a) k).isSome := by
  intro l
  induction l with
  | nil =>
    intro c t r h a k
    simp only [advertiseAreas, Option.some.injEq] at h
    subst h
    rfl
  | cons p rest ih =>
    obtain ⟨area, keys⟩ := p
    intro c t r h a k
    unfold advertiseAreas at h
    split at h
    · obtain ⟨r0, h0, rfl⟩ := Option.map_eq_some'.mp h
      exact ih c t r0 h0 a k
    · simp only at h
      split at h
      · simp at h
      · rename_i loop hloop
        obtain ⟨r0, h0, rfl⟩ := Option.map_eq_some'.mp h
        have h1 := ih _ _ r0 h0 a k
        simp only at h1 ⊢
        rw [h1]
        have hs : (setKeysHelper env
            { c with
              persistedKeyVals_ := touchArea c.persistedKeyVals_ area
              backoffs_ := Map.assign (touchArea c.backoffs_ area) area loop.backoffs }
            area loop.keyVals).2.backoffs_
            = Map.assign (touchArea c.backoffs_ area) area loop.backoffs := by
          unfold setKeysHelper
          split <;> rfl
        rw [hs]
        by_cases ha : area = a
        · subst ha
          rw [getArea_assign_self]
          have := foldlM_advertiseKey_backoff_keys env _ keys _ loop hloop k
          rw [this]
          simp only [getArea_touchArea]
        · rw [getArea_assign_ne _ _ ha, getArea_touchArea]

theorem advPending_sublist (env : Env) (area : AreaId) (persisted : KeyMap String Value)
    (backoffs : KeyMap String ExponentialBackoff) (keys : List String) :
    (advPending env area persisted backoffs keys).Sublist keys := by
  unfold advPending
  split
  · exact List.filter_sublist _
  · split
    · exact List.filter_sublist _
    · exact List.Sublist.refl _

/-- The method `advertisePendingKeys` does not throw on a client whose pending
keys can be advertised, and keeps them so. -/
theorem advertisePendingKeys_advertisable (K : Constants) (env : Env)
    (c : KvStoreClientInternal) (hwf : PendingWellFormed c) (hinv : PendingAdvertisable c) :
    ∃ c', advertisePendingKeys K env c none = some c' ∧
      PendingWellFormed c' ∧ PendingAdvertisable c' := by
  obtain ⟨r, hr, r1, -⟩ := advertiseAreas_closed env c.keysToAdvertise_ c K.kMaxBackoff
    hwf.1 (pending_entries c hwf hinv)
  have hrun : advertisePendingKeys K env c none
      = some { r.1 with keysToAdvertise_ := r.2.2, advertiseKeyValsTimer_ := some r.2.1 } := by
    unfold advertisePendingKeys
    simp only [hr, Option.map_some']
  obtain ⟨f, hsub⟩ := advertisePendingKeys_frame K env c _ hrun
  have hbk := advertiseAreas_backoff_keys env c.keysToAdvertise_ c K.kMaxBackoff r hr
  refine ⟨_, hrun, ⟨?_, ?_⟩, ?_⟩
  · simp only [r1, List.map_map]
    exact hwf.1
  · intro p hp
    simp only [r1, List.mem_map] at hp
    obtain ⟨q, hq, rfl⟩ := hp
    exact List.Nodup.sublist (advPending_sublist _ _ _ _ _) (hwf.2 q hq)
  · intro area k
    constructor
    · intro hk
      have h0 := (hinv area k).1 (hsub area k hk)
      rw [f.persisted]
      exact h0
    · intro hp
      rw [f.persisted] at hp
      have := (hinv area k).2 hp
      simp only
      rw [hbk area k]
      exact this
theorem KeySet.nodup_insert (s : List String) (k : String) (h : s.Nodup) :
    (KeySet.insert s k).Nodup := by
  unfold KeySet.insert
  split
  · exact h
  · rename_i hk
    exact List.Nodup.append h (List.nodup_singleton k) (by simpa using hk)

/-- One iteration of the loop of `processPublication`: the persisted keys stay
the same keys, and a key becomes pending only when it is persisted. -/
theorem processKeyVal_pending (nodeId : String) (fm : String → Value → Bool)
    (fcb : Option KeyCallback) (area : AreaId) (st : PubRefs) (kv : String × Value) :
    (∀ k, (Map.find (processKeyVal nodeId fm fcb area st kv).persistedKeyVals k).isSome
        = (Map.find st.persistedKeyVals k).isSome) ∧
      (∀ k, k ∈ (processKeyVal nodeId fm fcb area st kv).keysToAdvertise →
        k ∈ st.keysToAdvertise ∨ (Map.find st.persistedKeyVals k).isSome = true) ∧
      (st.keysToAdvertise.Nodup →
        (processKeyVal nodeId fm fcb area st kv).keysToAdvertise.Nodup) := by
  unfold processKeyVal
  simp only
  split
  · exact ⟨fun _ => rfl, fun _ h => Or.inl h, fun h => h⟩
  · cases hp : Map.find st.persistedKeyVals kv.1 with
    | none => exact ⟨fun _ => rfl, fun _ h => Or.inl h, fun h => h⟩
    | some cur =>
      simp only
      unfold mergePersisted
      split
      · exact ⟨fun _ => rfl, fun _ h => Or.inl h, fun h => h⟩
      · simp only
        refine ⟨?_, ?_, ?_⟩
        · intro k
          by_cases hk : kv.1 = k
          · subst hk
            rw [Map.find_assign_self, hp]
            rfl
          · rw [Map.find_assign_ne _ _ hk]
        · intro k hk
          split at hk
          · rcases (KeySet.mem_insert_iff _ _ _).mp hk with h | h
            · exact Or.inl h
            · right
              rw [h, hp]
              rfl
          · exact Or.inl hk
        · intro hn
          split
          · exact KeySet.nodup_insert _ _ hn
          · exact hn

theorem foldl_processKeyVal_pending (nodeId : String) (fm : String → Value → Bool)
    (fcb : Option KeyCallback) (area : AreaId) (kvs : List (String × Value)) :
    ∀ st : PubRefs,
      (∀ k, (Map.find (kvs.foldl (processKeyVal nodeId fm fcb area) st).persistedKeyVals k).isSome
          = (Map.find st.persistedKeyVals k).isSome) ∧
        (∀ k, k ∈ (kvs.foldl (processKeyVal nodeId fm fcb area) st).keysToAdvertise →
          k ∈ st.keysToAdvertise ∨ (Map.find st.persistedKeyVals k).isSome = true) ∧
        (st.keysToAdvertise.Nodup →
          (kvs.foldl (processKeyVal nodeId fm fcb area) st).keysToAdvertise.Nodup) := by
  induction kvs with
  | nil => intro st; exact ⟨fun _ => rfl, fun _ h => Or.inl h, fun h => h⟩
  | cons kv t ih =>
    intro st
    obtain ⟨a1, a2, a3⟩ := processKeyVal_pending nodeId fm fcb area st kv
    obtain ⟨b1, b2, b3⟩ := ih (processKeyVal nodeId fm fcb area st kv)
    rw [List.foldl_cons]
    refine ⟨fun k => (b1 k).trans (a1 k), ?_, fun h => b3 (a3 h)⟩
    intro k hk
    rcases b2 k hk with h | h
    · exact a2 k h
    · right
      rw [← a1 k]
      exact h

/-- The loop of `processPublication` keeps the pending keys advertisable. -/
theorem afterKeyVals_advertisable (c : KvStoreClientInternal) (publication : Publication)
    (hwf : PendingWellFormed c) (hinv : PendingAdvertisable c) :
    PendingWellFormed (afterKeyVals c publication) ∧
      PendingAdvertisable (afterKeyVals c publication) := by
  obtain ⟨f1, f2, f3⟩ := foldl_processKeyVal_pending c.nodeId_ c.keyPrefixFilter_
    c.keyPrefixFilterCallback_ publication.area publication.keyVals
    (headRefs c publication.area)
  have f1' : ∀ k, (Map.find (processKeyVals c publication).persistedKeyVals k).isSome
      = (Map.find (getArea c.persistedKeyVals_ publication.area) k).isSome := f1
  have f2' : ∀ k, k ∈ (processKeyVals c publication).keysToAdvertise →
      k ∈ getArea c.keysToAdvertise_ publication.area ∨
        (Map.find (getArea c.persistedKeyVals_ publication.area) k).isSome = true := f2
  have f3' : (processKeyVals c publication).keysToAdvertise.Nodup :=
    f3 (getArea_nodup _ hwf.2 _)
  refine ⟨⟨?_, ?_⟩, ?_⟩
  · exact Map.nodup_assign _ _ _ hwf.1
  · intro p hp
    rcases Map.mem_assign _ _ _ p hp with h | h
    · subst h
      exact f3'
    · exact hwf.2 p h
  · intro area k
    by_cases ha : publication.area = area
    · subst ha
      simp only [afterKeyVals, getArea_assign_self]
      constructor
      · intro hk
        rw [f1']
        rcases f2' k hk with h | h
        · exact (hinv _ k).1 h
        · exact h
      · intro hp
        rw [f1'] at hp
        exact (hinv _ k).2 hp
    · simp only [afterKeyVals, getArea_assign_ne _ _ ha]
      exact hinv area k

/-- The method `processPublication` does not throw on a client whose pending keys
can be advertised, and keeps them so. -/
theorem processPublication_advertisable (K : Constants) (env : Env)
    (c : KvStoreClientInternal) (publication : Publication)
    (harea : publication.area.isEmpty = false)
    (hwf : PendingWellFormed c) (hinv : PendingAdvertisable c) :
    ∃ c', processPublication K env c publication = some c' ∧
      PendingWellFormed c' ∧ PendingAdvertisable c' := by
  obtain ⟨w1, i1⟩ := afterKeyVals_advertisable c publication hwf hinv
  obtain ⟨c2, h2, w2, i2⟩ := advertisePendingKeys_advertisable K env _ w1 i1
  unfold processPublication
  simp only [harea, Bool.false_eq_true, if_false, h2]
  split
  · refine ⟨_, rfl, ?_⟩
    refine pending_congr c2 _ rfl rfl rfl w2 i2
  · exact ⟨_, rfl, w2, i2⟩

theorem unsetKey_advertisable (c : KvStoreClientInternal) (area : AreaId) (key : String)
    (hwf : PendingWellFormed c) (hinv : PendingAdvertisable c) :
    PendingWellFormed (unsetKey c area key) ∧ PendingAdvertisable (unsetKey c area key) := by
  refine ⟨⟨?_, ?_⟩, ?_⟩
  · exact Map.nodup_assign _ _ _ hwf.1
  · intro p hp
    rcases Map.mem_assign _ _ _ p hp with h | h
    · subst h
      exact List.Nodup.filter _ (getArea_nodup _ hwf.2 _)
    · exact hwf.2 p h
  · intro a k
    by_cases ha : area = a
    · subst ha
      simp only [unsetKey, getArea_assign_self]
      by_cases hk : key = k
      · subst hk
        constructor
        · intro hmem
          exact absurd rfl ((KeySet.mem_erase_iff _ _ _).mp hmem).2
        · intro hp
          rw [Map.find_erase_self] at hp
          exact absurd hp (by simp)
      · rw [Map.find_erase_ne _ hk, Map.find_erase_ne _ hk]
        constructor
        · intro hmem
          exact (hinv _ k).1 ((KeySet.mem_erase_iff _ _ _).mp hmem).1
        · exact (hinv _ k).2
    · simp only [unsetKey, getArea_assign_ne _ _ ha]
      exact hinv a k

theorem scheduleTtlUpdates_pending (K : Constants) (env : Env) (c : KvStoreClientInternal)
    (area : AreaId) (key : String) (version ttlVersion : Nat) (ttl : Int) (now : Bool) :
    (scheduleTtlUpdates K env c area key version ttlVersion ttl now).keysToAdvertise_
        = c.keysToAdvertise_ ∧
      (scheduleTtlUpdates K env c area key version ttlVersion ttl now).persistedKeyVals_
        = c.persistedKeyVals_ ∧
      (scheduleTtlUpdates K env c area key version ttlVersion ttl now).backoffs_
        = c.backoffs_ := by
  unfold scheduleTtlUpdates
  simp only
  split <;> exact ⟨rfl, rfl, rfl⟩

theorem setKeysHelper_pending (env : Env) (c : KvStoreClientInternal) (area : AreaId)
    (keyVals : KeyMap String Value) :
    (setKeysHelper env c area keyVals).2.keysToAdvertise_ = c.keysToAdvertise_ ∧
      (setKeysHelper env c area keyVals).2.persistedKeyVals_ = c.persistedKeyVals_ ∧
      (setKeysHelper env c area keyVals).2.backoffs_ = c.backoffs_ := by
  unfold setKeysHelper
  split <;> exact ⟨rfl, rfl, rfl⟩

theorem buildThriftValue_pending (env : Env) (c : KvStoreClientInternal) (area : AreaId)
    (key value : String) (version : Nat) (ttl : Int) :
    (buildThriftValue env c area key value version ttl).2.keysToAdvertise_
        = c.keysToAdvertise_ ∧
      (buildThriftValue env c area key value version ttl).2.persistedKeyVals_
        = c.persistedKeyVals_ ∧
      (buildThriftValue env c area key value version ttl).2.backoffs_ = c.backoffs_ := by
  unfold buildThriftValue
  simp only
  split
  · have h := (getKey_result env c area key).2
    split <;> simp [h]
  · exact ⟨rfl, rfl, rfl⟩

theorem setKeyValue_advertisable (K : Constants) (env : Env) (c : KvStoreClientInternal)
    (area : AreaId) (key : String) (thriftValue : Value) (r : Bool × KvStoreClientInternal)
    (h : setKeyValue K env c area key thriftValue = some r)
    (hwf : PendingWellFormed c) (hinv : PendingAdvertisable c) :
    PendingWellFormed r.2 ∧ PendingAdvertisable r.2 := by
  unfold setKeyValue at h
  split at h
  · cases h
  · simp only [Option.some.injEq] at h
    subst h
    obtain ⟨a1, a2, a3⟩ := scheduleTtlUpdates_pending K env
      (setKeysHelper env c area [(key, thriftValue)]).2 area key
      (toUInt32 thriftValue.version) (toUInt32 thriftValue.ttlVersion) thriftValue.ttl false
    obtain ⟨b1, b2, b3⟩ := setKeysHelper_pending env c area [(key, thriftValue)]
    exact pending_congr c _ (a1.trans b1) (a2.trans b2) (a3.trans b3) hwf hinv

theorem setKey_advertisable (K : Constants) (env : Env) (c : KvStoreClientInternal)
    (area : AreaId) (key value : String) (version : Nat) (ttl : Int)
    (r : Bool × KvStoreClientInternal)
    (h : setKey K env c area key value version ttl = some r)
    (hwf : PendingWellFormed c) (hinv : PendingAdvertisable c) :
    PendingWellFormed r.2 ∧ PendingAdvertisable r.2 := by
  unfold setKey at h
  obtain ⟨b1, b2, b3⟩ := buildThriftValue_pending env c area key value version ttl
  obtain ⟨w, i⟩ := pending_congr c _ b1 b2 b3 hwf hinv
  exact setKeyValue_advertisable K env _ area key _ r h w i

/-- A client whose containers satisfy the two properties entry by entry. -/
theorem pendingAdvertisable_of_entries (c : KvStoreClientInternal)
    (h1 : ∀ p ∈ c.keysToAdvertise_, ∀ k ∈ p.2,
      (Map.find (getArea c.persistedKeyVals_ p.1) k).isSome = true)
    (h2 : ∀ p ∈ c.persistedKeyVals_, ∀ e ∈ p.2,
      (Map.find (getArea c.backoffs_ p.1) e.1).isSome = true) :
    PendingAdvertisable c := by
  intro area k
  constructor
  · intro hk
    obtain ⟨p, hp, hkp⟩ := mem_getArea c.keysToAdvertise_ area k hk
    unfold getArea at hk
    cases hf : Map.find c.keysToAdvertise_ area with
    | none => simp [hf] at hk
    | some l =>
      simp only [hf, Option.getD_some] at hk
      exact h1 (area, l) (Map.mem_of_find _ _ _ hf) k hk
  · intro hp
    obtain ⟨v, hv⟩ := Option.isSome_iff_exists.mp hp
    have hmem := Map.mem_of_find _ _ _ hv
    unfold getArea at hmem
    cases hf : Map.find c.persistedKeyVals_ area with
    | none => simp [hf] at hmem
    | some m =>
      simp only [hf, Option.getD_some] at hmem
      exact h2 (area, m) (Map.mem_of_find _ _ _ hf) (k, v) hmem

/-- C30: the invariant "in every area, every pending key is persisted and every
persisted key has an advertise backoff" (for pending keys that bind each area
once and hold each key once) is kept by `advertisePendingKeys`,
`processPublication`, `unsetKey` and `setKey`; and under it
`advertisePendingKeys` over the internal pending keys, and with it
`processPublication` on a publication with an area, return: neither lookup
`.at(key)` throws. -/
theorem pendingAdvertisable_preserved (K : Constants) (env : Env) (c : KvStoreClientInternal)
    (hwf : PendingWellFormed c) (hinv : PendingAdvertisable c) :
    (∃ c', advertisePendingKeys K env c none = some c' ∧
        PendingWellFormed c' ∧ PendingAdvertisable c') ∧
      (∀ publication : Publication, publication.area.isEmpty = false →
        ∃ c', processPublication K env c publication = some c' ∧
          PendingWellFormed c' ∧ PendingAdvertisable c') ∧
      (∀ area key,
        PendingWellFormed (unsetKey c area key) ∧ PendingAdvertisable (unsetKey c area key)) ∧
      (∀ area key value version ttl r, setKey K env c area key value version ttl = some r →
        PendingWellFormed r.2 ∧ PendingAdvertisable r.2) ∧
      (∀ area key thriftValue r, setKeyValue K env c area key thriftValue = some r →
        PendingWellFormed r.2 ∧ PendingAdvertisable r.2) :=
  ⟨advertisePendingKeys_advertisable K env c hwf hinv,
    fun publication harea => processPublication_advertisable K env c publication harea hwf hinv,
    fun area key => unsetKey_advertisable c area key hwf hinv,
    fun area key value version ttl r h =>
      setKey_advertisable K env c area key value version ttl r h hwf hinv,
    fun area key thriftValue r h =>
      setKeyValue_advertisable K env c area key thriftValue r h hwf hinv⟩

/-- Witness of C30: the client of the version-conflict scenario, whose key `k` is
pending after the loop of `processPublication`, and the advertisement of its
pending keys. -/
theorem pendingAdvertisable_preserved_witness :
    getArea Sample.pendingClient.keysToAdvertise_ "a" = ["k"] ∧
      ∃ c', advertisePendingKeys Sample.constants Sample.env Sample.pendingClient none = some c' ∧
        PendingWellFormed c' ∧ PendingAdvertisable c' :=
  ⟨by decide,
    (pendingAdvertisable_preserved Sample.constants Sample.env Sample.pendingClient
      ⟨by decide, by decide⟩
      (pendingAdvertisable_of_entries Sample.pendingClient (by decide) (by decide))).1⟩
/-! ## Change notification -/

theorem processKeyVal_storeWrites (nodeId : String) (fm : String → Value → Bool)
    (fcb : Option KeyCallback) (area : AreaId) (st : PubRefs) (kv : String × Value) :
    storeWrites (processKeyVal nodeId fm fcb area st kv).trace = storeWrites st.trace := by
  unfold processKeyVal
  simp only
  split
  · rfl
  · split
    · simp only [notifyUnpersisted]
      cases Map.find st.callbacks kv.1 <;> cases fcb <;>
        by_cases hm : fm kv.1 kv.2 = true <;>
        simp [hm, storeWrites_append, storeWrites]
    · unfold mergePersisted
      split
      · rfl
      · simp only
        split <;> simp [storeWrites_append, storeWrites]

theorem processKeyVals_storeWrites (c : KvStoreClientInternal) (publication : Publication) :
    storeWrites (processKeyVals c publication).trace = storeWrites c.trace := by
  have key : ∀ (l : KeyMap String Value) (st : PubRefs),
      storeWrites (l.foldl (processKeyVal c.nodeId_ c.keyPrefixFilter_
        c.keyPrefixFilterCallback_ publication.area) st).trace = storeWrites st.trace := by
    intro l
    induction l with
    | nil => intro st; rfl
    | cons kv t ih =>
      intro st
      rw [List.foldl_cons, ih, processKeyVal_storeWrites]
  unfold processKeyVals
  rw [key]
  rfl

theorem processExpiredKeys_storeWrites (c : KvStoreClientInternal) (publication : Publication) :
    storeWrites (processExpiredKeys c publication).trace = storeWrites c.trace := by
  rw [processExpiredKeys_trace, storeWrites_append]
  have : storeWrites (publication.expiredKeys.filterMap (fun key =>
      (Map.find (getArea c.keyCallbacks_ publication.area) key).map
        (fun cb => Effect.keyCallback publication.area key cb none))) = [] := by
    induction publication.expiredKeys with
    | nil => rfl
    | cons x xs ih =>
      cases hx : Map.find (getArea c.keyCallbacks_ publication.area) x with
      | none => simpa [List.filterMap_cons, hx] using ih
      | some cb =>
        simp only [List.filterMap_cons, hx, Option.map_some']
        simpa [storeWrites] using ih
  rw [this, List.append_nil]

/-- C25: when handling a received value changes a persisted key (the received
version is higher, or it is equal and the originator is foreign or the payload
differs), the persisted value becomes the updated value (originator this node,
the new version, which is what the 64-bit field holds after the increment of
the received version, the local payload, the ttl-version after
synchronisation), the key's callback, when one is registered, is invoked once with that value (its
other invocations are those for the expired keys), and the key is pending when
the loop is done, before the advertise step.  When the pending keys can be
advertised and the key's advertise backoff permits a try, the advertise step of
the same call writes the updated value to the store in the write of the area,
and when that write succeeds the key is no longer pending when
`processPublication` returns. -/
theorem processPublication_change_notification (K : Constants) (env : Env)
    (c c' : KvStoreClientInternal) (publication : Publication) (k : String) (rcvd cur : Value)
    (hnd : (publication.keyVals.map Prod.fst).Nodup) (hm : (k, rcvd) ∈ publication.keyVals)
    (hpay : rcvd.value.isSome = true)
    (hcur : (c.view publication.area k).persisted = some cur)
    (hchg : cur.version < rcvd.version ∨
      (rcvd.version = cur.version ∧
        (rcvd.originatorId ≠ c.nodeId_ ∨ rcvd.value ≠ cur.value)))
    (hrun : processPublication K env c publication = some c') :
    ∃ new, (c'.view publication.area k).persisted = some new ∧
      new.originatorId = c.nodeId_ ∧
      (new.version = wrapInt64 (rcvd.version + 1) ∧
        (int64Min ≤ rcvd.version → rcvd.version < int64Max →
          new.version = rcvd.version + 1)) ∧
      new.value = cur.value ∧
      new.ttlVersion
        = max (match (c.view publication.area k).ttlBackoff with
                | some e => e.1.ttlVersion
                | none => 0) rcvd.ttlVersion ∧
      (c'.view publication.area k).delivered
        = (c.view publication.area k).delivered
          ++ (match (c.view publication.area k).callback with
              | some cb => [(cb, some new)]
              | none => [])
          ++ expiryCalls (c.view publication.area k).callback k publication.expiredKeys ∧
      k ∈ getArea (afterKeyVals c publication).keysToAdvertise_ publication.area ∧
      (PendingWellFormed c → PendingAdvertisable c →
        ∀ b, Map.find (getArea c.backoffs_ publication.area) k = some b →
        b.canTryNow env.now = true →
        ∃ W kvs, storeWrites c'.trace = storeWrites c.trace ++ W ∧
          (publication.area, kvs) ∈ W ∧ Map.find kvs k = some new ∧
          (env.setKvStoreKeyVals publication.area kvs = true →
            (c'.view publication.area k).pending = false)) := by
  have hge : cur.version ≤ rcvd.version := by
    rcases hchg with h | h
    · exact le_of_lt h
    · exact le_of_eq h.1.symm
  have hng : ¬ cur.version > rcvd.version := by omega
  obtain ⟨hp, -, -, hdel, -⟩ := processPublication_persisted_view K env c c' publication k
    rcvd cur hnd hm hpay hcur hge hrun
  have hb : (bumpVersion c.nodeId_ cur rcvd).2 = true := by
    rw [bumpVersion_changed_iff]
    rcases hchg with h | ⟨_, h | h⟩
    · exact Or.inl h
    · exact Or.inr (Or.inl h)
    · exact Or.inr (Or.inr h)
  have hf := syncTtlVersion_fields (bumpVersion c.nodeId_ cur rcvd).1 rcvd
    (c.view publication.area k).ttlBackoff
  have hbv : (bumpVersion c.nodeId_ cur rcvd).1
      = { cur with
          originatorId := c.nodeId_
          version := wrapInt64 (rcvd.version + 1)
          ttlVersion := 0 } := by
    rcases hchg with h | ⟨h1, h2⟩
    · rw [bumpVersion_higher c.nodeId_ cur rcvd h]
    · rw [bumpVersion_equal_changed c.nodeId_ cur rcvd h1 h2, h1]
  -- the state when the loop is done
  have hA : (afterKeyVals c publication).view publication.area k
      = (processKeyVal c.nodeId_ c.keyPrefixFilter_ c.keyPrefixFilterCallback_
          publication.area (headRefs c publication.area) (k, rcvd)).view publication.area k :=
    (afterKeyVals_view c publication k).trans
      (foldl_processKeyVal_view _ _ _ _ _ k rcvd _ _ hnd hm)
  obtain ⟨-, r2, -, -⟩ := processKeyVal_persisted_rest c.nodeId_ c.keyPrefixFilter_
    c.keyPrefixFilterCallback_ publication.area (headRefs c publication.area) k cur rcvd hcur
    hpay hng
  have hstep := processKeyVal_persisted c.nodeId_ c.keyPrefixFilter_ c.keyPrefixFilterCallback_
    publication.area (headRefs c publication.area) k cur rcvd hcur hpay
  rw [if_neg hng] at hstep
  have hApend : k ∈ getArea (afterKeyVals c publication).keysToAdvertise_ publication.area := by
    have := congrArg KeyView.pending hA
    simp only [KvStoreClientInternal.view, PubRefs.view, decide_eq_decide] at this
    exact this.mpr (r2.mpr (Or.inl hb))
  have hApers : Map.find (getArea (afterKeyVals c publication).persistedKeyVals_
      publication.area) k
      = some (syncTtlVersion (bumpVersion c.nodeId_ cur rcvd).1 rcvd
          (c.view publication.area k).ttlBackoff).1 := by
    have := congrArg KeyView.persisted hA
    simp only [KvStoreClientInternal.view, PubRefs.view] at this
    exact this.trans hstep
  refine ⟨_, hp, ?_, ?_, ?_, ?_, ?_, hApend, ?_⟩
  · rw [hf.2.1, hbv]
  · rw [hf.1, hbv]
    exact ⟨rfl, fun hlo hhi => wrapInt64_succ _ hlo hhi⟩
  · rw [hf.2.2.1, hbv]
  · rw [syncTtlVersion_ttlVersion]
    cases (c.view publication.area k).ttlBackoff with
    | some e => rfl
    | none => simp only [hbv]
  · rw [hdel]
    simp only [hb, if_true]
  · intro hwf hinv b hbk hcan
    obtain ⟨wA, iA⟩ := afterKeyVals_advertisable c publication hwf hinv
    obtain ⟨c2, hadv, hpend, hw, -⟩ := advertisePendingKeys_closed K env
      (afterKeyVals c publication) wA.1 (pending_entries _ wA iA)
    have hbackoffs : (afterKeyVals c publication).backoffs_ = c.backoffs_ := rfl
    have hperm : advPermitted env (getArea (afterKeyVals c publication).backoffs_
        publication.area) k = true := by
      unfold advPermitted
      rw [hbackoffs, hbk]
      exact hcan
    obtain ⟨-, hk2⟩ := advKeyVals_spec env
      (getArea (afterKeyVals c publication).persistedKeyVals_ publication.area)
      (getArea (afterKeyVals c publication).backoffs_ publication.area)
      (getArea (afterKeyVals c publication).keysToAdvertise_ publication.area)
      (getArea_nodup _ wA.2 _) (fun k' hk' => (iA publication.area k').1 hk')
    have hfind := hk2 k (List.mem_filter.mpr ⟨hApend, hperm⟩)
    rw [hApers] at hfind
    have hne : advKeyVals env
        (getArea (afterKeyVals c publication).persistedKeyVals_ publication.area)
        (getArea (afterKeyVals c publication).backoffs_ publication.area)
        (getArea (afterKeyVals c publication).keysToAdvertise_ publication.area) ≠ [] := by
      intro hnil
      rw [hnil] at hfind
      simp [Map.find] at hfind
    have hemp : (advKeyVals env
        (getArea (afterKeyVals c publication).persistedKeyVals_ publication.area)
        (getArea (afterKeyVals c publication).backoffs_ publication.area)
        (getArea (afterKeyVals c publication).keysToAdvertise_ publication.area)).isEmpty
        = false := by
      cases hq : advKeyVals env
          (getArea (afterKeyVals c publication).persistedKeyVals_ publication.area)
          (getArea (afterKeyVals c publication).backoffs_ publication.area)
          (getArea (afterKeyVals c publication).keysToAdvertise_ publication.area) with
      | nil => exact absurd hq hne
      | cons _ _ => rfl
    have hc2pend : env.setKvStoreKeyVals publication.area (advKeyVals env
        (getArea (afterKeyVals c publication).persistedKeyVals_ publication.area)
        (getArea (afterKeyVals c publication).backoffs_ publication.area)
        (getArea (afterKeyVals c publication).keysToAdvertise_ publication.area)) = true →
        k ∉ getArea c2.keysToAdvertise_ publication.area := by
      intro hok hmem
      rw [hpend publication.area] at hmem
      simp only [advPending, hemp, Bool.false_eq_true, if_false, hok, if_true,
        List.mem_filter, hperm, Bool.not_true, and_false] at hmem
    have hwA : storeWrites (afterKeyVals c publication).trace = storeWrites c.trace :=
      processKeyVals_storeWrites c publication
    -- the client returned
    unfold processPublication at hrun
    split at hrun
    · simp at hrun
    · rw [hadv] at hrun
      simp only at hrun
      refine ⟨advWrites env (afterKeyVals c publication).persistedKeyVals_
        (afterKeyVals c publication).backoffs_ (afterKeyVals c publication).keysToAdvertise_,
        _, ?_, (mem_advWrites env _ _ _ wA.1 publication.area _).mpr ⟨rfl, hne⟩, hfind, ?_⟩
      · split at hrun
        · cases hrun
          rw [processExpiredKeys_storeWrites, hw, hwA]
        · cases hrun
          rw [hw, hwA]
      · intro hok
        have hno := hc2pend hok
        split at hrun
        · cases hrun
          simpa [KvStoreClientInternal.view, processExpiredKeys] using hno
        · cases hrun
          simpa [KvStoreClientInternal.view] using hno

/-- Witness of C25: in the version-conflict scenario the callback of `k` is
handed `(v1, ver=6, originator=self)` once, and that value is written to the
store, after which `k` is not pending. -/
theorem processPublication_change_notification_witness :
    (Sample.afterConflict.view "a" "k").delivered
        = [(7, some { version := 6, originatorId := "self", value := some "v1",
                      ttl := -2147483648, ttlVersion := 0 })] ∧
      storeWrites Sample.afterConflict.trace
        = [("a", [("k", { version := 6, originatorId := "self", value := some "v1",
                          ttl := -2147483648, ttlVersion := 0 })])] ∧
      (Sample.afterConflict.view "a" "k").pending = false ∧
      ∃ new, (Sample.afterConflict.view "a" "k").persisted = some new ∧
        new.originatorId = "self" ∧ new.version = 6 := by
  obtain ⟨new, h1, h2, h3, -, -, -, -, h8⟩ := processPublication_change_notification
    Sample.constants Sample.env Sample.client Sample.afterConflict Sample.conflictPub "k"
    Sample.peerValue Sample.localValue (by decide) (by decide) (by decide) (by decide)
    (by decide) rfl
  obtain ⟨W, kvs, -, -, -, h12⟩ := h8 ⟨by decide, by decide⟩
    (pendingAdvertisable_of_entries Sample.client (by decide) (by decide))
    (ExponentialBackoff.mk2 100 8000) (by decide) (by decide)
  exact ⟨by decide, by decide, h12 rfl, new, h1, h2,
    (h3.2 (by decide) (by decide)).trans (by decide)⟩

/-! ## Claims on the scheduling of ttl updates -/

theorem toUInt32_of_lt (n : Nat) (h : n < 2 ^ 32) : toUInt32 n = n :=
  Nat.mod_eq_of_lt h

/-- A value from 0 below 2^32 passes through a `uint32_t` parameter as it is. -/
theorem toUInt32_of_range (n : Int) (h0 : 0 ≤ n) (h : n < 2 ^ 32) : (toUInt32 n : Int) = n := by
  unfold toUInt32
  omega

/-- The ttl backoffs after `scheduleTtlUpdates`. -/
theorem scheduleTtlUpdates_entry (K : Constants) (env : Env) (c : KvStoreClientInternal)
    (area : AreaId) (key : String) (version ttlVersion : Nat) (ttl : Int)
    (advertiseImmediately : Bool) :
    (ttl = K.kTtlInfinity →
        Map.find (getArea (scheduleTtlUpdates K env c area key version ttlVersion ttl
          advertiseImmediately).keyTtlBackoffs_ area) key = none) ∧
      (ttl ≠ K.kTtlInfinity →
        Map.find (getArea (scheduleTtlUpdates K env c area key version ttlVersion ttl
          advertiseImmediately).keyTtlBackoffs_ area) key
          = some (createThriftValue version c.nodeId_ none ttl ttlVersion,
              if !advertiseImmediately then
                (ExponentialBackoff.mk2 (Int.tdiv ttl 4) (Int.tdiv ttl 4 + 1)).reportError env.now
              else ExponentialBackoff.mk2 (Int.tdiv ttl 4) (Int.tdiv ttl 4 + 1))) ∧
      (∀ a k, ¬ (a = area ∧ k = key) →
        Map.find (getArea (scheduleTtlUpdates K env c area key version ttlVersion ttl
          advertiseImmediately).keyTtlBackoffs_ a) k
          = Map.find (getArea c.keyTtlBackoffs_ a) k) := by
  unfold scheduleTtlUpdates
  simp only
  by_cases httl : ttl = K.kTtlInfinity
  · simp only [httl, if_true, getArea_assign_self, Map.find_erase_self, ne_eq, not_true_eq_false,
      false_implies, true_and, true_implies]
    intro a k hne
    by_cases ha : area = a
    · subst ha
      have hk : key ≠ k := fun e => hne ⟨rfl, e.symm⟩
      rw [getArea_assign_self, Map.find_erase_ne _ hk]
    · rw [getArea_assign_ne _ _ ha]
  · simp only [httl, if_false, getArea_assign_self, Map.find_assign_self, ne_eq,
      not_false_eq_true, true_implies, false_implies, true_and]
    intro a k hne
    by_cases ha : area = a
    · subst ha
      have hk : key ≠ k := fun e => hne ⟨rfl, e.symm⟩
      rw [getArea_assign_self, Map.find_assign_ne _ _ hk]
    · rw [getArea_assign_ne _ _ ha]

/-- A key without ttl backoff entry takes no part in the ttl refresh cycle: no
write of its area carries it, and it has no entry afterwards. -/
theorem advertiseTtlUpdates_skips_absent (K : Constants) (env : Env)
    (c : KvStoreClientInternal) (area : AreaId) (key : String)
    (hareas : (c.keyTtlBackoffs_.map Prod.fst).Nodup)
    (hkeys : ∀ p ∈ c.keyTtlBackoffs_, (p.2.map Prod.fst).Nodup)
    (habs : Map.find (getArea c.keyTtlBackoffs_ area) key = none) :
    ∃ W, storeWrites (advertiseTtlUpdates K env c).trace = storeWrites c.trace ++ W ∧
      (∀ kvs, (area, kvs) ∈ W → Map.find kvs key = none) ∧
      Map.find (getArea (advertiseTtlUpdates K env c).keyTtlBackoffs_ area) key = none := by
  obtain ⟨h1, h2, -⟩ := advertiseTtlUpdates_closed K env c hkeys
  refine ⟨ttlWrites env c.persistedKeyVals_ c.keyTtlBackoffs_, h2, ?_, ?_⟩
  · intro kvs hw
    obtain ⟨hmem, hk2, -⟩ := (mem_ttlWrites env _ _ hareas area kvs).mp hw
    have hm : ((getArea c.keyTtlBackoffs_ area).map Prod.fst).Nodup := by
      obtain ⟨p, hp, hpa⟩ := List.mem_map.mp hmem
      obtain ⟨a0, m⟩ := p
      simp only at hpa
      subst hpa
      rw [getArea_of_mem _ hareas a0 m hp]
      exact hkeys _ hp
    rw [hk2, find_ttlEmitted env _ _ hm key, habs]
    rfl
  · rw [h1 area, find_map_entries _ (ttlRefreshEntry_key env _), habs]
    rfl

/-- What `setKey(area, key, thriftValue)` does: it sends the value to the store in
one write and returns none exactly when that write fails; whether it fails or
not, with an infinite ttl the key is left without ttl backoff entry, so that a
ttl refresh cycle writes nothing for it, and with a finite ttl the key's ttl
backoff entry becomes a value without payload with this node as originator, the
ttl of the value, and its version and ttl-version as they come through the
`uint32_t` parameters of `scheduleTtlUpdates` (unchanged when they are from 0
below 2^32), with a backoff of initial `ttl/4` and maximum `ttl/4 + 1` (integer
division) that has an error reported at the current time, so that the first
refresh waits `ttl/4`.  The ttl backoff entries of the other keys are
unchanged. -/
theorem setKey_ttl_entry (K : Constants) (env : Env) (c : KvStoreClientInternal)
    (area : AreaId) (key : String) (thriftValue : Value)
    (hpay : thriftValue.value.isSome = true) :
    ∃ c', setKeyValue K env c area key thriftValue
        = some (env.setKvStoreKeyVals area [(key, thriftValue)], c') ∧
      storeWrites c'.trace = storeWrites c.trace ++ [(area, [(key, thriftValue)])] ∧
      (thriftValue.ttl = K.kTtlInfinity →
        Map.find (getArea c'.keyTtlBackoffs_ area) key = none) ∧
      (thriftValue.ttl ≠ K.kTtlInfinity →
        ∃ b, Map.find (getArea c'.keyTtlBackoffs_ area) key
            = some ({ version := toUInt32 thriftValue.version, originatorId := c.nodeId_,
                      value := none, ttl := thriftValue.ttl,
                      ttlVersion := toUInt32 thriftValue.ttlVersion }, b) ∧
          (0 ≤ thriftValue.version → thriftValue.version < 2 ^ 32 →
            0 ≤ thriftValue.ttlVersion → thriftValue.ttlVersion < 2 ^ 32 →
            Map.find (getArea c'.keyTtlBackoffs_ area) key
              = some ({ version := thriftValue.version, originatorId := c.nodeId_,
                        value := none, ttl := thriftValue.ttl,
                        ttlVersion := thriftValue.ttlVersion }, b)) ∧
          b = (ExponentialBackoff.mk2 (Int.tdiv thriftValue.ttl 4)
                (Int.tdiv thriftValue.ttl 4 + 1)).reportError env.now ∧
          b.initialBackoff = Int.tdiv thriftValue.ttl 4 ∧
          b.maxBackoff = Int.tdiv thriftValue.ttl 4 + 1 ∧
          b.getTimeRemainingUntilRetry env.now = max 0 (Int.tdiv thriftValue.ttl 4)) ∧
      (∀ a k, ¬ (a = area ∧ k = key) →
        Map.find (getArea c'.keyTtlBackoffs_ a) k = Map.find (getArea c.keyTtlBackoffs_ a) k) ∧
      (thriftValue.ttl = K.kTtlInfinity → ∀ later : Env,
        (c'.keyTtlBackoffs_.map Prod.fst).Nodup →
        (∀ p ∈ c'.keyTtlBackoffs_, (p.2.map Prod.fst).Nodup) →
        ∃ W, storeWrites (advertiseTtlUpdates K later c').trace = storeWrites c'.trace ++ W ∧
          (∀ kvs, (area, kvs) ∈ W → Map.find kvs key = none) ∧
          Map.find (getArea (advertiseTtlUpdates K later c').keyTtlBackoffs_ area) key
            = none) := by
  have hn : ¬ thriftValue.value.isNone = true := by
    cases hv : thriftValue.value <;> simp [hv] at hpay ⊢
  obtain ⟨e1, e2, e3⟩ := scheduleTtlUpdates_entry K env
    (setKeysHelper env c area [(key, thriftValue)]).2 area key (toUInt32 thriftValue.version)
    (toUInt32 thriftValue.ttlVersion) thriftValue.ttl false
  have hh : (setKeysHelper env c area [(key, thriftValue)])
      = (env.setKvStoreKeyVals area [(key, thriftValue)],
          { c with trace := c.trace ++ [Effect.setKvStoreKeyVals area [(key, thriftValue)]] }) := by
    simp [setKeysHelper]
  refine ⟨_, ?_, ?_, e1, ?_, ?_, ?_⟩
  · unfold setKeyValue
    rw [if_neg hn]
    simp only [hh]
  · rw [(scheduleTtlUpdates_frame _ _ _ _ _ _ _ _ _).2, hh]
    simp [storeWrites_append, storeWrites]
  · intro hfin
    have hent : Map.find (getArea (scheduleTtlUpdates K env
          (setKeysHelper env c area [(key, thriftValue)]).2 area key
          (toUInt32 thriftValue.version) (toUInt32 thriftValue.ttlVersion) thriftValue.ttl
          false).keyTtlBackoffs_ area) key
        = some ({ version := toUInt32 thriftValue.version, originatorId := c.nodeId_,
                  value := none, ttl := thriftValue.ttl,
                  ttlVersion := toUInt32 thriftValue.ttlVersion },
            (ExponentialBackoff.mk2 (Int.tdiv thriftValue.ttl 4)
              (Int.tdiv thriftValue.ttl 4 + 1)).reportError env.now) := by
      rw [e2 hfin, hh]
      rfl
    refine ⟨_, hent, ?_, rfl, rfl, rfl, ?_⟩
    · intro h1 h2 h3 h4
      rw [hent, toUInt32_of_range _ h1 h2, toUInt32_of_range _ h3 h4]
    · simp [ExponentialBackoff.getTimeRemainingUntilRetry, ExponentialBackoff.reportError,
        ExponentialBackoff.mk2]
  · intro a k hne
    rw [e3 a k hne, hh]
  · intro hinf later hareas hkeys
    exact advertiseTtlUpdates_skips_absent K later _ area key hareas hkeys (e1 hinf)

/-- Setting `z` with version 1 and a ttl of 3000 at time 1000 leaves a ttl backoff
entry without payload, with backoff 750..751 and the first refresh 750 later;
the same with an infinite ttl leaves none. -/
theorem setKey_ttl_entry_sample :
    (∃ c', setKeyValue Sample.constants Sample.env Sample.client "a" "z"
          { version := 1, originatorId := "self", value := some "pay", ttl := 3000,
            ttlVersion := 0 }
        = some (true, c') ∧
      Map.find (getArea c'.keyTtlBackoffs_ "a") "z"
        = some ({ version := 1, originatorId := "self", value := none, ttl := 3000,
                  ttlVersion := 0 },
            { initialBackoff := 750, maxBackoff := 751, currentBackoff := 750,
              lastErrorTime := 1000 })) ∧
      (setKeyValue Sample.constants Sample.env Sample.setter "a" "z"
          { version := 2, originatorId := "self", value := some "pay",
            ttl := -2147483648, ttlVersion := 0 }).map
          (fun r => Map.find (getArea r.2.keyTtlBackoffs_ "a") "z")
        = some none := by
  obtain ⟨c', h1, -, -, h4, -, -⟩ := setKey_ttl_entry Sample.constants Sample.env Sample.client
    "a" "z"
    { version := 1, originatorId := "self", value := some "pay", ttl := 3000, ttlVersion := 0 }
    (by decide)
  obtain ⟨b, -, hb1, hb2, -⟩ := h4 (by decide)
  refine ⟨⟨c', h1, ?_⟩, by decide⟩
  rw [hb1 (by decide) (by decide) (by decide) (by decide), hb2]
  decide

/-- C26, the code at the failing input: `setKey(a, z, thriftValue)` with a value of
version 2^32 + 5, ttl-version 2^32 + 1 and a finite ttl sends the value to the
store as it is and leaves a ttl backoff entry with version 5 and ttl-version
1, not the version and ttl-version of the value: `scheduleTtlUpdates` takes
both as `uint32_t` (lines 204-205), while the fields it is called with (lines
192-193) are 64-bit, as is the version the refresh cycle assigns to the same
entry (lines 592-594). -/
theorem setKey_schedules_ttl_divergence :
    (setKeyValue Sample.constants Sample.env Sample.client "a" "z"
        { version := 4294967301, originatorId := "self", value := some "pay", ttl := 3000,
          ttlVersion := 4294967297 }).map
        (fun r => (storeWrites r.2.trace,
          (Map.find (getArea r.2.keyTtlBackoffs_ "a") "z").map
            (fun e => (e.1.version, e.1.ttlVersion))))
      = some ([("a", [("z", { version := 4294967301, originatorId := "self",
                               value := some "pay", ttl := 3000,
                               ttlVersion := 4294967297 })])],
          some (5, 1)) := by
  decide

/-! ## The ttl backoff entries only move forward -/

theorem ttlPairLE_refl (v : Value) : ttlPairLE v v := Or.inr ⟨rfl, le_refl _⟩

theorem ttlPairLE_trans {u v w : Value} (h1 : ttlPairLE u v) (h2 : ttlPairLE v w) :
    ttlPairLE u w := by
  unfold ttlPairLE at *
  omega

/-- One iteration of the loop of `processPublication`, the ttl-version received
for the key being below the top of the range: a ttl backoff entry that is there
afterwards was there before, with a pair that is not higher. -/
theorem processKeyVal_ttl_forward (nodeId : String) (fm : String → Value → Bool)
    (fcb : Option KeyCallback) (area : AreaId) (st : PubRefs) (kv : String × Value)
    (k : String) (e' : Value × ExponentialBackoff)
    (hbelow : kv.1 = k → kv.2.value.isSome = true →
      int64Min ≤ kv.2.ttlVersion ∧ kv.2.ttlVersion < int64Max)
    (h : Map.find (processKeyVal nodeId fm fcb area st kv).keyTtlBackoffs k = some e') :
    ∃ e, Map.find st.keyTtlBackoffs k = some e ∧ ttlPairLE e.1 e'.1 := by
  obtain ⟨key, rcvd⟩ := kv
  cases hpay : rcvd.value.isSome with
  | false =>
    rw [processKeyVal_no_payload _ _ _ _ _ _ _ hpay] at h
    exact ⟨e', h, ttlPairLE_refl _⟩
  | true =>
    have hn : ¬ rcvd.value.isNone = true := by
      cases hv : rcvd.value <;> simp [hv] at hpay ⊢
    cases hp : Map.find st.persistedKeyVals key with
    | none =>
      have hstep : (processKeyVal nodeId fm fcb area st (key, rcvd)).keyTtlBackoffs
          = updateSetKey st key rcvd := by
        unfold processKeyVal
        simp only [hn, hp, Bool.false_eq_true, if_false]
      rw [hstep] at h
      by_cases hk : key = k
      · subst hk
        rw [updateSetKey_find_self st key rcvd hp] at h
        cases hsk : Map.find st.keyTtlBackoffs key with
        | none => simp [hsk, setKeyEntry] at h
        | some sk =>
          obtain ⟨sv, b⟩ := sk
          rw [hsk] at h
          unfold setKeyEntry at h
          simp only at h
          split at h
          · cases h
          · split at h
            · rename_i hc
              cases h
              have hbd : int64Min ≤ rcvd.ttlVersion ∧ rcvd.ttlVersion < int64Max :=
                hbelow rfl hpay
              refine ⟨_, rfl, Or.inr ⟨rfl, ?_⟩⟩
              show sv.ttlVersion ≤ wrapInt64 (rcvd.ttlVersion + 1)
              rw [wrapInt64_succ _ hbd.1 hbd.2]
              omega
            · cases h
              exact ⟨_, rfl, ttlPairLE_refl _⟩
      · rw [updateSetKey_find_ne st rcvd hk] at h
        exact ⟨e', h, ttlPairLE_refl _⟩
    | some cur =>
      by_cases hgt : cur.version > rcvd.version
      · rw [processKeyVal_ignored nodeId fm fcb area st key cur rcvd hp hgt] at h
        exact ⟨e', h, ttlPairLE_refl _⟩
      · by_cases hk : key = k
        · subst hk
          obtain ⟨r1, -⟩ := processKeyVal_persisted_rest nodeId fm fcb area st key cur rcvd hp
            hpay hgt
          rw [r1, syncTtlVersion_entry] at h
          cases hsk : Map.find st.keyTtlBackoffs key with
          | none => simp [hsk] at h
          | some sk =>
            rw [hsk] at h
            simp only [Option.map_some', Option.some.injEq] at h
            refine ⟨sk, rfl, ?_⟩
            rw [← h]
            split
            · rename_i hlt
              exact Or.inr ⟨rfl, le_of_lt hlt⟩
            · exact ttlPairLE_refl _
        · have hstep : Map.find (processKeyVal nodeId fm fcb area st (key, rcvd)).keyTtlBackoffs k
              = Map.find st.keyTtlBackoffs k := by
            unfold processKeyVal
            simp only [hn, hp, Bool.false_eq_true, if_false]
            unfold mergePersisted
            simp only [hgt, if_false]
            split
            · exact Map.find_assign_ne _ _ hk
            · rfl
          rw [hstep] at h
          exact ⟨e', h, ttlPairLE_refl _⟩

theorem foldl_processKeyVal_ttl_forward (nodeId : String) (fm : String → Value → Bool)
    (fcb : Option KeyCallback) (area : AreaId) (kvs : List (String × Value)) :
    ∀ (st : PubRefs) (k : String) (e' : Value × ExponentialBackoff),
      (∀ kv ∈ kvs, kv.1 = k → kv.2.value.isSome = true →
        int64Min ≤ kv.2.ttlVersion ∧ kv.2.ttlVersion < int64Max) →
      Map.find (kvs.foldl (processKeyVal nodeId fm fcb area) st).keyTtlBackoffs k = some e' →
      ∃ e, Map.find st.keyTtlBackoffs k = some e ∧ ttlPairLE e.1 e'.1 := by
  induction kvs with
  | nil => intro st k e' _ h; exact ⟨e', h, ttlPairLE_refl _⟩
  | cons kv t ih =>
    intro st k e' hbelow h
    rw [List.foldl_cons] at h
    obtain ⟨e1, h1, l1⟩ := ih _ k e' (fun q hq => hbelow q (List.mem_cons_of_mem _ hq)) h
    obtain ⟨e, h0, l0⟩ := processKeyVal_ttl_forward nodeId fm fcb area st kv k e1
      (hbelow kv (List.mem_cons_self _ _)) h1
    exact ⟨e, h0, ttlPairLE_trans l0 l1⟩

/-- The ttl backoffs after `processPublication`: those the loop leaves. -/
theorem processPublication_ttl (K : Constants) (env : Env) (c c' : KvStoreClientInternal)
    (publication : Publication) (h : processPublication K env c publication = some c') :
    c'.keyTtlBackoffs_
      = Map.assign c.keyTtlBackoffs_ publication.area
          (processKeyVals c publication).keyTtlBackoffs := by
  unfold processPublication at h
  split at h
  · simp at h
  · split at h
    · simp at h
    · rename_i c2 hadv
      have hf := (advertisePendingKeys_frame K env _ c2 hadv).1.ttl
      split at h
      · cases h
        exact hf
      · cases h
        exact hf

theorem processPublication_ttl_forward (K : Constants) (env : Env)
    (c c' : KvStoreClientInternal) (publication : Publication) (a : AreaId) (k : String)
    (e e' : Value × ExponentialBackoff)
    (hrun : processPublication K env c publication = some c')
    (hbelow : publication.TtlVersionsBelowTop a k)
    (hb : Map.find (getArea c.keyTtlBackoffs_ a) k = some e)
    (ha : Map.find (getArea c'.keyTtlBackoffs_ a) k = some e') : ttlPairLE e.1 e'.1 := by
  rw [processPublication_ttl K env c c' publication hrun] at ha
  by_cases hq : publication.area = a
  · subst hq
    rw [getArea_assign_self] at ha
    obtain ⟨e0, h0, l0⟩ := foldl_processKeyVal_ttl_forward _ _ _ _ publication.keyVals _ k e'
      (hbelow rfl) ha
    have : Map.find (getArea c.keyTtlBackoffs_ publication.area) k = some e0 := h0
    rw [hb] at this
    cases this
    exact l0
  · rw [getArea_assign_ne _ _ hq, hb] at ha
    cases ha
    exact ttlPairLE_refl _

theorem ttlRefreshValue_forward (persisted : KeyMap String Value) (key : String) (v : Value)
    (hlo : int64Min ≤ v.ttlVersion) (hhi : v.ttlVersion < int64Max) :
    ttlPairLT v (ttlRefreshValue persisted key v) := by
  obtain ⟨-, -, -, f4, f5⟩ := ttlRefreshValue_fields persisted key v
  have hw := wrapInt64_succ _ hlo hhi
  unfold ttlPairLT
  cases hp : Map.find persisted key with
  | none =>
    obtain ⟨g1, g2⟩ := f5 (fun p hq => by rw [hp] at hq; cases hq)
    right
    rw [hw] at g2
    omega
  | some p =>
    by_cases hlt : v.version < p.version
    · obtain ⟨g1, -⟩ := f4 p hp hlt
      left
      omega
    · obtain ⟨g1, g2⟩ := f5 (fun q hq => by rw [hp] at hq; cases hq; exact hlt)
      right
      rw [hw] at g2
      omega

/-- C29, as amended: for a ttl backoff entry that is there before and after the
step, `processPublication` does not lower the pair `(version, ttl-version)` of
the entry in lexicographic order when the ttl-version the publication carries
for the key is below the largest value of the 64-bit field, and
`advertiseTtlUpdates` does not lower it when the ttl-version of the entry is
below that value; and every value that `advertiseTtlUpdates` writes to the
store, whatever the store answers, is the value of an entry of the ttl backoffs,
with a pair strictly above the pair the entry had before the cycle when its
ttl-version was below that value, and is what the entry holds after it. -/
theorem ttlEntries_move_forward (K : Constants) (env : Env) (c : KvStoreClientInternal)
    (hareas : (c.keyTtlBackoffs_.map Prod.fst).Nodup)
    (hkeys : ∀ p ∈ c.keyTtlBackoffs_, (p.2.map Prod.fst).Nodup) :
    (∀ publication c' a k e e', processPublication K env c publication = some c' →
        publication.TtlVersionsBelowTop a k →
        Map.find (getArea c.keyTtlBackoffs_ a) k = some e →
        Map.find (getArea c'.keyTtlBackoffs_ a) k = some e' → ttlPairLE e.1 e'.1) ∧
      (∀ a k e e', Map.find (getArea c.keyTtlBackoffs_ a) k = some e →
        Map.find (getArea (advertiseTtlUpdates K env c).keyTtlBackoffs_ a) k = some e' →
        int64Min ≤ e.1.ttlVersion → e.1.ttlVersion < int64Max →
        ttlPairLE e.1 e'.1) ∧
      ∃ W, storeWrites (advertiseTtlUpdates K env c).trace = storeWrites c.trace ++ W ∧
        ∀ a kvs k v', (a, kvs) ∈ W → Map.find kvs k = some v' →
          ∃ e, Map.find (getArea c.keyTtlBackoffs_ a) k = some e ∧
            (int64Min ≤ e.1.ttlVersion → e.1.ttlVersion < int64Max → ttlPairLT e.1 v') ∧
            Map.find (getArea (advertiseTtlUpdates K env c).keyTtlBackoffs_ a) k
              = some (v', e.2.reportError env.now) := by
  obtain ⟨h1, h2, -⟩ := advertiseTtlUpdates_closed K env c hkeys
  have hnew : ∀ a k, Map.find (getArea (advertiseTtlUpdates K env c).keyTtlBackoffs_ a) k
      = (Map.find (getArea c.keyTtlBackoffs_ a) k).map
          (fun v => (ttlRefreshEntry env (getArea c.persistedKeyVals_ a) (k, v)).2) := by
    intro a k
    rw [h1 a, find_map_entries _ (ttlRefreshEntry_key env _)]
  refine ⟨?_, ?_, ttlWrites env c.persistedKeyVals_ c.keyTtlBackoffs_, h2, ?_⟩
  · intro publication c' a k e e' hrun hbelow hb ha
    exact processPublication_ttl_forward K env c c' publication a k e e' hrun hbelow hb ha
  · intro a k e e' hb ha hlo hhi
    rw [hnew a k, hb] at ha
    simp only [Option.map_some', Option.some.injEq] at ha
    rw [← ha]
    unfold ttlRefreshEntry
    split
    · rcases ttlRefreshValue_forward (getArea c.persistedKeyVals_ a) k e.1 hlo hhi with h | h
      · exact Or.inl h
      · exact Or.inr ⟨h.1, le_of_lt h.2⟩
    · exact ttlPairLE_refl _
  · intro a kvs k v' hw hf
    obtain ⟨hmem, hk2, -⟩ := (mem_ttlWrites env _ _ hareas a kvs).mp hw
    have hm : ((getArea c.keyTtlBackoffs_ a).map Prod.fst).Nodup := by
      obtain ⟨p, hp, hpa⟩ := List.mem_map.mp hmem
      obtain ⟨a0, m⟩ := p
      simp only at hpa
      subst hpa
      rw [getArea_of_mem _ hareas a0 m hp]
      exact hkeys _ hp
    rw [hk2, find_ttlEmitted env _ _ hm k] at hf
    cases hb : Map.find (getArea c.keyTtlBackoffs_ a) k with
    | none => simp [hb] at hf
    | some e =>
      rw [hb] at hf
      simp only [Option.some_bind] at hf
      split at hf
      · rename_i hcan
        cases hf
        refine ⟨e, rfl, fun hlo hhi => ttlRefreshValue_forward _ _ _ hlo hhi, ?_⟩
        rw [hnew a k, hb]
        simp [ttlRefreshEntry, hcan]
      · cases hf

/-- Witness of C29 as amended: the key `z`, set at time 1000 with ttl 3000,
version 1 and ttl-version 0, is refreshed at time 2000: the pair (1, 1) is
written to the store and kept in the entry.  Reflected with ttl-version 4
instead, the entry moves to the pair (1, 5). -/
theorem ttlEntries_move_forward_witness :
    storeWrites (advertiseTtlUpdates Sample.constants Sample.envLater Sample.setter).trace
        = storeWrites Sample.setter.trace
          ++ [("a", [("z", { Sample.setValue with ttlVersion := 1 })])] ∧
      ttlPairLT Sample.setValue { Sample.setValue with ttlVersion := 1 } ∧
      Map.find (getArea (advertiseTtlUpdates Sample.constants Sample.envLater
          Sample.setter).keyTtlBackoffs_ "a") "z"
        = some ({ Sample.setValue with ttlVersion := 1 },
            Sample.setBackoff.reportError Sample.envLater.now) ∧
      (Sample.afterTtlBump.view "a" "z").ttlBackoff
        = some ({ Sample.setValue with ttlVersion := 5 }, Sample.setBackoff) ∧
      ttlPairLE Sample.setValue { Sample.setValue with ttlVersion := 5 } := by
  obtain ⟨-, -, W, hW, hall⟩ := ttlEntries_move_forward Sample.constants Sample.envLater
    Sample.setter (by decide) (by decide)
  obtain ⟨h1, -⟩ := ttlEntries_move_forward Sample.constants Sample.env
    Sample.setter (by decide) (by decide)
  have hw : storeWrites (advertiseTtlUpdates Sample.constants Sample.envLater
        Sample.setter).trace
      = storeWrites Sample.setter.trace
        ++ [("a", [("z", { Sample.setValue with ttlVersion := 1 })])] := by decide
  have hWeq : W = [("a", [("z", { Sample.setValue with ttlVersion := 1 })])] :=
    List.append_cancel_left (hW.symm.trans hw)
  obtain ⟨e, he, hlt, hst⟩ := hall "a" [("z", { Sample.setValue with ttlVersion := 1 })] "z"
    { Sample.setValue with ttlVersion := 1 }
    (by rw [hWeq]; exact List.mem_singleton.mpr rfl) (by decide)
  have he' : Map.find (getArea Sample.setter.keyTtlBackoffs_ "a") "z"
      = some (Sample.setValue, Sample.setBackoff) := by decide
  rw [he'] at he
  cases he
  have hbump : (Sample.afterTtlBump.view "a" "z").ttlBackoff
      = some ({ Sample.setValue with ttlVersion := 5 }, Sample.setBackoff) := by
    have h := processPublication_setKeyEntry Sample.constants Sample.env Sample.setter
      Sample.afterTtlBump Sample.ttlBumpPub "z"
      { version := 1, originatorId := "self", value := some "pay", ttl := 3000,
        ttlVersion := 4 }
      Sample.setValue Sample.setBackoff
      (by decide) (by decide) (by decide) (by decide) (by decide) rfl
    rw [setKeyEntry_bump _ _ _ (by decide)] at h
    exact h.trans rfl
  have hle := h1 Sample.ttlBumpPub Sample.afterTtlBump "a" "z" _ _ rfl (by decide) he' hbump
  exact ⟨hw, hlt (by decide) (by decide), hst, hbump, hle⟩

/-- Counterexample to C29 as stated.  The ttl backoff entry of the key `z` holds
the pair `(1, 2^63 - 1)`, the largest ttl-version of the 64-bit field; the
cycle at time 2000 writes the pair `(1, -2^63)` to the store and leaves it in
the entry: the pair is lowered, and the pair written is not above the one the
entry had.  And the key `z`, set with the pair `(1, 0)`, is reflected by a
publication with the largest ttl-version: `processPublication` leaves the entry
with the pair `(1, -2^63)`, which is lower. -/
theorem ttlEntries_move_forward_counterexample :
    Map.find (getArea Sample.ttlTopClient.keyTtlBackoffs_ "a") "z" = some Sample.ttlTopEntry ∧
      (Map.find (getArea
          (advertiseTtlUpdates Sample.constants Sample.envLater Sample.ttlTopClient).keyTtlBackoffs_
          "a") "z").map (fun e => e.1)
        = some { Sample.ttlTopEntry.1 with ttlVersion := -9223372036854775808 } ∧
      storeWrites
          (advertiseTtlUpdates Sample.constants Sample.envLater Sample.ttlTopClient).trace
        = [("a", [("z", { Sample.ttlTopEntry.1 with ttlVersion := -9223372036854775808 })])] ∧
      ¬ ttlPairLE Sample.ttlTopEntry.1
          { Sample.ttlTopEntry.1 with ttlVersion := -9223372036854775808 } ∧
      (Sample.setter.view "a" "z").ttlBackoff = some (Sample.setValue, Sample.setBackoff) ∧
      processPublication Sample.constants Sample.env Sample.setter Sample.ttlTopPub
        = some Sample.afterTtlTop ∧
      (Sample.afterTtlTop.view "a" "z").ttlBackoff
        = some ({ Sample.setValue with ttlVersion := -9223372036854775808 },
            Sample.setBackoff) ∧
      ¬ ttlPairLE Sample.setValue
          { Sample.setValue with ttlVersion := -9223372036854775808 } := by
  have h := processPublication_setKeyEntry Sample.constants Sample.env Sample.setter
    Sample.afterTtlTop Sample.ttlTopPub "z"
    { version := 1, originatorId := "self", value := some "pay", ttl := 3000,
      ttlVersion := 9223372036854775807 }
    Sample.setValue Sample.setBackoff
    (by decide) (by decide) (by decide) (by decide) (by decide) rfl
  rw [setKeyEntry_bump _ _ _ (by decide)] at h
  exact ⟨by decide, by decide, by decide, by decide, by decide, rfl, h.trans rfl, by decide⟩

/-! ## Fib: routes that are not to be installed -/

theorem find_installableRoutes (m : KeyMap CIDRNetwork RibUnicastEntry)
    (hnd : (m.map Prod.fst).Nodup) (p : CIDRNetwork) :
    Map.find (installableRoutes m) p = (Map.find m p).filter (fun e => !e.doNotInstall) :=
  Delta.find_filter_nodup _ m hnd p

theorem installableRoutes_nodup (m : KeyMap CIDRNetwork RibUnicastEntry)
    (hnd : (m.map Prod.fst).Nodup) : ((installableRoutes m).map Prod.fst).Nodup :=
  List.Nodup.sublist (List.Sublist.map _ (List.filter_sublist _)) hnd

/-- After a full sync that succeeds the agent is in sync with the mirror. -/
theorem Fib.syncRouteDb_inSync (s : Fib) (hnd : (s.unicastRoutes.map Prod.fst).Nodup) :
    (Fib.syncRouteDb true s).AgentInSync := by
  intro p
  exact find_installableRoutes s.unicastRoutes hnd p

theorem Map.nodup_erase {κ α : Type} [DecidableEq κ] (m : KeyMap κ α) (k : κ)
    (h : (m.map Prod.fst).Nodup) : ((Map.erase m k).map Prod.fst).Nodup := by
  unfold Map.erase
  exact List.Nodup.sublist (List.Sublist.map _ (List.filter_sublist _)) h

theorem Delta.applyTo_nodup {κ α : Type} [DecidableEq κ] (m ups : KeyMap κ α) (dels : List κ)
    (h : (m.map Prod.fst).Nodup) : ((Delta.applyTo m ups dels).map Prod.fst).Nodup := by
  unfold Delta.applyTo
  have h1 : ∀ (l : List κ) (m : KeyMap κ α), (m.map Prod.fst).Nodup →
      ((l.foldl Map.erase m).map Prod.fst).Nodup := by
    intro l
    induction l with
    | nil => intro m hm; exact hm
    | cons d t ih => intro m hm; exact ih _ (Map.nodup_erase m d hm)
  have h2 : ∀ (l : KeyMap κ α) (m : KeyMap κ α), (m.map Prod.fst).Nodup →
      ((l.foldl (fun acc p => Map.assign acc p.1 p.2) m).map Prod.fst).Nodup := by
    intro l
    induction l with
    | nil => intro m hm; exact hm
    | cons d t ih => intro m hm; exact ih _ (Map.nodup_assign m d.1 d.2 hm)
  exact h2 ups _ (h1 dels m h)

/-- The agent's table after the incremental programming of an update: a prefix
the update upserts is bound to the upserted route when that route does not carry
do-not-install and is unbound when it does; a prefix the update only deletes is
unbound; any other prefix is bound as before. -/
theorem find_programmed (table : KeyMap CIDRNetwork RibUnicastEntry) (u : DecisionRouteUpdate)
    (hups : (u.unicastRoutesToUpdate.map Prod.fst).Nodup) (p : CIDRNetwork) :
    Map.find (Delta.applyTo table u.installable.unicastRoutesToUpdate
        (u.unicastRoutesToDelete ++ u.notInstalled)) p
      = match Map.find u.unicastRoutesToUpdate p with
        | some e => if e.doNotInstall = true then none else some e
        | none => if p ∈ u.unicastRoutesToDelete then none else Map.find table p := by
  have hfil : ((installableRoutes u.unicastRoutesToUpdate).map Prod.fst).Nodup :=
    installableRoutes_nodup _ hups
  show Map.find (Delta.applyTo table (installableRoutes u.unicastRoutesToUpdate)
      (u.unicastRoutesToDelete ++ u.notInstalled)) p = _
  unfold Delta.applyTo
  rw [Delta.find_foldl_assign _ hfil, Delta.find_foldl_erase, find_installableRoutes _ hups]
  cases hu : Map.find u.unicastRoutesToUpdate p with
  | none =>
    have hp : p ∉ u.notInstalled := by
      intro hmem
      unfold DecisionRouteUpdate.notInstalled at hmem
      obtain ⟨r, hr, hrp⟩ := List.mem_map.mp hmem
      have hk : p ∈ u.unicastRoutesToUpdate.map Prod.fst :=
        List.mem_map.mpr ⟨r, List.mem_of_mem_filter hr, hrp⟩
      exact (Map.find_eq_none_iff _ _).mp hu hk
    simp only [Option.filter, Option.orElse, List.mem_append, hp, or_false]
  | some e =>
    by_cases hflag : e.doNotInstall = true
    · have hp : p ∈ u.notInstalled := by
        unfold DecisionRouteUpdate.notInstalled
        exact List.mem_map.mpr ⟨(p, e),
          List.mem_filter.mpr ⟨Map.mem_of_find _ _ _ hu, hflag⟩, rfl⟩
      simp [Option.filter, hflag, Option.orElse, hp]
    · simp [Option.filter, hflag, Option.orElse]

/-- The incremental programming of an update keeps the agent in sync with the
mirror. -/
theorem Fib.processRouteUpdates_inSync (s : Fib) (u : DecisionRouteUpdate)
    (hsynced : s.hasSyncedFib_ = true) (hclean : s.dirtyRouteDb = false)
    (hups : (u.unicastRoutesToUpdate.map Prod.fst).Nodup) (hsync : s.AgentInSync) :
    (Fib.processRouteUpdates true s u).AgentInSync := by
  intro p
  have hrun : Fib.processRouteUpdates true s u
      = Fib.updateRoutes true
          { s with
            hasRoutesFromDecision := true
            unicastRoutes :=
              Delta.applyTo s.unicastRoutes u.unicastRoutesToUpdate u.unicastRoutesToDelete
            mplsRoutes := Delta.applyTo s.mplsRoutes u.mplsRoutesToUpdate u.mplsRoutesToDelete }
          u := by
    unfold Fib.processRouteUpdates
    simp [hsynced, hclean]
  rw [hrun]
  show Map.find (Delta.applyTo s.agent.unicastRoutes u.installable.unicastRoutesToUpdate
      (u.unicastRoutesToDelete ++ u.notInstalled)) p
    = (Map.find (Delta.applyTo s.unicastRoutes u.unicastRoutesToUpdate
        u.unicastRoutesToDelete) p).filter (fun e => !e.doNotInstall)
  rw [find_programmed _ u hups p]
  unfold Delta.applyTo
  rw [Delta.find_foldl_assign _ hups, Delta.find_foldl_erase]
  cases hu : Map.find u.unicastRoutesToUpdate p with
  | none =>
    simp only [Option.orElse]
    by_cases hd : p ∈ u.unicastRoutesToDelete
    · simp [hd, Option.filter]
    · simp only [hd, if_false]
      exact hsync p
  | some e =>
    by_cases hflag : e.doNotInstall = true
    · simp [Option.filter, hflag, Option.orElse]
    · simp [Option.filter, hflag, Option.orElse]

/-- What every event keeps: the mirror binds each prefix once, and a `Fib` that
has synced and is not dirty has the agent in sync with the mirror. -/
theorem Fib.step_invariant (s : Fib) (e : FibEvent) (hwf : e.WellFormed)
    (hnd : (s.unicastRoutes.map Prod.fst).Nodup)
    (hinv : s.hasSyncedFib_ = true → s.dirtyRouteDb = false → s.AgentInSync) :
    ((s.step e).unicastRoutes.map Prod.fst).Nodup ∧
      ((s.step e).hasSyncedFib_ = true → (s.step e).dirtyRouteDb = false →
        (s.step e).AgentInSync) := by
  cases e with
  | sync rpcOk =>
    cases rpcOk with
    | true =>
      refine ⟨hnd, fun _ _ => ?_⟩
      exact Fib.syncRouteDb_inSync s hnd
    | false =>
      refine ⟨hnd, fun _ hd => ?_⟩
      simp [Fib.step, Fib.syncRouteDb] at hd
  | routeUpdate rpcOk u =>
    have hups : (u.unicastRoutesToUpdate.map Prod.fst).Nodup := hwf
    have hmirror : ((Fib.processRouteUpdates rpcOk s u).unicastRoutes.map Prod.fst).Nodup := by
      have : (Fib.processRouteUpdates rpcOk s u).unicastRoutes
          = Delta.applyTo s.unicastRoutes u.unicastRoutesToUpdate u.unicastRoutesToDelete := by
        unfold Fib.processRouteUpdates Fib.updateRoutes
        simp only
        split
        · rfl
        · split <;> rfl
      rw [this]
      exact Delta.applyTo_nodup _ _ _ hnd
    refine ⟨hmirror, ?_⟩
    by_cases hq : s.hasSyncedFib_ = true ∧ s.dirtyRouteDb = false
    · cases rpcOk with
      | true =>
        intro _ _
        exact Fib.processRouteUpdates_inSync s u hq.1 hq.2 hups (hinv hq.1 hq.2)
      | false =>
        intro _ hd
        simp [Fib.step, Fib.processRouteUpdates, Fib.updateRoutes, hq.1, hq.2] at hd
    · intro h1 h2
      exfalso
      apply hq
      have hb : (!s.hasSyncedFib_ || s.dirtyRouteDb) = true := by
        cases h3 : s.hasSyncedFib_ <;> cases h4 : s.dirtyRouteDb <;> simp_all
      simp only [Fib.step, Fib.processRouteUpdates, hb, if_true] at h1 h2
      exact ⟨h1, h2⟩

theorem Fib.run_invariant (events : List FibEvent) :
    ∀ s : Fib, (∀ e ∈ events, e.WellFormed) →
      (s.unicastRoutes.map Prod.fst).Nodup →
      (s.hasSyncedFib_ = true → s.dirtyRouteDb = false → s.AgentInSync) →
      ((s.run events).unicastRoutes.map Prod.fst).Nodup ∧
        ((s.run events).hasSyncedFib_ = true → (s.run events).dirtyRouteDb = false →
          (s.run events).AgentInSync) := by
  induction events with
  | nil => intro s _ hnd hinv; exact ⟨hnd, hinv⟩
  | cons e t ih =>
    intro s hwf hnd hinv
    obtain ⟨h1, h2⟩ := Fib.step_invariant s e (hwf e (List.mem_cons_self _ _)) hnd hinv
    exact ih (s.step e) (fun q hq => hwf q (List.mem_cons_of_mem _ hq)) h1 h2

/-- A route that the agent holds and that is upserted with do-not-install is taken
out of the agent's table: after the first update and sync of the test, the
upsert of `192.168.0.0/16` with do-not-install leaves the agent's table empty,
and nothing is pushed to the subscribers. -/
theorem processRouteUpdates_hides_installed :
    Sample.fibSynced.agent.unicastRoutes.map Prod.fst = [(Sample.v4 192 168 0 0, 16)] ∧
      (Fib.processRouteUpdates true Sample.fibSynced Sample.hideInstalled).agent.unicastRoutes
        = [] ∧
      (Fib.processRouteUpdates true Sample.fibSynced Sample.hideInstalled).fibUpdatesQueue_
        = [] := by
  decide

end openr
